import Mathlib

/-! Combined profiling and feedback-directed inlining (cmbprof).

A shallow embedding of the analytical core of the `llvm-2.8-cp` tree:

* `CFGEdgeDomTree` / `EdgeDominatorTree` (lib/Analysis/CFGEdgeDomTree.cpp,
  lib/Analysis/EdgeDominatorTree.cpp): edge dominance over a function CFG;
* `CombinedEdgeProfile`, `CombinedPathProfile` (lib/Analysis/Combined*Profile.cpp);
* `CPCallRecord`, `FDOInliner` (lib/Transforms/FDO).

Conventions of the embedding.

* `std::set<unsigned>` is a strictly ascending `List Nat`; iteration order is list order.
* `std::map<K,V>` is an association list kept in ascending key order.
* `double` values are modelled by exact rationals (`ℚ`); `unsigned`/`int` arithmetic that can
  wrap is written with explicit `% 2^32`.
* A `BasicBlock*` is `Option Nat` (`none` is the null pointer), a block being named by its
  position in the function.
* Loops that the source runs until a worklist is empty take a fuel argument.
-/

namespace Cmbprof

/-! ## Index sets (`std::set<EdgeIndex>`) -/

abbrev EdgeIndex := Nat

abbrev IndexSet := List Nat

namespace IndexSet

/-- Insertion into a `std::set`: keeps the list ascending and free of duplicates. -/
def insert (x : Nat) : IndexSet → IndexSet
  | [] => [x]
  | y :: ys => if x < y then x :: y :: ys else if x = y then y :: ys else y :: insert x ys

/-- Removal by key, `std::set::erase(key)`. -/
def erase (x : Nat) (s : IndexSet) : IndexSet := s.filter (fun y => y != x)

/-- Membership test, `std::set::count(key) > 0`. -/
def mem (x : Nat) (s : IndexSet) : Bool := s.any (fun y => y == x)

/-- Range insertion, `s.insert(first, last)`. -/
def insertAll (xs : List Nat) (s : IndexSet) : IndexSet := xs.foldl (fun acc x => insert x acc) s

/-- The macro `INTERSECT(s1, s2, outSet)`: every element common to `s1` and `s2` is inserted
into `outSet` (which keeps what it already holds). -/
def INTERSECT (s1 s2 outSet : IndexSet) : IndexSet :=
  insertAll (s1.filter (fun x => mem x s2)) outSet

end IndexSet

/-! ## Maps keyed by edge index -/

/-- Lookup in an association list; `none` when the key is absent. -/
def mapFind {V : Type} (k : Nat) : List (Nat × V) → Option V
  | [] => none
  | (k1, v) :: rest => if k1 = k then some v else mapFind k rest

/-- Assignment `m[k] = v` on an association list kept in ascending key order. -/
def mapSet {V : Type} (k : Nat) (v : V) : List (Nat × V) → List (Nat × V)
  | [] => [(k, v)]
  | (k1, v1) :: rest =>
    if k < k1 then (k, v) :: (k1, v1) :: rest
    else if k = k1 then (k, v) :: rest
    else (k1, v1) :: mapSet k v rest

/-- Type `IndexSetMap` of the source: `std::map<EdgeIndex,IndexSet>`. -/
abbrev IndexSetMap := List (Nat × IndexSet)

/-- Read `m[k]` of an `IndexSetMap`; an absent key reads as the empty set, which is what
`operator[]` default-constructs. -/
def setMapGet (m : IndexSetMap) (k : Nat) : IndexSet := (mapFind k m).getD []

/-! ## The host IR, as far as the edge dominator tree reads it -/

/-- A `BasicBlock*`: `none` is the null pointer, `some b` the block at position `b`. -/
abbrev BlockRef := Option Nat

/-- What `CFGEdgeDomTree` reads of an `llvm::Function`: whether it is a declaration and, for
each block in layout order, the successors of its terminator in operand order. Block `0` is the
entry block. -/
structure IRFunction where
  isDeclaration : Bool
  blocks : List (List Nat)
deriving Repr, DecidableEq

/-- An `EdgeNode` of the source. `domIndex` is `none` while the field has not been assigned
(`new EdgeNode` leaves it indeterminate). -/
structure EdgeNode where
  source : BlockRef
  target : BlockRef
  index : EdgeIndex
  children : IndexSet
  parents : IndexSet
  domChildren : IndexSet
  domIndex : Option EdgeIndex
deriving Repr, DecidableEq

/-- Type `EdgeNodeMap` of the source: `std::map<EdgeIndex,EdgeNode*>`, in key order. -/
abbrev EdgeNodeMap := List EdgeNode

/-- Lookup `_edges[i]`. -/
def edgeFind (edges : EdgeNodeMap) (i : EdgeIndex) : Option EdgeNode :=
  edges.find? (fun e => e.index == i)

/-- In-place update of the node stored under index `i`. -/
def edgeUpdate (edges : EdgeNodeMap) (i : EdgeIndex) (f : EdgeNode → EdgeNode) : EdgeNodeMap :=
  edges.map (fun e => if e.index = i then f e else e)

namespace CFGEdgeDomTree

/-- Diagnostics that `computeEdgeDominance` and `findRoots` print to `errs()`. -/
inductive Diag where
  | noRoots
  | multipleRoots
  | noDominators (edge : EdgeIndex)
  | manyDominators (edge : EdgeIndex) (left : IndexSet)
deriving Repr, DecidableEq

/-- The data members of `CFGEdgeDomTree`, plus the diagnostics printed so far. -/
structure State where
  _edges : EdgeNodeMap
  _roots : IndexSet
  _nonBackEdges : IndexSet
  _ancestorSets : IndexSetMap
  diags : List Diag
deriving Repr, DecidableEq

/-- The edge-creation part of the constructor: the synthetic entry edge (self-dominating by
definition) followed by one edge per (block, successor), numbered from `firstEdge`. -/
def createEdges (F : IRFunction) (firstEdge : EdgeIndex) : EdgeNodeMap :=
  let entryEdge : EdgeNode :=
    { source := none, target := some 0, index := firstEdge, children := [], parents := [],
      domChildren := [], domIndex := some firstEdge }
  let pairs : List (Nat × Nat) :=
    (F.blocks.enum.map (fun bs => bs.2.map (fun s => (bs.1, s)))).flatten
  entryEdge :: pairs.enum.map (fun ip =>
    { source := some ip.2.1, target := some ip.2.2, index := firstEdge + 1 + ip.1,
      children := [], parents := [], domChildren := [], domIndex := none })

/-- Method `buildGraph`: for all pairs (parent, child) with `parent->target == child->source`
the child is added to the parent's children and the parent to the child's parents. -/
def buildGraph (edges : EdgeNodeMap) : EdgeNodeMap :=
  edges.map (fun e =>
    { e with
      children := IndexSet.insertAll
        ((edges.filter (fun c => e.target == c.source)).map (fun c => c.index)) e.children
      parents := IndexSet.insertAll
        ((edges.filter (fun p => p.target == e.source)).map (fun p => p.index)) e.parents })

/-- Method `findRoots`: every edge with an empty parent set, with the two sanity warnings. -/
def findRoots (s : State) : State :=
  let roots := IndexSet.insertAll
    ((s._edges.filter (fun e => e.parents.length == 0)).map (fun e => e.index)) s._roots
  let d1 := if roots.length == 0 then [Diag.noRoots] else []
  let d2 := if roots.length > 1 then [Diag.multipleRoots] else []
  { s with _roots := roots, diags := s.diags ++ d1 ++ d2 }

/-- The three sets threaded through `findNonBackEdges`. -/
structure Walk where
  visited : IndexSet
  currPath : IndexSet
  nonBackEdges : IndexSet
deriving Repr, DecidableEq

/-- Method `findNonBackEdges`, the recursive depth-first walk. The fuel bounds the recursion
depth; the walk visits each edge at most once, so the number of edges plus one is enough. -/
def findNonBackEdges (edges : EdgeNodeMap) : Nat → EdgeIndex → Walk → Walk
  | 0, _, w => w
  | fuel + 1, root, w =>
    match edgeFind edges root with
    | none => w
    | some node =>
      if node.source == node.target then w
      else if IndexSet.mem node.index w.visited then w
      else
        let w1 : Walk :=
          { w with visited := IndexSet.insert node.index w.visited,
                   currPath := IndexSet.insert node.index w.currPath }
        if node.children.any (fun c => IndexSet.mem c w1.currPath) then
          { w1 with currPath := IndexSet.erase node.index w1.currPath }
        else
          let w2 : Walk := { w1 with nonBackEdges := IndexSet.insert node.index w1.nonBackEdges }
          let w3 := node.children.foldl (fun acc c => findNonBackEdges edges fuel c acc) w2
          { w3 with currPath := IndexSet.erase node.index w3.currPath }

/-- The constructor's loop over `_roots` that calls `findNonBackEdges` with the two shared
scratch sets. -/
def findAllNonBackEdges (s : State) : State :=
  let w0 : Walk := { visited := [], currPath := [], nonBackEdges := s._nonBackEdges }
  let w := s._roots.foldl (fun acc r => findNonBackEdges s._edges (s._edges.length + 1) r acc) w0
  { s with _nonBackEdges := w.nonBackEdges }

/-- The inner class `Worklist`: the list of ready edges and the count of pending parents. -/
structure Worklist where
  _worklist : List EdgeIndex
  _pending : List (Nat × Int)
deriving Repr, DecidableEq

namespace Worklist

/-- Constructor: `_pending` of every edge is the number of its non-back parents. -/
def new (edges : EdgeNodeMap) (nonBackEdges : IndexSet) : Worklist :=
  { _worklist := []
    _pending := edges.foldl
      (fun m e => mapSet e.index (Int.ofNat (IndexSet.INTERSECT e.parents nonBackEdges []).length) m)
      [] }

/-- Method `push`. -/
def push (w : Worklist) (edge : EdgeIndex) : Worklist :=
  { w with _worklist := w._worklist ++ [edge] }

/-- Method `pushReady`: decrement `_pending` of every child and append the child when the
count is exactly zero afterwards. -/
def pushReady (w : Worklist) (children : IndexSet) : Worklist :=
  children.foldl (fun acc child =>
    let p := (mapFind child acc._pending).getD 0 - 1
    let acc1 : Worklist := { acc with _pending := mapSet child p acc._pending }
    if p = 0 then { acc1 with _worklist := acc1._worklist ++ [child] } else acc1) w

end Worklist

/-- One iteration of the `while` loop of `computeAncestorSets` for the popped edge. -/
def ancestorStep (s : State) (wl : Worklist) (currIndex : EdgeIndex) : State × Worklist :=
  match edgeFind s._edges currIndex with
  | none => (s, wl)
  | some currNode =>
    let ancestors := currNode.parents.foldl
      (fun acc parent => IndexSet.insertAll (setMapGet s._ancestorSets parent) acc)
      (IndexSet.insert currIndex [])
    let stored := IndexSet.INTERSECT ancestors s._nonBackEdges (setMapGet s._ancestorSets currIndex)
    ({ s with _ancestorSets := mapSet currIndex stored s._ancestorSets },
     wl.pushReady currNode.children)

/-- The `while(!worklist.empty())` loop of `computeAncestorSets`. -/
def ancestorLoop : Nat → State → Worklist → State
  | 0, s, _ => s
  | fuel + 1, s, wl =>
    match wl._worklist with
    | [] => s
    | currIndex :: rest =>
      let r := ancestorStep s { wl with _worklist := rest } currIndex
      ancestorLoop fuel r.1 r.2

/-- Method `computeAncestorSets`. Every edge enters the worklist at most once, so the number
of edges plus one is enough fuel. -/
def computeAncestorSets (s : State) : State :=
  let wl := s._roots.foldl (fun w r => w.push r) (Worklist.new s._edges s._nonBackEdges)
  ancestorLoop (s._edges.length + 1) s wl

/-- The pruning loops of `computeEdgeDominance`: `a1` runs over the common ancestors in
ascending order and is erased as soon as some other element `a2` still in the set has `a1`
among its ancestors. (The source erases `*a1` while iterating with `a1`; the embedding takes
the traversal to continue in key order.) -/
def prune (ancSets : IndexSetMap) (ancestors : IndexSet) : IndexSet :=
  ancestors.foldl (fun cur a1 =>
    if cur.any (fun a2 => a2 != a1 && IndexSet.mem a1 (setMapGet ancSets a2)) then
      IndexSet.erase a1 cur
    else cur) ancestors

/-- Result of one iteration of the main loop of `computeEdgeDominance`. -/
structure DomStep where
  state : State
  worklist : Worklist
  aborted : Bool
deriving Repr, DecidableEq

/-- One iteration of the `while` loop of `computeEdgeDominance` for the popped edge: the
single-parent shortcut (which does not leave the iteration), then the intersection of the
ancestor sets of all parents, the pruning, the two sanity checks and the final assignment. -/
def dominanceStep (s : State) (wl : Worklist) (currIndex : EdgeIndex) : DomStep :=
  match edgeFind s._edges currIndex with
  | none => { state := s, worklist := wl, aborted := false }
  | some currNode =>
    let nbeParents := IndexSet.INTERSECT currNode.parents s._nonBackEdges []
    -- if only one NBE parent, then dominator trivially determined
    let (edges1, wl1) :=
      match nbeParents with
      | [domIndex] =>
        (edgeUpdate
          (edgeUpdate s._edges currIndex (fun e => { e with domIndex := some domIndex }))
          domIndex (fun e => { e with domChildren := IndexSet.insert currIndex e.domChildren }),
         wl.pushReady currNode.children)
      | _ => (s._edges, wl)
    -- intersect ancestor sets of all parents
    let ancestors := currNode.parents.foldl
      (fun acc parent => IndexSet.INTERSECT acc (setMapGet s._ancestorSets parent) [])
      (setMapGet s._ancestorSets currIndex)
    let ancSets1 := mapSet currIndex (IndexSet.insert currIndex ancestors) s._ancestorSets
    let pruned := prune ancSets1 ancestors
    let s1 : State := { s with _edges := edges1, _ancestorSets := ancSets1 }
    match pruned with
    | [] =>
      { state := { s1 with diags := s1.diags ++ [Diag.noDominators currIndex] },
        worklist := wl1, aborted := true }
    | [domIndex] =>
      let edges2 := edgeUpdate
        (edgeUpdate edges1 currIndex (fun e => { e with domIndex := some domIndex }))
        domIndex (fun e => { e with domChildren := IndexSet.insert currIndex e.domChildren })
      { state := { s1 with _edges := edges2 },
        worklist := wl1.pushReady currNode.children, aborted := false }
    | many =>
      { state := { s1 with diags := s1.diags ++ [Diag.manyDominators currIndex many] },
        worklist := wl1, aborted := true }

/-- The `while(!worklist.empty())` loop of `computeEdgeDominance`; an error branch returns. -/
def dominanceLoop : Nat → State → Worklist → State
  | 0, s, _ => s
  | fuel + 1, s, wl =>
    match wl._worklist with
    | [] => s
    | currIndex :: rest =>
      let r := dominanceStep s { wl with _worklist := rest } currIndex
      if r.aborted then r.state else dominanceLoop fuel r.state r.worklist

/-- Method `computeEdgeDominance`. -/
def computeEdgeDominance (s : State) : State :=
  if s._edges.isEmpty then s
  else
    let init : EdgeNodeMap × Worklist :=
      s._roots.foldl (fun acc entry =>
        (edgeUpdate acc.1 entry (fun e => { e with domIndex := some entry }),
         match edgeFind acc.1 entry with
         | some n => acc.2.pushReady n.children
         | none => acc.2))
        (s._edges, Worklist.new s._edges s._nonBackEdges)
    dominanceLoop (s._edges.length + 1) { s with _edges := init.1 } init.2

/-- The constructor `CFGEdgeDomTree(F, firstEdge)`. -/
def construct (F : IRFunction) (firstEdge : EdgeIndex) : State :=
  let empty : State :=
    { _edges := [], _roots := [], _nonBackEdges := [], _ancestorSets := [], diags := [] }
  if F.isDeclaration then empty
  else
    let s0 : State := { empty with _edges := buildGraph (createEdges F firstEdge) }
    computeEdgeDominance (computeAncestorSets (findAllNonBackEdges (findRoots s0)))

end CFGEdgeDomTree


/-! ## The module-wide tree (lib/Analysis/EdgeDominatorTree.cpp) -/

/-- Class `EdgeDominatorTree`: the merged edge map of all functions of the module. -/
structure EdgeDominatorTree where
  _edges : EdgeNodeMap
deriving Repr, DecidableEq

namespace EdgeDominatorTree

/-- The constructor `EdgeDominatorTree(M)`: one `CFGEdgeDomTree` per function, each starting at
the running edge counter, whose edge map is claimed and merged when it is not empty. -/
def construct (M : List IRFunction) : EdgeDominatorTree :=
  { _edges :=
      (M.foldl (fun (acc : EdgeIndex × EdgeNodeMap) F =>
        let localEdges := (CFGEdgeDomTree.construct F acc.1)._edges
        if localEdges.length > 0 then (acc.1 + localEdges.length, acc.2 ++ localEdges)
        else acc) (0, [])).2 }

/-- Method `getDominatorIndex`: `_edges[e]->domIndex`. The result is `none` when the read is
not defined: no node is stored under `e`, or the node's `domIndex` was never assigned. -/
def getDominatorIndex (t : EdgeDominatorTree) (e : EdgeIndex) : Option EdgeIndex :=
  (edgeFind t._edges e).bind (fun n => n.domIndex)

/-- Method `getEdgeCount`. -/
def getEdgeCount (t : EdgeDominatorTree) : Nat := t._edges.length

end EdgeDominatorTree

/-! ## Histograms (include/llvm/Analysis/CPHistogram.h) -/

/-- Type `WeightedValue` of the source: `std::pair<double,double>`, value first. -/
abbrev WeightedValue := ℚ × ℚ

/-- The nested class `CPHistogram::Stats`. -/
structure Stats where
  sumOfSquares : ℚ
  sumOfValues : ℚ
  sumOfWeights : ℚ
  totalWeight : ℚ
deriving Repr, DecidableEq

/-- The data members of `CPHistogram` (the debug id apart). -/
structure CPHistogram where
  _stats : Stats
  _min : ℚ
  _max : ℚ
  _bincount : Nat
  _bins : List ℚ
  _addList : List WeightedValue
deriving Repr, DecidableEq

namespace CPHistogram

/-- Modelled from the spec: the default constructor `CPHistogram()`, whose body is in
CPHistogram.cpp (not among the sources); the header calls it the "0-bin, 0-value histogram"
and the spec has a histogram "constructed empty". -/
def empty : CPHistogram :=
  { _stats := { sumOfSquares := 0, sumOfValues := 0, sumOfWeights := 0, totalWeight := 0 }
    _min := 0, _max := 0, _bincount := 0, _bins := [], _addList := [] }

/-- Modelled from the spec: `CPHistogram::addToList(double v, double w = 1.0)`, whose body is in
CPHistogram.cpp (not among the sources); the spec has samples "appended" to the transient add
list of weighted sample values. -/
def addToList (h : CPHistogram) (v : ℚ) (w : ℚ := 1) : CPHistogram :=
  { h with _addList := h._addList ++ [(v, w)] }

end CPHistogram

/-! ## Combined profiles (lib/Analysis/CombinedProfile.cpp) -/

/-- Type `CPHistVec` of the source: a vector of histogram pointers, `none` being `NULL`. -/
abbrev CPHistVec := List (Option CPHistogram)

/-- Resizing `std::vector::resize(n)` of a vector of pointers: truncates, or pads with `NULL`. -/
def resizeVec {A : Type} (v : List (Option A)) (n : Nat) : List (Option A) :=
  v.take n ++ List.replicate (n - v.length) none

/-! ## Combined edge profile (lib/Analysis/CombinedEdgeProfile.cpp) -/

/-- The data members that `CombinedEdgeProfile` inherits from `CombinedProfile`. -/
structure CombinedEdgeProfile where
  _weight : ℚ
  _bincount : Nat
  _histograms : CPHistVec
deriving Repr, DecidableEq

namespace CombinedEdgeProfile

/-- Method `addWeight`. -/
def addWeight (p : CombinedEdgeProfile) (w : ℚ := 1) : CombinedEdgeProfile :=
  { p with _weight := p._weight + w }

/-- The hierarchically-normalized frequency computed in the body of the loop of `addProfile`
from the execution count, the dominator index and the dominator's count. -/
def normFreq (i : Nat) (execCnt domID domCnt : Nat) : ℚ :=
  if domID = i then 1
  else if domCnt = 0 then 0
  else (execCnt : ℚ) / (domCnt : ℚ)

/-- The statement `operator[](i)->addToList(normFreq)`: the slot is allocated when it is
`NULL`, then the sample is appended. -/
def addSample (hs : CPHistVec) (i : Nat) (v : ℚ) : CPHistVec :=
  hs.modify (fun o => some ((o.getD CPHistogram.empty).addToList v)) i

/-- The `for` loop of `addProfile`, from edge `i` on, `k` edges left. The result is `none`
when a read is not defined (no dominator index for the edge, or `edgeBuffer[domID]` outside the
buffer). -/
def addProfileLoop (edt : EdgeDominatorTree) (edgeBuffer : List Nat) :
    Nat → Nat → CPHistVec → Option CPHistVec
  | 0, _, hs => some hs
  | k + 1, i, hs =>
    match edgeBuffer[i]?, edt.getDominatorIndex i with
    | some execCnt, some domID =>
      match edgeBuffer[domID]? with
      | some domCnt => addProfileLoop edt edgeBuffer k (i + 1) (addSample hs i (normFreq i execCnt domID domCnt))
      | none => none
    | _, _ => none

/-- Method `addProfile`. The raw profile is the list of 32-bit words still to be read from the
file (the record tag has been consumed by the caller). The result is the returned flag, the
profile afterwards and the unread words; it is `none` when the run is not defined. -/
def addProfile (_edt : Option EdgeDominatorTree) (p : CombinedEdgeProfile) (file : List Nat) :
    Option (Bool × CombinedEdgeProfile × List Nat) :=
  match _edt with
  | none => some (false, p, file)
  | some edt =>
    match file with
    | [] => some (false, p, [])
    | edgeCount :: data =>
      let p1 : CombinedEdgeProfile :=
        if p._histograms.length ≠ edgeCount then
          { p with _histograms := resizeVec p._histograms edgeCount }
        else p
      if data.length < edgeCount then some (false, p1, [])
      else
        let edgeBuffer := data.take edgeCount
        let p2 := p1.addWeight 1
        match addProfileLoop edt edgeBuffer edgeCount 0 p2._histograms with
        | some hs => some (true, { p2 with _histograms := hs }, data.drop edgeCount)
        | none => none

/-- The add list of the histogram in slot `i`; empty for a `NULL` or missing slot. -/
def addListAt (hs : CPHistVec) (i : Nat) : List WeightedValue :=
  match hs[i]? with
  | some (some h) => h._addList
  | _ => []

end CombinedEdgeProfile

end Cmbprof


namespace Cmbprof

/-! ## Combined path profile (lib/Analysis/CombinedPathProfile.cpp) -/

/-- One value in a combined-profile file: a 4-byte unsigned or an 8-byte double. A read of the
other kind than the one stored next is taken to fail. -/
inductive Item where
  | u32 (n : Nat)
  | f64 (x : ℚ)
deriving Repr, DecidableEq

/-- Reading one `unsigned` with `fread`. -/
def readU32 : List Item → Option (Nat × List Item)
  | Item.u32 n :: rest => some (n, rest)
  | _ => none

/-- Reading one `double` with `fread`. -/
def readF64 : List Item → Option (ℚ × List Item)
  | Item.f64 x :: rest => some (x, rest)
  | _ => none

/-- Conversion of an `unsigned` to `int` (two's complement, 32 bits). -/
def toInt32 (n : Nat) : Int :=
  if n % 2 ^ 32 < 2 ^ 31 then ((n % 2 ^ 32 : Nat) : Int) else ((n % 2 ^ 32 : Nat) : Int) - 2 ^ 32

/-- Conversion of an `int` to `unsigned`. -/
def toUInt32 (z : Int) : Nat := (z % 2 ^ 32).toNat

/-- Type `CPPHistogramMap` of the source: path number to index in `_histograms`. -/
abbrev CPPHistogramMap := List (Nat × Nat)

/-- Type `CPPFunctionMap` of the source: function number to `CPPHistogramMap`. -/
abbrev CPPFunctionMap := List (Nat × CPPHistogramMap)

/-- The data members of `CombinedPathProfile`, inherited ones included. -/
structure CombinedPathProfile where
  _weight : ℚ
  _bincount : Nat
  _histograms : CPHistVec
  _functions : CPPFunctionMap
  _functionRef : List IRFunction
deriving Repr, DecidableEq

/-- What the serializer and deserializer of a histogram do, both in CPHistogram.cpp: the header
declares `bool serialize(unsigned ID, FILE* f) const` and
`int deserialize(unsigned bincount, double totalweight, FILE* f)`, the latter commented
"returns ID on success, -1 on errro". `hser` gives the items written (`none` when the write
fails); `hdeser` gives the returned `int`, the histogram object afterwards and the unread
items. -/
structure HistCodec where
  hser : Nat → CPHistogram → Option (List Item)
  hdeser : Nat → ℚ → List Item → Int × CPHistogram × List Item

namespace CombinedPathProfile

/-- The constructor: the defined functions of the module are recorded in `_functionRef`. The
bin count is not initialized by the source; `bincount0` stands for what the member holds. -/
def construct (M : List IRFunction) (bincount0 : Nat := 0) : CombinedPathProfile :=
  { _weight := 0, _bincount := bincount0, _histograms := [], _functions := []
    _functionRef := M.filter (fun F => !F.isDeclaration) }

/-- The inner loop of `serialize` over the paths of one function. The result is `none` when
`_histograms[H->second]` is not defined (index outside the vector, or a `NULL` slot);
otherwise it is whether every histogram was written, the items written and their count. -/
def serializePaths (c : HistCodec) (hists : CPHistVec) :
    CPPHistogramMap → Option (Bool × List Item × Nat)
  | [] => some (true, [], 0)
  | (path, idx) :: rest =>
    match hists[idx]? with
    | some (some hist) =>
      match c.hser path hist with
      | none => some (false, [], 0)
      | some bytes =>
        match serializePaths c hists rest with
        | none => none
        | some (ok, out, n) => some (ok, bytes ++ out, n + 1)
    | _ => none

/-- The outer loop of `serialize` over the functions. -/
def serializeFunctions (c : HistCodec) (hists : CPHistVec) :
    CPPFunctionMap → Option (Bool × List Item × Nat)
  | [] => some (true, [], 0)
  | (fn, paths) :: rest =>
    match serializePaths c hists paths with
    | none => none
    | some (false, out, n) => some (false, Item.u32 fn :: Item.u32 paths.length :: out, n)
    | some (true, out, n) =>
      match serializeFunctions c hists rest with
      | none => none
      | some (ok, out2, n2) =>
        some (ok, Item.u32 fn :: Item.u32 paths.length :: (out ++ out2), n + n2)

/-- Method `serialize` on a stream that accepts every write: the items written and the
returned count (0 when a histogram could not be written). `ptype` is the value of the
enumerator `CombinedPathInfo`. The result is `none` when the run is not defined. -/
def serialize (c : HistCodec) (ptype : Nat) (p : CombinedPathProfile) : Option (List Item × Nat) :=
  match serializeFunctions c p._histograms p._functions with
  | none => none
  | some (ok, out, n) =>
    some (Item.u32 ptype :: Item.f64 p._weight :: Item.u32 p._functions.length ::
            Item.u32 p._bincount :: out,
          if ok then n else 0)

/-- The assignment `_functions[fn][path] = idx`. -/
def setSlot (fs : CPPFunctionMap) (fn path idx : Nat) : CPPFunctionMap :=
  mapSet fn (mapSet path idx ((mapFind fn fs).getD [])) fs

/-- The inner loop `while( ph.numEntries-- )` of `deserialize`; `histIndex` is the local
counter of the source. The flag is `false` when a histogram could not be read. -/
def deserializePaths (c : HistCodec) (fn : Nat) :
    Nat → CombinedPathProfile → Nat → List Item → Bool × CombinedPathProfile × Nat × List Item
  | 0, p, histIndex, file => (true, p, histIndex, file)
  | k + 1, p, histIndex, file =>
    let r := c.hdeser p._bincount p._weight file
    if r.1 = -1 then (false, p, histIndex, r.2.2)
    else
      let p1 : CombinedPathProfile :=
        { p with _histograms := p._histograms ++ [some r.2.1]
                 _functions := setSlot p._functions fn (toUInt32 r.1) histIndex }
      deserializePaths c fn k p1 (histIndex + 1) r.2.2

/-- The outer loop `while( funcCount-- )` of `deserialize`. -/
def deserializeFunctions (c : HistCodec) :
    Nat → CombinedPathProfile → Nat → List Item → Bool × CombinedPathProfile × List Item
  | 0, p, _, file => (true, p, file)
  | k + 1, p, histIndex, file =>
    match readU32 file with
    | none => (false, p, file)
    | some (fnNumber, file1) =>
      match readU32 file1 with
      | none => (false, p, file1)
      | some (numEntries, file2) =>
        let r := deserializePaths c fnNumber numEntries p histIndex file2
        if r.1 then deserializeFunctions c k r.2.1 r.2.2.1 r.2.2.2
        else (false, r.2.1, r.2.2.2)

/-- Method `deserialize`, called after the kind tag has been read: the returned flag, the
profile afterwards and the unread items. -/
def deserialize (c : HistCodec) (p : CombinedPathProfile) (file : List Item) :
    Bool × CombinedPathProfile × List Item :=
  match readF64 file with
  | none => (false, p, file)
  | some (w, file1) =>
    let p1 := { p with _weight := w }
    match readU32 file1 with
    | none => (false, p1, file1)
    | some (funcCount, file2) =>
      match readU32 file2 with
      | none => (false, p1, file2)
      | some (b, file3) =>
        deserializeFunctions c funcCount { p1 with _bincount := b } 0 file3

/-- Method `valid`: the function and the path already exist in `_functions`. -/
def valid (p : CombinedPathProfile) (path : Nat × Nat) : Bool :=
  match mapFind path.1 p._functions with
  | some paths => (mapFind path.2 paths).isSome
  | none => false

/-- The histogram that the profile maps the location to: `_histograms[_functions[f][path]]`
for a location that `valid` accepts; `none` for any other location and for a slot that is
outside the vector or `NULL`. -/
def histAt (p : CombinedPathProfile) (path : Nat × Nat) : Option CPHistogram :=
  match mapFind path.1 p._functions with
  | some paths =>
    match mapFind path.2 paths with
    | some idx => (p._histograms[idx]?).join
    | none => none
  | none => none

/-- Method `getHistogram(funcIndex, pathIndex)`. The source returns a reference; the embedding
returns the profile afterwards and the index of the slot the reference points into. -/
def getHistogram (p : CombinedPathProfile) (funcIndex pathIndex : Nat) :
    CombinedPathProfile × Nat :=
  let funcPaths0 := (mapFind funcIndex p._functions).getD []
  let histIndex := (mapFind pathIndex funcPaths0).getD 0
  let funcPaths := mapSet pathIndex histIndex funcPaths0
  let hists := if histIndex + 1 > p._histograms.length then resizeVec p._histograms (histIndex + 1)
               else p._histograms
  match (hists[histIndex]?).join with
  | some _ =>
    ({ p with _histograms := hists, _functions := mapSet funcIndex funcPaths p._functions },
     histIndex)
  | none =>
    let newIndex := hists.length
    ({ p with _histograms := hists ++ [some CPHistogram.empty]
              _functions := mapSet funcIndex (mapSet pathIndex newIndex funcPaths) p._functions },
     newIndex)

/-- The host's path-numbering service as `addProfile` uses it: whether the first edge of the
path with the given number in the Ball-Larus DAG of the function has type `NORMAL`
(`dag.getFirstBLEdge(pathNumber)->getType() == BallLarusEdge::NORMAL`). -/
abbrev PathNumbering := IRFunction → Nat → Bool

/-- The first loop over the path entries of one function in `addProfile`: `entries` entries of
two words each are read and kept, and the counters of the normal paths are summed (32-bit,
as long as the sum is below `0xffffffff`). The result is `none` when the file ends early. -/
def readPathEntries (isNormal : Nat → Bool) :
    Nat → List Nat → Nat → List (Nat × Nat) → Option (Nat × List (Nat × Nat) × List Nat)
  | 0, file, total, acc => some (total, acc, file)
  | k + 1, pathNumber :: pathCounter :: file, total, acc =>
    let total1 := if isNormal pathNumber && total < 0xffffffff
                  then (total + pathCounter) % 2 ^ 32 else total
    readPathEntries isNormal k file total1 (acc ++ [(pathNumber, pathCounter)])
  | _ + 1, _, _, _ => none

/-- The second loop over the path entries of one function in `addProfile`: every path with a
positive counter gets the sample `counter / total` in its histogram. (A zero total with a
positive counter gives an infinite `double`; the rational quotient is 0 there.) -/
def addPathSamples (funcNum total : Nat) :
    List (Nat × Nat) → CombinedPathProfile → CombinedPathProfile
  | [], p => p
  | (pathNumber, pathCounter) :: rest, p =>
    if pathCounter > 0 then
      let r := getHistogram p funcNum pathNumber
      let hists := r.1._histograms.modify
        (fun o => o.map (fun h => h.addToList ((pathCounter : ℚ) / (total : ℚ)))) r.2
      addPathSamples funcNum total rest { r.1 with _histograms := hists }
    else addPathSamples funcNum total rest p

/-- The loop over the functions of the raw path profile in `addProfile`. The result is `none`
when `_functionRef[funcNum-1]` is outside the vector; the flag is `false` when the file ends
early. -/
def addProfileFunctions (numbering : PathNumbering) :
    Nat → CombinedPathProfile → List Nat → Option (Bool × CombinedPathProfile × List Nat)
  | 0, p, file => some (true, p, file)
  | k + 1, p, funcNum :: numEntries :: file =>
    match p._functionRef[(funcNum + 2 ^ 32 - 1) % 2 ^ 32]? with
    | none => none
    | some F =>
      match readPathEntries (numbering F) numEntries file 0 [] with
      | none => some (false, p, [])
      | some (total, newPaths, file1) =>
        addProfileFunctions numbering k (addPathSamples funcNum total newPaths p) file1
  | _ + 1, p, _ => some (false, p, [])

/-- Method `addProfile` on the words of a raw path profile (after the record tag): the
returned flag, the profile afterwards and the unread words, `none` when the run is not
defined. -/
def addProfile (numbering : PathNumbering) (p : CombinedPathProfile) (file : List Nat) :
    Option (Bool × CombinedPathProfile × List Nat) :=
  match file with
  | [] => some (false, p, [])
  | functionCount :: file1 =>
    addProfileFunctions numbering functionCount { p with _weight := p._weight + 1 } file1

end CombinedPathProfile

/-- The data members that a `CombinedCallProfile` object inherits from `CombinedProfile`. -/
structure CombinedCallProfile where
  _weight : ℚ
  _bincount : Nat
  _histograms : CPHistVec
deriving Repr, DecidableEq

/-- The values of `ProfilingType` that `getProfilingType` returns for the three profile
classes. -/
inductive ProfilingType where
  | CombinedEdgeInfo
  | CombinedPathInfo
  | CombinedCallInfo
deriving Repr, DecidableEq

/-- A `CombinedProfile*`: an object of one of the three derived classes. -/
inductive CombinedProfile where
  | edge (p : CombinedEdgeProfile)
  | path (p : CombinedPathProfile)
  | call (p : CombinedCallProfile)
deriving Repr, DecidableEq

/-- Type `CPList` of the source: `std::list<CombinedProfile*>`. -/
abbrev CPList := List CombinedProfile

namespace CombinedProfile

/-- Method `getProfilingType`. -/
def getProfilingType : CombinedProfile → ProfilingType
  | edge _ => ProfilingType.CombinedEdgeInfo
  | path _ => ProfilingType.CombinedPathInfo
  | call _ => ProfilingType.CombinedCallInfo

/-- Method `getBinCount`. -/
def getBinCount : CombinedProfile → Nat
  | edge p => p._bincount
  | path p => p._bincount
  | call p => p._bincount

/-- Method `getTotalWeight`. -/
def getTotalWeight : CombinedProfile → ℚ
  | edge p => p._weight
  | path p => p._weight
  | call p => p._weight

/-- Method `calcBinCount` of a profile whose `getProfilingType()` is `ptype`: the largest bin
count above 1 among the listed profiles of that type, else the fallback. (The test
`ptype == 0` of the source is false for the three profile classes, whose enumerators follow
the nonzero ones of the raw profile records.) -/
def calcBinCount (ptype : ProfilingType) (list : CPList) (fallback : Nat := 20) : Nat :=
  if list.length = 0 then fallback
  else
    let r := list.foldl (fun (acc : Nat × Bool) cp =>
      if cp.getProfilingType = ptype ∧ cp.getBinCount > acc.1 then (cp.getBinCount, true)
      else acc) (1, false)
    if r.2 then r.1 else fallback

end CombinedProfile

namespace CombinedPathProfile

/-- The body of the loop over the listed profiles in `buildFromList`, for one listed path
profile `cp`: each path of function `funcID` in `cp` contributes the histogram that
`cp->getHistogram(funcID, pathnum)` returns to the list kept for that path in `fpcphm`. -/
def collectPaths (funcID : Nat) (cp : CombinedPathProfile) (fpcphm : List (Nat × List CPHistogram)) :
    List (Nat × List CPHistogram) :=
  (((mapFind funcID cp._functions).getD []).foldl
    (fun (acc : CombinedPathProfile × List (Nat × List CPHistogram)) e =>
      let r := getHistogram acc.1 funcID e.1
      match (r.1._histograms[r.2]?).join with
      | some h => (r.1, mapSet e.1 ((mapFind e.1 acc.2).getD [] ++ [h]) acc.2)
      | none => (r.1, acc.2))
    (cp, fpcphm)).2

/-- Method `buildFromList`. `mkHist` is the constructor
`CPHistogram(bincount, totalweight, CPHistogramList&)`, whose body is in CPHistogram.cpp. The
result is the returned flag and the receiver afterwards; the slots that `operator[]` and
`getHistogram` create in the listed profiles are not returned. -/
def buildFromList (mkHist : Nat → ℚ → List CPHistogram → CPHistogram)
    (self : CombinedPathProfile) (list : CPList) (binCount : Nat) : Bool × CombinedPathProfile :=
  if list.length = 0 then (true, self)
  else
    let bc := if binCount = 0 then CombinedProfile.calcBinCount ProfilingType.CombinedPathInfo list
              else binCount
    let w := list.foldl (fun w cp =>
      match cp with
      | CombinedProfile.path q => w + q._weight
      | _ => w) self._weight
    let s1 : CombinedPathProfile := { self with _bincount := bc, _weight := w }
    (true,
     (List.range self._functionRef.length).foldl (fun s funcID =>
        let fpcphm := list.foldl (fun m cp =>
          match cp with
          | CombinedProfile.path q => collectPaths funcID q m
          | _ => m) []
        fpcphm.foldl (fun s1 e =>
          { s1 with _histograms := s1._histograms ++ [some (mkHist s1._bincount s1._weight e.2)]
                    _functions := setSlot s1._functions funcID e.1 s1._histograms.length }) s)
      s1)

/-- A module with a single defined function of one returning block. -/
def oneFunctionModule : List IRFunction := [{ isDeclaration := false, blocks := [[]] }]

/-- A raw path profile of one trial: one function header (function number 1, one entry) and
the entry (path number 0, counter 5). -/
def oneTrialFile : List Nat := [1, 1, 1, 0, 5]

/-- The path profile that `addProfile` builds from `oneTrialFile`: slot 0 stays `NULL`, slot 1
holds the histogram of location (1, 0) with the sample 5/5. -/
def oneTrialProfile : CombinedPathProfile :=
  { _weight := 1, _bincount := 0
    _histograms := [none, some (CPHistogram.empty.addToList 1)]
    _functions := [(1, [(0, 1)])]
    _functionRef := oneFunctionModule }

/-- The slot index stored under a location, `_functions[f][k]` read without creating it. -/
def slotAt (fs : CPPFunctionMap) (f k : Nat) : Option Nat :=
  (mapFind f fs).bind (fun m => mapFind k m)

/-- The histogram-level round trip on the entries of one path map: the serializer succeeds on
the histogram stored for each entry and the deserializer, started with bin count `b` and weight
`w` on the items written (followed by anything), gives back the written id as an `int` and the
histogram, and leaves what followed unread. -/
def CodecInverts (c : HistCodec) (b : Nat) (w : ℚ) (hists : CPHistVec)
    (paths : CPPHistogramMap) : Prop :=
  ∀ e ∈ paths, ∀ h, hists[e.2]? = some (some h) → ∀ rest,
    ∃ bytes, c.hser e.1 h = some bytes ∧ c.hdeser b w (bytes ++ rest) = (toInt32 e.1, h, rest)

/-- Path numbers of one path map as a `std::map<unsigned, _>` holds them: pairwise different
and below `2^32`. -/
def PathKeysOk (paths : CPPHistogramMap) : Prop :=
  (paths.map Prod.fst).Nodup ∧ ∀ e ∈ paths, e.1 < 2 ^ 32

/-- Function numbers and path numbers of a profile as the two `std::map`s hold them. -/
def KeysOk (p : CombinedPathProfile) : Prop :=
  (p._functions.map Prod.fst).Nodup ∧ ∀ fe ∈ p._functions, PathKeysOk fe.2

end CombinedPathProfile

/-! ## Call records (lib/Transforms/FDO/CPCallRecord.cpp) -/

/-- A `Function*`. -/
abbrev FuncRef := Nat

/-- What `evalMetric` asks of an actual parameter: `isa<Constant>`, `isa<AllocaInst>`, or
neither. -/
inductive ArgKind where
  | constant
  | alloca
  | other
deriving Repr, DecidableEq

/-- What the inliner reads of a call instruction through an `llvm::CallSite`: the instruction
(its identity, and the key by which `std::map` and `std::set` order call sites), the calling
function, the called function (`none` for an indirect call) and the kinds of the actual
parameters. -/
structure CallSite where
  inst : Nat
  caller : FuncRef
  callee : Option FuncRef
  args : List ArgKind
deriving Repr, DecidableEq

/-- The struct `ArgImpact`. -/
structure ArgImpact where
  instrRemIfConst : Nat
  branchRemIfConst : Nat
  icallRemIfConst : Nat
  instrRemIfAlloca : Nat
deriving Repr, DecidableEq

/-- The constant `ZeroArgImpact`. -/
def ZeroArgImpact : ArgImpact :=
  { instrRemIfConst := 0, branchRemIfConst := 0, icallRemIfConst := 0, instrRemIfAlloca := 0 }

/-- The struct `FunctionAttr`; `argImpact` is the array of `args` entries (empty for the null
pointer). -/
structure FunctionAttr where
  size : Nat
  startSize : Nat
  branches : Nat
  externCalls : Nat
  directCalls : Nat
  indirectCalls : Nat
  inlineCount : Nat
  cannotInline : Bool
  addressTaken : Bool
  args : Nat
  argImpact : List ArgImpact
deriving Repr, DecidableEq

/-- The constant `ZeroFunctionAttr`. -/
def ZeroFunctionAttr : FunctionAttr :=
  { size := 0, startSize := 0, branches := 0, externCalls := 0, directCalls := 0,
    indirectCalls := 0, inlineCount := 0, cannotInline := false, addressTaken := false,
    args := 0, argImpact := [] }

/-- Type `FuncAttrMap` of the source: `std::map<Function*, FunctionAttr>`. -/
abbrev FuncAttrMap := List (Nat × FunctionAttr)

/-- The constants of the namespace `inlineWeights`, which CPCallRecord.h declares. -/
structure InlineWeights where
  callReturn : Nat
  instr : Nat
  branch : Nat
  icall : Nat
  alloca : Nat
  oneblock : Nat
deriving Repr, DecidableEq

/-- The data members of `CPCallRecord`. -/
structure CPCallRecord where
  cs : CallSite
  mval : ℚ
  ignored : Bool
  history : IndexSet
  historyString : List String
  ID : Nat
  zID : Nat
  cphist : CPHistogram
  totalImpact : ArgImpact
deriving Repr, DecidableEq

/-- One instruction as `calcBlockSize` classifies it. -/
inductive InstKind where
  /-- A PHI node, a debug intrinsic, a no-op cast or a GEP with constant indices. -/
  | free
  /-- A counted instruction that is not a call. -/
  | plain
  /-- An indirect call. -/
  | callIndirect
  /-- A call of a declaration named `setjmp` or `_setjmp`. -/
  | callSetjmp
  /-- A call of the function the instruction is in. -/
  | callRecursive
  /-- A call of another declaration. -/
  | callExtern
  /-- A call of a defined function. -/
  | callDirect
deriving Repr, DecidableEq

/-- One basic block as `recalcFunctionAttr` and `calcBlockSize` read it. -/
structure BlockInfo where
  indirectBr : Bool
  insts : List InstKind
  numSuccessors : Nat
deriving Repr, DecidableEq

/-- One defined function as `recalcFunctionAttr` reads it from the IR. -/
structure FuncBody where
  hasAddressTaken : Bool
  arg_size : Nat
  blocks : List BlockInfo
deriving Repr, DecidableEq

/-- A metric function, `double (*)(CPCallRecord&, double)`; the attribute cache is passed as
well since some metrics read it through `inlineSize`. -/
abbrev FDOInlineMetric := FuncAttrMap → CPCallRecord → ℚ → ℚ

/-- What the methods of `CPCallRecord` take from static members, from CPCallRecord.h and from
CPHistogram.cpp: the selected metric (`none` for a null `_metric`), the inline weights, the
product of two histograms `CPHistogram::cross`, and the value of the defaulted third
constructor argument. -/
structure Statics where
  _metric : Option FDOInlineMetric
  weights : InlineWeights
  cross : CPHistogram → CPHistogram → CPHistogram
  defaultMval : ℚ

namespace CPCallRecord

/-- The initializing constructor `CPCallRecord(C, P, V)`; `currID` is the static counter read
and `zid` the value that `rand()` returns. The member `totalImpact` is not initialized by the
source; the embedding starts it at `ZeroArgImpact`. -/
def new (C : CallSite) (P : Option CPHistogram) (V : ℚ) (currID zid : Nat) : CPCallRecord :=
  { cs := C, mval := V, ignored := false, history := [], historyString := [], ID := currID,
    zID := zid, cphist := P.getD CPHistogram.empty, totalImpact := ZeroArgImpact }

/-- Modelled from the spec: `CPCallRecord::operator<`, declared in CPCallRecord.h (not among
the sources); the spec has records "compare by `mval` ascending". -/
def lt (a b : CPCallRecord) : Bool := decide (a.mval < b.mval)

/-- Method `calcBlockSize(BB, attr)` with a non-null `attr`: the size of the block and the
updated attributes. -/
def calcBlockSize (BB : BlockInfo) (attr : FunctionAttr) : Nat × FunctionAttr :=
  let r := BB.insts.foldl (fun (acc : Nat × FunctionAttr) I =>
    match I with
    | InstKind.free => acc
    | k =>
      let size := acc.1 + 1
      if acc.2.cannotInline then (size, acc.2)
      else
        match k with
        | InstKind.callIndirect => (size, { acc.2 with indirectCalls := acc.2.indirectCalls + 1 })
        | InstKind.callSetjmp => (size, { acc.2 with cannotInline := true })
        | InstKind.callRecursive => (size, { acc.2 with cannotInline := true })
        | InstKind.callExtern => (size, { acc.2 with externCalls := acc.2.externCalls + 1 })
        | InstKind.callDirect => (size, { acc.2 with directCalls := acc.2.directCalls + 1 })
        | _ => (size, acc.2)) (0, attr)
  (r.1 % 2 ^ 32,
   { r.2 with size := (r.2.size + r.1) % 2 ^ 32
              branches := if BB.numSuccessors > 1 then r.2.branches + 1 else r.2.branches })

/-- Method `recalcFunctionAttr(f)`; `body` is what the IR holds for `f`, `none` for a null
pointer or a declaration. The result is the returned change in size (an `int`) and the
attribute cache afterwards. -/
def recalcFunctionAttr (attrs : FuncAttrMap) (f : FuncRef) (body : Option FuncBody) :
    Int × FuncAttrMap :=
  match body with
  | none => (0, attrs)
  | some b =>
    let found := mapFind f attrs
    let isNew := found.isNone
    let attr0 := found.getD ZeroFunctionAttr
    let attr1 : FunctionAttr :=
      { attr0 with addressTaken := b.hasAddressTaken, args := b.arg_size
                   argImpact := List.replicate b.arg_size ZeroArgImpact }
    let newAttr := b.blocks.foldl (fun (na : FunctionAttr) BB =>
      (calcBlockSize BB (if BB.indirectBr then { na with cannotInline := true } else na)).2)
      ZeroFunctionAttr
    let growth := toInt32 (newAttr.size + 2 ^ 32 - attr1.size % 2 ^ 32)
    let attr2 : FunctionAttr :=
      { attr1 with size := newAttr.size
                   startSize := if isNew then newAttr.size else attr1.startSize
                   externCalls := newAttr.externCalls
                   directCalls := newAttr.directCalls
                   indirectCalls := newAttr.indirectCalls
                   cannotInline := newAttr.cannotInline }
    (growth, mapSet f attr2 attrs)

/-- Method `getFunctionAttr(F)` on a cache that holds an entry for `F`. For an absent entry
the source either returns a null pointer or creates the entry, according to a default argument
that CPCallRecord.h declares; the embedding leaves that case undefined (`none`). -/
def getFunctionAttr (attrs : FuncAttrMap) (F : FuncRef) : Option FunctionAttr := mapFind F attrs

/-- Method `inlineSize`: `funcSize - less` in 32-bit unsigned arithmetic, returned as `int`.
The result is `none` when the attributes of the callee are not defined. -/
def inlineSize (W : InlineWeights) (attrs : FuncAttrMap) (rec : CPCallRecord) : Option Int :=
  match rec.cs.callee with
  | none => some 0
  | some callee =>
    match getFunctionAttr attrs callee with
    | none => none
    | some attr =>
      let less0 := (rec.totalImpact.instrRemIfConst + rec.totalImpact.instrRemIfAlloca) % 2 ^ 32
      let less := if attr.branches = 0 then (less0 + W.oneblock) % 2 ^ 32 else less0
      some (toInt32 (attr.size % 2 ^ 32 + 2 ^ 32 - less))

/-- Method `inlineCost`. -/
def inlineCost (W : InlineWeights) (attrs : FuncAttrMap) (rec : CPCallRecord) : Option ℚ :=
  (inlineSize W attrs rec).map (fun z => (z : ℚ))

/-- Method `inlineBenefit`: the sum is formed in 32-bit unsigned arithmetic and returned as a
`double`. The result is `none` when the attributes of the callee are not defined. -/
def inlineBenefit (W : InlineWeights) (attrs : FuncAttrMap) (rec : CPCallRecord) : Option ℚ :=
  match rec.cs.callee.bind (getFunctionAttr attrs) with
  | none => none
  | some attr =>
    let benefit : Nat := (W.callReturn
      + rec.totalImpact.instrRemIfConst * W.instr
      + rec.totalImpact.branchRemIfConst * W.branch
      + rec.totalImpact.icallRemIfConst * W.icall
      + rec.totalImpact.instrRemIfAlloca * W.alloca
      + rec.cs.args.length
      + attr.indirectCalls) % 2 ^ 32
    some (benefit : ℚ)

/-- Method `getArgImpact(F, argNum)`; `calcImpact` is what `calcConstantImpact` followed by
`calcAllocaImpact` add to a zero record for that argument in the current IR. The result is the
impact and the cache afterwards; it is `none` when the attributes or the array entry are not
there. -/
def getArgImpact (calcImpact : FuncRef → Nat → ArgImpact) (attrs : FuncAttrMap) (F : FuncRef)
    (argNum : Nat) : Option (ArgImpact × FuncAttrMap) :=
  match getFunctionAttr attrs F with
  | none => none
  | some attr =>
    match attr.argImpact[argNum]? with
    | none => none
    | some impact =>
      if impact.instrRemIfConst ≠ 0 ∨ impact.branchRemIfConst ≠ 0 ∨ impact.icallRemIfConst ≠ 0
          ∨ impact.instrRemIfAlloca ≠ 0 then some (impact, attrs)
      else
        let impact1 := calcImpact F argNum
        some (impact1, mapSet F { attr with argImpact := attr.argImpact.set argNum impact1 } attrs)

/-- The loop of `evalMetric` over the actual parameters, from argument `argNum` on. -/
def aggregateImpact (calcImpact : FuncRef → Nat → ArgImpact) (callee : FuncRef) :
    List ArgKind → Nat → ArgImpact → FuncAttrMap → Option (ArgImpact × FuncAttrMap)
  | [], _, total, attrs => some (total, attrs)
  | ArgKind.other :: rest, argNum, total, attrs =>
    aggregateImpact calcImpact callee rest (argNum + 1) total attrs
  | ArgKind.constant :: rest, argNum, total, attrs =>
    match getArgImpact calcImpact attrs callee argNum with
    | none => none
    | some (impact, attrs1) =>
      aggregateImpact calcImpact callee rest (argNum + 1)
        { total with
          instrRemIfConst := (total.instrRemIfConst + impact.instrRemIfConst) % 2 ^ 32
          branchRemIfConst := (total.branchRemIfConst + impact.branchRemIfConst) % 2 ^ 32
          icallRemIfConst := (total.icallRemIfConst + impact.icallRemIfConst) % 2 ^ 32 } attrs1
  | ArgKind.alloca :: rest, argNum, total, attrs =>
    match getArgImpact calcImpact attrs callee argNum with
    | none => none
    | some (impact, attrs1) =>
      aggregateImpact calcImpact callee rest (argNum + 1)
        { total with
          instrRemIfAlloca := (total.instrRemIfAlloca + impact.instrRemIfAlloca) % 2 ^ 32 } attrs1

/-- Method `evalMetric`: the returned value, the record afterwards and the attribute cache
afterwards; `none` when the run is not defined (null callee, or callee attributes that are not
there). -/
def evalMetric (S : Statics) (calcImpact : FuncRef → Nat → ArgImpact) (attrs : FuncAttrMap)
    (rec : CPCallRecord) : Option (ℚ × CPCallRecord × FuncAttrMap) :=
  match S._metric with
  | none => some (-1, { rec with mval := -1 }, attrs)
  | some metric =>
    match rec.cs.callee with
    | none => none
    | some callee =>
      match aggregateImpact calcImpact callee rec.cs.args 0 ZeroArgImpact attrs with
      | none => none
      | some (total, attrs1) =>
        let rec1 : CPCallRecord := { rec with totalImpact := total }
        match inlineBenefit S.weights attrs1 rec1, inlineCost S.weights attrs1 rec1 with
        | some benefit, some cost =>
          let mval : ℚ :=
            if cost ≥ 0 ∧ benefit ≤ 0 then -1
            else
              let m := metric attrs1 rec1 benefit
              if cost > 0 then m / cost
              else if cost < 0 then m * (-cost)
              else m
          some (mval, { rec1 with mval := mval }, attrs1)
        | _, _ => none

/-- Method `neverInline`: the returned flag and the attribute cache afterwards;
`doesNotReturn` is `callee->doesNotReturn()`. The result is `none` when the attributes of the
callee are not defined. -/
def neverInline (doesNotReturn : FuncRef → Bool) (attrs : FuncAttrMap) (rec : CPCallRecord) :
    Option (Bool × FuncAttrMap) :=
  match rec.cs.callee with
  | none => some (true, attrs)
  | some callee =>
    match getFunctionAttr attrs callee with
    | none => none
    | some attr =>
      if attr.cannotInline then some (true, attrs)
      else if doesNotReturn callee then
        some (true, mapSet callee { attr with cannotInline := true } attrs)
      else some (false, attrs)

/-- The inlined-call constructor `CPCallRecord(callRec, oldRec, inlinedFunc, newCall)` with a
non-null `inlinedFunc` named `name`: the histograms are crossed, the histories joined and
extended, and the metric evaluated. -/
def newInlined (S : Statics) (calcImpact : FuncRef → Nat → ArgImpact) (attrs : FuncAttrMap)
    (callRec oldRec : CPCallRecord) (inlinedFunc : FuncRef) (name : String) (newCall : CallSite)
    (currID : Nat) : Option (CPCallRecord × FuncAttrMap) :=
  let r : CPCallRecord :=
    { cs := newCall, mval := 0, ignored := false
      history := IndexSet.insert inlinedFunc (IndexSet.insertAll oldRec.history callRec.history)
      historyString := callRec.historyString ++ oldRec.historyString ++ [name]
      ID := currID
      zID := Nat.xor callRec.zID oldRec.zID
      cphist := S.cross callRec.cphist oldRec.cphist
      totalImpact := ZeroArgImpact }
  (evalMetric S calcImpact attrs r).map (fun e => (e.2.1, e.2.2))

end CPCallRecord

/-! ## The inliner (lib/Transforms/FDO/FDOInliner.cpp) -/

/-- A node of a `CallList` (`std::list<CPCallRecord>`): the record it holds and the address of
the record, which is what `_records` stores and what does not change when the node is spliced
into the other list. -/
structure ListNode where
  addr : Nat
  record : CPCallRecord
deriving Repr, DecidableEq

/-- Type `CallList` of the source. -/
abbrev CallList := List ListNode

/-- Removal of a key, `std::map::erase(key)`. -/
def mapErase {V : Type} (k : Nat) (m : List (Nat × V)) : List (Nat × V) :=
  m.filter (fun e => e.1 != k)

/-- The data members of `FDOInliner` that the candidate bookkeeping uses: call sites are keyed
by their instruction, `_records` maps a call site to the address of its record. `_funcAttr`
is the attribute cache it points to, `CurrID` the static counter of `CPCallRecord` and
`nextAddr` the address that the next allocated list node gets. -/
structure FDOInliner where
  _callers : List (Nat × IndexSet)
  _candidates : CallList
  _records : List (Nat × Nat)
  _ignore : CallList
  _removed : IndexSet
  _funcAttr : FuncAttrMap
  CurrID : Nat
  nextAddr : Nat
deriving Repr, DecidableEq

namespace FDOInliner

/-- Reading a record through a `CPCallRecord*`: the record of the node with that address in
either list; `none` for an address that no node has. -/
def deref (s : FDOInliner) (addr : Nat) : Option CPCallRecord :=
  ((s._candidates ++ s._ignore).find? (fun n => n.addr == addr)).map (fun n => n.record)

/-- Method `insert(rec)`: linear-scan sorted insertion of a copy of the record, which is then
set not-ignored. -/
def insert (s : FDOInliner) (rec : CPCallRecord) : FDOInliner :=
  let pos := (s._candidates.takeWhile (fun n => CPCallRecord.lt n.record rec)).length
  let node : ListNode := { addr := s.nextAddr, record := { rec with ignored := false } }
  { s with _candidates := s._candidates.take pos ++ node :: s._candidates.drop pos
           _records := mapSet rec.cs.inst s.nextAddr s._records
           nextAddr := s.nextAddr + 1 }

/-- Method `ignoreCandidate(candidate)`, the iterator being the position in `_candidates`. The
source dereferences the iterator unchecked, so the end iterator has no defined result
(`none`). The returned flag is always true. -/
def ignoreCandidate (s : FDOInliner) (candidate : Nat) : Option FDOInliner :=
  match s._candidates[candidate]? with
  | none => none
  | some n =>
    some { s with _candidates := s._candidates.eraseIdx candidate
                  _ignore := { n with record := { n.record with ignored := true } } :: s._ignore
                  _records := mapSet n.record.cs.inst n.addr s._records }

/-- Method `findCandidate(cs)`: the position in `_candidates`, the length of the list being
`_candidates.end()`. The result is `none` when `_records` holds an address that no node has. -/
def findCandidate (s : FDOInliner) (cs : CallSite) : Option Nat :=
  match mapFind cs.inst s._records with
  | none => some s._candidates.length
  | some addr =>
    match deref s addr with
    | none => none
    | some rec =>
      if rec.ignored then some s._candidates.length
      else some (s._candidates.findIdx (fun n => n.addr == addr))

/-- Method `findIgnored(cs)`: the position in `_ignore`, the length of the list being
`_ignore.end()`. -/
def findIgnored (s : FDOInliner) (cs : CallSite) : Option Nat :=
  match mapFind cs.inst s._records with
  | none => some s._ignore.length
  | some addr =>
    match deref s addr with
    | none => none
    | some rec =>
      if !rec.ignored then some s._ignore.length
      else some (s._ignore.findIdx (fun n => n.addr == addr))

/-- Method `ignore(cs)`; `zid` is what `rand()` returns if a record is constructed. The
returned flag is always true. -/
def ignore (S : Statics) (s : FDOInliner) (cs : CallSite) (zid : Nat) : Option FDOInliner :=
  match findCandidate s cs with
  | none => none
  | some cand =>
    if cand = s._candidates.length then
      match findIgnored s cs with
      | none => none
      | some ig =>
        if ig = s._ignore.length then
          let newrec : CPCallRecord :=
            { CPCallRecord.new cs none S.defaultMval s.CurrID zid with ignored := true }
          some { s with _ignore := { addr := s.nextAddr, record := newrec } :: s._ignore
                        _records := mapSet cs.inst s.nextAddr s._records
                        CurrID := s.CurrID + 1
                        nextAddr := s.nextAddr + 1 }
        else some s
    else ignoreCandidate s cand

/-- The statements `_callers[callee].erase(cs)` for a non-null callee, `_records.erase(cs)`
and `_removed.insert(cs)` that both removal methods perform. -/
def forget (s : FDOInliner) (cs : CallSite) : FDOInliner :=
  { s with
    _callers :=
      match cs.callee with
      | some callee =>
        mapSet callee (IndexSet.erase cs.inst ((mapFind callee s._callers).getD [])) s._callers
      | none => s._callers
    _records := mapErase cs.inst s._records
    _removed := IndexSet.insert cs.inst s._removed }

/-- Method `removeCandidate(candidate)`: the returned flag and the state afterwards. -/
def removeCandidate (s : FDOInliner) (candidate : Nat) : Bool × FDOInliner :=
  match s._candidates[candidate]? with
  | none => (false, s)
  | some n => (true, { forget s n.record.cs with _candidates := s._candidates.eraseIdx candidate })

/-- Method `removeIgnored(ignored)`: the returned flag and the state afterwards. -/
def removeIgnored (s : FDOInliner) (ignored : Nat) : Bool × FDOInliner :=
  match s._ignore[ignored]? with
  | none => (false, s)
  | some n => (true, { forget s n.record.cs with _ignore := s._ignore.eraseIdx ignored })

/-- Method `remove(cs)`: the returned flag and the state afterwards; `none` when `_records`
holds an address that no node has. -/
def remove (s : FDOInliner) (cs : CallSite) : Option (Bool × FDOInliner) :=
  if IndexSet.mem cs.inst s._removed then some (false, s)
  else
    match mapFind cs.inst s._records with
    | none => some (false, s)
    | some addr =>
      match deref s addr with
      | none => none
      | some rec =>
        if rec.ignored then
          match findIgnored s cs with
          | none => none
          | some ig => if ig ≠ s._ignore.length then some (removeIgnored s ig) else some (false, s)
        else
          match findCandidate s cs with
          | none => none
          | some cand =>
            if cand ≠ s._candidates.length then some (removeCandidate s cand) else some (false, s)

/-- Method `sanityCheckLists`. -/
def sanityCheckLists (s : FDOInliner) : Bool :=
  s._candidates.all (fun n => !n.record.ignored) && s._ignore.all (fun n => n.record.ignored)

/-- Every address that `_records` stores is the address of a node of `_candidates` or of
`_ignore` (no entry of `_records` dangles). -/
def RecordsAnchored (s : FDOInliner) : Prop :=
  ∀ k a, mapFind k s._records = some a → ∃ n ∈ s._candidates ++ s._ignore, n.addr = a

/-- An `Instruction*` as `isFDOInliningCandidate` reads it. -/
structure InstInfo where
  isCall : Bool
  isIntrinsic : Bool
  calleeIsDeclaration : Bool
  cs : CallSite
deriving Repr, DecidableEq

/-- Method `isFDOInliningCandidate(I)`, `none` being the null pointer. -/
def isFDOInliningCandidate (I : Option InstInfo) : Bool :=
  match I with
  | none => false
  | some i =>
    if !i.isCall then false
    else if i.isIntrinsic then false
    else
      match i.cs.callee with
      | none => false
      | some callee =>
        if callee = i.cs.caller then false
        else if i.calleeIsDeclaration then false
        else true

/-- What the host IR answers during one iteration of the inlining loop: `doesNotReturn` and
`calcImpact` as for `CPCallRecord`; `inlineFunction`, the result of `llvm::InlineFunction`;
`inlinedCalls`, the entries of `ifi.InlinedCalls` paired with those of
`ifi.InlinedCallOrigins` (`none` for a null origin) after a successful inlining; `bodyOf`, the
functions as `recalcFunctionAttr` reads them after the inlining; `instsOf`, the instructions
of a function in order, as `removeDeadCallee` scans them; `nameOf`, the function names; and
`rand`, the value that `rand()` returns in the constructor of the record numbered by the
argument; and `stackDepth`, the number of nested calls of `removeDeadCallee` that the call
stack has room for. -/
structure Host where
  doesNotReturn : FuncRef → Bool
  calcImpact : FuncRef → Nat → ArgImpact
  inlineFunction : CallSite → Bool
  inlinedCalls : List (InstInfo × Option InstInfo)
  bodyOf : FuncRef → Option FuncBody
  instsOf : FuncRef → List InstInfo
  nameOf : FuncRef → String
  rand : Nat → Nat
  stackDepth : Nat

/-- The scan of `removeDeadCallee` over the instructions of a dead function: every candidate
call is removed and its callee noted. The result is the number of calls removed, the callees
and the state afterwards. -/
def removeCallsOf (insts : List InstInfo) (s : FDOInliner) :
    Option (Nat × IndexSet × FDOInliner) :=
  insts.foldl (fun acc I =>
    match acc with
    | none => none
    | some (removedCalls, callees, st) =>
      if isFDOInliningCandidate (some I) then
        let callees1 := match I.cs.callee with
          | some callee => IndexSet.insert callee callees
          | none => callees
        match remove st I.cs with
        | none => none
        | some (true, st1) => some (removedCalls + 1, callees1, st1)
        | some (false, st1) => some (removedCalls, callees1, st1)
      else some (removedCalls, callees, st)) (some (0, [], s))

/-- Method `removeDeadCallee(func)` for a non-null function; the first argument is the depth
of recursion still available. The result is the number of calls removed and the state
afterwards; a run that recurses deeper than the available depth has no result (`none`). -/
def removeDeadCallee (host : Host) : Nat → FDOInliner → FuncRef → Option (Nat × FDOInliner)
  | 0, _, _ => none
  | fuel + 1, s, func =>
    let callersOfFunc := (mapFind func s._callers).getD []
    let attr := (mapFind func s._funcAttr).getD ZeroFunctionAttr
    let s1 : FDOInliner :=
      { s with _callers := mapSet func callersOfFunc s._callers
               _funcAttr := mapSet func attr s._funcAttr }
    let fdiDead := callersOfFunc.length == 0 && !attr.addressTaken
    if !fdiDead then some (0, s1)
    else
      match removeCallsOf (host.instsOf func) s1 with
      | none => none
      | some (removedCalls, callees, s2) =>
        callees.foldl (fun acc callee =>
          match acc with
          | none => none
          | some (n, st) =>
            match removeDeadCallee host fuel st callee with
            | none => none
            | some (m, st1) => some (n + m, st1)) (some (removedCalls, s2))

/-- Assignment through a `CPCallRecord*`: the record of the node with the given address is
replaced, in whichever list the node is. -/
def storeAt (s : FDOInliner) (addr : Nat) (rec : CPCallRecord) : FDOInliner :=
  { s with
    _candidates := s._candidates.map (fun n => if n.addr = addr then { n with record := rec } else n)
    _ignore := s._ignore.map (fun n => if n.addr = addr then { n with record := rec } else n) }

/-- Method `updateCallers(caller)` for a non-null caller: the metric of every record that is
not ignored and whose call site calls `caller` is evaluated again, in place. The result is the
returned flag and the state afterwards. -/
def updateCallers (S : Statics) (host : Host) (s : FDOInliner) (caller : FuncRef) :
    Option (Bool × FDOInliner) :=
  let callers := (mapFind caller s._callers).getD []
  let s1 : FDOInliner := { s with _callers := mapSet caller callers s._callers }
  callers.foldl (fun acc c =>
    match acc with
    | none => none
    | some (false, st) => some (false, st)
    | some (true, st) =>
      match mapFind c st._records with
      | none => some (false, st)
      | some addr =>
        match deref st addr with
        | none => none
        | some callerRec =>
          if !callerRec.ignored then
            match CPCallRecord.evalMetric S host.calcImpact st._funcAttr callerRec with
            | none => none
            | some (_, rec1, attrs1) => some (true, { storeAt st addr rec1 with _funcAttr := attrs1 })
          else some (true, st)) (some (true, s1))

/-- The local variables of `runOnModule` that live across the iterations of the inlining loop,
with the inliner itself and the list of the call sites handed to `inlineIfPossible` so far. -/
structure Run where
  inl : FDOInliner
  budget : Int
  inlineCount : Nat
  inlineFail : Nat
  neverInline : Nat
  candConvert : Nat
  missingRecord : Nat
  tooDeep : Nat
  tooBig : Nat
  newCand : Nat
  newIgnore : Nat
  newNotCand : Nat
  endSkip : Nat
  deadCalls : Nat
  didTry : Bool
  error : Bool
  inlineAttempts : List CallSite
deriving Repr, DecidableEq

/-- The loop over the inlined call sites after a successful inlining of the record `tmpRec`
(callee `callee`); a `break` of the source ends the recursion. -/
def processInlinedCalls (S : Statics) (host : Host) (tmpRec : CPCallRecord) (callee : FuncRef) :
    List (InstInfo × Option InstInfo) → Run → Option Run
  | [], r => some r
  | (newI, origin) :: rest, r =>
    match origin with
    | none => some { r with error := true }
    | some oldI =>
      let newCS := newI.cs
      let oldCS := oldI.cs
      if !isFDOInliningCandidate (some newI) then
        processInlinedCalls S host tmpRec callee rest { r with newNotCand := r.newNotCand + 1 }
      else
        match newCS.callee with
        | none => none
        | some newCallee =>
          let callers1 := mapSet newCallee
            (IndexSet.insert newCS.inst ((mapFind newCallee r.inl._callers).getD []))
            r.inl._callers
          let inl1 : FDOInliner := { r.inl with _callers := callers1 }
          if oldCS.callee.isNone then
            match ignore S inl1 newCS (host.rand inl1.CurrID) with
            | none => none
            | some inl2 =>
              processInlinedCalls S host tmpRec callee rest
                { r with inl := inl2, candConvert := r.candConvert + 1 }
          else
            match mapFind oldCS.inst inl1._records with
            | none => some { r with inl := inl1, missingRecord := r.missingRecord + 1, error := true }
            | some addr =>
              match deref inl1 addr with
              | none => none
              | some oldRec =>
                if oldRec.ignored then
                  match ignore S inl1 newCS (host.rand inl1.CurrID) with
                  | none => none
                  | some inl2 =>
                    processInlinedCalls S host tmpRec callee rest
                      { r with inl := inl2, newIgnore := r.newIgnore + 1 }
                else
                  match CPCallRecord.newInlined S host.calcImpact inl1._funcAttr tmpRec oldRec
                      callee (host.nameOf callee) newCS inl1.CurrID with
                  | none => none
                  | some (rec, attrs1) =>
                    processInlinedCalls S host tmpRec callee rest
                      { r with
                        inl := insert { inl1 with _funcAttr := attrs1, CurrID := inl1.CurrID + 1 } rec
                        newCand := r.newCand + 1 }

/-- The statement `(*_funcAttr)[caller].inlineCount += (*_funcAttr)[callee].inlineCount + 1`;
`operator[]` creates the entries that are not there. -/
def creditInlining (attrs : FuncAttrMap) (caller callee : FuncRef) : FuncAttrMap :=
  let calleeAttr := (mapFind callee attrs).getD ZeroFunctionAttr
  let attrsA := mapSet callee calleeAttr attrs
  let callerAttr := (mapFind caller attrsA).getD ZeroFunctionAttr
  mapSet caller
    { callerAttr with inlineCount := (callerAttr.inlineCount + (calleeAttr.inlineCount + 1)) % 2 ^ 32 }
    attrsA

/-- The end of the loop body after the inlined call sites have been processed: the dead
callee, the callers of the caller and the sanity check. The flag of the result tells whether
the loop was left with `break`. -/
def finishIteration (S : Statics) (host : Host) (caller callee : FuncRef) (r2 : Run) :
    Option (Run × Bool) :=
  let callersOfCallee := (mapFind callee r2.inl._callers).getD []
  let r3 : Run :=
    { r2 with inl := { r2.inl with _callers := mapSet callee callersOfCallee r2.inl._callers } }
  let dead : Option Run :=
    if callersOfCallee.length == 0 then
      (removeDeadCallee host host.stackDepth r3.inl callee).map
        (fun d => { r3 with inl := d.2, deadCalls := r3.deadCalls + d.1 })
    else some r3
  match dead with
  | none => none
  | some r4 =>
    match updateCallers S host r4.inl caller with
    | none => none
    | some (false, inl5) => some ({ r4 with inl := inl5, error := true }, true)
    | some (true, inl5) =>
      if !sanityCheckLists inl5 then some ({ r4 with inl := inl5, error := true }, true)
      else some ({ r4 with inl := inl5 }, false)

/-- The part of the loop body that follows a successful `inlineIfPossible`: the attribute and
budget update, the inlined call sites, and the end of the body. The flag of the result tells
whether the loop was left with `break`. The variable `budget` is an `int`: the statement
`budget -= codeGrowth` has no defined result (`none`) when the difference is outside the range
of `int`. -/
def afterInlining (S : Statics) (host : Host) (tmpRec : CPCallRecord) (caller callee : FuncRef)
    (r : Run) : Option (Run × Bool) :=
  let rc := CPCallRecord.recalcFunctionAttr (creditInlining r.inl._funcAttr caller callee) caller
    (host.bodyOf caller)
  if -2 ^ 31 ≤ r.budget - rc.1 ∧ r.budget - rc.1 < 2 ^ 31 then
    let r1 : Run :=
      { r with inl := { r.inl with _funcAttr := rc.2 }
               inlineCount := r.inlineCount + 1
               budget := r.budget - rc.1 }
    match processInlinedCalls S host tmpRec callee host.inlinedCalls r1 with
    | none => none
    | some r2 => finishIteration S host caller callee r2
  else none

/-- The body of the inlining loop of `runOnModule`, entered with a non-empty `_candidates`;
`FDIDepth` is the depth option. The flag of the result tells whether the loop was left with
`break`. The result is `none` when the run is not defined. -/
def iteration (S : Statics) (FDIDepth : Nat) (host : Host) (r : Run) : Option (Run × Bool) :=
  match r.inl._candidates.getLast? with
  | none => none
  | some node =>
    let crec := node.record
    let candIter := r.inl._candidates.length - 1
    let r0 : Run := { r with endSkip := if !r.didTry then r.endSkip + 1 else r.endSkip
                             didTry := false }
    if crec.mval ≤ 0 then some (r0, true)
    else
      match CPCallRecord.inlineSize S.weights r0.inl._funcAttr crec with
      | none => none
      | some iSize =>
        if iSize > r0.budget then
          (ignoreCandidate r0.inl candIter).map
            (fun inl1 => ({ r0 with inl := inl1, tooBig := r0.tooBig + 1 }, false))
        else
          let r1 : Run := { r0 with didTry := true, endSkip := 0 }
          match CPCallRecord.neverInline host.doesNotReturn r1.inl._funcAttr crec with
          | none => none
          | some (true, attrs1) =>
            (ignoreCandidate { r1.inl with _funcAttr := attrs1 } candIter).map
              (fun inl1 => ({ r1 with inl := inl1, neverInline := r1.neverInline + 1 }, false))
          | some (false, attrs1) =>
            let r2 : Run := { r1 with inl := { r1.inl with _funcAttr := attrs1 } }
            if FDIDepth > 0 ∧ crec.history.length ≥ FDIDepth then
              (ignoreCandidate r2.inl candIter).map
                (fun inl1 => ({ r2 with inl := inl1, tooDeep := r2.tooDeep + 1 }, false))
            else
              let tmpRec := crec
              let r3 : Run :=
                { r2 with inl := (removeCandidate r2.inl candIter).2
                          inlineAttempts := r2.inlineAttempts ++ [tmpRec.cs] }
              if !host.inlineFunction tmpRec.cs then
                (ignore S r3.inl tmpRec.cs (host.rand r3.inl.CurrID)).map
                  (fun inl1 => ({ r3 with inl := inl1, inlineFail := r3.inlineFail + 1 }, false))
              else
                match tmpRec.cs.callee with
                | none => none
                | some callee => afterInlining S host tmpRec tmpRec.cs.caller callee r3

/-- The inlining loop of `runOnModule`: one element of `hosts` is consumed per iteration; the
loop ends when its condition fails, at a `break`, or when `hosts` is used up. -/
def inliningLoop (S : Statics) (FDIDepth : Nat) : List Host → Run → Option Run
  | [], r => some r
  | host :: rest, r =>
    if !r.error && decide (r.budget > 0) && decide (r.inl._candidates.length > 0) then
      match iteration S FDIDepth host r with
      | none => none
      | some (r1, true) => some r1
      | some (r1, false) => inliningLoop S FDIDepth rest r1
    else some r

end FDOInliner

/-! ## Combined edge profile: files and merging (lib/Analysis/CombinedEdgeProfile.cpp) -/

/-- The macro `FP_FUDGE_EPS` of CPHistogram.h, `1.0e-100`, as an exact rational. -/
def FP_FUDGE_EPS : ℚ := 1 / 10 ^ 100

namespace CPHistogram

/-- Modelled from the spec: `CPHistogram::nonZeroWeight()`, whose body is in CPHistogram.cpp
(not among the sources); the spec has the running statistics hold the "sum of weights" next
to the "total weight including implicit zeros", and the file format store it as the "nonzero
weight sum". -/
def nonZeroWeight (h : CPHistogram) : ℚ := h._stats.sumOfWeights

end CPHistogram

namespace CombinedProfile

/-- Method `size`: `_histograms.size()`. -/
def size : CombinedProfile → Nat
  | edge p => p._histograms.length
  | path p => p._histograms.length
  | call p => p._histograms.length

end CombinedProfile

namespace CombinedEdgeProfile

/-- The first loop of `serialize`: the number of histograms with
`nonZeroWeight() > FP_FUDGE_EPS`. The result is `none` when a slot is `NULL` (the source
dereferences it unchecked). -/
def countNonZero : CPHistVec → Option Nat
  | [] => some 0
  | none :: _ => none
  | some h :: rest =>
    (countNonZero rest).map (fun n => if h.nonZeroWeight > FP_FUDGE_EPS then n + 1 else n)

/-- The second loop of `serialize`, from slot `i` on: a histogram with
`nonZeroWeight() < FP_FUDGE_EPS` is skipped, every other one is written under its index. The
result is whether every write succeeded, the items written and their count; `none` when a
slot is `NULL`. -/
def serializeHists (c : HistCodec) : Nat → CPHistVec → Option (Bool × List Item × Nat)
  | _, [] => some (true, [], 0)
  | _, none :: _ => none
  | i, some h :: rest =>
    if h.nonZeroWeight < FP_FUDGE_EPS then serializeHists c (i + 1) rest
    else
      match c.hser i h with
      | none => some (false, [], 0)
      | some bytes =>
        match serializeHists c (i + 1) rest with
        | none => none
        | some (ok, out, n) => some (ok, bytes ++ out, n + 1)

/-- Method `serialize` on a stream that accepts every write: the items written and the
returned count (0 when a histogram could not be written). `ptype` is the value of the
enumerator `CombinedEdgeInfo`. The result is `none` when the run is not defined. -/
def serialize (c : HistCodec) (ptype : Nat) (p : CombinedEdgeProfile) : Option (List Item × Nat) :=
  match countNonZero p._histograms with
  | none => none
  | some edgeCount =>
    match serializeHists c 0 p._histograms with
    | none => none
    | some (ok, out, written) =>
      some (Item.u32 ptype :: Item.f64 p._weight :: Item.u32 edgeCount :: Item.u32 p._bincount ::
              out,
            if ok then written else 0)

/-- The loop `while( edgeCount-- )` of `deserialize`: the flag is `false` when a histogram
could not be read (negative index); the result is `none` when the returned index is outside
`_histograms` (the source stores through it unchecked). -/
def deserializeLoop (c : HistCodec) (bincount : Nat) (w : ℚ) :
    Nat → CPHistVec → List Item → Option (Bool × CPHistVec × List Item)
  | 0, hs, file => some (true, hs, file)
  | k + 1, hs, file =>
    let r := c.hdeser bincount w file
    if r.1 < 0 then some (false, hs, r.2.2)
    else if r.1.toNat < hs.length then
      deserializeLoop c bincount w k (hs.set r.1.toNat (some r.2.1)) r.2.2
    else none

/-- Method `deserialize`, called after the kind tag has been read: the returned flag, the
profile afterwards and the unread items; `none` when the run is not defined. -/
def deserialize (c : HistCodec) (p : CombinedEdgeProfile) (file : List Item) :
    Option (Bool × CombinedEdgeProfile × List Item) :=
  match readF64 file with
  | none => some (false, p, file)
  | some (w, file1) =>
    let p1 : CombinedEdgeProfile := { p with _weight := w }
    match readU32 file1 with
    | none => some (false, p1, file1)
    | some (edgeCount, file2) =>
      match readU32 file2 with
      | none => some (false, p1, file2)
      | some (b, file3) =>
        let p2 : CombinedEdgeProfile := { p1 with _bincount := b }
        match deserializeLoop c b w edgeCount p2._histograms file3 with
        | none => none
        | some (false, hs, rest) => some (false, { p2 with _histograms := hs }, rest)
        | some (true, hs, rest) =>
          -- allocate any missing histograms
          some (true, { p2 with _histograms := hs.map (fun o => some (o.getD CPHistogram.empty)) },
                rest)

/-- The read `(*cp)[i]` of `buildFromList` on a listed profile: `operator[]` allocates the slot
when it is `NULL`; `none` when the index is outside the vector. -/
def histogramAt (cp : CombinedEdgeProfile) (index : Nat) : Option CPHistogram :=
  match cp._histograms[index]? with
  | none => none
  | some o => some (o.getD CPHistogram.empty)

/-- The inner loop of `buildFromList` over the listed profiles for edge `i`: the histogram of
every listed edge profile that answers `nonZero()` is pushed onto `cphl`. `nonZero` is the
method `CPHistogram::nonZero()`, whose body is in CPHistogram.cpp. -/
def collectEdge (nonZero : CPHistogram → Bool) (i : Nat) :
    CPList → List CPHistogram → Option (List CPHistogram)
  | [], cphl => some cphl
  | cp :: rest, cphl =>
    match cp with
    | CombinedProfile.edge q =>
      match histogramAt q i with
      | none => none
      | some h => collectEdge nonZero i rest (if nonZero h then cphl ++ [h] else cphl)
    | _ => collectEdge nonZero i rest cphl

/-- The loop "Merge each set of histograms" of `buildFromList`, from edge `i` on, `k` edges
left. `mkHist` is the constructor `CPHistogram(bincount, totalweight, CPHistogramList&)`, whose
body is in CPHistogram.cpp. -/
def mergeLoop (mkHist : Nat → ℚ → List CPHistogram → CPHistogram) (nonZero : CPHistogram → Bool)
    (list : CPList) (bincount : Nat) (w : ℚ) : Nat → Nat → CPHistVec → Option CPHistVec
  | 0, _, hs => some hs
  | k + 1, i, hs =>
    match collectEdge nonZero i list [] with
    | none => none
    | some cphl => mergeLoop mkHist nonZero list bincount w k (i + 1)
        (hs.set i (some (mkHist bincount w cphl)))

/-- Method `buildFromList`: the returned flag and the receiver afterwards; `none` when a listed
profile is read outside its vector. The slots that `operator[]` creates in the listed profiles
are not returned. -/
def buildFromList (mkHist : Nat → ℚ → List CPHistogram → CPHistogram)
    (nonZero : CPHistogram → Bool) (self : CombinedEdgeProfile) (list : CPList) (binCount : Nat) :
    Option (Bool × CombinedEdgeProfile) :=
  let bc := if binCount = 0 then CombinedProfile.calcBinCount ProfilingType.CombinedEdgeInfo list
            else binCount
  let s1 : CombinedEdgeProfile := { self with _bincount := bc, _weight := 0 }
  if list.length = 0 then some (true, s1)
  else
    let edgeCount :=
      match list.find? (fun cp => cp.getProfilingType == ProfilingType.CombinedEdgeInfo) with
      | some cp => cp.size
      | none => 0
    -- delete current contents (if any), reallocate to correct size
    let cleared : CPHistVec := resizeVec (s1._histograms.map (fun _ => none)) edgeCount
    -- update the trial count
    let w := list.foldl (fun w cp =>
      match cp with
      | CombinedProfile.edge q => w + q._weight
      | _ => w) s1._weight
    match mergeLoop mkHist nonZero list bc w edgeCount 0 cleared with
    | none => none
    | some hs => some (true, { s1 with _weight := w, _histograms := hs })

end CombinedEdgeProfile

/-! ## Depth in the dominator tree (lib/Analysis/EdgeDominatorTree.cpp) -/

namespace EdgeDominatorTree

/-- The `while(oldDom != newDom)` loop of `getDepth`. The fuel bounds the number of iterations;
the result is `none` when a dominator index that the loop reads is not defined, or when the
fuel runs out before the loop ends. -/
def getDepthLoop (t : EdgeDominatorTree) : Nat → Nat → EdgeIndex → EdgeIndex → Option Nat
  | 0, _, _, _ => none
  | fuel + 1, depth, oldDom, newDom =>
    if oldDom = newDom then some depth
    else
      match t.getDominatorIndex newDom with
      | none => none
      | some d => getDepthLoop t fuel ((depth + 1) % 2 ^ 32) newDom d

/-- Method `getDepth`. -/
def getDepth (t : EdgeDominatorTree) (fuel : Nat) (e : EdgeIndex) : Option Nat :=
  match t.getDominatorIndex e with
  | none => none
  | some newDom => getDepthLoop t fuel 0 e newDom

end EdgeDominatorTree

/-! ## Merging as the specification words it -/

namespace CombinedProfile

/-- The maximum `getBinCount()` over the listed profiles of kind `ptype` (0 when there is
none). -/
def maxBinCount (ptype : ProfilingType) : CPList → Nat
  | [] => 0
  | cp :: rest =>
    if cp.getProfilingType = ptype then max cp.getBinCount (maxBinCount ptype rest)
    else maxBinCount ptype rest

end CombinedProfile

namespace CombinedEdgeProfile

/-- The listed edge profiles, in list order. -/
def edgeProfiles : CPList → List CombinedEdgeProfile
  | [] => []
  | CombinedProfile.edge q :: rest => q :: edgeProfiles rest
  | _ :: rest => edgeProfiles rest

/-- The histograms `i` of the listed edge profiles that are `nonZero`, in list order; a `NULL`
slot counts as the empty histogram that `operator[]` puts there. -/
def constituents (nonZero : CPHistogram → Bool) (i : Nat) (list : CPList) : List CPHistogram :=
  ((edgeProfiles list).map (fun q => (q._histograms.getD i none).getD CPHistogram.empty)).filter
    nonZero

end CombinedEdgeProfile

namespace CombinedEdgeProfile

/-- The (returned index, histogram) pairs of the first `k` histogram reads of
`deserialize`, in reading order. -/
def readSequence (c : HistCodec) (bincount : Nat) (w : ℚ) :
    Nat → List Item → List (Int × CPHistogram)
  | 0, _ => []
  | k + 1, file =>
    let r := c.hdeser bincount w file
    (r.1, r.2.1) :: readSequence c bincount w k r.2.2

/-- The histogram read last with location id `i`, if any. -/
def lastRead (i : Nat) : List (Int × CPHistogram) → Option CPHistogram
  | [] => none
  | r :: rest =>
    match lastRead i rest with
    | some h => some h
    | none => if r.1 = (i : Int) then some r.2 else none

end CombinedEdgeProfile

/-! ## The shape of the edge map -/

namespace CFGEdgeDomTree

/-- An edge node without its dominance fields: what the constructor and `buildGraph` fix. -/
def shapeOnly (e : EdgeNode) : EdgeNode := { e with domChildren := [], domIndex := none }

/-- An edge node without its dominance fields, except that an edge without parents keeps its
`domIndex`. -/
def strip (e : EdgeNode) : EdgeNode :=
  { e with domChildren := [], domIndex := if e.parents = [] then e.domIndex else none }

/-- No edge stored under index `c` is without parents. -/
def NotRoot (edges : EdgeNodeMap) (c : EdgeIndex) : Prop :=
  ∀ e ∈ edges, e.index = c → e.parents ≠ []

/-- Every index in a `children` set is the index of edges that have a parent. -/
def ChildrenHaveParents (edges : EdgeNodeMap) : Prop :=
  ∀ n ∈ edges, ∀ c ∈ n.children, NotRoot edges c

/-- The (source, target) pairs of the edges that a function contributes, as the specification
lists them: none for a declaration; otherwise the synthetic entry edge, then one edge per
(block, successor) in block order. -/
def specEdges (F : IRFunction) : List (BlockRef × BlockRef) :=
  if F.isDeclaration then []
  else (none, some 0) ::
    (F.blocks.enum.map (fun bs => bs.2.map (fun s => ((some bs.1 : BlockRef), (some s : BlockRef))))).flatten

/-- The number of edges that a function contributes: 1 plus the number of successors of its
blocks, and 0 for a declaration. -/
def specEdgeCount (F : IRFunction) : Nat :=
  if F.isDeclaration then 0 else 1 + (F.blocks.map List.length).sum

end CFGEdgeDomTree

namespace CFGEdgeDomTree

/-- The (block, successor) pairs of a function in block order, as the constructor visits
them. -/
def blockPairs (F : IRFunction) : List (Nat × Nat) :=
  (F.blocks.enum.map (fun bs => bs.2.map (fun s => (bs.1, s)))).flatten

end CFGEdgeDomTree

/-! ## Dominance as the specification words it -/

namespace CFGEdgeDomTree

/-- Spec-side definition, not a translation of source code: one round of following
parent-to-child links between non-back edges from the edges in `seen`, never entering `avoid`. -/
def specReachStep (s : State) (avoid : Option EdgeIndex) (seen : IndexSet) : IndexSet :=
  seen.foldl (fun acc p =>
    match edgeFind s._edges p with
    | none => acc
    | some n =>
      IndexSet.insertAll
        (n.children.filter (fun c => IndexSet.mem c s._nonBackEdges && some c != avoid)) acc)
    seen

/-- Spec-side definition, not a translation of source code: the non-back edges that a path of
non-back edges starting at `entry` reaches without passing through `avoid`. -/
def specReach (s : State) (entry : EdgeIndex) (avoid : Option EdgeIndex) : IndexSet :=
  if IndexSet.mem entry s._nonBackEdges && some entry != avoid then
    Nat.iterate (specReachStep s avoid) s._edges.length [entry]
  else []

/-- Spec-side definition, not a translation of source code: `d` dominates `e` in the graph of
non-back edges when every path of non-back edges from `entry` to `e` passes through `d`, that
is, when `e` is reachable but no longer so once `d` is taken out. -/
def specDominates (s : State) (entry d e : EdgeIndex) : Bool :=
  IndexSet.mem e (specReach s entry none) && !IndexSet.mem e (specReach s entry (some d))

end CFGEdgeDomTree

/-! ## Example inputs -/

namespace CPCallRecord

/-- The metric `benefitMetric`. -/
def benefitMetric : FDOInlineMetric := fun _ _ benefit => benefit

/-- Example values for the constants of `inlineWeights`. -/
def exampleWeights : InlineWeights :=
  { callReturn := 2, instr := 1, branch := 1, icall := 1, alloca := 1, oneblock := 1 }

/-- Example statics: the `benefit` metric is selected. -/
def exampleStatics : Statics :=
  { _metric := some benefitMetric, weights := exampleWeights, cross := fun a _ => a,
    defaultMval := 0 }

/-- An attribute cache with one function, number 1, of size 8. -/
def exampleAttrs : FuncAttrMap := [(1, { ZeroFunctionAttr with size := 8, startSize := 8 })]

/-- A record for a call of function 1 from function 0 with one actual parameter that is
neither a constant nor an alloca. -/
def exampleRecord : CPCallRecord :=
  CPCallRecord.new { inst := 10, caller := 0, callee := some 1, args := [ArgKind.other] }
    none 0 0 0

end CPCallRecord

namespace FDOInliner

/-- A record for the call instruction `inst` from function `caller` to function `callee`, with
the given metric value and ignored flag. -/
def mkRecord (inst caller callee : Nat) (mval : ℚ) (ignored : Bool) : CPCallRecord :=
  { CPCallRecord.new { inst := inst, caller := caller, callee := some callee, args := [] }
      none mval inst 0 with ignored := ignored }

/-- An inliner with two candidates (call sites 10 and 11) and one ignored record (call site
12). -/
def exampleInliner : FDOInliner :=
  { _callers := [(1, [10]), (2, [11, 12])]
    _candidates := [{ addr := 0, record := mkRecord 10 0 1 (1 / 2) false },
                    { addr := 1, record := mkRecord 11 0 2 2 false }]
    _records := [(10, 0), (11, 1), (12, 2)]
    _ignore := [{ addr := 2, record := mkRecord 12 1 2 0 true }]
    _removed := []
    _funcAttr := []
    CurrID := 13
    nextAddr := 3 }

/-- A function body of one block with `n` counted instructions that are not calls. -/
def plainBody (n : Nat) : FuncBody :=
  { hasAddressTaken := false, arg_size := 0
    blocks := [{ indirectBr := false, insts := List.replicate n InstKind.plain, numSuccessors := 0 }] }

/-- Attributes of a function of the given size and number of formal arguments. -/
def attrOfSize (size args : Nat) : FunctionAttr :=
  { ZeroFunctionAttr with size := size, startSize := size, args := args
                          argImpact := List.replicate args ZeroArgImpact }

/-- A run of the loop with a given inliner and budget, all counters at their initial values. -/
def startRun (inl : FDOInliner) (budget : Int) : Run :=
  { inl := inl, budget := budget, inlineCount := 0, inlineFail := 0, neverInline := 0,
    candConvert := 0, missingRecord := 0, tooDeep := 0, tooBig := 0, newCand := 0,
    newIgnore := 0, newNotCand := 0, endSkip := 0, deadCalls := 0, didTry := true,
    error := false, inlineAttempts := [] }

/-- A host that inlines every call site it is given, reports no inlined call sites and shows
function `caller` with a body of `size` plain instructions afterwards. -/
def plainHost (caller size : Nat) : Host :=
  { doesNotReturn := fun _ => false
    calcImpact := fun _ _ => ZeroArgImpact
    inlineFunction := fun _ => true
    inlinedCalls := []
    bodyOf := fun f => if f = caller then some (plainBody size) else none
    instsOf := fun _ => []
    nameOf := fun _ => ""
    rand := fun _ => 0
    stackDepth := 100 }

/-- A module of four functions, `main` (0), `f` (1), `g` (2) and `h` (3), of sizes 5, 3, 4 and
4, with the call sites 10 (`main` calls `f`), 11 (`f` calls `g` with four arguments) and 12
(`main` calls `h`). Under `exampleStatics` the metric values are 1, 2 and 2/3, and
`_candidates` is sorted ascending by them. -/
def chainInliner : FDOInliner :=
  { _callers := [(1, [10]), (2, [11]), (3, [12])]
    _candidates :=
      [{ addr := 0, record := mkRecord 12 0 3 (2 / 3) false },
       { addr := 1, record := mkRecord 10 0 1 1 false },
       { addr := 2, record :=
          { mkRecord 11 1 2 2 false with
            cs := { inst := 11, caller := 1, callee := some 2,
                    args := [ArgKind.other, ArgKind.other, ArgKind.other, ArgKind.other] } } }]
    _records := [(10, 1), (11, 2), (12, 0)]
    _ignore := []
    _removed := []
    _funcAttr := [(0, attrOfSize 5 0), (1, attrOfSize 3 0), (2, attrOfSize 4 4), (3, attrOfSize 4 0)]
    CurrID := 13
    nextAddr := 3 }

/-- A module of two functions, `main` (0) of size 2 and `foo` (1) of size 1 (a lone return),
with the call site 10 (`main` calls `foo`), whose metric value under `exampleStatics` is 2. -/
def emptyCalleeInliner : FDOInliner :=
  { _callers := [(1, [10])]
    _candidates := [{ addr := 0, record := mkRecord 10 0 1 2 false }]
    _records := [(10, 0)]
    _ignore := []
    _removed := []
    _funcAttr := [(0, attrOfSize 2 0), (1, attrOfSize 1 0)]
    CurrID := 11
    nextAddr := 1 }

/-- The run after one iteration of the loop on `chainInliner` with budget 100, the host
inlining `g` into `f`, which then has 6 instructions. -/
def chainRun1 : Run :=
  ((iteration CPCallRecord.exampleStatics 0 (plainHost 1 6) (startRun chainInliner 100)).getD
    (startRun chainInliner 100, true)).1

/-- The run after one iteration of the loop on `emptyCalleeInliner` with budget 20, the host
inlining `foo` into `main`, which then has 1 instruction. -/
def emptyCalleeRun1 : Run :=
  ((iteration CPCallRecord.exampleStatics 0 (plainHost 0 1) (startRun emptyCalleeInliner 20)).getD
    (startRun emptyCalleeInliner 20, true)).1

end FDOInliner

namespace CombinedPathProfile

/-- Reading `k` bin weights. -/
def readBins : Nat → List Item → Option (List ℚ × List Item)
  | 0, file => some ([], file)
  | k + 1, file =>
    match readF64 file with
    | none => none
    | some (x, file1) =>
      match readBins k file1 with
      | none => none
      | some (xs, file2) => some (x :: xs, file2)

/-- An example of a histogram codec, with the field order of the combined profile file format:
location id, bin count, minimum, maximum, nonzero weight sum, then the bin weights. Reading
sets the total weight from the argument and returns -1 when the items run out. -/
def exampleCodec : HistCodec where
  hser := fun id h =>
    some ([Item.u32 id, Item.u32 h._bins.length, Item.f64 h._min, Item.f64 h._max,
           Item.f64 h._stats.sumOfWeights] ++ h._bins.map Item.f64)
  hdeser := fun _ w file =>
    match file with
    | Item.u32 id :: Item.u32 bc :: Item.f64 mn :: Item.f64 mx :: Item.f64 sw :: file1 =>
      match readBins bc file1 with
      | some (bins, file2) =>
        (toInt32 id,
         { _stats := { sumOfSquares := 0, sumOfValues := 0, sumOfWeights := sw, totalWeight := w }
           _min := mn, _max := mx, _bincount := bc, _bins := bins, _addList := [] },
         file2)
      | none => (-1, CPHistogram.empty, [])
    | _ => (-1, CPHistogram.empty, [])

/-- A built point histogram at 1/2 carrying weight 2 of a total of 2. -/
def pointHistogram : CPHistogram :=
  { _stats := { sumOfSquares := 0, sumOfValues := 0, sumOfWeights := 2, totalWeight := 2 }
    _min := 1 / 2, _max := 1 / 2, _bincount := 1, _bins := [2], _addList := [] }

/-- A path profile of two trials with the paths 0 and 3 of function 1, as `addProfile` lays
it out (slot 0 stays `NULL`). -/
def twoPathProfile : CombinedPathProfile :=
  { _weight := 2, _bincount := 1
    _histograms := [none, some pointHistogram, some pointHistogram]
    _functions := [(1, [(0, 1), (3, 2)])]
    _functionRef := [] }

/-- A path profile that holds a histogram for path number `2^32 - 1` of function 1, as a call
of `getHistogram(1, 4294967295)` followed by a build leaves it. -/
def lastPathProfile : CombinedPathProfile :=
  { _weight := 2, _bincount := 1
    _histograms := [none, some pointHistogram]
    _functions := [(1, [(4294967295, 1)])]
    _functionRef := [] }

end CombinedPathProfile

namespace CFGEdgeDomTree

/-- A function with an irreducible loop: block 0 branches to blocks 1 and 2,
block 1 jumps to block 3, block 2 jumps to block 3 and block 3 jumps back to
block 2. Its edges are 0: entry, 1: 0→1, 2: 0→2, 3: 1→3, 4: 2→3, 5: 3→2. -/
def twoEntryLoop : IRFunction := { isDeclaration := false, blocks := [[1, 2], [3], [3], [2]] }

/-- A function in which the loop between blocks 2 and 3 is entered from block 0 (at block 2) and
from blocks 1 and 4 (at block 3). Its edges are 0: entry, 1: 0→1, 2: 0→2, 3: 1→3, 4: 1→4,
5: 2→3, 6: 3→2, 7: 4→3. -/
def threeEntryLoop : IRFunction :=
  { isDeclaration := false, blocks := [[1, 2], [3, 4], [3], [2], [3]] }

end CFGEdgeDomTree

namespace CFGEdgeDomTree

/-- The diamond: block 0 (A) branches to 1 (B) and 2 (C), both branch to 3 (D), which
returns. -/
def diamond : IRFunction := { isDeclaration := false, blocks := [[1, 2], [3], [3], []] }

/-- A function whose entry block returns and whose second block, which nothing enters from
outside, branches to itself. -/
def unreachableLoop : IRFunction := { isDeclaration := false, blocks := [[], [1]] }

end CFGEdgeDomTree

namespace CombinedEdgeProfile

/-- The tree of a module with one function whose entry block branches to two returning blocks:
three edges, the entry edge dominating both branches. -/
def branchEdt : EdgeDominatorTree := EdgeDominatorTree.construct [⟨false, [[1, 2], [], []]⟩]

/-- A freshly constructed edge profile for `branchEdt`: one `NULL` slot per edge. -/
def branchProfile0 : CombinedEdgeProfile :=
  { _weight := 0, _bincount := 0, _histograms := [none, none, none] }

/-- The profile `branchProfile0` after the counters `[10, 7, 3]` have been added. -/
def branchProfile1 : CombinedEdgeProfile :=
  { _weight := 1, _bincount := 0
    _histograms := [some (CPHistogram.empty.addToList 1),
                    some (CPHistogram.empty.addToList (7 / 10)),
                    some (CPHistogram.empty.addToList (3 / 10))] }

end CombinedEdgeProfile

end Cmbprof

namespace Cmbprof

namespace CombinedEdgeProfile

/-- The tree of a function with a loop: block 0 branches to block 1, which branches to itself
or to the returning block 2. Edges: 0 entry, 1 (0→1), 2 (1→1), 3 (1→2). -/
def loopEdt : EdgeDominatorTree := EdgeDominatorTree.construct [⟨false, [[1], [1, 2], []]⟩]

/-- A freshly constructed edge profile for `loopEdt`: one `NULL` slot per edge. -/
def loopProfile0 : CombinedEdgeProfile :=
  { _weight := 0, _bincount := 0, _histograms := [none, none, none, none] }

/-- The edge counters of one run of the function of `loopEdt` in which the loop edge is taken
9 times: every block is entered as often as it is left. -/
def loopCounters : List Nat := [1, 1, 9, 1]

end CombinedEdgeProfile

end Cmbprof

namespace Cmbprof

namespace CombinedEdgeProfile

/-- An example stand-in for the constructor `CPHistogram(bincount, totalweight, hl)`: it keeps
the bin count and the total weight and sums the nonzero weights of the constituents. -/
def exampleMkHist : Nat → ℚ → List CPHistogram → CPHistogram := fun b w hl =>
  { CPHistogram.empty with
    _bincount := b
    _stats := { sumOfSquares := 0, sumOfValues := 0
                sumOfWeights := (hl.map CPHistogram.nonZeroWeight).sum, totalWeight := w } }

/-- An example stand-in for `CPHistogram::nonZero()`: the nonzero weight is above the
tolerance. -/
def exampleNonZero : CPHistogram → Bool := fun h => decide (h.nonZeroWeight > FP_FUDGE_EPS)

/-- An edge profile of two edges and of weight 2, built with one bin; the second slot is
`NULL`. -/
def mergeA : CombinedEdgeProfile :=
  { _weight := 2, _bincount := 1, _histograms := [some CombinedPathProfile.pointHistogram, none] }

/-- An edge profile of two edges and of weight 3, built with one bin; the second histogram is
empty. -/
def mergeB : CombinedEdgeProfile :=
  { _weight := 3, _bincount := 1
    _histograms := [some CombinedPathProfile.pointHistogram, some CPHistogram.empty] }

/-- A list of two edge profiles with a path profile between them. -/
def mergeList : CPList :=
  [CombinedProfile.edge mergeA, CombinedProfile.path CombinedPathProfile.twoPathProfile,
   CombinedProfile.edge mergeB]

/-- A receiver of `buildFromList` that holds data of an earlier use. -/
def mergeReceiver : CombinedEdgeProfile :=
  { _weight := 7, _bincount := 5, _histograms := [some CPHistogram.empty, none, none] }

end CombinedEdgeProfile

end Cmbprof

namespace Cmbprof

namespace CombinedEdgeProfile

/-- A built point histogram at 1/2 whose nonzero weight is exactly `FP_FUDGE_EPS`. -/
def boundaryHistogram : CPHistogram :=
  { _stats := { sumOfSquares := 0, sumOfValues := 0, sumOfWeights := FP_FUDGE_EPS,
                totalWeight := 1 }
    _min := 1 / 2, _max := 1 / 2, _bincount := 1, _bins := [FP_FUDGE_EPS], _addList := [] }

/-- An edge profile of weight 1 whose only histogram is `boundaryHistogram`. -/
def boundaryProfile : CombinedEdgeProfile :=
  { _weight := 1, _bincount := 1, _histograms := [some boundaryHistogram] }

/-- An edge profile of two slots in use: the first slot is `NULL`, the second holds a built
histogram. -/
def usedProfile : CombinedEdgeProfile :=
  { _weight := 2, _bincount := 1, _histograms := [none, some CombinedPathProfile.pointHistogram] }

/-- The body of a combined edge profile (after the kind tag) of weight 3 and bin count 1 with
two histograms, both under location id 0: a point histogram at 1/4 of weight 1, then one at
3/4 of weight 3. -/
def twiceZeroFile : List Item :=
  [Item.f64 3, Item.u32 2, Item.u32 1,
   Item.u32 0, Item.u32 1, Item.f64 (1 / 4), Item.f64 (1 / 4), Item.f64 1, Item.f64 1,
   Item.u32 0, Item.u32 1, Item.f64 (3 / 4), Item.f64 (3 / 4), Item.f64 3, Item.f64 3]

end CombinedEdgeProfile

end Cmbprof

namespace Cmbprof

namespace FDOInliner

/-- A host like `plainHost 1 6` that refuses to inline every call site it is given. -/
def refusingHost : Host := { plainHost 1 6 with inlineFunction := fun _ => false }

/-- The record at the back of `_candidates` of `chainInliner`: call site 11 (`f` calls `g`). -/
def chainLast : ListNode :=
  { addr := 2, record :=
      { mkRecord 11 1 2 2 false with
        cs := { inst := 11, caller := 1, callee := some 2,
                args := [ArgKind.other, ArgKind.other, ArgKind.other, ArgKind.other] } } }

end FDOInliner

end Cmbprof

namespace Cmbprof

namespace CFGEdgeDomTree

/-- A function with a block that nothing enters: blocks 0 and 1 both branch to the returning
block 2, and block 1 has no predecessor. -/
def twoRoots : IRFunction := { isDeclaration := false, blocks := [[2], [2], []] }

end CFGEdgeDomTree

end Cmbprof

namespace Cmbprof

namespace CPCallRecord

/-- An attribute cache in which function 1 has 2147483648 instructions and one branching
block. -/
def hugeCalleeAttrs : FuncAttrMap :=
  [(1, { ZeroFunctionAttr with size := 2147483648, startSize := 2147483648, branches := 1 })]

end CPCallRecord

end Cmbprof

namespace Cmbprof

namespace CPCallRecord

/-- A defined function of two blocks: the first holds one counted instruction and ends in a
conditional branch (two successors), the second holds one counted instruction and returns. -/
def branchingBody : FuncBody :=
  { hasAddressTaken := false, arg_size := 0
    blocks := [{ indirectBr := false, insts := [InstKind.plain], numSuccessors := 2 },
               { indirectBr := false, insts := [InstKind.plain], numSuccessors := 0 }] }

/-- A record for a call of function 1 from function 0 without actual parameters. -/
def branchingCall : CPCallRecord :=
  CPCallRecord.new { inst := 10, caller := 0, callee := some 1, args := [] } none 0 0 0

end CPCallRecord

end Cmbprof

namespace Cmbprof

/-- The queries of `CPHistogram` that the simple point metrics call; their bodies are in
CPHistogram.cpp. -/
structure HistQueries where
  mean : CPHistogram → ℚ
  min : CPHistogram → ℚ
  max : CPHistogram → ℚ
  coverage : CPHistogram → ℚ

namespace CPCallRecord

/-- The metric `meanMetric` (dereference of `rec.cphist`). -/
def meanMetric (Q : HistQueries) : FDOInlineMetric := fun _ rec benefit =>
  let mean := Q.mean rec.cphist
  let coverage := Q.coverage rec.cphist
  mean * benefit * coverage

/-- The metric `maxMetric`. -/
def maxMetric (Q : HistQueries) : FDOInlineMetric := fun _ rec benefit =>
  Q.max rec.cphist * benefit

/-- The metric `minMetric`. -/
def minMetric (Q : HistQueries) : FDOInlineMetric := fun _ rec benefit =>
  let min := Q.min rec.cphist
  let coverage := Q.coverage rec.cphist
  min * benefit * coverage

/-- Modelled from the spec: the histogram queries, whose bodies are in CPHistogram.cpp (not
among the sources). The spec has "`coverage = nonzeroWeight / totalWeight`" and a mean whose
"denominator is nonzero weight only"; minimum and maximum are the tracked extremes. -/
def specQueries : HistQueries :=
  { mean := fun h => h._stats.sumOfValues / h._stats.sumOfWeights
    min := fun h => h._min
    max := fun h => h._max
    coverage := fun h => h._stats.sumOfWeights / h._stats.totalWeight }

/-- The histogram of the samples `(0.1,1), (0.5,1), (0.5,2), (0.9,1), (0.0,3)` in five bins:
total weight 8, nonzero weight 5, extremes 0.1 and 0.9. -/
def partlyCoveredHistogram : CPHistogram :=
  { _stats := { sumOfSquares := 157 / 100, sumOfValues := 5 / 2, sumOfWeights := 5,
                totalWeight := 8 }
    _min := 1 / 10, _max := 9 / 10, _bincount := 5, _bins := [1, 0, 3, 0, 1], _addList := [] }

/-- A record for a call of function 1 from function 0 with the histogram
`partlyCoveredHistogram`. -/
def partlyCoveredRecord : CPCallRecord :=
  CPCallRecord.new { inst := 10, caller := 0, callee := some 1, args := [] }
    (some partlyCoveredHistogram) 0 0 0

end CPCallRecord

end Cmbprof

namespace Cmbprof

/-- A value of the type `double` as an entry of the option list `FDIQList`: a number (taken as
an exact rational), an infinity, or NaN. The option parser reads an entry with `strtod`, which
accepts `inf` and `nan`. -/
inductive DoubleValue where
  | num (q : ℚ)
  | inf (negative : Bool)
  | nan
deriving Repr, DecidableEq

namespace DoubleValue

/-- Comparison `d < x` of a `double` with a number; false when `d` is NaN. -/
def lt (d : DoubleValue) (x : ℚ) : Bool :=
  match d with
  | num q => decide (q < x)
  | inf negative => negative
  | nan => false

end DoubleValue

namespace CPCallRecord

end CPCallRecord

end Cmbprof

namespace Cmbprof

namespace FDOInliner

/-- Method `computeBudget(size)`. `FDIBudget` is the value of the option, an `unsigned`;
`sqrt` is the library function; doubles are exact rationals. The conversion `(int)floor(x)`
has no defined result (`none`) when the value is outside the range of `int`. -/
def computeBudget (sqrt : ℚ → ℚ) (FDIBudget : Nat) (size : Int) : Option Int :=
  let b : Int := toInt32 FDIBudget
  if FDIBudget = 0 then some (2 ^ 31 - 1)
  else if FDIBudget = 1 then
    let minPct : ℚ := 5 / 100
    let maxPct : ℚ := 10
    let maxSize : ℚ := 425000
    let minSize : ℚ := 5000
    let scale : ℚ := maxPct / (1 / sqrt minSize - 1 / sqrt maxSize)
    let g0 : ℚ :=
      if (size : ℚ) ≥ maxSize then minPct
      else if (size : ℚ) ≤ minSize then maxPct
      else scale * (1 / sqrt (size : ℚ) - 1 / sqrt maxSize) + minPct
    let g1 : ℚ := if g0 < minPct then minPct else g0
    let g2 : ℚ := if g1 > maxPct then maxPct else g1
    let fl : Int := ⌊g2 * (size : ℚ)⌋
    if -2 ^ 31 ≤ fl ∧ fl < 2 ^ 31 then some fl else none
  else some b

/-- The clamp of `x` to the interval from `lo` to `hi`. -/
def clamp (x lo hi : ℚ) : ℚ := max lo (min x hi)

/-- The growth factor of the automatic budget as the specification words it:
`clamp(scale*(1/sqrt(s) - 1/sqrt(425000)) + 0.05, 0.05, 10.0)` with
`scale = 10.0/(1/sqrt(5000) - 1/sqrt(425000))`. -/
def autoGrowth (sqrt : ℚ → ℚ) (s : Int) : ℚ :=
  clamp (10 / (1 / sqrt 5000 - 1 / sqrt 425000) * (1 / sqrt (s : ℚ) - 1 / sqrt 425000) + 5 / 100)
    (5 / 100) 10

/-- A square root function on the rationals for examples: the integer square root of the
argument scaled by 10^12, scaled back by 10^6 (the square root rounded down to six decimal
places). -/
def approxSqrt (x : ℚ) : ℚ := (Nat.sqrt (⌊x * 10 ^ 12⌋).toNat : ℚ) / 10 ^ 6

end FDOInliner

end Cmbprof

namespace Cmbprof

namespace FDOInliner

/-- A call instruction of a defined function, as `isFDOInliningCandidate` reads it. -/
def callInst (inst caller callee : Nat) : InstInfo :=
  { isCall := true, isIntrinsic := false, calleeIsDeclaration := false
    cs := { inst := inst, caller := caller, callee := some callee, args := [] } }

/-- A module of two functions, `main` (0) of size 3 and `f` (1) of size 4, that call each
other: call site 10 (`main` calls `f`) and call site 11 (`f` calls `main`), the latter with the
larger metric value. -/
def entryInliner : FDOInliner :=
  { _callers := [(0, [11]), (1, [10])]
    _candidates := [{ addr := 0, record := mkRecord 10 0 1 1 false },
                    { addr := 1, record := mkRecord 11 1 0 2 false }]
    _records := [(10, 0), (11, 1)]
    _ignore := []
    _removed := []
    _funcAttr := [(0, attrOfSize 3 0), (1, attrOfSize 4 0)]
    CurrID := 12
    nextAddr := 2 }

/-- A host for `entryInliner` that inlines `main` into `f`: the copy of call site 10 in `f` is
the instruction 12, a call of `f` by itself; `f` then has 6 instructions. Function 0 is named
`main`. -/
def entryHost : Host :=
  { doesNotReturn := fun _ => false
    calcImpact := fun _ _ => ZeroArgImpact
    inlineFunction := fun _ => true
    inlinedCalls := [(callInst 12 1 1, some (callInst 10 0 1))]
    bodyOf := fun f => if f = 1 then some (plainBody 6) else none
    instsOf := fun f => if f = 0 then [callInst 10 0 1] else if f = 1 then [callInst 12 1 1] else []
    nameOf := fun f => if f = 0 then "main" else "f"
    rand := fun _ => 0
    stackDepth := 100 }

end FDOInliner

end Cmbprof

namespace Cmbprof

namespace FDOInliner

/-- The body of the loop of `functionZID` for one instruction: the zID so far and the
instruction give the zID afterwards; `none` when `_records` holds an address that no node
has. -/
def addRecordZID (s : FDOInliner) (zID : Nat) (I : InstInfo) : Option Nat :=
  if isFDOInliningCandidate (some I) then
    match mapFind I.cs.inst s._records with
    | none => some zID
    | some addr =>
      match deref s addr with
      | none => none
      | some rec => some ((zID + rec.zID) % 2 ^ 32)
  else some zID

/-- Method `functionZID(F)`: the sum, in `unsigned` arithmetic, of the `zID` of the records of
the candidate call instructions of `F` that `_records` knows. -/
def functionZID (host : Host) (s : FDOInliner) (F : FuncRef) : Option Nat :=
  (host.instsOf F).foldl (fun acc I => acc.bind (fun zID => addRecordZID s zID I)) (some 0)

/-- The body of the loop of `finalReport` for one function: the global hash so far and the
function give the global hash afterwards. `isDeclaration` tells which functions are
declarations. -/
def reportFunction (host : Host) (isDeclaration : FuncRef → Bool) (s : FDOInliner)
    (globalHash : Nat) (F : FuncRef) : Option Nat :=
  if isDeclaration F then some globalHash
  else
    match mapFind F s._funcAttr with
    | none => some globalHash
    | some attr =>
      match functionZID host s F with
      | none => none
      | some zID =>
        if ((mapFind F s._callers).getD []).length == 0 && !attr.addressTaken
            && host.nameOf F != "main" then some globalHash
        else if attr.inlineCount = 0 then some globalHash
        else some (Nat.xor globalHash zID)

/-- Method `finalReport(M)`: the global hash that it prints, `M` listing the functions of the
module. The empty entries that `operator[]` creates in `_callers` are not part of the
result. -/
def finalReport (host : Host) (isDeclaration : FuncRef → Bool) (s : FDOInliner)
    (M : List FuncRef) : Option Nat :=
  M.foldl (fun acc F => acc.bind (fun globalHash => reportFunction host isDeclaration s globalHash F))
    (some 0)

/-- Liveness as the specification words it: the function has a recorded caller, or is
address-taken, or is named `main`. -/
def isLive (host : Host) (s : FDOInliner) (F : FuncRef) : Bool :=
  decide ((mapFind F s._callers).getD [] ≠ [])
    || ((mapFind F s._funcAttr).getD ZeroFunctionAttr).addressTaken
    || host.nameOf F == "main"

/-- The XOR of a list of hashes. -/
def xorAll (l : List Nat) : Nat := l.foldl Nat.xor 0

/-- The global hash as the specification words it: the XOR, over the defined functions that
are live, of the function's zID. -/
def liveHash (host : Host) (isDeclaration : FuncRef → Bool) (s : FDOInliner)
    (M : List FuncRef) : Nat :=
  xorAll ((M.filter (fun F => !isDeclaration F && isLive host s F)).map
    (fun F => (functionZID host s F).getD 0))

/-- The functions whose zID `finalReport` folds into the hash: defined, with an attribute
record, live, and with at least one call inlined into them. -/
def isHashed (host : Host) (isDeclaration : FuncRef → Bool) (s : FDOInliner) (F : FuncRef) :
    Bool :=
  !isDeclaration F && (mapFind F s._funcAttr).isSome && isLive host s F
    && decide (((mapFind F s._funcAttr).getD ZeroFunctionAttr).inlineCount ≠ 0)

/-- A module of two functions before any inlining: `main` (0) holds the call site 10, a call
of `f` (1), whose record has the zID 5. -/
def hashInliner : FDOInliner :=
  { _callers := [(1, [10])]
    _candidates := [{ addr := 0, record := { mkRecord 10 0 1 1 false with zID := 5 } }]
    _records := [(10, 0)]
    _ignore := []
    _removed := []
    _funcAttr := [(0, attrOfSize 3 0), (1, attrOfSize 4 0)]
    CurrID := 11
    nextAddr := 1 }

/-- The host of `hashInliner`: function 0 is named `main` and holds the call instruction
10. -/
def hashHost : Host :=
  { plainHost 0 3 with
    instsOf := fun f => if f = 0 then [callInst 10 0 1] else []
    nameOf := fun f => if f = 0 then "main" else "f" }

/-- The inliner `hashInliner` with the inlined-call count of `main` set to 1. -/
def hashInliner1 : FDOInliner :=
  { hashInliner with
    _funcAttr := [(0, { attrOfSize 3 0 with inlineCount := 1 }), (1, attrOfSize 4 0)] }

end FDOInliner

end Cmbprof

namespace Cmbprof

namespace FDOInliner

/-- The invariant on `_callers` as the specification words it: for every record in
`_candidates` or `_ignore` whose call site has the callee `f`, the call site is a member of
`_callers[f]`. -/
def callersCover (s : FDOInliner) : Bool :=
  (s._candidates ++ s._ignore).all (fun n =>
    match n.record.cs.callee with
    | some f => IndexSet.mem n.record.cs.inst ((mapFind f s._callers).getD [])
    | none => true)

end FDOInliner

end Cmbprof

namespace Cmbprof

namespace FDOInliner

/-- A module of three functions, `main` (0) of size 5, `f` (1) of size 3 and `g` (2) of size
4: call site 10 (`main` calls `f`), call site 11 (`f` calls `g`) and call site 12 (`g` calls
`f`), with the metric values 2, 1 and 3. -/
def cycleInliner : FDOInliner :=
  { _callers := [(1, [10, 12]), (2, [11])]
    _candidates := [{ addr := 0, record := mkRecord 11 1 2 1 false },
                    { addr := 1, record := mkRecord 10 0 1 2 false },
                    { addr := 2, record := mkRecord 12 2 1 3 false }]
    _records := [(10, 1), (11, 0), (12, 2)]
    _ignore := []
    _removed := []
    _funcAttr := [(0, attrOfSize 5 0), (1, attrOfSize 3 0), (2, attrOfSize 4 0)]
    CurrID := 13
    nextAddr := 3 }

/-- A host for `cycleInliner` with room for `depth` nested calls of `removeDeadCallee`: it
refuses to inline call site 12 and inlines every other one; the inlining of `f` into `main`
leaves no inlined call site (the call of `g` is in a part of `f` that is not copied) and
`main` then has 6 instructions; `f` holds the call instruction 11 and `g` the call
instruction 12. -/
def cycleHost (depth : Nat) : Host :=
  { doesNotReturn := fun _ => false
    calcImpact := fun _ _ => ZeroArgImpact
    inlineFunction := fun cs => cs.inst != 12
    inlinedCalls := []
    bodyOf := fun f => if f = 0 then some (plainBody 6) else none
    instsOf := fun f =>
      if f = 1 then [callInst 11 1 2] else if f = 2 then [callInst 12 2 1] else []
    nameOf := fun f => if f = 0 then "main" else if f = 1 then "f" else "g"
    rand := fun _ => 0
    stackDepth := depth }

/-- The run after the first iteration of the loop on `cycleInliner` with budget 100, in which
the host refuses call site 12. -/
def cycleRun1 : Run :=
  ((iteration CPCallRecord.exampleStatics 0 (cycleHost 0) (startRun cycleInliner 100)).getD
    (startRun cycleInliner 100, true)).1

/-- The state after the two `operator[]` accesses at the head of `removeDeadCallee(func)`,
which create the entries of `func` in `_callers` and in the attribute cache when they are not
there. -/
def deadEntry (s : FDOInliner) (func : FuncRef) : FDOInliner :=
  { s with _callers := mapSet func ((mapFind func s._callers).getD []) s._callers
           _funcAttr := mapSet func ((mapFind func s._funcAttr).getD ZeroFunctionAttr)
             s._funcAttr }

/-- The test `fdiDead` of `removeDeadCallee(func)`. -/
def fdiDead (s : FDOInliner) (func : FuncRef) : Bool :=
  ((mapFind func s._callers).getD []).length == 0
    && !((mapFind func s._funcAttr).getD ZeroFunctionAttr).addressTaken

/-- The inliner in the second iteration of the loop on `cycleInliner` at the call
`removeDeadCallee(f)`: call site 10 has been removed from the lists and inlined, and the
attributes of `main` have been computed again. -/
def cycleState0 : FDOInliner :=
  { (removeCandidate cycleRun1.inl 1).2 with
    _funcAttr := (CPCallRecord.recalcFunctionAttr
      (creditInlining cycleRun1.inl._funcAttr 0 1) 0 (some (plainBody 6))).2
    _callers := mapSet 1 [] (removeCandidate cycleRun1.inl 1).2._callers }

/-- The inliner after the scan of `f` by `removeDeadCallee(f)` in `cycleState0`. -/
def cycleState1 : FDOInliner :=
  ((removeCallsOf [callInst 11 1 2] (deadEntry cycleState0 1)).getD (0, [], cycleState0)).2.2

/-- The inliner after the scan of `g` by `removeDeadCallee(g)` in `cycleState1`. -/
def cycleState2 : FDOInliner :=
  ((removeCallsOf [callInst 12 2 1] (deadEntry cycleState1 2)).getD (0, [], cycleState1)).2.2

/-- A module of three functions, `main` (0) of size 5, `f` (1) of size 3 and `g` (2) of size
4: call site 10 (`main` calls `f`), call site 11 (`f` calls `g`) and call site 13 (`main`
calls `g`), with the metric values 2, 3 and 1. -/
def leftoverInliner : FDOInliner :=
  { _callers := [(1, [10]), (2, [11, 13])]
    _candidates := [{ addr := 0, record := mkRecord 13 0 2 1 false },
                    { addr := 1, record := mkRecord 10 0 1 2 false },
                    { addr := 2, record := mkRecord 11 1 2 3 false }]
    _records := [(10, 1), (11, 2), (13, 0)]
    _ignore := []
    _removed := []
    _funcAttr := [(0, attrOfSize 5 0), (1, attrOfSize 3 0), (2, attrOfSize 4 0)]
    CurrID := 14
    nextAddr := 3 }

/-- A host for `leftoverInliner`: it refuses to inline call site 11 and inlines every other
one; the inlining of `f` into `main` copies call site 11 as the instruction 14 of `main`,
which then has 7 instructions; `f` holds the call instruction 11. -/
def leftoverHost : Host :=
  { doesNotReturn := fun _ => false
    calcImpact := fun _ _ => ZeroArgImpact
    inlineFunction := fun cs => cs.inst != 11
    inlinedCalls := [(callInst 14 0 2, some (callInst 11 1 2))]
    bodyOf := fun f => if f = 0 then some (plainBody 7) else none
    instsOf := fun f =>
      if f = 0 then [callInst 14 0 2, callInst 13 0 2] else if f = 1 then [callInst 11 1 2] else []
    nameOf := fun f => if f = 0 then "main" else if f = 1 then "f" else "g"
    rand := fun _ => 0
    stackDepth := 100 }

end FDOInliner

end Cmbprof

namespace Cmbprof

namespace FDOInliner

/-- The invariant of `_records` as the specification words it: every record is stored once
(no two nodes of `_candidates` and `_ignore` share an address); every entry of `_records`
refers to a stored record whose call site is the key; and every stored record is the value of
the entry for its own call site. -/
def RecordsExact (s : FDOInliner) : Prop :=
  ((s._candidates ++ s._ignore).map (fun n => n.addr)).Nodup
  ∧ (∀ k a, mapFind k s._records = some a →
      ∃ n ∈ s._candidates ++ s._ignore, n.addr = a ∧ n.record.cs.inst = k)
  ∧ (∀ n ∈ s._candidates ++ s._ignore, mapFind n.record.cs.inst s._records = some n.addr)

/-- The body of the scanning loop of `initialize` for one instruction: a candidate call gets
a record at the back of `_candidates`, an entry in `_records` and an entry in `_callers`.
`hist` gives the histogram `(*callCP)[bb]` of the block of the instruction and `rand` the
values of `rand()`. -/
def scanInstruction (S : Statics) (hist : InstInfo → CPHistogram) (rand : Nat → Nat)
    (s : FDOInliner) (I : InstInfo) : FDOInliner :=
  if isFDOInliningCandidate (some I) then
    match I.cs.callee with
    | none => s
    | some callee =>
      let newrec := CPCallRecord.new I.cs (some (hist I)) S.defaultMval s.CurrID (rand s.CurrID)
      { s with
        _callers := mapSet callee
          (IndexSet.insert I.cs.inst ((mapFind callee s._callers).getD [])) s._callers
        _candidates := s._candidates ++ [{ addr := s.nextAddr, record := newrec }]
        _records := mapSet I.cs.inst s.nextAddr s._records
        CurrID := s.CurrID + 1
        nextAddr := s.nextAddr + 1 }
  else s

/-- The loop of `initialize` that evaluates the metric of every candidate in place: the list
and the attribute cache afterwards; `none` when an evaluation is not defined. -/
def evalCandidates (S : Statics) (calcImpact : FuncRef → Nat → ArgImpact) :
    CallList → FuncAttrMap → Option (CallList × FuncAttrMap)
  | [], attrs => some ([], attrs)
  | n :: rest, attrs =>
    match CPCallRecord.evalMetric S calcImpact attrs n.record with
    | none => none
    | some (_, rec1, attrs1) =>
      (evalCandidates S calcImpact rest attrs1).map
        (fun p => ({ n with record := rec1 } :: p.1, p.2))

/-- The statement `_candidates.sort()`: a stable sort, ascending by `operator<`, that moves
the nodes and leaves their addresses as they are. -/
def sortCandidates (l : CallList) : CallList :=
  l.insertionSort (fun a b => ¬ (CPCallRecord.lt b.record a.record = true))

/-- The instructions of the functions of a module, in order. -/
def moduleInsts (host : Host) : List FuncRef → List InstInfo
  | [] => []
  | F :: rest => host.instsOf F ++ moduleInsts host rest

/-- Method `initialize` of the source (its name is a reserved word here), for a run that
found the call profile and selected the metric: the attributes of every defined function are
computed, every candidate call of the module gets a record, the metrics are evaluated and
`_candidates` is sorted. `M` lists the functions of the module, `host.bodyOf` is `none` for a
declaration, and `currID` is the static counter of `CPCallRecord` at entry. The result is the
returned total size and the inliner; `none` when an evaluation is not defined. -/
def initialise (S : Statics) (host : Host) (hist : InstInfo → CPHistogram) (M : List FuncRef)
    (currID : Nat) : Option (Nat × FDOInliner) :=
  let sized := M.foldl (fun (acc : Nat × FuncAttrMap) F =>
    match host.bodyOf F with
    | none => acc
    | some b =>
      let rc := CPCallRecord.recalcFunctionAttr acc.2 F (some b)
      ((acc.1 + toUInt32 rc.1) % 2 ^ 32, rc.2)) (0, [])
  let s0 : FDOInliner :=
    { _callers := [], _candidates := [], _records := [], _ignore := [], _removed := [],
      _funcAttr := sized.2, CurrID := currID, nextAddr := 0 }
  let s1 := M.foldl (fun s F => (host.instsOf F).foldl (scanInstruction S hist host.rand) s) s0
  match evalCandidates S host.calcImpact s1._candidates s1._funcAttr with
  | none => none
  | some (cands, attrs) =>
    some (sized.1, { s1 with _candidates := sortCandidates cands, _funcAttr := attrs })

/-- The call sites that the host reports after an inlining are new: their instructions are
pairwise distinct and none has an entry in `_records`. -/
def FreshCalls (host : Host) (s : FDOInliner) : Prop :=
  (host.inlinedCalls.map (fun p => p.1.cs.inst)).Nodup
  ∧ ∀ p ∈ host.inlinedCalls, mapFind p.1.cs.inst s._records = none

/-- The boundaries of the inlining loop of `runOnModule`: the run that enters the loop after
`initialize` on a module whose instructions are pairwise distinct, and the run after an
iteration from a boundary, the host reporting new call sites. -/
inductive LoopBoundary (S : Statics) (FDIDepth : Nat) : Run → Prop where
  | start (host : Host) (hist : InstInfo → CPHistogram) (M : List FuncRef) (currID : Nat)
      (totalSize : Nat) (inl : FDOInliner) (budget : Int)
      (hd : ((moduleInsts host M).map (fun I => I.cs.inst)).Nodup)
      (hi : initialise S host hist M currID = some (totalSize, inl)) :
      LoopBoundary S FDIDepth (startRun inl budget)
  | step (host : Host) (r r' : Run) (broke : Bool)
      (hb : LoopBoundary S FDIDepth r) (hf : FreshCalls host r.inl)
      (hi : iteration S FDIDepth host r = some (r', broke)) :
      LoopBoundary S FDIDepth r'

/-- The invariant `RecordsExact` on a list of nodes and a map. -/
def ExactOn (N : List ListNode) (R : List (Nat × Nat)) : Prop :=
  (N.map (fun n => n.addr)).Nodup
  ∧ (∀ k a, mapFind k R = some a → ∃ n ∈ N, n.addr = a ∧ n.record.cs.inst = k)
  ∧ (∀ n ∈ N, mapFind n.record.cs.inst R = some n.addr)

/-- The invariant that the list operations keep: `RecordsExact`, the sanity of the lists, and
every node address below the next one to be handed out. -/
def ListsInv (s : FDOInliner) : Prop :=
  ExactOn (s._candidates ++ s._ignore) s._records
  ∧ sanityCheckLists s = true
  ∧ ∀ n ∈ s._candidates ++ s._ignore, n.addr < s.nextAddr

end FDOInliner

end Cmbprof

namespace Cmbprof

namespace FDOInliner

/-- A function body of one block that holds one direct call of a defined function and `n`
other counted instructions. -/
def callingBody (n : Nat) : FuncBody :=
  { hasAddressTaken := false, arg_size := 0
    blocks := [{ indirectBr := false
                 insts := InstKind.callDirect :: List.replicate n InstKind.plain
                 numSuccessors := 0 }] }

/-- A host for a module of three functions, `main` (0), `f` (1) and `g` (2): `main` holds the
call instruction 10 (a call of `f`) and two other instructions, `f` the call instruction 11 (a
call of `g`) and one other instruction, and `g` four instructions. -/
def bootHost : Host :=
  { doesNotReturn := fun _ => false
    calcImpact := fun _ _ => ZeroArgImpact
    inlineFunction := fun _ => true
    inlinedCalls := []
    bodyOf := fun f =>
      if f = 0 then some (callingBody 2) else if f = 1 then some (callingBody 1)
      else if f = 2 then some (plainBody 4) else none
    instsOf := fun f =>
      if f = 0 then [callInst 10 0 1] else if f = 1 then [callInst 11 1 2] else []
    nameOf := fun f => if f = 0 then "main" else if f = 1 then "f" else "g"
    rand := fun n => n + 1
    stackDepth := 100 }

/-- The inliner that `initialize` builds for the module of `bootHost`. -/
def bootInliner : FDOInliner :=
  ((initialise CPCallRecord.exampleStatics bootHost (fun _ => CPHistogram.empty) [0, 1, 2] 0).getD
    (0, exampleInliner)).2

/-- The host of the first iteration on `bootInliner`: it inlines `f` into `main`, where the
copy of call site 11 is the new call instruction 12; `main` then holds that call and three
other instructions. -/
def bootHost1 : Host :=
  { bootHost with
    inlinedCalls := [(callInst 12 0 2, some (callInst 11 1 2))]
    bodyOf := fun f => if f = 0 then some (callingBody 3) else bootHost.bodyOf f
    instsOf := fun f => if f = 0 then [callInst 12 0 2] else bootHost.instsOf f }

/-- The run after the first iteration of the loop on `bootInliner` with budget 100. -/
def bootRun1 : Run :=
  ((iteration CPCallRecord.exampleStatics 0 bootHost1 (startRun bootInliner 100)).getD
    (startRun bootInliner 100, true)).1

end FDOInliner

end Cmbprof

namespace Cmbprof

/-! ## The argument record of a raw profile (runtime/libprofile/CommonProfiling.c,
tools/cpcommon.h, lib/Analysis/PathProfileInfo.cpp) -/

namespace ArgumentInfo

/-- The number of pad bytes that `getOutFile` writes after the `SavedArgsLength` argument
bytes: `4-(SavedArgsLength&3)` when `SavedArgsLength & 3` is not zero, none otherwise. -/
def padWritten (SavedArgsLength : Nat) : Nat :=
  if SavedArgsLength &&& 3 ≠ 0 then (4 + 2 ^ 32 - (SavedArgsLength &&& 3)) % 2 ^ 32 else 0

/-- The offset that `cproftools::readArgumentInfo` and
`PathProfileLoaderPass::handleArgumentInfo` pass to `fseek`: `(4-(savedArgsLength&3))%4` in
`unsigned` arithmetic. -/
def padSkipped (savedArgsLength : Nat) : Nat :=
  ((4 + 2 ^ 32 - (savedArgsLength &&& 3)) % 2 ^ 32) % 4

end ArgumentInfo

end Cmbprof

namespace Cmbprof

/-! ## Drift reports (lib/Analysis/CombinedProfile.cpp, lib/Analysis/CombinedPathProfile.cpp) -/

/-- The queries of `CPHistogram` that the drift reports call; their bodies are in
CPHistogram.cpp. -/
structure DriftQueries where
  nonZero : CPHistogram → Bool
  isPoint : CPHistogram → Bool
  min : CPHistogram → ℚ
  overlap : CPHistogram → CPHistogram → Bool → ℚ

/-- One line written to the stream by a drift report: the header, or a location with the two
drift values (the text `1.0` is the value 1). -/
inductive DriftLine (K : Type) where
  | header
  | drift (key : K) (zeroOut zeroIn : ℚ)
deriving Repr, DecidableEq

namespace CombinedProfile

/-- One of the two loops of `printDrift` that build the index set `I`, from index `i` on: the
indices of the slots that are not `NULL` and answer `nonZero()` are inserted. -/
def nonZeroIndices (Q : DriftQueries) : Nat → CPHistVec → IndexSet → IndexSet
  | _, [], I => I
  | i, some h :: rest, I =>
    nonZeroIndices Q (i + 1) rest (if Q.nonZero h then IndexSet.insert i I else I)
  | i, none :: rest, I => nonZeroIndices Q (i + 1) rest I

/-- The body of the printing loop of `printDrift` for the index `i`, on the histogram vectors
of `this` and `other`: the line written. The tests are evaluated left to right and stop at the
first that holds; reading `_histograms[i]` at a position outside the vector has no defined
result (`none`). -/
def driftLine (Q : DriftQueries) (self other : CPHistVec) (i : Nat) :
    Option (DriftLine Nat) :=
  if i > self.length ∨ i > other.length then some (DriftLine.drift i 1 1)
  else
    match self[i]? with
    | none => none
    | some none => some (DriftLine.drift i 1 1)
    | some (some h1) =>
      match other[i]? with
      | none => none
      | some none => some (DriftLine.drift i 1 1)
      | some (some h2) =>
        if !Q.nonZero h1 || !Q.nonZero h2 then some (DriftLine.drift i 1 1)
        else if Q.isPoint h1 && Q.isPoint h2 && decide (Q.min h1 ≠ Q.min h2) then
          some (DriftLine.drift i 1 1)
        else some (DriftLine.drift i (1 - Q.overlap h1 h2 false) (1 - Q.overlap h1 h2 true))

/-- The printing loop of `printDrift` over the indices of `I`, in ascending order. -/
def driftLines (Q : DriftQueries) (self other : CPHistVec) : List Nat → Option (List (DriftLine Nat))
  | [] => some []
  | i :: rest =>
    match driftLine Q self other i with
    | none => none
    | some l => (driftLines Q self other rest).map (fun ls => l :: ls)

/-- Method `printDrift(other, stream)` on the histogram vectors of `this` and `other`: the
lines written to `stream` (the warnings go to the error stream), `none` when the run reads
outside a vector. -/
def printDrift (Q : DriftQueries) (self other : CPHistVec) : Option (List (DriftLine Nat)) :=
  let I := nonZeroIndices Q 0 other (nonZeroIndices Q 0 self [])
  (driftLines Q self other I).map (fun ls => DriftLine.header :: ls)

/-- An example stand-in for the histogram queries: nonzero weight above the tolerance, a point
histogram when `_min = _max`, and an overlap of 1 for equal histograms and 0 otherwise. -/
def exampleQueries : DriftQueries :=
  { nonZero := fun h => decide (h.nonZeroWeight > FP_FUDGE_EPS)
    isPoint := fun h => decide (h._min = h._max)
    min := fun h => h._min
    overlap := fun h1 h2 _ => if h1 = h2 then 1 else 0 }

end CombinedProfile

end Cmbprof

namespace Cmbprof

namespace CombinedPathProfile

/-- Type `PathSet` of the source, `std::set<PathID>` with `PathID` a pair of function number
and path number: an ascending list of pairs. -/
abbrev PathSet := List (Nat × Nat)

/-- The ordering of `std::pair`: first components, then second components. -/
def pathLess (x y : Nat × Nat) : Bool := decide (x.1 < y.1) || (x.1 == y.1 && decide (x.2 < y.2))

/-- Insertion into a `PathSet`. -/
def pathSetInsert (x : Nat × Nat) : PathSet → PathSet
  | [] => [x]
  | y :: ys =>
    if pathLess x y then x :: y :: ys else if x = y then y :: ys else y :: pathSetInsert x ys

/-- Method `getPathSet(paths)`: every (function, path) pair of `_functions` is inserted. -/
def getPathSet (p : CombinedPathProfile) (paths : PathSet) : PathSet :=
  p._functions.foldl
    (fun acc F => F.2.foldl (fun acc2 H => pathSetInsert (F.1, H.1) acc2) acc) paths

/-- The body of the loop of `printDrift` for the location `loc`: the lines written and the two
profiles afterwards (`getHistogram` is not `const`). The result is `none` when the reference
that `getHistogram` returns points to no histogram. -/
def driftStep (Q : DriftQueries) (self other : CombinedPathProfile) (loc : Nat × Nat) :
    Option (List (DriftLine (Nat × Nat)) × CombinedPathProfile × CombinedPathProfile) :=
  if !self.valid loc || !other.valid loc then some ([], self, other)
  else
    let r1 := self.getHistogram loc.1 loc.2
    let r2 := other.getHistogram loc.1 loc.2
    match (r1.1._histograms[r1.2]?).join, (r2.1._histograms[r2.2]?).join with
    | some h1, some h2 =>
      if Q.isPoint h1 && Q.isPoint h2 then some ([], r1.1, r2.1)
      else
        some ([DriftLine.drift loc (1 - Q.overlap h1 h2 false) (1 - Q.overlap h1 h2 true)],
              r1.1, r2.1)
    | _, _ => none

/-- The loop of `printDrift` over the path set. -/
def driftLoop (Q : DriftQueries) :
    PathSet → CombinedPathProfile → CombinedPathProfile →
      Option (List (DriftLine (Nat × Nat)) × CombinedPathProfile × CombinedPathProfile)
  | [], self, other => some ([], self, other)
  | loc :: rest, self, other =>
    match driftStep Q self other loc with
    | none => none
    | some (ls, self1, other1) =>
      (driftLoop Q rest self1 other1).map (fun r => (ls ++ r.1, r.2))

/-- Method `printDrift(other, stream)`: the lines written to `stream` (the warnings go to the
error stream) and the two profiles afterwards. -/
def printDrift (Q : DriftQueries) (self other : CombinedPathProfile) :
    Option (List (DriftLine (Nat × Nat)) × CombinedPathProfile × CombinedPathProfile) :=
  let ps := getPathSet other (getPathSet self [])
  (driftLoop Q ps self other).map (fun r => (DriftLine.header :: r.1, r.2))

/-- The histogram of a location: the one that the profile maps it to, or an empty histogram
when the slot is `NULL` or outside the vector (which is what `getHistogram` then creates). -/
def histOf (p : CombinedPathProfile) (loc : Nat × Nat) : CPHistogram :=
  (histAt p loc).getD CPHistogram.empty

/-- The lines that the amended claim has for one location: a line with the two drift values
when the location is present in both profiles and the two histograms are not both points, no
line otherwise. -/
def driftSpec (Q : DriftQueries) (a b : CombinedPathProfile) (loc : Nat × Nat) :
    List (DriftLine (Nat × Nat)) :=
  if a.valid loc && b.valid loc then
    if Q.isPoint (histOf a loc) && Q.isPoint (histOf b loc) then []
    else [DriftLine.drift loc (1 - Q.overlap (histOf a loc) (histOf b loc) false)
                              (1 - Q.overlap (histOf a loc) (histOf b loc) true)]
  else []

/-- A path profile with the path 0 of function 1 only, as a point histogram. -/
def onePointProfile : CombinedPathProfile :=
  { _weight := 2, _bincount := 1
    _histograms := [none, some pointHistogram]
    _functions := [(1, [(0, 1)])]
    _functionRef := [] }

end CombinedPathProfile

end Cmbprof

namespace Cmbprof

namespace CombinedPathProfile

/-- A combined path profile file (after the kind tag) of weight 2 and bin count 1 with one
function, number 1, and one path, number 0, as `pointHistogram`. -/
def storedPathFile : List Item :=
  [Item.f64 2, Item.u32 1, Item.u32 1, Item.u32 1, Item.u32 1,
   Item.u32 0, Item.u32 1, Item.f64 (1 / 2), Item.f64 (1 / 2), Item.f64 2, Item.f64 2]

/-- The profile that `deserialize` makes of a fresh instance on `storedPathFile`: the
histogram of the path (1, 0) is in slot 0. -/
def loadedProfile : CombinedPathProfile :=
  { _weight := 2, _bincount := 1
    _histograms := [some pointHistogram]
    _functions := [(1, [(0, 0)])]
    _functionRef := [] }

end CombinedPathProfile

end Cmbprof

namespace Cmbprof

namespace CFGEdgeDomTree

/-- The state that the constructor `CFGEdgeDomTree(F, firstEdge)` of a function with a body
passes to `computeEdgeDominance`: the graph of the edges with the roots, the non-back edges and
the ancestor sets. -/
def beforeDominance (F : IRFunction) (firstEdge : EdgeIndex) : State :=
  let s0 : State :=
    { _edges := buildGraph (createEdges F firstEdge), _roots := [], _nonBackEdges := [],
      _ancestorSets := [], diags := [] }
  computeAncestorSets (findAllNonBackEdges (findRoots s0))

/-- The edges that `worklist.pop()` returns in the `while` loop of `computeEdgeDominance`, in
the order in which they are taken. -/
def dominanceOrder : Nat → State → Worklist → List EdgeIndex
  | 0, _, _ => []
  | fuel + 1, s, wl =>
    match wl._worklist with
    | [] => []
    | currIndex :: rest =>
      let r := dominanceStep s { wl with _worklist := rest } currIndex
      currIndex :: (if r.aborted then [] else dominanceOrder fuel r.state r.worklist)

/-- The edges that `computeEdgeDominance` takes from its worklist, in order. -/
def computeEdgeDominanceOrder (s : State) : List EdgeIndex :=
  if s._edges.isEmpty then []
  else
    let init : EdgeNodeMap × Worklist :=
      s._roots.foldl (fun acc entry =>
        (edgeUpdate acc.1 entry (fun e => { e with domIndex := some entry }),
         match edgeFind acc.1 entry with
         | some n => acc.2.pushReady n.children
         | none => acc.2))
        (s._edges, Worklist.new s._edges s._nonBackEdges)
    dominanceOrder (s._edges.length + 1) { s with _edges := init.1 } init.2

end CFGEdgeDomTree

end Cmbprof

namespace Cmbprof

namespace CFGEdgeDomTree

/-- The `children` set of the node stored under `x`; empty when no node is stored. -/
def childrenOf (edges : EdgeNodeMap) (x : EdgeIndex) : IndexSet :=
  match edgeFind edges x with
  | some n => n.children
  | none => []

/-- The `parents` set of the node stored under `x`; empty when no node is stored. -/
def parentsOf (edges : EdgeNodeMap) (x : EdgeIndex) : IndexSet :=
  match edgeFind edges x with
  | some n => n.parents
  | none => []

/-- The parent-to-child relation between two edges of the set `nb`. -/
def MarkedLink (edges : EdgeNodeMap) (nb : IndexSet) (a b : EdgeIndex) : Prop :=
  a ∈ nb ∧ b ∈ nb ∧ b ∈ childrenOf edges a

/-- The parent-to-child relation from an edge of the set `nb` to any of its children. -/
def NbLink (edges : EdgeNodeMap) (nb : IndexSet) (a b : EdgeIndex) : Prop :=
  a ∈ nb ∧ b ∈ childrenOf edges a

/-- An edge of `nb` that is reachable from a root through edges of `nb`. -/
inductive MarkedReach (edges : EdgeNodeMap) (roots nb : IndexSet) : EdgeIndex → Prop where
  | root (x : EdgeIndex) : x ∈ roots → x ∈ nb → MarkedReach edges roots nb x
  | step (p x : EdgeIndex) : MarkedReach edges roots nb p → x ∈ childrenOf edges p → x ∈ nb →
      MarkedReach edges roots nb x

/-- An index on which `findNonBackEdges` returns at once without visiting: no node is stored
under it, or the node has `source == target`. -/
def Skipped (edges : EdgeNodeMap) (x : EdgeIndex) : Prop :=
  ∀ n, edgeFind edges x = some n → (n.source == n.target) = true

/-- A list of edges, the last finished first, in which every child in `nb` of an edge stands
behind the edge. -/
def Topo (edges : EdgeNodeMap) (nb : IndexSet) : List EdgeIndex → Prop
  | [] => True
  | e :: older => (∀ c ∈ childrenOf edges e, c ∈ nb → c ∈ older) ∧ Topo edges nb older

/-- The number of edge indices that the walk has not visited. -/
def unvisited (edges : EdgeNodeMap) (w : Walk) : Nat :=
  ((edges.map (fun e => e.index)).toFinset \ w.visited.toFinset).card

/-- An edge that is its own child has `source == target`. -/
def SelfChild (edges : EdgeNodeMap) : Prop :=
  ∀ x n, edgeFind edges x = some n → x ∈ n.children → (n.source == n.target) = true

/-- What holds of the three sets of the walk between the calls of `findNonBackEdges`; `fin`
lists the marked edges whose call has returned, the last one first. -/
structure WalkInv (edges : EdgeNodeMap) (roots : IndexSet) (w : Walk)
    (fin : List EdgeIndex) : Prop where
  path_marked : ∀ x ∈ w.currPath, x ∈ w.nonBackEdges
  marked_visited : ∀ x ∈ w.nonBackEdges, x ∈ w.visited
  marked_cases : ∀ x ∈ w.nonBackEdges, x ∈ w.currPath ∨ x ∈ fin
  fin_marked : ∀ x ∈ fin, x ∈ w.nonBackEdges
  fin_not_path : ∀ x ∈ fin, x ∉ w.currPath
  fin_nodup : fin.Nodup
  fin_children : ∀ e ∈ fin, ∀ c ∈ childrenOf edges e, c ∈ w.visited ∨ Skipped edges c
  topo : Topo edges w.nonBackEdges fin
  reach : ∀ x ∈ w.nonBackEdges, MarkedReach edges roots w.nonBackEdges x
  back : ∀ p ∈ w.visited, p ∉ w.nonBackEdges →
    ∃ c ∈ childrenOf edges p, c ∈ w.nonBackEdges ∧
      Relation.TransGen (NbLink edges w.nonBackEdges) c p
  visited_real : ∀ x ∈ w.visited, ∃ n, edgeFind edges x = some n ∧ (n.source == n.target) = false

/-- What a call of `findNonBackEdges` with the given fuel does to a walk that satisfies
`WalkInv`, when the edge is a root or the child of a marked edge and every edge of the current
path leads to it through marked edges. -/
def CallSpec (edges : EdgeNodeMap) (roots : IndexSet) (fuel : Nat) : Prop :=
  ∀ (root : EdgeIndex) (w : Walk) (fin : List EdgeIndex),
    WalkInv edges roots w fin →
    unvisited edges w < fuel →
    (root ∈ roots ∨ ∃ p ∈ w.nonBackEdges, root ∈ childrenOf edges p) →
    (∀ a ∈ w.currPath, Relation.TransGen (NbLink edges w.nonBackEdges) a root) →
    ∃ fin', WalkInv edges roots (findNonBackEdges edges fuel root w) fin' ∧
      (findNonBackEdges edges fuel root w).currPath = w.currPath ∧
      (∀ x ∈ w.visited, x ∈ (findNonBackEdges edges fuel root w).visited) ∧
      (∀ x ∈ w.nonBackEdges, x ∈ (findNonBackEdges edges fuel root w).nonBackEdges) ∧
      (root ∈ (findNonBackEdges edges fuel root w).visited ∨ Skipped edges root)

end CFGEdgeDomTree

end Cmbprof

namespace Cmbprof

namespace CFGEdgeDomTree

/-- The calls of `findNonBackEdges` in a run of the constructor's loop over the roots, the
recursive ones included: the fuel, the edge and the walk on entry. -/
inductive InRun (edges : EdgeNodeMap) (roots : IndexSet) : Nat → EdgeIndex → Walk → Prop where
  | top (pre post : List EdgeIndex) (r : EdgeIndex) : roots = pre ++ r :: post →
      InRun edges roots (edges.length + 1) r
        (pre.foldl (fun acc x => findNonBackEdges edges (edges.length + 1) x acc)
          { visited := [], currPath := [], nonBackEdges := [] })
  | sub (fuel : Nat) (root : EdgeIndex) (w : Walk) (node : EdgeNode) (pre post : List EdgeIndex)
      (c : EdgeIndex) :
      InRun edges roots (fuel + 1) root w →
      edgeFind edges root = some node →
      (node.source == node.target) = false →
      IndexSet.mem node.index w.visited = false →
      node.children.any
        (fun c => IndexSet.mem c (IndexSet.insert node.index w.currPath)) = false →
      node.children = pre ++ c :: post →
      InRun edges roots fuel c
        (pre.foldl (fun acc x => findNonBackEdges edges fuel x acc)
          { visited := IndexSet.insert node.index w.visited,
            currPath := IndexSet.insert node.index w.currPath,
            nonBackEdges := IndexSet.insert node.index w.nonBackEdges })

/-- The state of the constructor `CFGEdgeDomTree(F, firstEdge)` of a function with a body
after its loop over the roots that calls `findNonBackEdges`. -/
def afterNonBackEdges (F : IRFunction) (firstEdge : EdgeIndex) : State :=
  findAllNonBackEdges (findRoots
    { _edges := buildGraph (createEdges F firstEdge), _roots := [], _nonBackEdges := [],
      _ancestorSets := [], diags := [] })

end CFGEdgeDomTree

end Cmbprof

namespace Cmbprof

namespace CFGEdgeDomTree

/-- The ancestor set that the claim defines: `y` is a non-back edge that is `e` itself or from
which `e` is reached by parent-to-child links that all start at non-back edges. -/
def Anc (edges : EdgeNodeMap) (nb : IndexSet) (e y : EdgeIndex) : Prop :=
  y ∈ nb ∧ (y = e ∨ Relation.TransGen (NbLink edges nb) y e)

/-- An edge that is reachable from a root by parent-to-child links. -/
inductive Reach (edges : EdgeNodeMap) (roots : IndexSet) : EdgeIndex → Prop where
  | root (x : EdgeIndex) : x ∈ roots → Reach edges roots x
  | step (p x : EdgeIndex) : Reach edges roots p → x ∈ childrenOf edges p → Reach edges roots x

/-- The non-back parents of an edge. -/
def nbParents (edges : EdgeNodeMap) (nb : IndexSet) (x : EdgeIndex) : Finset Nat :=
  (parentsOf edges x).toFinset.filter (fun p => p ∈ nb)

/-- The parents of an edge among the edges of the list `D`. -/
def doneParents (edges : EdgeNodeMap) (D : List EdgeIndex) (x : EdgeIndex) : Finset Nat :=
  (parentsOf edges x).toFinset.filter (fun p => p ∈ D)

end CFGEdgeDomTree

end Cmbprof

namespace Cmbprof

namespace CFGEdgeDomTree

/-- What `buildGraph` and `findRoots` establish of the graph of a function. -/
structure GraphOk (edges : EdgeNodeMap) (roots : IndexSet) : Prop where
  index_nodup : (edges.map (fun e => e.index)).Nodup
  child_parent : ∀ p x, x ∈ childrenOf edges p ↔ p ∈ parentsOf edges x
  siblings : ∀ p q c, c ∈ childrenOf edges p → c ∈ childrenOf edges q →
    ∀ x, x ∈ childrenOf edges p → x ∈ childrenOf edges q
  children_nodup : ∀ x, (childrenOf edges x).Nodup
  child_real : ∀ p x, x ∈ childrenOf edges p → ∃ n, edgeFind edges x = some n
  self_child : ∀ x n, edgeFind edges x = some n →
    (x ∈ n.children ↔ (n.source == n.target) = true)
  roots_iff : ∀ x, x ∈ roots ↔ ∃ n, edgeFind edges x = some n ∧ n.parents = []

/-- What the walk of `findNonBackEdges` from all roots has established when it ends: `nb` is
the set of marked edges, `visited` the set of visited edges and `fin` the list of the marked
edges in the order in which their calls returned, the last one first. -/
structure WalkDone (edges : EdgeNodeMap) (roots nb visited : IndexSet)
    (fin : List EdgeIndex) : Prop where
  marked_visited : ∀ x ∈ nb, x ∈ visited
  visited_real : ∀ x ∈ visited, ∃ n, edgeFind edges x = some n ∧ (n.source == n.target) = false
  back : ∀ p ∈ visited, p ∉ nb →
    ∃ c ∈ childrenOf edges p, c ∈ nb ∧ Relation.TransGen (NbLink edges nb) c p
  marked_children : ∀ e ∈ nb, ∀ c ∈ childrenOf edges e, c ∈ visited ∨ Skipped edges c
  topo : Topo edges nb fin
  fin_nodup : fin.Nodup
  marked_fin : ∀ x ∈ nb, x ∈ fin
  marked_parent : ∀ x ∈ nb, x ∈ roots ∨ ∃ p ∈ nb, x ∈ childrenOf edges p
  roots_marked : ∀ r ∈ roots, r ∈ nb

/-- What holds between the iterations of the loop of `computeAncestorSets`: `anc` is
`_ancestorSets`, `wl` the worklist and `D` the list of the edges taken from it so far. -/
structure AncInv (edges : EdgeNodeMap) (roots nb : IndexSet) (anc : IndexSetMap)
    (wl : Worklist) (D : List EdgeIndex) : Prop where
  pend : ∀ x n, edgeFind edges x = some n → (mapFind x wl._pending).getD 0
    = ((nbParents edges nb x).card : Int) - ((doneParents edges D x).card : Int)
  wl_nodup : wl._worklist.Nodup
  done_nodup : D.Nodup
  disjoint : ∀ x ∈ wl._worklist, x ∉ D
  pushed_iff : ∀ x, (x ∈ D ∨ x ∈ wl._worklist) ↔
    (x ∈ roots ∨ (1 ≤ (nbParents edges nb x).card ∧
      (nbParents edges nb x).card ≤ (doneParents edges D x).card))
  stored_done : ∀ x ∈ D, ∀ y, y ∈ setMapGet anc x ↔ Anc edges nb x y
  stored_rest : ∀ x, x ∉ D → setMapGet anc x = []
  parents_done : ∀ x, (x ∈ D ∨ x ∈ wl._worklist) → ∀ p ∈ nbParents edges nb x, p ∈ D
  back_done : ∀ p ∈ D, p ∉ nb → p ∉ childrenOf edges p → ∀ x ∈ childrenOf edges p, x ∈ D
  back_wait : ∀ p ∈ wl._worklist, p ∉ nb → p ∉ childrenOf edges p →
    ∀ x ∈ childrenOf edges p,
      x ∈ D ∨ (x ∈ wl._worklist ∧ wl._worklist.indexOf x < wl._worklist.indexOf p)

end CFGEdgeDomTree

end Cmbprof

namespace Cmbprof

namespace CFGEdgeDomTree

/-- A block that is reachable from the entry block along successor links. -/
inductive BlockReach (F : IRFunction) : Nat → Prop where
  | entry : BlockReach F 0
  | step (b t : Nat) (ss : List Nat) : BlockReach F b → F.blocks[b]? = some ss → t ∈ ss →
      BlockReach F t

/-- The two assignments by which `computeEdgeDominance` records `d` as the dominator of `c`. -/
def assignDom (es : EdgeNodeMap) (c d : EdgeIndex) : EdgeNodeMap :=
  edgeUpdate (edgeUpdate es c (fun e => { e with domIndex := some d })) d
    (fun e => { e with domChildren := IndexSet.insert c e.domChildren })

/-- The intersection that `computeEdgeDominance` forms for an edge: its own ancestor set cut
with the ancestor set of every parent. -/
def commonAncestors (anc : IndexSetMap) (parents : IndexSet) (c : EdgeIndex) : IndexSet :=
  parents.foldl (fun acc parent => IndexSet.INTERSECT acc (setMapGet anc parent) [])
    (setMapGet anc c)

/-- The set `ancestors` that the iteration of the loop of `computeEdgeDominance` for the edge
`currIndex` holds at its two sanity checks, after the pruning. -/
def candidatesLeft (s : State) (currIndex : EdgeIndex) : IndexSet :=
  match edgeFind s._edges currIndex with
  | none => []
  | some currNode =>
    let ancestors := currNode.parents.foldl
      (fun acc parent => IndexSet.INTERSECT acc (setMapGet s._ancestorSets parent) [])
      (setMapGet s._ancestorSets currIndex)
    prune (mapSet currIndex (IndexSet.insert currIndex ancestors) s._ancestorSets) ancestors

/-- The edges that `worklist.pop()` returns in the `while` loop of `computeEdgeDominance`, in
the order in which they are taken, each with the candidates that its iteration has left after
the pruning. -/
def dominanceTrace : Nat → State → Worklist → List (EdgeIndex × IndexSet)
  | 0, _, _ => []
  | fuel + 1, s, wl =>
    match wl._worklist with
    | [] => []
    | currIndex :: rest =>
      let r := dominanceStep s { wl with _worklist := rest } currIndex
      (currIndex, candidatesLeft s currIndex) ::
        (if r.aborted then [] else dominanceTrace fuel r.state r.worklist)

/-- The edges that `computeEdgeDominance` takes from its worklist, in order, each with the
candidates left after the pruning. -/
def computeEdgeDominanceTrace (s : State) : List (EdgeIndex × IndexSet) :=
  if s._edges.isEmpty then []
  else
    let init : EdgeNodeMap × Worklist :=
      s._roots.foldl (fun acc entry =>
        (edgeUpdate acc.1 entry (fun e => { e with domIndex := some entry }),
         match edgeFind acc.1 entry with
         | some n => acc.2.pushReady n.children
         | none => acc.2))
        (s._edges, Worklist.new s._edges s._nonBackEdges)
    dominanceTrace (s._edges.length + 1) { s with _edges := init.1 } init.2

end CFGEdgeDomTree

end Cmbprof

namespace Cmbprof

namespace CFGEdgeDomTree

/-- What holds between the iterations of the loop of `computeEdgeDominance` in a graph with
the root `r0`: `wl` is the worklist and `P` lists the roots and the edges taken from the
worklist so far. -/
structure DomInv (edges : EdgeNodeMap) (roots nb : IndexSet) (r0 : EdgeIndex) (s : State)
    (wl : Worklist) (P : List EdgeIndex) : Prop where
  shape : s._edges.map shapeOnly = edges.map shapeOnly
  nonback : s._nonBackEdges = nb
  quiet : s.diags = []
  root_in : ∀ x n, edgeFind edges x = some n → r0 ∈ setMapGet s._ancestorSets x
  chain : ∀ p ∈ P, ∀ a ∈ setMapGet s._ancestorSets p, ∀ b ∈ setMapGet s._ancestorSets p,
    a ≠ b → a ∈ setMapGet s._ancestorSets b ∨ b ∈ setMapGet s._ancestorSets a
  closed : ∀ p ∈ P, ∀ a ∈ setMapGet s._ancestorSets p, a ∈ P
  has_parent : ∀ x ∈ wl._worklist, ∃ q ∈ P, x ∈ childrenOf edges q
  wl_nodup : wl._worklist.Nodup
  done_nodup : P.Nodup
  disjoint : ∀ x ∈ wl._worklist, x ∉ P
  pushed_iff : ∀ x, (x ∈ P ∨ x ∈ wl._worklist) ↔
    (x ∈ roots ∨ (1 ≤ (nbParents edges nb x).card ∧ (mapFind x wl._pending).getD 0 ≤ 0))
  pend_le : ∀ x n, edgeFind edges x = some n → (mapFind x wl._pending).getD 0
    ≤ ((nbParents edges nb x).card : Int) - ((doneParents edges P x).card : Int)
  dom_set : ∀ x ∈ P, ∃ n d, edgeFind s._edges x = some n ∧ n.domIndex = some d

end CFGEdgeDomTree

end Cmbprof

namespace Cmbprof

namespace CFGEdgeDomTree

/-- The set `ancestors` that the iteration of the loop of `computeEdgeDominance` for the edge
`currIndex` holds when it enters the pruning loops: the intersection of the ancestor sets of
the edge and of all its parents. -/
def candidatesBefore (s : State) (currIndex : EdgeIndex) : IndexSet :=
  match edgeFind s._edges currIndex with
  | none => []
  | some currNode =>
    currNode.parents.foldl
      (fun acc parent => IndexSet.INTERSECT acc (setMapGet s._ancestorSets parent) [])
      (setMapGet s._ancestorSets currIndex)

/-- Whether the pruning loops of the iteration for the edge `currIndex` reach the statement
`ancestors.erase(*a1)`: the set holds an element `a1` and another element `a2` that has `a1`
among its ancestors. Up to the first such pair the set is as it was on entry. The erase takes
from the set the element that the iterator `a1` of the outer loop points to, and the loops go
on with `a1`: the inner loop reads `*a1` in its test `*a1 == *a2`, and the outer loop
increments it. -/
def erasesUnderIterator (s : State) (currIndex : EdgeIndex) : Bool :=
  match edgeFind s._edges currIndex with
  | none => false
  | some currNode =>
    let ancestors := currNode.parents.foldl
      (fun acc parent => IndexSet.INTERSECT acc (setMapGet s._ancestorSets parent) [])
      (setMapGet s._ancestorSets currIndex)
    let ancSets1 := mapSet currIndex (IndexSet.insert currIndex ancestors) s._ancestorSets
    ancestors.any (fun a1 =>
      ancestors.any (fun a2 => a2 != a1 && IndexSet.mem a1 (setMapGet ancSets1 a2)))

/-- How the loop of `computeEdgeDominance` ends when the use of an iterator to an erased element
is taken as undefined, as the C++ standard does: with an empty worklist, in one of the two
error branches, or in the iteration of `edge` whose pruning loops erase under the iterator,
entered with the set `ancestors`. -/
inductive LoopOutcome where
  | finished (s : State)
  | aborted (s : State)
  | undefined (edge : EdgeIndex) (ancestors : IndexSet)
  | outOfFuel
deriving Repr, DecidableEq

/-- The `while(!worklist.empty())` loop of `computeEdgeDominance` up to the first iteration
whose pruning loops erase under the iterator. An iteration that erases nothing is the one of
`dominanceStep`. -/
def dominanceLoopChecked : Nat → State → Worklist → LoopOutcome
  | 0, s, wl =>
    match wl._worklist with
    | [] => LoopOutcome.finished s
    | _ :: _ => LoopOutcome.outOfFuel
  | fuel + 1, s, wl =>
    match wl._worklist with
    | [] => LoopOutcome.finished s
    | currIndex :: rest =>
      if erasesUnderIterator s currIndex then
        LoopOutcome.undefined currIndex (candidatesBefore s currIndex)
      else
        let r := dominanceStep s { wl with _worklist := rest } currIndex
        if r.aborted then LoopOutcome.aborted r.state
        else dominanceLoopChecked fuel r.state r.worklist

/-- Method `computeEdgeDominance` up to the first iteration whose pruning loops erase under the
iterator. -/
def computeEdgeDominanceChecked (s : State) : LoopOutcome :=
  if s._edges.isEmpty then LoopOutcome.finished s
  else
    let init : EdgeNodeMap × Worklist :=
      s._roots.foldl (fun acc entry =>
        (edgeUpdate acc.1 entry (fun e => { e with domIndex := some entry }),
         match edgeFind acc.1 entry with
         | some n => acc.2.pushReady n.children
         | none => acc.2))
        (s._edges, Worklist.new s._edges s._nonBackEdges)
    dominanceLoopChecked (s._edges.length + 1) { s with _edges := init.1 } init.2

/-- The edges that the loop of `computeEdgeDominance` takes from its worklist, each with the
set `ancestors` on entry to the pruning loops and with the flag that tells whether the pruning
loops erase under the iterator, when the traversal of the pruning loops is taken to continue
in key order after an erase, as `prune` does. -/
def dominanceSets : Nat → State → Worklist → List (EdgeIndex × IndexSet × Bool)
  | 0, _, _ => []
  | fuel + 1, s, wl =>
    match wl._worklist with
    | [] => []
    | currIndex :: rest =>
      let r := dominanceStep s { wl with _worklist := rest } currIndex
      (currIndex, candidatesBefore s currIndex, erasesUnderIterator s currIndex) ::
        (if r.aborted then [] else dominanceSets fuel r.state r.worklist)

/-- The sets on entry to the pruning loops over a whole run of `computeEdgeDominance`, with the
traversal of the pruning loops continued in key order after an erase. -/
def computeEdgeDominanceSets (s : State) : List (EdgeIndex × IndexSet × Bool) :=
  if s._edges.isEmpty then []
  else
    let init : EdgeNodeMap × Worklist :=
      s._roots.foldl (fun acc entry =>
        (edgeUpdate acc.1 entry (fun e => { e with domIndex := some entry }),
         match edgeFind acc.1 entry with
         | some n => acc.2.pushReady n.children
         | none => acc.2))
        (s._edges, Worklist.new s._edges s._nonBackEdges)
    dominanceSets (s._edges.length + 1) { s with _edges := init.1 } init.2

/-- A function of four blocks in a straight line, 0 → 1 → 2 → 3. Its edges are 0: entry,
1: 0→1, 2: 1→2 and 3: 2→3. -/
def straightLine : IRFunction := { isDeclaration := false, blocks := [[1], [2], [3], []] }

end CFGEdgeDomTree

end Cmbprof

/-! # Theorems -/

namespace Cmbprof

/-! ## Edge profile normalization -/

namespace CombinedEdgeProfile

theorem addSample_length (hs : CPHistVec) (i : Nat) (v : ℚ) :
    (addSample hs i v).length = hs.length := by
  simp [addSample]

theorem addListAt_addSample_ne (hs : CPHistVec) (i j : Nat) (v : ℚ) (h : i ≠ j) :
    addListAt (addSample hs i v) j = addListAt hs j := by
  simp [addListAt, addSample, List.getElem?_modify_ne _ _ h]

theorem addListAt_addSample_eq (hs : CPHistVec) (i : Nat) (v : ℚ) (h : i < hs.length) :
    addListAt (addSample hs i v) i = addListAt hs i ++ [(v, 1)] := by
  simp only [addListAt, addSample, List.getElem?_modify_eq, List.getElem?_eq_getElem h,
    Option.map_some']
  cases hs[i] <;> simp [CPHistogram.addToList, CPHistogram.empty]

/-- What the loop of `addProfile` leaves behind: the vector keeps its length, slots outside
`[i, i+k)` keep their add list, and every slot `j` inside gets exactly one more sample, the
normalized frequency of edge `j`. -/
theorem addProfileLoop_spec (edt : EdgeDominatorTree) (buf : List Nat) :
    ∀ (k i : Nat) (hs hs' : CPHistVec), i + k ≤ hs.length →
      addProfileLoop edt buf k i hs = some hs' →
      hs'.length = hs.length ∧
      (∀ j, (j < i ∨ i + k ≤ j) → addListAt hs' j = addListAt hs j) ∧
      (∀ j, i ≤ j → j < i + k → ∃ e d c, buf[j]? = some e ∧ edt.getDominatorIndex j = some d ∧
          buf[d]? = some c ∧ addListAt hs' j = addListAt hs j ++ [(normFreq j e d c, 1)]) := by
  intro k
  induction k with
  | zero =>
    intro i hs hs' _ h
    simp only [addProfileLoop, Option.some.injEq] at h
    subst h
    refine ⟨rfl, fun _ _ => rfl, fun j h1 h2 => ?_⟩
    omega
  | succ k ih =>
    intro i hs hs' hlen h
    unfold addProfileLoop at h
    split at h
    · rename_i execCnt domID he hd
      split at h
      · rename_i domCnt hc
        have hlen1 : i + 1 + k ≤ (addSample hs i (normFreq i execCnt domID domCnt)).length := by
          rw [addSample_length]; omega
        obtain ⟨h1, h2, h3⟩ := ih (i + 1) _ hs' hlen1 h
        refine ⟨by rw [h1, addSample_length], fun j hj => ?_, fun j hj1 hj2 => ?_⟩
        · rw [h2 j (by omega), addListAt_addSample_ne]
          omega
        · by_cases hji : j = i
          · subst hji
            refine ⟨execCnt, domID, domCnt, he, hd, hc, ?_⟩
            rw [h2 j (by omega), addListAt_addSample_eq _ _ _ (by omega)]
          · obtain ⟨e, d, c, e1, e2, e3, e4⟩ := h3 j (by omega) (by omega)
            refine ⟨e, d, c, e1, e2, e3, ?_⟩
            rw [e4, addListAt_addSample_ne]
            omega
      · simp at h
    · simp at h

theorem addListAt_resizeVec (hs : CPHistVec) (n i : Nat) (h : i < n) :
    addListAt (resizeVec hs n) i = addListAt hs i := by
  unfold addListAt resizeVec
  by_cases hi : i < hs.length
  · rw [List.getElem?_append_left (by simp; omega), List.getElem?_take_of_lt h]
  · have h1 : (List.take n hs ++ List.replicate (n - hs.length) none)[i]? = some none := by
      rw [List.getElem?_append_right (by simp; omega)]
      simp [List.getElem?_replicate]
      omega
    have h2 : hs[i]? = none := List.getElem?_eq_none (by omega)
    rw [h1, h2]

theorem resizeVec_length {A : Type} (v : List (Option A)) (n : Nat) :
    (resizeVec v n).length = n := by
  simp [resizeVec]; omega

/-- The conditional resize at the head of `addProfile` keeps the weight, makes the vector as
long as the announced edge count and keeps the add list of every slot below that count. -/
theorem resize_step_spec (p : CombinedEdgeProfile) (n : Nat) :
    (if p._histograms.length ≠ n then { p with _histograms := resizeVec p._histograms n }
      else p)._weight = p._weight ∧
    (if p._histograms.length ≠ n then { p with _histograms := resizeVec p._histograms n }
      else p)._histograms.length = n ∧
    ∀ i, i < n →
      addListAt (if p._histograms.length ≠ n then { p with _histograms := resizeVec p._histograms n }
        else p)._histograms i = addListAt p._histograms i := by
  by_cases h : p._histograms.length = n
  · simp [h]
  · exact ⟨by simp [h], by simp [h, resizeVec_length],
      fun i hi => by simp [h, addListAt_resizeVec _ _ _ hi]⟩

/-- C1. A successful `addProfile` on a counter array as long as the edge count of the tree adds
1 to the total weight and appends exactly one sample (of weight 1) to the add list of every
histogram `i`: with `d` the dominator index of `i`, the value is 1 if `d = i`, 0 if `d ≠ i` and
`counters[d] = 0`, and `counters[i] / counters[d]` otherwise. -/
theorem addProfile_appends_normalized (edt : EdgeDominatorTree) (p p' : CombinedEdgeProfile)
    (counters rest rest' : List Nat)
    (hlen : counters.length = edt.getEdgeCount)
    (hok : addProfile (some edt) p (counters.length :: (counters ++ rest)) = some (true, p', rest')) :
    p'._weight = p._weight + 1 ∧ p'._histograms.length = edt.getEdgeCount ∧
    ∀ i, i < edt.getEdgeCount → ∃ d, edt.getDominatorIndex i = some d ∧ d < counters.length ∧
      addListAt p'._histograms i = addListAt p._histograms i ++
        [(if d = i then 1
          else if counters.getD d 0 = 0 then 0
          else (counters.getD i 0 : ℚ) / (counters.getD d 0 : ℚ), 1)] := by
  obtain ⟨r1, r2, r3⟩ := resize_step_spec p counters.length
  simp only [addProfile, List.length_append, List.take_left', List.drop_left'] at hok
  rw [if_neg (by omega)] at hok
  generalize (if p._histograms.length ≠ counters.length then
      { p with _histograms := resizeVec p._histograms counters.length } else p) = p1
    at hok r1 r2 r3
  split at hok
  · rename_i hs hloop
    simp only [Option.some.injEq, Prod.mk.injEq, true_and] at hok
    obtain ⟨hp, _⟩ := hok
    subst hp
    simp only [addWeight] at hloop ⊢
    obtain ⟨h1, _, h3⟩ :=
      addProfileLoop_spec edt counters counters.length 0 _ hs (by omega) hloop
    refine ⟨by rw [r1], by rw [h1, r2, hlen], ?_⟩
    intro i hi
    rw [← hlen] at hi
    obtain ⟨e, d, c, he, hd, hc, hadd⟩ := h3 i (Nat.zero_le _) (by omega)
    have hdlt : d < counters.length := by
      by_contra hcon
      have hnone : counters[d]? = none := List.getElem?_eq_none (Nat.le_of_not_lt hcon)
      rw [hnone] at hc
      exact absurd hc (by simp)
    refine ⟨d, hd, hdlt, ?_⟩
    have e1 : counters.getD i 0 = e := by
      rw [List.getD_eq_getElem?_getD, he]; rfl
    have e2 : counters.getD d 0 = c := by
      rw [List.getD_eq_getElem?_getD, hc]; rfl
    rw [e1, e2, hadd, r3 i hi]
    rfl
  · simp at hok

/-- Totality of `addProfile` on well-formed input: when the counter array is as long as the
edge count and every edge has a dominator index below that count, the call succeeds. -/
theorem addProfileLoop_succeeds (edt : EdgeDominatorTree) (buf : List Nat)
    (hdom : ∀ i, i < buf.length → ∃ d, edt.getDominatorIndex i = some d ∧ d < buf.length) :
    ∀ (k i : Nat) (hs : CPHistVec), i + k ≤ buf.length →
      ∃ hs', addProfileLoop edt buf k i hs = some hs' := by
  intro k
  induction k with
  | zero => intro i hs _; exact ⟨hs, rfl⟩
  | succ k ih =>
    intro i hs hik
    obtain ⟨d, hd, hdl⟩ := hdom i (by omega)
    unfold addProfileLoop
    rw [List.getElem?_eq_getElem (show i < buf.length by omega), hd]
    simp only [List.getElem?_eq_getElem hdl]
    exact ih (i + 1) _ (by omega)

end CombinedEdgeProfile

end Cmbprof

namespace Cmbprof

namespace CombinedEdgeProfile

theorem branchEdt_dominators :
    branchEdt.getDominatorIndex 0 = some 0 ∧ branchEdt.getDominatorIndex 1 = some 0 ∧
    branchEdt.getDominatorIndex 2 = some 0 ∧ branchEdt.getEdgeCount = 3 := by
  decide

theorem branchProfile_run :
    addProfile (some branchEdt) branchProfile0 ([10, 7, 3].length :: ([10, 7, 3] ++ [])) =
      some (true, branchProfile1, []) := by
  obtain ⟨h0, h1, h2, _⟩ := branchEdt_dominators
  simp [addProfile, addProfileLoop, h0, h1, h2, addSample, normFreq, branchProfile0,
    branchProfile1, addWeight, CPHistogram.addToList, CPHistogram.empty]

/-- Witness for C1: the three-edge function with counters `[10, 7, 3]`; the run succeeds and
the histograms of edges 0, 1 and 2 receive the samples 1, 7/10 and 3/10. -/
theorem addProfile_appends_normalized_witness :
    ([10, 7, 3].length = branchEdt.getEdgeCount ∧
      addProfile (some branchEdt) branchProfile0 ([10, 7, 3].length :: ([10, 7, 3] ++ [])) =
        some (true, branchProfile1, [])) ∧
    (branchProfile1._weight = branchProfile0._weight + 1 ∧
      branchProfile1._histograms.length = branchEdt.getEdgeCount ∧
      ∀ i, i < branchEdt.getEdgeCount →
        ∃ d, branchEdt.getDominatorIndex i = some d ∧ d < [10, 7, 3].length ∧
          addListAt branchProfile1._histograms i = addListAt branchProfile0._histograms i ++
            [(if d = i then 1
              else if [10, 7, 3].getD d 0 = 0 then 0
              else (([10, 7, 3].getD i 0 : ℕ) : ℚ) / (([10, 7, 3].getD d 0 : ℕ) : ℚ), 1)]) ∧
    (addListAt branchProfile1._histograms 0 = [(1, 1)] ∧
      addListAt branchProfile1._histograms 1 = [(7 / 10, 1)] ∧
      addListAt branchProfile1._histograms 2 = [(3 / 10, 1)]) :=
  ⟨⟨by decide, branchProfile_run⟩,
   addProfile_appends_normalized branchEdt branchProfile0 branchProfile1 [10, 7, 3] [] []
     (by decide) branchProfile_run,
   by simp [addListAt, branchProfile1, CPHistogram.addToList, CPHistogram.empty]⟩

end CombinedEdgeProfile

end Cmbprof

namespace Cmbprof

namespace CFGEdgeDomTree

/-! ## Edge dominance on functions with a loop that has two entries -/

/-- C3, evaluated on `twoEntryLoop`: edge 5 (3→2) is a non-back edge whose only non-back parent
is edge 3 (1→3); the single-parent shortcut stores 3, but the iteration goes on to the
least-common-ancestor computation, which intersects with the ancestor set of the back-edge
parent 4 (already reduced, as edge 4 was taken from the worklist early) and stores 0. -/
theorem single_parent_dominator_overwritten :
    IndexSet.mem 5 (construct twoEntryLoop 0)._nonBackEdges = true ∧
    (edgeFind (construct twoEntryLoop 0)._edges 5).map
      (fun n => IndexSet.INTERSECT n.parents (construct twoEntryLoop 0)._nonBackEdges []) = some [3] ∧
    (construct twoEntryLoop 0).diags = [] ∧
    (EdgeDominatorTree.construct [twoEntryLoop]).getDominatorIndex 5 = some 0 := by
  decide

/-- C2, evaluated on `threeEntryLoop`: edge 6 (3→2) is a non-back edge with the two non-back
parents 3 (1→3) and 7 (4→3); every path of non-back edges from the entry edge to it passes
through edge 1 (0→1), which is not the entry edge, yet the stored dominator index is the entry
edge 0. -/
theorem lca_of_nonback_parents_missed :
    IndexSet.mem 6 (construct threeEntryLoop 0)._nonBackEdges = true ∧
    (edgeFind (construct threeEntryLoop 0)._edges 6).map
      (fun n => IndexSet.INTERSECT n.parents (construct threeEntryLoop 0)._nonBackEdges []) =
        some [3, 7] ∧
    specDominates (construct threeEntryLoop 0) 0 1 6 = true ∧
    specDominates (construct threeEntryLoop 0) 0 1 3 = true ∧
    specDominates (construct threeEntryLoop 0) 0 1 7 = true ∧
    specDominates (construct threeEntryLoop 0) 0 3 6 = false ∧
    specDominates (construct threeEntryLoop 0) 0 7 6 = false ∧
    specDominates (construct threeEntryLoop 0) 0 4 6 = false ∧
    (construct threeEntryLoop 0).diags = [] ∧
    (EdgeDominatorTree.construct [threeEntryLoop]).getDominatorIndex 6 = some 0 := by
  decide

end CFGEdgeDomTree

end Cmbprof

namespace Cmbprof

/-! ## Association lists and integer conversions -/

theorem mapFind_mapSet {V : Type} (k k' : Nat) (v : V) (m : List (Nat × V)) :
    mapFind k' (mapSet k v m) = if k' = k then some v else mapFind k' m := by
  induction m with
  | nil =>
    simp only [mapSet, mapFind]
    by_cases h : k = k' <;> simp [h, eq_comm]
  | cons hd tl ih =>
    obtain ⟨k1, v1⟩ := hd
    simp only [mapSet]
    by_cases h1 : k < k1
    · simp only [h1, if_true, mapFind]
      by_cases h : k = k' <;> simp [h, eq_comm]
    · simp only [h1, if_false]
      by_cases h2 : k = k1
      · subst h2
        simp only [if_true, mapFind]
        by_cases h : k = k' <;> simp [h, eq_comm]
      · simp only [h2, if_false, mapFind, ih]
        by_cases h3 : k1 = k'
        · subst h3
          simp [Ne.symm h2]
        · simp [h3]

theorem mapFind_eq_none_of_not_mem {V : Type} (k : Nat) (m : List (Nat × V))
    (h : k ∉ m.map Prod.fst) : mapFind k m = none := by
  induction m with
  | nil => rfl
  | cons hd tl ih =>
    obtain ⟨k1, v1⟩ := hd
    simp only [List.map_cons, List.mem_cons, not_or] at h
    simp only [mapFind, Ne.symm h.1, if_false]
    exact ih h.2

theorem mapFind_mem {V : Type} (k : Nat) (v : V) (m : List (Nat × V))
    (h : mapFind k m = some v) : (k, v) ∈ m := by
  induction m with
  | nil => simp [mapFind] at h
  | cons hd tl ih =>
    obtain ⟨k1, v1⟩ := hd
    simp only [mapFind] at h
    by_cases h1 : k1 = k
    · simp only [h1, if_true, Option.some.injEq] at h
      simp [h1, h]
    · simp only [h1, if_false] at h
      exact List.mem_cons_of_mem _ (ih h)

theorem toUInt32_toInt32 (n : Nat) (h : n < 2 ^ 32) : toUInt32 (toInt32 n) = n := by
  unfold toUInt32 toInt32
  norm_num at h ⊢
  split <;> omega

theorem toInt32_eq_neg_one (n : Nat) (h : n < 2 ^ 32) : toInt32 n = -1 ↔ n = 2 ^ 32 - 1 := by
  unfold toInt32
  norm_num at h ⊢
  split <;> omega

namespace CombinedPathProfile

theorem slotAt_setSlot (fs : CPPFunctionMap) (fn path idx f k : Nat) :
    slotAt (setSlot fs fn path idx) f k =
      if f = fn ∧ k = path then some idx else slotAt fs f k := by
  unfold slotAt setSlot
  rw [mapFind_mapSet]
  by_cases hf : f = fn
  · subst hf
    simp only [if_true, Option.some_bind, true_and, mapFind_mapSet]
    by_cases hk : k = path
    · simp [hk]
    · simp only [hk, if_false]
      cases mapFind f fs <;> simp [mapFind]
  · simp [hf]

end CombinedPathProfile

end Cmbprof

namespace Cmbprof
namespace CombinedPathProfile

/-- Reading back what `serializePaths` wrote for one function: every entry gets a fresh slot
holding the histogram it had, and no other location changes. -/
theorem deserializePaths_serialized (c : HistCodec) (hists : CPHistVec) (fn : Nat) :
    ∀ (paths : CPPHistogramMap) (q : CombinedPathProfile) (out rest : List Item) (n : Nat),
      PathKeysOk paths → (∀ e ∈ paths, e.1 ≠ 2 ^ 32 - 1) →
      CodecInverts c q._bincount q._weight hists paths →
      serializePaths c hists paths = some (true, out, n) →
      ∃ q', deserializePaths c fn paths.length q q._histograms.length (out ++ rest) =
          (true, q', q'._histograms.length, rest) ∧
        q'._weight = q._weight ∧ q'._bincount = q._bincount ∧
        (∃ L, q'._histograms = q._histograms ++ L) ∧
        (∀ f k, (f ≠ fn ∨ mapFind k paths = none) →
          slotAt q'._functions f k = slotAt q._functions f k) ∧
        (∀ k idx, mapFind k paths = some idx →
          ∃ j h, slotAt q'._functions fn k = some j ∧ q._histograms.length ≤ j ∧
            q'._histograms[j]? = some (some h) ∧ hists[idx]? = some (some h)) := by
  intro paths
  induction paths with
  | nil =>
    intro q out rest n _ _ _ hs
    simp only [serializePaths, Option.some.injEq, Prod.mk.injEq, true_and] at hs
    obtain ⟨ho, _⟩ := hs
    subst ho
    refine ⟨q, by simp [deserializePaths], rfl, rfl, ⟨[], by simp⟩, fun _ _ _ => rfl, ?_⟩
    intro k idx h
    simp [mapFind] at h
  | cons hd tl ih =>
    obtain ⟨path, idx⟩ := hd
    intro q out rest n hkeys hne hcodec hs
    unfold serializePaths at hs
    split at hs
    · rename_i hist hhist
      obtain ⟨bytes, hb, hd⟩ := hcodec (path, idx) (List.mem_cons_self _ _) hist hhist
        ((match serializePaths c hists tl with
          | some (_, out2, _) => out2
          | none => []) ++ rest)
      simp only [hb] at hs
      split at hs
      · simp at hs
      · rename_i ok out2 n2 htl
        simp only [Option.some.injEq, Prod.mk.injEq] at hs
        obtain ⟨hok, hout, _⟩ := hs
        subst hok hout
        simp only [htl] at hd
        have hlt : path < 2 ^ 32 := hkeys.2 (path, idx) (List.mem_cons_self _ _)
        have hn1 : toInt32 path ≠ -1 := by
          rw [Ne, toInt32_eq_neg_one path hlt]
          exact hne (path, idx) (List.mem_cons_self _ _)
        have hnd : (tl.map Prod.fst).Nodup ∧ path ∉ tl.map Prod.fst := by
          have := hkeys.1
          simp only [List.map_cons, List.nodup_cons] at this
          exact ⟨this.2, this.1⟩
        obtain ⟨q', hq', hw, hbc, ⟨L, hL⟩, hkeep, hnew⟩ :=
          ih { q with _histograms := q._histograms ++ [some hist]
                      _functions := setSlot q._functions fn path q._histograms.length }
            out2 rest n2 ⟨hnd.1, fun e he => hkeys.2 e (List.mem_cons_of_mem _ he)⟩
            (fun e he => hne e (List.mem_cons_of_mem _ he))
            (fun e he => hcodec e (List.mem_cons_of_mem _ he)) htl
        refine ⟨q', ?_, hw, hbc, ⟨some hist :: L, by rw [hL]; simp⟩, ?_, ?_⟩
        · simp only [List.length_cons, deserializePaths, List.append_assoc, hd, hn1, if_false,
            toUInt32_toInt32 path hlt]
          simpa using hq'
        · intro f k hfk
          have hk2 : f ≠ fn ∨ mapFind k tl = none := by
            rcases hfk with h | h
            · exact Or.inl h
            · right
              simp only [mapFind] at h
              by_cases hpk : path = k
              · simp [hpk] at h
              · simpa [hpk] using h
          rw [hkeep f k hk2, slotAt_setSlot]
          have : ¬ (f = fn ∧ k = path) := by
            rintro ⟨h1, h2⟩
            rcases hfk with h | h
            · exact h h1
            · simp [mapFind, h2] at h
          simp [this]
        · intro k idx' hk
          simp only [mapFind] at hk
          by_cases hpk : path = k
          · subst hpk
            simp only [if_true, Option.some.injEq] at hk
            subst hk
            refine ⟨q._histograms.length, hist, ?_, Nat.le_refl _, ?_, hhist⟩
            · rw [hkeep fn path (Or.inr (mapFind_eq_none_of_not_mem _ _ hnd.2)), slotAt_setSlot]
              simp
            · rw [hL, List.append_assoc, List.getElem?_append_right (Nat.le_refl _)]
              simp
          · simp only [hpk, if_false] at hk
            obtain ⟨j, h, h1, h2, h3, h4⟩ := hnew k idx' hk
            refine ⟨j, h, h1, ?_, h3, h4⟩
            simp only [List.length_append, List.length_singleton] at h2
            omega
    · simp at hs
end CombinedPathProfile
end Cmbprof

namespace Cmbprof
namespace CombinedPathProfile

theorem serializePaths_flag (c : HistCodec) (b : Nat) (w : ℚ) (hists : CPHistVec) :
    ∀ (paths : CPPHistogramMap) (ok : Bool) (out : List Item) (n : Nat),
      CodecInverts c b w hists paths → serializePaths c hists paths = some (ok, out, n) →
      ok = true := by
  intro paths
  induction paths with
  | nil =>
    intro ok out n _ hs
    simp only [serializePaths, Option.some.injEq, Prod.mk.injEq] at hs
    exact hs.1.symm
  | cons hd tl ih =>
    obtain ⟨path, idx⟩ := hd
    intro ok out n hcodec hs
    unfold serializePaths at hs
    split at hs
    · rename_i hist hhist
      obtain ⟨bytes, hb, _⟩ := hcodec (path, idx) (List.mem_cons_self _ _) hist hhist []
      simp only [hb] at hs
      split at hs
      · simp at hs
      · rename_i ok2 out2 n2 htl
        simp only [Option.some.injEq, Prod.mk.injEq] at hs
        rw [← hs.1]
        exact ih ok2 out2 n2 (fun e he => hcodec e (List.mem_cons_of_mem _ he)) htl
    · simp at hs

theorem serializeFunctions_flag (c : HistCodec) (b : Nat) (w : ℚ) (hists : CPHistVec) :
    ∀ (fs : CPPFunctionMap) (ok : Bool) (out : List Item) (n : Nat),
      (∀ fe ∈ fs, CodecInverts c b w hists fe.2) →
      serializeFunctions c hists fs = some (ok, out, n) → ok = true := by
  intro fs
  induction fs with
  | nil =>
    intro ok out n _ hs
    simp only [serializeFunctions, Option.some.injEq, Prod.mk.injEq] at hs
    exact hs.1.symm
  | cons hd tl ih =>
    obtain ⟨fn, paths⟩ := hd
    intro ok out n hcodec hs
    unfold serializeFunctions at hs
    split at hs
    · simp at hs
    · rename_i out1 n1 h1
      have := serializePaths_flag c b w hists paths false out1 n1
        (hcodec (fn, paths) (List.mem_cons_self _ _)) h1
      simp at this
    · rename_i out1 n1 h1
      split at hs
      · simp at hs
      · rename_i ok2 out2 n2 htl
        simp only [Option.some.injEq, Prod.mk.injEq] at hs
        rw [← hs.1]
        exact ih ok2 out2 n2 (fun e he => hcodec e (List.mem_cons_of_mem _ he)) htl

/-- Reading back what `serializeFunctions` wrote. -/
theorem deserializeFunctions_serialized (c : HistCodec) (hists : CPHistVec) :
    ∀ (fs : CPPFunctionMap) (q : CombinedPathProfile) (out rest : List Item) (n : Nat),
      (fs.map Prod.fst).Nodup →
      (∀ fe ∈ fs, PathKeysOk fe.2 ∧ ∀ e ∈ fe.2, e.1 ≠ 2 ^ 32 - 1) →
      (∀ fe ∈ fs, CodecInverts c q._bincount q._weight hists fe.2) →
      serializeFunctions c hists fs = some (true, out, n) →
      ∃ q', deserializeFunctions c fs.length q q._histograms.length (out ++ rest) =
          (true, q', rest) ∧
        q'._weight = q._weight ∧ q'._bincount = q._bincount ∧
        (∃ L, q'._histograms = q._histograms ++ L) ∧
        (∀ f k, (∀ paths, mapFind f fs = some paths → mapFind k paths = none) →
          slotAt q'._functions f k = slotAt q._functions f k) ∧
        (∀ f paths k idx, mapFind f fs = some paths → mapFind k paths = some idx →
          ∃ j h, slotAt q'._functions f k = some j ∧ q._histograms.length ≤ j ∧
            q'._histograms[j]? = some (some h) ∧ hists[idx]? = some (some h)) := by
  intro fs
  induction fs with
  | nil =>
    intro q out rest n _ _ _ hs
    simp only [serializeFunctions, Option.some.injEq, Prod.mk.injEq, true_and] at hs
    obtain ⟨ho, _⟩ := hs
    subst ho
    refine ⟨q, by simp [deserializeFunctions], rfl, rfl, ⟨[], by simp⟩, fun _ _ _ => rfl, ?_⟩
    intro f paths k idx h
    simp [mapFind] at h
  | cons hd tl ih =>
    obtain ⟨fn, paths⟩ := hd
    intro q out rest n hnd hkeys hcodec hs
    unfold serializeFunctions at hs
    split at hs
    · simp at hs
    · simp at hs
    · rename_i out1 n1 h1
      split at hs
      · simp at hs
      · rename_i ok2 out2 n2 htl
        simp only [Option.some.injEq, Prod.mk.injEq] at hs
        obtain ⟨hok, hout, _⟩ := hs
        subst hok hout
        have hk0 := hkeys (fn, paths) (List.mem_cons_self _ _)
        obtain ⟨q1, hq1, hw1, hb1, ⟨L1, hL1⟩, hkeep1, hnew1⟩ :=
          deserializePaths_serialized c hists fn paths q out1 (out2 ++ rest) n1 hk0.1 hk0.2
            (hcodec (fn, paths) (List.mem_cons_self _ _)) h1
        have hnd2 : (tl.map Prod.fst).Nodup ∧ fn ∉ tl.map Prod.fst := by
          simp only [List.map_cons, List.nodup_cons] at hnd
          exact ⟨hnd.2, hnd.1⟩
        obtain ⟨q', hq', hw, hb, ⟨L, hL⟩, hkeep, hnew⟩ :=
          ih q1 out2 rest n2 hnd2.1 (fun e he => hkeys e (List.mem_cons_of_mem _ he))
            (fun e he => by rw [hb1, hw1]; exact hcodec e (List.mem_cons_of_mem _ he)) htl
        have hfn : mapFind fn tl = none := mapFind_eq_none_of_not_mem _ _ hnd2.2
        refine ⟨q', ?_, by rw [hw, hw1], by rw [hb, hb1],
          ⟨L1 ++ L, by rw [hL, hL1, List.append_assoc]⟩, ?_, ?_⟩
        · simp only [List.length_cons, deserializeFunctions, List.cons_append, readU32,
            List.append_assoc, hq1, if_true]
          exact hq'
        · intro f k hfk
          have h2 : ∀ pths, mapFind f tl = some pths → mapFind k pths = none := by
            intro pths hp
            have hne : fn ≠ f := by
              intro h; rw [← h, hfn] at hp; simp at hp
            exact hfk pths (by simp [mapFind, hne, hp])
          have h3 : f ≠ fn ∨ mapFind k paths = none := by
            by_cases hf : f = fn
            · right
              exact hfk paths (by simp [mapFind, hf])
            · exact Or.inl hf
          rw [hkeep f k h2, hkeep1 f k h3]
        · intro f pths k idx hf hk
          simp only [mapFind] at hf
          by_cases hff : fn = f
          · subst hff
            simp only [if_true, Option.some.injEq] at hf
            subst hf
            obtain ⟨j, h, e1, e2, e3, e4⟩ := hnew1 k idx hk
            refine ⟨j, h, ?_, e2, ?_, e4⟩
            · rw [hkeep fn k (fun pths hp => by rw [hfn] at hp; simp at hp), e1]
            · have hj : j < q1._histograms.length := by
                by_contra hcon
                have hnone : q1._histograms[j]? = none :=
                  List.getElem?_eq_none (Nat.le_of_not_lt hcon)
                rw [hnone] at e3
                simp at e3
              rw [hL, List.getElem?_append_left hj, e3]
          · simp only [hff, if_false] at hf
            obtain ⟨j, h, e1, e2, e3, e4⟩ := hnew f pths k idx hf hk
            refine ⟨j, h, e1, ?_, e3, e4⟩
            rw [hL1, List.length_append] at e2
            omega

end CombinedPathProfile
end Cmbprof

namespace Cmbprof
namespace CombinedPathProfile

theorem valid_eq_slotAt (p : CombinedPathProfile) (loc : Nat × Nat) :
    valid p loc = (slotAt p._functions loc.1 loc.2).isSome := by
  unfold valid slotAt
  cases mapFind loc.1 p._functions <;> simp

theorem histAt_eq_slotAt (p : CombinedPathProfile) (loc : Nat × Nat) :
    histAt p loc = (slotAt p._functions loc.1 loc.2).bind (fun idx => (p._histograms[idx]?).join) := by
  unfold histAt slotAt
  cases mapFind loc.1 p._functions with
  | none => simp
  | some paths =>
    simp only [Option.some_bind]
    cases mapFind loc.2 paths <;> simp

/-- C5, as amended. For a profile `p` whose path numbers all differ from `2^32 - 1` and a
histogram codec that inverts on the histograms of `p`, deserializing what `serialize` wrote
after the kind tag into a fresh profile succeeds, consumes exactly those items, and yields the
same total weight, the same bin count, the same valid locations and, for every location, a
histogram equal to the one of `p`. -/
theorem serialize_deserialize_roundtrip (c : HistCodec) (ptype : Nat)
    (p q : CombinedPathProfile) (body rest : List Item) (n : Nat)
    (hfresh : q._histograms = [] ∧ q._functions = [])
    (hkeys : KeysOk p)
    (hne : ∀ fe ∈ p._functions, ∀ e ∈ fe.2, e.1 ≠ 2 ^ 32 - 1)
    (hcodec : ∀ fe ∈ p._functions, CodecInverts c p._bincount p._weight p._histograms fe.2)
    (hser : serialize c ptype p = some (Item.u32 ptype :: body, n)) :
    ∃ q', deserialize c q (body ++ rest) = (true, q', rest) ∧
      q'._weight = p._weight ∧ q'._bincount = p._bincount ∧
      ∀ loc, valid q' loc = valid p loc ∧ histAt q' loc = histAt p loc := by
  unfold serialize at hser
  split at hser
  · simp at hser
  · rename_i ok out n1 hfs
    have hok := serializeFunctions_flag c p._bincount p._weight p._histograms p._functions
      ok out n1 hcodec hfs
    subst hok
    simp only [Option.some.injEq, Prod.mk.injEq, List.cons.injEq, true_and] at hser
    obtain ⟨hbody, _⟩ := hser
    subst hbody
    obtain ⟨q', hq', hw, hb, _, hkeep, hnew⟩ :=
      deserializeFunctions_serialized c p._histograms p._functions
        { q with _weight := p._weight, _bincount := p._bincount } out rest n1 hkeys.1
        (fun fe hfe => ⟨hkeys.2 fe hfe, hne fe hfe⟩) hcodec hfs
    refine ⟨q', ?_, hw, hb, ?_⟩
    · simp only [deserialize, List.cons_append, readF64, readU32]
      simpa [hfresh.1] using hq'
    · intro loc
      rw [valid_eq_slotAt, valid_eq_slotAt, histAt_eq_slotAt, histAt_eq_slotAt]
      cases hf : mapFind loc.1 p._functions with
      | none =>
        rw [hkeep loc.1 loc.2 (fun paths hp => by rw [hf] at hp; simp at hp)]
        simp [slotAt, hf, hfresh.2, mapFind]
      | some paths =>
        cases hk : mapFind loc.2 paths with
        | none =>
          rw [hkeep loc.1 loc.2 (fun pths hp => by
            rw [hf] at hp
            simp only [Option.some.injEq] at hp
            rw [← hp, hk])]
          simp [slotAt, hf, hk, hfresh.2, mapFind]
        | some idx =>
          obtain ⟨j, h, e1, _, e3, e4⟩ := hnew loc.1 paths loc.2 idx hf hk
          rw [e1]
          simp [slotAt, hf, hk, e3, e4]

end CombinedPathProfile
end Cmbprof

namespace Cmbprof
namespace CombinedPathProfile

theorem exampleCodec_inverts_point (id : Nat) (b : Nat) (rest : List Item) :
    ∃ bytes, exampleCodec.hser id pointHistogram = some bytes ∧
      exampleCodec.hdeser b 2 (bytes ++ rest) = (toInt32 id, pointHistogram, rest) := by
  refine ⟨_, rfl, ?_⟩
  simp [exampleCodec, pointHistogram, readBins, readF64]

theorem twoPathProfile_codec :
    ∀ fe ∈ twoPathProfile._functions,
      CodecInverts exampleCodec twoPathProfile._bincount twoPathProfile._weight
        twoPathProfile._histograms fe.2 := by
  intro fe hfe e he h hh rest
  simp only [twoPathProfile, List.mem_singleton] at hfe
  subst hfe
  simp only [List.mem_cons, List.mem_singleton, List.not_mem_nil, or_false] at he
  rcases he with he | he <;> subst he <;>
    simp only [twoPathProfile, List.getElem?_cons_succ, List.getElem?_cons_zero,
      Option.some.injEq] at hh <;> subst hh <;>
    exact exampleCodec_inverts_point _ _ _

theorem twoPathProfile_serialized :
    serialize exampleCodec 6 twoPathProfile =
      some (Item.u32 6 ::
        [Item.f64 2, Item.u32 1, Item.u32 1, Item.u32 1, Item.u32 2,
         Item.u32 0, Item.u32 1, Item.f64 (1 / 2), Item.f64 (1 / 2), Item.f64 2, Item.f64 2,
         Item.u32 3, Item.u32 1, Item.f64 (1 / 2), Item.f64 (1 / 2), Item.f64 2, Item.f64 2], 2) := by
  simp [serialize, serializeFunctions, serializePaths, twoPathProfile, exampleCodec,
    pointHistogram]

theorem twoPathProfile_keys :
    KeysOk twoPathProfile ∧
    ∀ fe ∈ twoPathProfile._functions, ∀ e ∈ fe.2, e.1 ≠ 2 ^ 32 - 1 := by
  simp only [KeysOk, PathKeysOk, twoPathProfile]
  refine ⟨⟨by decide, ?_⟩, ?_⟩ <;> intro fe hfe <;>
    simp only [List.mem_singleton] at hfe <;> subst hfe
  · exact ⟨by decide, by decide⟩
  · decide

end CombinedPathProfile
end Cmbprof

namespace Cmbprof
namespace CombinedPathProfile

/-- Witness for C5: the round trip of `twoPathProfile` through `exampleCodec`. -/
theorem serialize_deserialize_roundtrip_witness :
    ((construct [] 0)._histograms = [] ∧ (construct [] 0)._functions = []) ∧
    KeysOk twoPathProfile ∧
    (∀ fe ∈ twoPathProfile._functions, ∀ e ∈ fe.2, e.1 ≠ 2 ^ 32 - 1) ∧
    (∀ fe ∈ twoPathProfile._functions,
      CodecInverts exampleCodec twoPathProfile._bincount twoPathProfile._weight
        twoPathProfile._histograms fe.2) ∧
    ∃ q', deserialize exampleCodec (construct [] 0)
        ([Item.f64 2, Item.u32 1, Item.u32 1, Item.u32 1, Item.u32 2,
          Item.u32 0, Item.u32 1, Item.f64 (1 / 2), Item.f64 (1 / 2), Item.f64 2, Item.f64 2,
          Item.u32 3, Item.u32 1, Item.f64 (1 / 2), Item.f64 (1 / 2), Item.f64 2, Item.f64 2]
          ++ []) = (true, q', []) ∧
      q'._weight = twoPathProfile._weight ∧ q'._bincount = twoPathProfile._bincount ∧
      ∀ loc, valid q' loc = valid twoPathProfile loc ∧ histAt q' loc = histAt twoPathProfile loc :=
  ⟨⟨rfl, rfl⟩, twoPathProfile_keys.1, twoPathProfile_keys.2, twoPathProfile_codec,
   serialize_deserialize_roundtrip exampleCodec 6 twoPathProfile (construct [] 0) _ [] 2
     ⟨rfl, rfl⟩ twoPathProfile_keys.1 twoPathProfile_keys.2 twoPathProfile_codec
     twoPathProfile_serialized⟩

theorem toInt32_last : toInt32 4294967295 = -1 := by decide

/-- Counterexample to C5 as stated: `lastPathProfile` holds a histogram under path number
`2^32 - 1`; the codec inverts on it and returns the written id, which as an `int` is -1, so
`deserialize` takes the read for a failure and returns false, with no location recorded. -/
theorem roundtrip_fails_for_last_path_number :
    KeysOk lastPathProfile ∧
    (∀ fe ∈ lastPathProfile._functions,
      CodecInverts exampleCodec lastPathProfile._bincount lastPathProfile._weight
        lastPathProfile._histograms fe.2) ∧
    serialize exampleCodec 6 lastPathProfile =
      some (Item.u32 6 ::
        [Item.f64 2, Item.u32 1, Item.u32 1, Item.u32 1, Item.u32 1,
         Item.u32 4294967295, Item.u32 1, Item.f64 (1 / 2), Item.f64 (1 / 2), Item.f64 2,
         Item.f64 2], 1) ∧
    valid lastPathProfile (1, 4294967295) = true ∧
    (deserialize exampleCodec (construct [] 0)
        [Item.f64 2, Item.u32 1, Item.u32 1, Item.u32 1, Item.u32 1,
         Item.u32 4294967295, Item.u32 1, Item.f64 (1 / 2), Item.f64 (1 / 2), Item.f64 2,
         Item.f64 2]).1 = false ∧
    valid (deserialize exampleCodec (construct [] 0)
        [Item.f64 2, Item.u32 1, Item.u32 1, Item.u32 1, Item.u32 1,
         Item.u32 4294967295, Item.u32 1, Item.f64 (1 / 2), Item.f64 (1 / 2), Item.f64 2,
         Item.f64 2]).2.1 (1, 4294967295) = false := by
  refine ⟨?_, ?_, ?_, by decide, ?_, ?_⟩
  · simp only [KeysOk, PathKeysOk, lastPathProfile]
    refine ⟨by decide, ?_⟩
    intro fe hfe
    simp only [List.mem_singleton] at hfe
    subst hfe
    exact ⟨by decide, by decide⟩
  · intro fe hfe e he h hh rest
    simp only [lastPathProfile, List.mem_singleton] at hfe
    subst hfe
    simp only [List.mem_singleton] at he
    subst he
    simp only [lastPathProfile, List.getElem?_cons_succ, List.getElem?_cons_zero,
      Option.some.injEq] at hh
    subst hh
    exact exampleCodec_inverts_point _ _ _
  · simp [serialize, serializeFunctions, serializePaths, lastPathProfile, exampleCodec,
      pointHistogram]
  · simp [deserialize, deserializeFunctions, deserializePaths, readF64, readU32, construct,
      exampleCodec, readBins, toInt32_last]
  · simp [deserialize, deserializeFunctions, deserializePaths, readF64, readU32, construct,
      exampleCodec, readBins, toInt32_last, valid, mapFind]

end CombinedPathProfile
end Cmbprof

namespace Cmbprof

namespace CombinedPathProfile

/-! ## Merging path profiles -/

theorem oneTrialProfile_run (numbering : PathNumbering) (hn : numbering = fun _ _ => true) :
    addProfile numbering (construct oneFunctionModule 0) oneTrialFile =
      some (true, oneTrialProfile, []) := by
  subst hn
  simp [addProfile, addProfileFunctions, readPathEntries, addPathSamples, getHistogram,
    construct, oneFunctionModule, oneTrialFile, oneTrialProfile, mapFind, mapSet, resizeVec,
    CPHistogram.addToList, CPHistogram.empty]

/-- C6, evaluated on a module with one defined function: `addProfile` records the path of
that function under function number 1 (it reads `_functionRef[funcNum-1]`), but the loop of
`buildFromList` visits only the function numbers `0 .. _functionRef.size()-1`, here only 0, so
the merged profile has no histogram for location (1, 0), whatever the histogram constructor
does. -/
theorem buildFromList_skips_last_function
    (mkHist : Nat → ℚ → List CPHistogram → CPHistogram) :
    addProfile (fun _ _ => true) (construct oneFunctionModule 0) oneTrialFile =
      some (true, oneTrialProfile, []) ∧
    valid oneTrialProfile (1, 0) = true ∧
    (histAt oneTrialProfile (1, 0)).isSome = true ∧
    (buildFromList mkHist (construct oneFunctionModule 0)
      [CombinedProfile.path oneTrialProfile] 0).1 = true ∧
    (buildFromList mkHist (construct oneFunctionModule 0)
      [CombinedProfile.path oneTrialProfile] 0).2._functions = [] ∧
    valid (buildFromList mkHist (construct oneFunctionModule 0)
      [CombinedProfile.path oneTrialProfile] 0).2 (1, 0) = false ∧
    histAt (buildFromList mkHist (construct oneFunctionModule 0)
      [CombinedProfile.path oneTrialProfile] 0).2 (1, 0) = none := by
  refine ⟨oneTrialProfile_run _ rfl, by decide, by decide, ?_, ?_, ?_, ?_⟩ <;>
    simp [buildFromList, collectPaths, construct, oneFunctionModule, oneTrialProfile, mapFind,
      valid, histAt, List.range, List.range.loop]

end CombinedPathProfile

end Cmbprof

namespace Cmbprof
namespace CPCallRecord

/-- C7. With a selected metric `M`, and with `b` and `c` the benefit and the cost of the
record (after the impact of its actual parameters has been aggregated), `evalMetric` stores
-1 when `c ≥ 0` and `b ≤ 0`; otherwise it stores `M(record, b) / c` when `c > 0`,
`M(record, b) * (-c)` when `c < 0` and `M(record, b)` when `c = 0`; and it returns the stored
value. -/
theorem evalMetric_value (S : Statics) (calcImpact : FuncRef → Nat → ArgImpact)
    (attrs attrs1 : FuncAttrMap) (rec : CPCallRecord) (M : FDOInlineMetric) (callee : FuncRef)
    (total : ArgImpact) (b c : ℚ)
    (hM : S._metric = some M)
    (hcallee : rec.cs.callee = some callee)
    (hagg : aggregateImpact calcImpact callee rec.cs.args 0 ZeroArgImpact attrs =
      some (total, attrs1))
    (hb : inlineBenefit S.weights attrs1 { rec with totalImpact := total } = some b)
    (hc : inlineCost S.weights attrs1 { rec with totalImpact := total } = some c) :
    ∃ v rec', evalMetric S calcImpact attrs rec = some (v, rec', attrs1) ∧
      rec'.mval = v ∧ rec' = { rec with totalImpact := total, mval := v } ∧
      (c ≥ 0 ∧ b ≤ 0 → v = -1) ∧
      (¬ (c ≥ 0 ∧ b ≤ 0) →
        (c > 0 → v = M attrs1 { rec with totalImpact := total } b / c) ∧
        (c < 0 → v = M attrs1 { rec with totalImpact := total } b * (-c)) ∧
        (c = 0 → v = M attrs1 { rec with totalImpact := total } b)) := by
  simp only [evalMetric, hM, hcallee, hagg, hb, hc]
  refine ⟨_, _, rfl, rfl, rfl, ?_, ?_⟩
  · intro h
    simp [h]
  · intro h
    simp only [h, if_false]
    refine ⟨fun h1 => by simp [h1], fun h1 => ?_, fun h1 => by simp [h1]⟩
    have h2 : ¬ c > 0 := not_lt.mpr (le_of_lt h1)
    simp [h1, h2]

end CPCallRecord
end Cmbprof

namespace Cmbprof
namespace CPCallRecord

/-- Witness for C7: the example record has benefit 3 and cost 7 and gets the value 3/7. -/
theorem evalMetric_value_witness :
    (exampleStatics._metric = some benefitMetric ∧
      exampleRecord.cs.callee = some 1 ∧
      aggregateImpact (fun _ _ => ZeroArgImpact) 1 exampleRecord.cs.args 0 ZeroArgImpact
        exampleAttrs = some (ZeroArgImpact, exampleAttrs) ∧
      inlineBenefit exampleStatics.weights exampleAttrs
        { exampleRecord with totalImpact := ZeroArgImpact } = some 3 ∧
      inlineCost exampleStatics.weights exampleAttrs
        { exampleRecord with totalImpact := ZeroArgImpact } = some 7) ∧
    (∃ v rec', evalMetric exampleStatics (fun _ _ => ZeroArgImpact) exampleAttrs exampleRecord =
        some (v, rec', exampleAttrs) ∧
      rec'.mval = v ∧ rec' = { exampleRecord with totalImpact := ZeroArgImpact, mval := v } ∧
      ((7 : ℚ) ≥ 0 ∧ (3 : ℚ) ≤ 0 → v = -1) ∧
      (¬ ((7 : ℚ) ≥ 0 ∧ (3 : ℚ) ≤ 0) →
        ((7 : ℚ) > 0 →
          v = benefitMetric exampleAttrs { exampleRecord with totalImpact := ZeroArgImpact } 3 / 7) ∧
        ((7 : ℚ) < 0 →
          v = benefitMetric exampleAttrs { exampleRecord with totalImpact := ZeroArgImpact } 3 * (-7)) ∧
        ((7 : ℚ) = 0 →
          v = benefitMetric exampleAttrs { exampleRecord with totalImpact := ZeroArgImpact } 3))) ∧
    (evalMetric exampleStatics (fun _ _ => ZeroArgImpact) exampleAttrs exampleRecord).map
      (fun r => r.1) = some (3 / 7) :=
  ⟨⟨rfl, rfl, by decide, by decide!, by decide!⟩,
   evalMetric_value exampleStatics (fun _ _ => ZeroArgImpact) exampleAttrs exampleAttrs
     exampleRecord benefitMetric 1 ZeroArgImpact 3 7 rfl rfl (by decide) (by decide!)
     (by decide!),
   by decide!⟩

end CPCallRecord
end Cmbprof

namespace Cmbprof
namespace FDOInliner

theorem sanityCheckLists_iff (s : FDOInliner) :
    sanityCheckLists s = true ↔
      (∀ n ∈ s._candidates, n.record.ignored = false) ∧
      (∀ n ∈ s._ignore, n.record.ignored = true) := by
  simp [sanityCheckLists, List.all_eq_true]

theorem insert_sane (s : FDOInliner) (rec : CPCallRecord) (hs : sanityCheckLists s = true) :
    sanityCheckLists (insert s rec) = true := by
  rw [sanityCheckLists_iff] at hs ⊢
  refine ⟨?_, hs.2⟩
  intro n hn
  simp only [insert, List.mem_append, List.mem_cons] at hn
  rcases hn with h | h | h
  · exact hs.1 n (List.mem_of_mem_take h)
  · rw [h]
  · exact hs.1 n (List.mem_of_mem_drop h)

theorem ignoreCandidate_sane (s s' : FDOInliner) (i : Nat) (hs : sanityCheckLists s = true)
    (h : ignoreCandidate s i = some s') : sanityCheckLists s' = true := by
  rw [sanityCheckLists_iff] at hs ⊢
  unfold ignoreCandidate at h
  split at h
  · simp at h
  · rename_i n hn
    simp only [Option.some.injEq] at h
    subst h
    refine ⟨fun m hm => hs.1 m (List.mem_of_mem_eraseIdx hm), ?_⟩
    intro m hm
    simp only [List.mem_cons] at hm
    rcases hm with h | h
    · rw [h]
    · exact hs.2 m h

theorem ignoreCandidate_defined (s : FDOInliner) (i : Nat) (hi : i < s._candidates.length) :
    ∃ s', ignoreCandidate s i = some s' := by
  unfold ignoreCandidate
  rw [List.getElem?_eq_getElem hi]
  exact ⟨_, rfl⟩

theorem ignore_sane (S : Statics) (s s' : FDOInliner) (cs : CallSite) (zid : Nat)
    (hs : sanityCheckLists s = true) (h : ignore S s cs zid = some s') :
    sanityCheckLists s' = true := by
  unfold ignore at h
  split at h
  · simp at h
  · rename_i cand hc
    split at h
    · split at h
      · simp at h
      · rename_i ig hig
        split at h
        · simp only [Option.some.injEq] at h
          subst h
          rw [sanityCheckLists_iff] at hs ⊢
          refine ⟨hs.1, ?_⟩
          intro m hm
          simp only [List.mem_cons] at hm
          rcases hm with h | h
          · rw [h]
          · exact hs.2 m h
        · simp only [Option.some.injEq] at h
          subst h
          exact hs
    · exact ignoreCandidate_sane s s' cand hs h

theorem forget_lists (s : FDOInliner) (cs : CallSite) :
    (forget s cs)._candidates = s._candidates ∧ (forget s cs)._ignore = s._ignore := by
  simp [forget]

theorem removeCandidate_sane (s : FDOInliner) (i : Nat) (hs : sanityCheckLists s = true) :
    sanityCheckLists (removeCandidate s i).2 = true := by
  unfold removeCandidate
  split
  · exact hs
  · rw [sanityCheckLists_iff] at hs ⊢
    exact ⟨fun m hm => hs.1 m (List.mem_of_mem_eraseIdx hm), fun m hm => hs.2 m hm⟩

theorem removeIgnored_sane (s : FDOInliner) (i : Nat) (hs : sanityCheckLists s = true) :
    sanityCheckLists (removeIgnored s i).2 = true := by
  unfold removeIgnored
  split
  · exact hs
  · rw [sanityCheckLists_iff] at hs ⊢
    exact ⟨fun m hm => hs.1 m hm, fun m hm => hs.2 m (List.mem_of_mem_eraseIdx hm)⟩

theorem remove_sane (s s' : FDOInliner) (cs : CallSite) (b : Bool)
    (hs : sanityCheckLists s = true) (h : remove s cs = some (b, s')) :
    sanityCheckLists s' = true := by
  unfold remove at h
  split at h
  · simp only [Option.some.injEq, Prod.mk.injEq] at h
    rw [← h.2]; exact hs
  · split at h
    · simp only [Option.some.injEq, Prod.mk.injEq] at h
      rw [← h.2]; exact hs
    · split at h
      · simp at h
      · split at h
        · split at h
          · simp at h
          · rename_i ig _
            split at h
            · simp only [Option.some.injEq] at h
              have := removeIgnored_sane s ig hs
              rw [h] at this
              exact this
            · simp only [Option.some.injEq, Prod.mk.injEq] at h
              rw [← h.2]; exact hs
        · split at h
          · simp at h
          · rename_i cand _
            split at h
            · simp only [Option.some.injEq] at h
              have := removeCandidate_sane s cand hs
              rw [h] at this
              exact this
            · simp only [Option.some.injEq, Prod.mk.injEq] at h
              rw [← h.2]; exact hs

theorem deref_defined (s : FDOInliner) (k a : Nat) (ha : RecordsAnchored s)
    (h : mapFind k s._records = some a) : ∃ rec, deref s a = some rec := by
  obtain ⟨n, hn, hna⟩ := ha k a h
  unfold deref
  cases hf : (s._candidates ++ s._ignore).find? (fun n => n.addr == a) with
  | none =>
    rw [List.find?_eq_none] at hf
    have := hf n hn
    simp [hna] at this
  | some m => exact ⟨m.record, rfl⟩

theorem findCandidate_defined (s : FDOInliner) (cs : CallSite) (ha : RecordsAnchored s) :
    ∃ i, findCandidate s cs = some i ∧ i ≤ s._candidates.length := by
  unfold findCandidate
  cases h : mapFind cs.inst s._records with
  | none => exact ⟨_, rfl, Nat.le_refl _⟩
  | some a =>
    obtain ⟨rec, hr⟩ := deref_defined s cs.inst a ha h
    simp only [hr]
    split
    · exact ⟨_, rfl, Nat.le_refl _⟩
    · exact ⟨_, rfl, List.findIdx_le_length _⟩

theorem findIgnored_defined (s : FDOInliner) (cs : CallSite) (ha : RecordsAnchored s) :
    ∃ i, findIgnored s cs = some i ∧ i ≤ s._ignore.length := by
  unfold findIgnored
  cases h : mapFind cs.inst s._records with
  | none => exact ⟨_, rfl, Nat.le_refl _⟩
  | some a =>
    obtain ⟨rec, hr⟩ := deref_defined s cs.inst a ha h
    simp only [hr]
    split
    · exact ⟨_, rfl, Nat.le_refl _⟩
    · exact ⟨_, rfl, List.findIdx_le_length _⟩

theorem ignore_defined (S : Statics) (s : FDOInliner) (cs : CallSite) (zid : Nat)
    (ha : RecordsAnchored s) : (ignore S s cs zid).isSome = true := by
  obtain ⟨i, hi, hle⟩ := findCandidate_defined s cs ha
  obtain ⟨j, hj, _⟩ := findIgnored_defined s cs ha
  unfold ignore
  simp only [hi, hj]
  split
  · split <;> rfl
  · rename_i hne
    obtain ⟨s', hs'⟩ := ignoreCandidate_defined s i (lt_of_le_of_ne hle hne)
    rw [hs']; rfl

theorem remove_defined (s : FDOInliner) (cs : CallSite) (ha : RecordsAnchored s) :
    (remove s cs).isSome = true := by
  obtain ⟨i, hi, _⟩ := findCandidate_defined s cs ha
  obtain ⟨j, hj, _⟩ := findIgnored_defined s cs ha
  unfold remove
  split
  · rfl
  · cases h : mapFind cs.inst s._records with
    | none => rfl
    | some a =>
      obtain ⟨rec, hr⟩ := deref_defined s cs.inst a ha h
      simp only [hr, hi, hj]
      split <;> split <;> rfl

end FDOInliner
end Cmbprof

namespace Cmbprof
namespace FDOInliner

/-- C10. Starting from lists for which `sanityCheckLists` holds, each of `insert`,
`ignoreCandidate`, `ignore`, `removeCandidate`, `removeIgnored` and `remove` leaves lists for
which it holds again; `ignoreCandidate` is defined at every position of `_candidates`, and
`ignore` and `remove` are defined whenever no entry of `_records` dangles. -/
theorem list_operations_keep_sanity (S : Statics) (s : FDOInliner)
    (hs : sanityCheckLists s = true) :
    (∀ rec, sanityCheckLists (insert s rec) = true) ∧
    (∀ i, i < s._candidates.length →
      ∃ s', ignoreCandidate s i = some s' ∧ sanityCheckLists s' = true) ∧
    (∀ cs zid s', ignore S s cs zid = some s' → sanityCheckLists s' = true) ∧
    (∀ i, sanityCheckLists (removeCandidate s i).2 = true) ∧
    (∀ i, sanityCheckLists (removeIgnored s i).2 = true) ∧
    (∀ cs b s', remove s cs = some (b, s') → sanityCheckLists s' = true) ∧
    (RecordsAnchored s →
      ∀ cs zid, (ignore S s cs zid).isSome = true ∧ (remove s cs).isSome = true) := by
  refine ⟨fun rec => insert_sane s rec hs, ?_, fun cs zid s' h => ignore_sane S s s' cs zid hs h,
    fun i => removeCandidate_sane s i hs, fun i => removeIgnored_sane s i hs,
    fun cs b s' h => remove_sane s s' cs b hs h,
    fun ha cs zid => ⟨ignore_defined S s cs zid ha, remove_defined s cs ha⟩⟩
  intro i hi
  obtain ⟨s', h⟩ := ignoreCandidate_defined s i hi
  exact ⟨s', h, ignoreCandidate_sane s s' i hs h⟩

/-- Witness for C10: the example inliner passes the sanity check, so the six operations keep
it. -/
theorem list_operations_keep_sanity_witness :
    sanityCheckLists exampleInliner = true ∧
    ((∀ rec, sanityCheckLists (insert exampleInliner rec) = true) ∧
    (∀ i, i < exampleInliner._candidates.length →
      ∃ s', ignoreCandidate exampleInliner i = some s' ∧ sanityCheckLists s' = true) ∧
    (∀ cs zid s', ignore CPCallRecord.exampleStatics exampleInliner cs zid = some s' →
      sanityCheckLists s' = true) ∧
    (∀ i, sanityCheckLists (removeCandidate exampleInliner i).2 = true) ∧
    (∀ i, sanityCheckLists (removeIgnored exampleInliner i).2 = true) ∧
    (∀ cs b s', remove exampleInliner cs = some (b, s') → sanityCheckLists s' = true) ∧
    (RecordsAnchored exampleInliner →
      ∀ cs zid, (ignore CPCallRecord.exampleStatics exampleInliner cs zid).isSome = true ∧
        (remove exampleInliner cs).isSome = true)) :=
  ⟨by decide, list_operations_keep_sanity CPCallRecord.exampleStatics exampleInliner (by decide)⟩

end FDOInliner
end Cmbprof

namespace Cmbprof
namespace FDOInliner

theorem eraseIdx_last {A : Type} (l : List A) : l.eraseIdx (l.length - 1) = l.dropLast := by
  induction l with
  | nil => rfl
  | cons a tl ih =>
    cases tl with
    | nil => rfl
    | cons b tl2 =>
      simp only [List.length_cons, Nat.add_sub_cancel, List.eraseIdx_cons_succ,
        List.dropLast_cons₂] at ih ⊢
      rw [ih]

theorem processInlinedCalls_keeps (S : Statics) (host : Host) (tmpRec : CPCallRecord)
    (callee : FuncRef) :
    ∀ (calls : List (InstInfo × Option InstInfo)) (r r' : Run),
      processInlinedCalls S host tmpRec callee calls r = some r' →
      r'.inlineAttempts = r.inlineAttempts ∧ r'.budget = r.budget ∧
      r'.inlineCount = r.inlineCount := by
  intro calls
  induction calls with
  | nil =>
    intro r r' h
    simp only [processInlinedCalls, Option.some.injEq] at h
    subst h
    exact ⟨rfl, rfl, rfl⟩
  | cons hd tl ih =>
    obtain ⟨newI, origin⟩ := hd
    intro r r' h
    unfold processInlinedCalls at h
    dsimp only at h
    repeat' first
      | (have hh := ih _ _ h; exact hh)
      | (simp only [Option.some.injEq] at h; subst h; exact ⟨rfl, rfl, rfl⟩)
      | (simp at h; done)
      | split at h

theorem finishIteration_keeps (S : Statics) (host : Host) (caller callee : FuncRef)
    (r r' : Run) (b : Bool) (h : finishIteration S host caller callee r = some (r', b)) :
    r'.inlineAttempts = r.inlineAttempts ∧ r'.budget = r.budget ∧
    r'.inlineCount = r.inlineCount := by
  unfold finishIteration at h
  dsimp only at h
  split at h
  · simp at h
  · rename_i r4 hd
    have k3 : r4.inlineAttempts = r.inlineAttempts ∧ r4.budget = r.budget ∧
        r4.inlineCount = r.inlineCount := by
      split at hd
      · simp only [Option.map_eq_some'] at hd
        obtain ⟨d, _, hd2⟩ := hd
        rw [← hd2]
        exact ⟨rfl, rfl, rfl⟩
      · simp only [Option.some.injEq] at hd
        rw [← hd]
        exact ⟨rfl, rfl, rfl⟩
    split at h
    · simp at h
    · simp only [Option.some.injEq, Prod.mk.injEq] at h
      rw [← h.1]
      exact k3
    · split at h <;>
        simp only [Option.some.injEq, Prod.mk.injEq] at h <;>
        rw [← h.1] <;>
        exact k3

/-- What the part of the loop body after a successful inlining does to the budget and to the
list of call sites handed to the host: the budget drops by exactly the change in size that
`recalcFunctionAttr` reports for the caller, and nothing more is handed to the host. -/
theorem afterInlining_keeps (S : Statics) (host : Host) (tmpRec : CPCallRecord)
    (caller callee : FuncRef) (r r' : Run) (b : Bool)
    (h : afterInlining S host tmpRec caller callee r = some (r', b)) :
    r'.inlineAttempts = r.inlineAttempts ∧
    r'.budget = r.budget -
      (CPCallRecord.recalcFunctionAttr (creditInlining r.inl._funcAttr caller callee) caller
        (host.bodyOf caller)).1 ∧
    r'.inlineCount = r.inlineCount + 1 := by
  unfold afterInlining at h
  dsimp only at h
  split at h
  · split at h
    · simp at h
    · rename_i r2 hp
      obtain ⟨k1, k2, k5⟩ := processInlinedCalls_keeps S host tmpRec callee _ _ _ hp
      obtain ⟨k3, k4, k6⟩ := finishIteration_keeps S host caller callee r2 r' b h
      exact ⟨by rw [k3, k1], by rw [k4, k2], by rw [k6, k5]⟩
  · simp at h

/-- After a successful inlining the budget is a value of the type `int`: the iteration has a
result only when the subtraction stays in range. -/
theorem afterInlining_budget_int (S : Statics) (host : Host) (tmpRec : CPCallRecord)
    (caller callee : FuncRef) (r r' : Run) (b : Bool)
    (h : afterInlining S host tmpRec caller callee r = some (r', b)) :
    -2 ^ 31 ≤ r'.budget ∧ r'.budget < 2 ^ 31 := by
  have hk := (afterInlining_keeps S host tmpRec caller callee r r' b h).2.1
  unfold afterInlining at h
  dsimp only at h
  split at h
  · rename_i hr
    rw [hk]
    exact hr
  · simp at h

end FDOInliner
end Cmbprof

namespace Cmbprof
namespace FDOInliner

theorem neverInline_false_attrs (d : FuncRef → Bool) (attrs attrs1 : FuncAttrMap)
    (rec : CPCallRecord) (h : CPCallRecord.neverInline d attrs rec = some (false, attrs1)) :
    attrs1 = attrs := by
  unfold CPCallRecord.neverInline at h
  split at h
  · simp at h
  · split at h
    · simp at h
    · split at h
      · simp at h
      · split at h
        · simp at h
        · simp only [Option.some.injEq, Prod.mk.injEq, true_and] at h
          exact h.symm

theorem removeCandidate_funcAttr (s : FDOInliner) (i : Nat) :
    (removeCandidate s i).2._funcAttr = s._funcAttr := by
  unfold removeCandidate
  split <;> rfl

/-- C9, as amended. An iteration of the inlining loop either leaves the budget and the number
of inlined calls as they were (it ended the loop, ignored the candidate, or the host refused
to inline), or it inlined the selected record, and then the budget afterwards is the budget
before minus the change in size that `recalcFunctionAttr` reports for the caller, a value of
the type `int` (the iteration has no defined result when the difference is not); so the
budget does not increase in that iteration when the reported change is not negative. -/
theorem iteration_budget_change (S : Statics) (FDIDepth : Nat) (host : Host) (r r' : Run)
    (broke : Bool) (h : iteration S FDIDepth host r = some (r', broke)) :
    (r'.inlineCount = r.inlineCount ∧ r'.budget = r.budget) ∨
    (∃ node callee, r.inl._candidates.getLast? = some node ∧
      node.record.cs.callee = some callee ∧
      host.inlineFunction node.record.cs = true ∧
      r'.inlineCount = r.inlineCount + 1 ∧
      r'.budget = r.budget -
        (CPCallRecord.recalcFunctionAttr
          (creditInlining r.inl._funcAttr node.record.cs.caller callee)
          node.record.cs.caller (host.bodyOf node.record.cs.caller)).1 ∧
      (-2 ^ 31 ≤ r'.budget ∧ r'.budget < 2 ^ 31) ∧
      ((CPCallRecord.recalcFunctionAttr
          (creditInlining r.inl._funcAttr node.record.cs.caller callee)
          node.record.cs.caller (host.bodyOf node.record.cs.caller)).1 ≥ 0 →
        r'.budget ≤ r.budget)) := by
  unfold iteration at h
  cases hl : r.inl._candidates.getLast? with
  | none => simp [hl] at h
  | some node =>
    simp only [hl] at h
    by_cases hm : node.record.mval ≤ 0
    · simp only [hm, if_true, Option.some.injEq, Prod.mk.injEq] at h
      rw [← h.1]
      exact Or.inl ⟨rfl, rfl⟩
    · simp only [hm, if_false] at h
      cases hsz : CPCallRecord.inlineSize S.weights r.inl._funcAttr node.record with
      | none => simp [hsz] at h
      | some iSize =>
        simp only [hsz] at h
        by_cases hbig : iSize > r.budget
        · simp only [hbig, if_true, Option.map_eq_some'] at h
          obtain ⟨inl1, _, hr⟩ := h
          simp only [Prod.mk.injEq] at hr
          rw [← hr.1]
          exact Or.inl ⟨rfl, rfl⟩
        · simp only [hbig, if_false] at h
          cases hni : CPCallRecord.neverInline host.doesNotReturn r.inl._funcAttr node.record with
          | none => simp [hni] at h
          | some res =>
            obtain ⟨flag, attrs1⟩ := res
            cases flag with
            | true =>
              simp only [hni, Option.map_eq_some'] at h
              obtain ⟨inl1, _, hr⟩ := h
              simp only [Prod.mk.injEq] at hr
              rw [← hr.1]
              exact Or.inl ⟨rfl, rfl⟩
            | false =>
              have hattrs := neverInline_false_attrs _ _ _ _ hni
              subst hattrs
              simp only [hni] at h
              by_cases hdeep : FDIDepth > 0 ∧ node.record.history.length ≥ FDIDepth
              · simp only [hdeep, and_self, if_true, Option.map_eq_some'] at h
                obtain ⟨inl1, _, hr⟩ := h
                simp only [Prod.mk.injEq] at hr
                rw [← hr.1]
                exact Or.inl ⟨rfl, rfl⟩
              · simp only [hdeep, if_false] at h
                by_cases hf : host.inlineFunction node.record.cs = true
                · simp only [hf, Bool.not_true, Bool.false_eq_true, if_false] at h
                  cases hcal : node.record.cs.callee with
                  | none => simp [hcal] at h
                  | some callee =>
                    simp only [hcal] at h
                    obtain ⟨_, k2, k3⟩ := afterInlining_keeps S host _ _ _ _ _ _ h
                    have k4 := afterInlining_budget_int S host _ _ _ _ _ _ h
                    simp only [removeCandidate_funcAttr] at k2
                    refine Or.inr ⟨node, callee, rfl, hcal, hf, k3, k2, k4, fun hg => ?_⟩
                    rw [k2]
                    omega
                · simp only [hf, Bool.not_false, if_true, Option.map_eq_some'] at h
                  obtain ⟨inl1, _, hr⟩ := h
                  simp only [Prod.mk.injEq] at hr
                  rw [← hr.1]
                  exact Or.inl ⟨rfl, rfl⟩

end FDOInliner
end Cmbprof

namespace Cmbprof
namespace FDOInliner

theorem chainRun1_step :
    iteration CPCallRecord.exampleStatics 0 (plainHost 1 6) (startRun chainInliner 100) =
      some (chainRun1, false) := by
  decide!

theorem emptyCalleeRun1_step :
    iteration CPCallRecord.exampleStatics 0 (plainHost 0 1) (startRun emptyCalleeInliner 20) =
      some (emptyCalleeRun1, false) := by
  decide!

/-- Witness for C9: one iteration on `chainInliner`; the caller grows by 3 and the budget
drops from 100 to 97. -/
theorem iteration_budget_change_witness :
    iteration CPCallRecord.exampleStatics 0 (plainHost 1 6) (startRun chainInliner 100) =
      some (chainRun1, false) ∧
    chainRun1.budget = 97 ∧
    ((chainRun1.inlineCount = (startRun chainInliner 100).inlineCount ∧
        chainRun1.budget = (startRun chainInliner 100).budget) ∨
      (∃ node callee, (startRun chainInliner 100).inl._candidates.getLast? = some node ∧
        node.record.cs.callee = some callee ∧
        (plainHost 1 6).inlineFunction node.record.cs = true ∧
        chainRun1.inlineCount = (startRun chainInliner 100).inlineCount + 1 ∧
        chainRun1.budget = (startRun chainInliner 100).budget -
          (CPCallRecord.recalcFunctionAttr
            (creditInlining (startRun chainInliner 100).inl._funcAttr node.record.cs.caller callee)
            node.record.cs.caller ((plainHost 1 6).bodyOf node.record.cs.caller)).1 ∧
        (-2 ^ 31 ≤ chainRun1.budget ∧ chainRun1.budget < 2 ^ 31) ∧
        ((CPCallRecord.recalcFunctionAttr
            (creditInlining (startRun chainInliner 100).inl._funcAttr node.record.cs.caller callee)
            node.record.cs.caller ((plainHost 1 6).bodyOf node.record.cs.caller)).1 ≥ 0 →
          chainRun1.budget ≤ (startRun chainInliner 100).budget))) :=
  ⟨chainRun1_step, by decide!,
   iteration_budget_change CPCallRecord.exampleStatics 0 (plainHost 1 6)
     (startRun chainInliner 100) chainRun1 false chainRun1_step⟩

/-- Counterexample to C9 as stated: `main` calls `foo`, whose body is a lone return. The
inlining succeeds, `recalcFunctionAttr` reports that `main` shrank from 2 instructions to 1,
and the budget rises from 20 to 21. -/
theorem budget_rises_when_caller_shrinks :
    (startRun emptyCalleeInliner 20).budget = 20 ∧
    sanityCheckLists emptyCalleeInliner = true ∧
    iteration CPCallRecord.exampleStatics 0 (plainHost 0 1) (startRun emptyCalleeInliner 20) =
      some (emptyCalleeRun1, false) ∧
    emptyCalleeRun1.inlineCount = 1 ∧ emptyCalleeRun1.inlineFail = 0 ∧
    emptyCalleeRun1.error = false ∧
    (CPCallRecord.recalcFunctionAttr (creditInlining emptyCalleeInliner._funcAttr 0 1) 0
      ((plainHost 0 1).bodyOf 0)).1 = -1 ∧
    emptyCalleeRun1.budget = 21 ∧
    ¬ (emptyCalleeRun1.budget ≤ (startRun emptyCalleeInliner 20).budget) := by
  decide!

/-- The same iteration started with the budget `INT_MAX`, which `computeBudget` returns for the
option value 0: `budget -= codeGrowth` with the change in size -1 leaves the range of `int`,
and the iteration has no defined result. -/
theorem budget_update_undefined_at_int_max :
    (CPCallRecord.recalcFunctionAttr (creditInlining emptyCalleeInliner._funcAttr 0 1) 0
      ((plainHost 0 1).bodyOf 0)).1 = -1 ∧
    iteration CPCallRecord.exampleStatics 0 (plainHost 0 1)
      (startRun emptyCalleeInliner (2 ^ 31 - 1)) = none := by
  decide!

/-- C4, evaluated on `chainInliner`: the loop starts with `_candidates` sorted ascending by the
evaluated metric values 2/3, 1 and 2. The first iteration inlines call site 11 (`f` calls `g`),
`f` grows from 3 to 6 instructions, and `updateCallers` re-evaluates the record of call site
10 (`main` calls `f`) in place, from 1 to 2/5, without moving it. The loop condition still
holds, so the second iteration starts with the list 2/3, 2/5: not sorted, and the record at
the back is not the one with the maximum metric value. -/
theorem candidates_unsorted_after_updateCallers :
    chainInliner._candidates.map (fun n => (n.record.cs.inst, n.record.mval)) =
      [(12, 2 / 3), (10, 1), (11, 2)] ∧
    chainInliner._candidates.map (fun n =>
      (CPCallRecord.evalMetric CPCallRecord.exampleStatics (fun _ _ => ZeroArgImpact)
        chainInliner._funcAttr n.record).map (fun e => e.1)) = [some (2 / 3), some 1, some 2] ∧
    sanityCheckLists chainInliner = true ∧
    iteration CPCallRecord.exampleStatics 0 (plainHost 1 6) (startRun chainInliner 100) =
      some (chainRun1, false) ∧
    (chainRun1.error = false ∧ chainRun1.budget = 97 ∧ chainRun1.inl._candidates.length = 2) ∧
    chainRun1.inl._candidates.map (fun n => (n.record.cs.inst, n.record.mval)) =
      [(12, 2 / 3), (10, 2 / 5)] ∧
    chainRun1.inl._candidates.getLast?.map (fun n => n.record.mval) = some (2 / 5) ∧
    ¬ List.Pairwise (fun a b : ListNode => a.record.mval ≤ b.record.mval)
        chainRun1.inl._candidates := by
  decide!

end FDOInliner
end Cmbprof

namespace Cmbprof
namespace CFGEdgeDomTree

/-- C14, as amended. The tree of the diamond has exactly 5 edges: the entry edge, A→B, A→C,
B→D and C→D, in this order; A→B and A→C have the entry edge as dominator, B→D has A→B (its
only parent) as dominator and C→D has A→C. -/
theorem diamond_dominators :
    (EdgeDominatorTree.construct [diamond]).getEdgeCount = 5 ∧
    (EdgeDominatorTree.construct [diamond])._edges.map (fun e => (e.index, e.source, e.target)) =
      [(0, none, some 0), (1, some 0, some 1), (2, some 0, some 2), (3, some 1, some 3),
       (4, some 2, some 3)] ∧
    (EdgeDominatorTree.construct [diamond]).getDominatorIndex 0 = some 0 ∧
    (EdgeDominatorTree.construct [diamond]).getDominatorIndex 1 = some 0 ∧
    (EdgeDominatorTree.construct [diamond]).getDominatorIndex 2 = some 0 ∧
    (EdgeDominatorTree.construct [diamond]).getDominatorIndex 3 = some 1 ∧
    (EdgeDominatorTree.construct [diamond]).getDominatorIndex 4 = some 2 ∧
    (construct diamond 0).diags = [] := by
  decide

/-- Counterexample to C14 as stated: in the tree of the diamond the edges B→D (index 3) and
C→D (index 4) each have a single parent, A→B and A→C, and that parent, not the entry edge, is
the stored dominator. -/
theorem diamond_join_edges_not_under_entry :
    (edgeFind (construct diamond 0)._edges 3).map (fun n => n.parents) = some [1] ∧
    (edgeFind (construct diamond 0)._edges 4).map (fun n => n.parents) = some [2] ∧
    (EdgeDominatorTree.construct [diamond]).getDominatorIndex 3 ≠ some 0 ∧
    (EdgeDominatorTree.construct [diamond]).getDominatorIndex 4 ≠ some 0 := by
  decide

/-- C13, evaluated on `unreachableLoop`: the tree has the entry edge 0 and the edge 1 (block 1
to itself). Edge 1 is its own parent, so it is no root, no worklist ever holds it, and its
`domIndex` is never assigned: `getDominatorIndex(1)` reads an indeterminate value and
`getDepth(1)` has no defined result, whatever the number of iterations allowed. -/
theorem unreachable_edge_has_no_dominator :
    (EdgeDominatorTree.construct [unreachableLoop]).getEdgeCount = 2 ∧
    (EdgeDominatorTree.construct [unreachableLoop])._edges.map
        (fun e => (e.index, e.source, e.target, e.parents)) =
      [(0, none, some 0, []), (1, some 1, some 1, [1])] ∧
    (construct unreachableLoop 0)._roots = [0] ∧
    (construct unreachableLoop 0).diags = [] ∧
    (EdgeDominatorTree.construct [unreachableLoop]).getDominatorIndex 0 = some 0 ∧
    (EdgeDominatorTree.construct [unreachableLoop]).getDominatorIndex 1 = none ∧
    ∀ fuel, (EdgeDominatorTree.construct [unreachableLoop]).getDepth fuel 1 = none := by
  refine ⟨by decide, by decide, by decide, by decide, by decide, by decide, fun fuel => ?_⟩
  have h : (EdgeDominatorTree.construct [unreachableLoop]).getDominatorIndex 1 = none := by
    decide
  simp [EdgeDominatorTree.getDepth, h]

end CFGEdgeDomTree
end Cmbprof

namespace Cmbprof
namespace CombinedEdgeProfile

theorem normFreq_bounds (i e d c : Nat) :
    0 ≤ normFreq i e d c ∧ (normFreq i e d c ≤ 1 ↔ (d = i ∨ c = 0 ∨ e ≤ c)) := by
  unfold normFreq
  by_cases h1 : d = i
  · simp [h1]
  · by_cases h2 : c = 0
    · simp [h1, h2]
    · have hc : (0 : ℚ) < (c : ℚ) := by exact_mod_cast Nat.pos_of_ne_zero h2
      simp only [h1, h2, if_false, false_or]
      refine ⟨by positivity, ?_⟩
      rw [div_le_one hc]
      exact_mod_cast Iff.rfl

/-- C11, as amended. The value that a successful `addProfile` appends for edge `i`, with `d`
the dominator index of `i`, is never negative; it is at most 1 exactly when `d = i`, or
`counters[d] = 0`, or `counters[i] ≤ counters[d]`. -/
theorem appended_value_bounds (edt : EdgeDominatorTree) (p p' : CombinedEdgeProfile)
    (counters rest rest' : List Nat)
    (hok : addProfile (some edt) p (counters.length :: (counters ++ rest)) = some (true, p', rest')) :
    ∀ i, i < counters.length → ∃ d v, edt.getDominatorIndex i = some d ∧
      addListAt p'._histograms i = addListAt p._histograms i ++ [(v, 1)] ∧
      0 ≤ v ∧
      (v ≤ 1 ↔ (d = i ∨ counters.getD d 0 = 0 ∨ counters.getD i 0 ≤ counters.getD d 0)) := by
  obtain ⟨_, r2, r3⟩ := resize_step_spec p counters.length
  simp only [addProfile, List.length_append, List.take_left', List.drop_left'] at hok
  rw [if_neg (by omega)] at hok
  generalize (if p._histograms.length ≠ counters.length then
      { p with _histograms := resizeVec p._histograms counters.length } else p) = p1
    at hok r2 r3
  split at hok
  · rename_i hs hloop
    simp only [Option.some.injEq, Prod.mk.injEq, true_and] at hok
    obtain ⟨hp, _⟩ := hok
    subst hp
    simp only [addWeight] at hloop ⊢
    obtain ⟨_, _, h3⟩ :=
      addProfileLoop_spec edt counters counters.length 0 _ hs (by omega) hloop
    intro i hi
    obtain ⟨e, d, c, he, hd, hc, hadd⟩ := h3 i (Nat.zero_le _) (by omega)
    have e1 : counters.getD i 0 = e := by
      rw [List.getD_eq_getElem?_getD, he]; rfl
    have e2 : counters.getD d 0 = c := by
      rw [List.getD_eq_getElem?_getD, hc]; rfl
    refine ⟨d, normFreq i e d c, hd, ?_, (normFreq_bounds i e d c).1, ?_⟩
    · rw [hadd, r3 i hi]
    · rw [e1, e2]
      exact (normFreq_bounds i e d c).2
  · simp at hok

theorem loopEdt_dominators :
    loopEdt.getDominatorIndex 0 = some 0 ∧ loopEdt.getDominatorIndex 1 = some 0 ∧
    loopEdt.getDominatorIndex 2 = some 1 ∧ loopEdt.getDominatorIndex 3 = some 1 ∧
    loopEdt.getEdgeCount = 4 := by
  decide

theorem loopProfile_run :
    addProfile (some loopEdt) loopProfile0 (loopCounters.length :: (loopCounters ++ [])) =
      some (true,
        { _weight := 1, _bincount := 0
          _histograms := [some (CPHistogram.empty.addToList 1),
                          some (CPHistogram.empty.addToList 1),
                          some (CPHistogram.empty.addToList 9),
                          some (CPHistogram.empty.addToList 1)] }, []) := by
  obtain ⟨h0, h1, h2, h3, _⟩ := loopEdt_dominators
  simp [addProfile, addProfileLoop, h0, h1, h2, h3, addSample, normFreq, loopProfile0,
    loopCounters, addWeight, CPHistogram.addToList, CPHistogram.empty]

/-- Counterexample to C11 as stated: in the function of `loopEdt` the loop edge 2 (1→1) has
edge 1 (0→1) as dominator; a run that enters the loop once and takes the loop edge 9 times
gives the counters `[1, 1, 9, 1]`, and `addProfile` appends 9/1 = 9 for edge 2. -/
theorem loop_edge_value_exceeds_one :
    loopEdt.getEdgeCount = loopCounters.length ∧
    loopEdt.getDominatorIndex 2 = some 1 ∧
    (addProfile (some loopEdt) loopProfile0 (loopCounters.length :: (loopCounters ++ []))).map
      (fun r => (r.1, addListAt r.2.1._histograms 2)) = some (true, [(9, 1)]) ∧
    ¬ ((9 : ℚ) ≤ 1) := by
  refine ⟨by decide, loopEdt_dominators.2.2.1, ?_, by norm_num⟩
  rw [loopProfile_run]
  simp [addListAt, CPHistogram.addToList, CPHistogram.empty]

/-- Witness for C11: the run on `loopEdt` with the counters `[1, 1, 9, 1]`. -/
theorem appended_value_bounds_witness :
    addProfile (some loopEdt) loopProfile0 (loopCounters.length :: (loopCounters ++ [])) =
      some (true,
        { _weight := 1, _bincount := 0
          _histograms := [some (CPHistogram.empty.addToList 1),
                          some (CPHistogram.empty.addToList 1),
                          some (CPHistogram.empty.addToList 9),
                          some (CPHistogram.empty.addToList 1)] }, []) ∧
    ∀ i, i < loopCounters.length → ∃ d v, loopEdt.getDominatorIndex i = some d ∧
      addListAt ([some (CPHistogram.empty.addToList 1),
                  some (CPHistogram.empty.addToList 1),
                  some (CPHistogram.empty.addToList 9),
                  some (CPHistogram.empty.addToList 1)] : CPHistVec) i =
        addListAt loopProfile0._histograms i ++ [(v, 1)] ∧
      0 ≤ v ∧
      (v ≤ 1 ↔ (d = i ∨ loopCounters.getD d 0 = 0 ∨
        loopCounters.getD i 0 ≤ loopCounters.getD d 0)) :=
  ⟨loopProfile_run,
   appended_value_bounds loopEdt loopProfile0 _ loopCounters [] [] loopProfile_run⟩

end CombinedEdgeProfile
end Cmbprof

namespace Cmbprof
namespace CombinedProfile

theorem calcBinCount_fold (ptype : ProfilingType) (list : CPList) :
    ∀ (m : Nat) (v : Bool),
      list.foldl (fun (acc : Nat × Bool) cp =>
        if cp.getProfilingType = ptype ∧ cp.getBinCount > acc.1 then (cp.getBinCount, true)
        else acc) (m, v) =
      (max m (maxBinCount ptype list), v || decide (m < maxBinCount ptype list)) := by
  induction list with
  | nil => intro m v; simp [maxBinCount]
  | cons cp rest ih =>
    intro m v
    simp only [List.foldl_cons, maxBinCount]
    by_cases ht : cp.getProfilingType = ptype
    · by_cases hb : cp.getBinCount > m
      · simp only [ht, hb, and_self, if_true, ih]
        have h1 : m < max cp.getBinCount (maxBinCount ptype rest) := lt_max_of_lt_left hb
        simp [h1, Nat.max_eq_right (le_of_lt h1)]
      · simp only [ht, hb, and_false, if_false, if_true, ih]
        have hle : cp.getBinCount ≤ m := Nat.le_of_not_lt hb
        have e1 : max m (max cp.getBinCount (maxBinCount ptype rest)) =
            max m (maxBinCount ptype rest) := by omega
        have e2 : (m < max cp.getBinCount (maxBinCount ptype rest)) ↔
            (m < maxBinCount ptype rest) := by omega
        rw [e1]
        simp only [e2]
    · simp only [ht, false_and, if_false, ih]

theorem calcBinCount_eq (ptype : ProfilingType) (list : CPList) :
    calcBinCount ptype list =
      if 1 < maxBinCount ptype list then maxBinCount ptype list else 20 := by
  unfold calcBinCount
  cases list with
  | nil => simp [maxBinCount]
  | cons cp rest =>
    simp only [List.length_cons, Nat.add_one_ne_zero, if_false]
    rw [calcBinCount_fold]
    by_cases h : 1 < maxBinCount ptype (cp :: rest)
    · simp [h, Nat.max_eq_right (le_of_lt h)]
    · simp [h]

end CombinedProfile
end Cmbprof

namespace Cmbprof
namespace CombinedEdgeProfile

theorem collectEdge_spec (nonZero : CPHistogram → Bool) (i n : Nat) (hi : i < n) :
    ∀ (list : CPList) (cphl : List CPHistogram),
      (∀ q, CombinedProfile.edge q ∈ list → q._histograms.length = n) →
      collectEdge nonZero i list cphl = some (cphl ++ constituents nonZero i list) := by
  intro list
  induction list with
  | nil => intro cphl _; simp [collectEdge, constituents, edgeProfiles]
  | cons cp rest ih =>
    intro cphl hsz
    have hrest : ∀ q, CombinedProfile.edge q ∈ rest → q._histograms.length = n :=
      fun q hq => hsz q (List.mem_cons_of_mem _ hq)
    cases cp with
    | edge q =>
      have hq : q._histograms.length = n := hsz q (List.mem_cons_self _ _)
      have hlt : i < q._histograms.length := by omega
      have hget : q._histograms[i]? = some (q._histograms.getD i none) := by
        rw [List.getD_eq_getElem?_getD, List.getElem?_eq_getElem hlt]; rfl
      simp only [collectEdge, histogramAt, hget]
      rw [ih _ hrest]
      simp only [constituents, edgeProfiles, List.map_cons, List.filter_cons]
      split <;> simp
    | path q =>
      simp only [collectEdge]
      rw [ih _ hrest]
      simp [constituents, edgeProfiles]
    | call q =>
      simp only [collectEdge]
      rw [ih _ hrest]
      simp [constituents, edgeProfiles]

theorem mergeLoop_spec (mkHist : Nat → ℚ → List CPHistogram → CPHistogram)
    (nonZero : CPHistogram → Bool) (list : CPList) (bc : Nat) (w : ℚ) (n : Nat)
    (hsz : ∀ q, CombinedProfile.edge q ∈ list → q._histograms.length = n) :
    ∀ (k i : Nat) (hs : CPHistVec), i + k ≤ n → hs.length = n →
      ∃ hs', mergeLoop mkHist nonZero list bc w k i hs = some hs' ∧ hs'.length = n ∧
        (∀ j, j < i → hs'[j]? = hs[j]?) ∧
        (∀ j, i ≤ j → j < i + k →
          hs'[j]? = some (some (mkHist bc w (constituents nonZero j list)))) := by
  intro k
  induction k with
  | zero =>
    intro i hs _ hlen
    exact ⟨hs, rfl, hlen, fun _ _ => rfl, fun j h1 h2 => by omega⟩
  | succ k ih =>
    intro i hs hik hlen
    have hi : i < n := by omega
    simp only [mergeLoop, collectEdge_spec nonZero i n hi list [] hsz, List.nil_append]
    obtain ⟨hs', h1, h2, h3, h4⟩ :=
      ih (i + 1) (hs.set i (some (mkHist bc w (constituents nonZero i list)))) (by omega)
        (by simp [hlen])
    refine ⟨hs', h1, h2, ?_, ?_⟩
    · intro j hj
      rw [h3 j (by omega), List.getElem?_set_ne (by omega)]
    · intro j hj1 hj2
      by_cases hji : j = i
      · subst hji
        rw [h3 j (by omega), List.getElem?_set_self (by omega)]
      · exact h4 j (by omega) (by omega)

theorem weight_fold (list : CPList) :
    ∀ w : ℚ, list.foldl (fun w cp =>
      match cp with
      | CombinedProfile.edge q => w + q._weight
      | _ => w) w = w + ((edgeProfiles list).map (fun q => q._weight)).sum := by
  induction list with
  | nil => intro w; simp [edgeProfiles]
  | cons cp rest ih =>
    intro w
    cases cp <;> simp [edgeProfiles, ih, add_assoc]

theorem firstEdge_size (n : Nat) :
    ∀ list : CPList, (∃ q, CombinedProfile.edge q ∈ list) →
      (∀ q, CombinedProfile.edge q ∈ list → q._histograms.length = n) →
      (match list.find? (fun cp => cp.getProfilingType == ProfilingType.CombinedEdgeInfo) with
        | some cp => cp.size
        | none => 0) = n := by
  intro list
  induction list with
  | nil => intro hex _; obtain ⟨q, hq⟩ := hex; simp at hq
  | cons cp rest ih =>
    intro hex hsz
    cases cp with
    | edge q =>
      have := hsz q (List.mem_cons_self _ _)
      simp [List.find?, CombinedProfile.getProfilingType, CombinedProfile.size, this]
    | path q =>
      have hex1 : ∃ q, CombinedProfile.edge q ∈ rest := by
        obtain ⟨q1, hq1⟩ := hex
        simp at hq1
        exact ⟨q1, hq1⟩
      have := ih hex1 (fun q hq => hsz q (List.mem_cons_of_mem _ hq))
      simpa [List.find?, CombinedProfile.getProfilingType] using this
    | call q =>
      have hex1 : ∃ q, CombinedProfile.edge q ∈ rest := by
        obtain ⟨q1, hq1⟩ := hex
        simp at hq1
        exact ⟨q1, hq1⟩
      have := ih hex1 (fun q hq => hsz q (List.mem_cons_of_mem _ hq))
      simpa [List.find?, CombinedProfile.getProfilingType] using this

/-- C16. For a list that holds edge profiles, all of size `n`, `buildFromList` returns true;
the receiver's total weight is the sum of the weights of the listed edge profiles (its
previous weight and the listed profiles of another kind do not count), it has exactly `n`
histograms, none `NULL`, and histogram `i` is constructed, with the receiver's bin count and
weight, from exactly the histograms `i` of the listed edge profiles that are `nonZero`. -/
theorem buildFromList_merges (mkHist : Nat → ℚ → List CPHistogram → CPHistogram)
    (nonZero : CPHistogram → Bool) (self : CombinedEdgeProfile) (list : CPList)
    (binCount n : Nat)
    (hex : ∃ q, CombinedProfile.edge q ∈ list)
    (hsz : ∀ q, CombinedProfile.edge q ∈ list → q._histograms.length = n) :
    ∃ self', buildFromList mkHist nonZero self list binCount = some (true, self') ∧
      self'._weight = ((edgeProfiles list).map (fun q => q._weight)).sum ∧
      self'._histograms.length = n ∧
      ∀ i, i < n → self'._histograms[i]? =
        some (some (mkHist self'._bincount self'._weight (constituents nonZero i list))) := by
  have hne : list.length ≠ 0 := by
    obtain ⟨q, hq⟩ := hex
    exact fun h => by simp [List.length_eq_zero.mp h] at hq
  simp only [buildFromList, hne, if_false, firstEdge_size n list hex hsz, weight_fold, zero_add]
  obtain ⟨hs', h1, h2, _, h4⟩ :=
    mergeLoop_spec mkHist nonZero list
      (if binCount = 0 then CombinedProfile.calcBinCount ProfilingType.CombinedEdgeInfo list
        else binCount)
      (((edgeProfiles list).map (fun q => q._weight)).sum) n hsz n 0
      (resizeVec (self._histograms.map (fun _ => none)) n) (by omega) (resizeVec_length _ _)
  rw [h1]
  exact ⟨_, rfl, rfl, h2, fun i hi => h4 i (Nat.zero_le _) (by omega)⟩

theorem mergeList_sizes :
    (∃ q, CombinedProfile.edge q ∈ mergeList) ∧
    ∀ q, CombinedProfile.edge q ∈ mergeList → q._histograms.length = 2 := by
  refine ⟨⟨mergeA, by simp [mergeList]⟩, fun q hq => ?_⟩
  simp only [mergeList, List.mem_cons, CombinedProfile.edge.injEq, List.mem_singleton,
    List.not_mem_nil, or_false] at hq
  rcases hq with h | h | h
  · subst h; rfl
  · exact absurd h (by simp)
  · subst h; rfl

/-- Witness for C16: two edge profiles of size 2 and of weights 2 and 3, with a path profile
between them, merged into a receiver that held weight 7 and three slots. -/
theorem buildFromList_merges_witness :
    ((∃ q, CombinedProfile.edge q ∈ mergeList) ∧
      ∀ q, CombinedProfile.edge q ∈ mergeList → q._histograms.length = 2) ∧
    ((edgeProfiles mergeList).map (fun q => q._weight)).sum = 5 ∧
    constituents exampleNonZero 0 mergeList =
      [CombinedPathProfile.pointHistogram, CombinedPathProfile.pointHistogram] ∧
    constituents exampleNonZero 1 mergeList = [] ∧
    ∃ self', buildFromList exampleMkHist exampleNonZero mergeReceiver mergeList 4 =
        some (true, self') ∧
      self'._weight = ((edgeProfiles mergeList).map (fun q => q._weight)).sum ∧
      self'._histograms.length = 2 ∧
      ∀ i, i < 2 → self'._histograms[i]? =
        some (some (exampleMkHist self'._bincount self'._weight
          (constituents exampleNonZero i mergeList))) :=
  ⟨mergeList_sizes, by decide!, by decide!, by decide!,
   buildFromList_merges exampleMkHist exampleNonZero mergeReceiver mergeList 4 2
     mergeList_sizes.1 mergeList_sizes.2⟩

/-- C17, as amended. Called with bin count 0, `buildFromList` selects through `calcBinCount`
the maximum `getBinCount()` over the listed edge profiles when that maximum is above 1, and
the default 20 otherwise (an empty list, no listed edge profile, or no bin count above 1);
called with a bin count greater than 0 it uses the argument. -/
theorem buildFromList_bin_count (mkHist : Nat → ℚ → List CPHistogram → CPHistogram)
    (nonZero : CPHistogram → Bool) (self : CombinedEdgeProfile) (list : CPList)
    (binCount : Nat) (r : Bool × CombinedEdgeProfile)
    (h : buildFromList mkHist nonZero self list binCount = some r) :
    CombinedProfile.calcBinCount ProfilingType.CombinedEdgeInfo list =
      (if 1 < CombinedProfile.maxBinCount ProfilingType.CombinedEdgeInfo list then
        CombinedProfile.maxBinCount ProfilingType.CombinedEdgeInfo list else 20) ∧
    (binCount = 0 →
      r.2._bincount = CombinedProfile.calcBinCount ProfilingType.CombinedEdgeInfo list) ∧
    (binCount > 0 → r.2._bincount = binCount) := by
  refine ⟨CombinedProfile.calcBinCount_eq _ _, ?_, ?_⟩
  · intro hb
    subst hb
    simp only [buildFromList, if_true] at h
    split at h
    · simp only [Option.some.injEq] at h
      subst h
      rfl
    · split at h
      · simp at h
      · simp only [Option.some.injEq] at h
        subst h
        rfl
  · intro hb
    have hb0 : binCount ≠ 0 := by omega
    simp only [buildFromList, hb0, if_false] at h
    split at h
    · simp only [Option.some.injEq] at h
      subst h
      rfl
    · split at h
      · simp at h
      · simp only [Option.some.injEq] at h
        subst h
        rfl

theorem mergeList_build :
    buildFromList exampleMkHist exampleNonZero mergeReceiver mergeList 0 =
      some (true,
        { _weight := 5, _bincount := 20
          _histograms :=
            [some (exampleMkHist 20 5
              [CombinedPathProfile.pointHistogram, CombinedPathProfile.pointHistogram]),
             some (exampleMkHist 20 5 [])] }) := by
  decide!

/-- Witness for C17: the merge of `mergeList` with bin count 0. -/
theorem buildFromList_bin_count_witness :
    buildFromList exampleMkHist exampleNonZero mergeReceiver mergeList 0 =
      some (true,
        { _weight := 5, _bincount := 20
          _histograms :=
            [some (exampleMkHist 20 5
              [CombinedPathProfile.pointHistogram, CombinedPathProfile.pointHistogram]),
             some (exampleMkHist 20 5 [])] }) ∧
    CombinedProfile.calcBinCount ProfilingType.CombinedEdgeInfo mergeList =
      (if 1 < CombinedProfile.maxBinCount ProfilingType.CombinedEdgeInfo mergeList then
        CombinedProfile.maxBinCount ProfilingType.CombinedEdgeInfo mergeList else 20) ∧
    ((0 : Nat) = 0 →
      (20 : Nat) = CombinedProfile.calcBinCount ProfilingType.CombinedEdgeInfo mergeList) ∧
    ((0 : Nat) > 0 → (20 : Nat) = 0) :=
  ⟨mergeList_build,
   buildFromList_bin_count exampleMkHist exampleNonZero mergeReceiver mergeList 0 _
     mergeList_build⟩

/-- Counterexample to C17 as stated: `mergeList` is not empty and the maximum
`getBinCount()` over its edge profiles (and over all its profiles) is 1, yet `buildFromList`
called with bin count 0 selects 20. -/
theorem bin_count_default_on_nonempty_list :
    mergeList ≠ [] ∧
    mergeList.map CombinedProfile.getBinCount = [1, 1, 1] ∧
    CombinedProfile.maxBinCount ProfilingType.CombinedEdgeInfo mergeList = 1 ∧
    CombinedProfile.calcBinCount ProfilingType.CombinedEdgeInfo mergeList = 20 ∧
    (buildFromList exampleMkHist exampleNonZero mergeReceiver mergeList 0).map
      (fun r => (r.1, r.2._bincount)) = some (true, 20) := by
  decide!

end CombinedEdgeProfile
end Cmbprof

namespace Cmbprof
namespace CombinedEdgeProfile

/-- C18, evaluated on `boundaryProfile`: its only histogram has a nonzero weight of exactly
`FP_FUDGE_EPS`. The counting loop tests `> FP_FUDGE_EPS` and does not count it, so the header
carries the item count 0; the writing loop skips only on `< FP_FUDGE_EPS`, so the histogram is
written and `serialize` returns 1. -/
theorem serialize_header_count_differs :
    boundaryHistogram.nonZeroWeight = FP_FUDGE_EPS ∧
    countNonZero boundaryProfile._histograms = some 0 ∧
    serialize CombinedPathProfile.exampleCodec 5 boundaryProfile =
      some ([Item.u32 5, Item.f64 1, Item.u32 0, Item.u32 1,
             Item.u32 0, Item.u32 1, Item.f64 (1 / 2), Item.f64 (1 / 2), Item.f64 FP_FUDGE_EPS,
             Item.f64 FP_FUDGE_EPS], 1) := by
  decide!

end CombinedEdgeProfile
end Cmbprof

namespace Cmbprof
namespace CombinedEdgeProfile

theorem deserializeLoop_spec (c : HistCodec) (b : Nat) (w : ℚ) :
    ∀ (k : Nat) (hs hs' : CPHistVec) (file rest : List Item),
      deserializeLoop c b w k hs file = some (true, hs', rest) →
      hs'.length = hs.length ∧
      ∀ i, i < hs.length →
        hs'.getD i none = (lastRead i (readSequence c b w k file) <|> hs.getD i none) := by
  intro k
  induction k with
  | zero =>
    intro hs hs' file rest h
    simp only [deserializeLoop, Option.some.injEq, Prod.mk.injEq, true_and] at h
    obtain ⟨h1, _⟩ := h
    subst h1
    exact ⟨rfl, fun i _ => by simp [readSequence, lastRead]⟩
  | succ k ih =>
    intro hs hs' file rest h
    simp only [deserializeLoop] at h
    split at h
    · simp at h
    · rename_i hneg
      split at h
      · rename_i hlt
        obtain ⟨h1, h2⟩ := ih _ _ _ _ h
        rw [List.length_set] at h1 h2
        refine ⟨h1, fun i hi => ?_⟩
        rw [h2 i hi]
        simp only [readSequence, lastRead]
        cases hl : lastRead i (readSequence c b w k (c.hdeser b w file).2.2) with
        | some h0 => simp
        | none =>
          simp only [Option.none_orElse, Option.orElse_none, HOrElse.hOrElse, OrElse.orElse,
            Option.orElse]
          have hnn : (0 : Int) ≤ (c.hdeser b w file).1 := Int.not_lt.mp hneg
          by_cases hi2 : (c.hdeser b w file).1 = (i : Int)
          · have hidx : (c.hdeser b w file).1.toNat = i := by omega
            simp [hi2, hidx, List.getD_eq_getElem?_getD, List.getElem?_set_self hi]
          · have hidx : (c.hdeser b w file).1.toNat ≠ i := by omega
            simp [hi2, List.getD_eq_getElem?_getD, List.getElem?_set_ne hidx]
      · simp at h

/-- C19, as amended. After a successful `deserialize` into a profile of `n` slots, the
profile has `n` slots, none of them `NULL`; position `i` holds the histogram read last with
location id `i`; a position that the stream does not name keeps the histogram it held, and
holds a newly created empty histogram if it was `NULL`. -/
theorem deserialize_fills_slots (c : HistCodec) (p p' : CombinedEdgeProfile)
    (body rest : List Item) (w : ℚ) (edgeCount b : Nat)
    (h : deserialize c p (Item.f64 w :: Item.u32 edgeCount :: Item.u32 b :: body) =
      some (true, p', rest)) :
    p'._weight = w ∧ p'._bincount = b ∧
    p'._histograms.length = p._histograms.length ∧
    ∀ i, i < p._histograms.length →
      p'._histograms[i]? =
        some (some ((lastRead i (readSequence c b w edgeCount body) <|>
          p._histograms.getD i none).getD CPHistogram.empty)) := by
  simp only [deserialize, readF64, readU32] at h
  split at h
  · simp at h
  · simp at h
  · rename_i hs rest1 hloop
    simp only [Option.some.injEq, Prod.mk.injEq, true_and] at h
    obtain ⟨hp, _⟩ := h
    subst hp
    obtain ⟨h1, h2⟩ := deserializeLoop_spec c b w edgeCount _ _ _ _ hloop
    refine ⟨rfl, rfl, by simp [h1], fun i hi => ?_⟩
    have hi' : i < hs.length := by rw [h1]; exact hi
    rw [← h2 i hi]
    simp [List.getElem?_map, List.getD_eq_getElem?_getD, List.getElem?_eq_getElem hi']

theorem twiceZero_run :
    deserialize CombinedPathProfile.exampleCodec usedProfile twiceZeroFile =
      some (true,
        { _weight := 3, _bincount := 1
          _histograms :=
            [some { _stats := { sumOfSquares := 0, sumOfValues := 0, sumOfWeights := 3,
                                totalWeight := 3 }
                    _min := 3 / 4, _max := 3 / 4, _bincount := 1, _bins := [3], _addList := [] },
             some CombinedPathProfile.pointHistogram] }, []) := by
  decide!

/-- Counterexample to C19 as stated: `usedProfile` has 2 slots and the stream names location
id 0 twice (both ids are below 2). `deserialize` succeeds; the histogram read first under id 0
is not stored at position 0 (the one read second is), and position 1, which the stream does
not name, holds the built histogram it held before, not a newly created empty one. -/
theorem deserialize_keeps_old_histogram :
    usedProfile._histograms.length = 2 ∧
    (readSequence CombinedPathProfile.exampleCodec 1 3 2 (twiceZeroFile.drop 3)).map
      (fun r => (r.1, r.2._min)) = [(0, 1 / 4), (0, 3 / 4)] ∧
    (deserialize CombinedPathProfile.exampleCodec usedProfile twiceZeroFile).map
      (fun r => (r.1, r.2.1._histograms.map (fun o => o.map (fun h => h._min)))) =
      some (true, [some (3 / 4), some (1 / 2)]) ∧
    (deserialize CombinedPathProfile.exampleCodec usedProfile twiceZeroFile).map
      (fun r => r.2.1._histograms[1]?) = some (some (some CombinedPathProfile.pointHistogram)) ∧
    CombinedPathProfile.pointHistogram ≠ CPHistogram.empty := by
  decide!

/-- Witness for C19: the run on `usedProfile` and `twiceZeroFile`. -/
theorem deserialize_fills_slots_witness :
    deserialize CombinedPathProfile.exampleCodec usedProfile twiceZeroFile =
      some (true,
        { _weight := 3, _bincount := 1
          _histograms :=
            [some { _stats := { sumOfSquares := 0, sumOfValues := 0, sumOfWeights := 3,
                                totalWeight := 3 }
                    _min := 3 / 4, _max := 3 / 4, _bincount := 1, _bins := [3], _addList := [] },
             some CombinedPathProfile.pointHistogram] }, []) ∧
    ((3 : ℚ) = 3 ∧ (1 : Nat) = 1 ∧
    ([some { _stats := { sumOfSquares := 0, sumOfValues := 0, sumOfWeights := 3,
                         totalWeight := 3 }
             _min := 3 / 4, _max := 3 / 4, _bincount := 1, _bins := [3], _addList := [] },
      some CombinedPathProfile.pointHistogram] : CPHistVec).length =
        usedProfile._histograms.length ∧
    ∀ i, i < usedProfile._histograms.length →
      ([some { _stats := { sumOfSquares := 0, sumOfValues := 0, sumOfWeights := 3,
                           totalWeight := 3 }
               _min := 3 / 4, _max := 3 / 4, _bincount := 1, _bins := [3], _addList := [] },
        some CombinedPathProfile.pointHistogram] : CPHistVec)[i]? =
        some (some ((lastRead i (readSequence CombinedPathProfile.exampleCodec 1 3 2
            (twiceZeroFile.drop 3)) <|>
          usedProfile._histograms.getD i none).getD CPHistogram.empty))) :=
  ⟨twiceZero_run,
   deserialize_fills_slots CombinedPathProfile.exampleCodec usedProfile _ (twiceZeroFile.drop 3)
     [] 3 2 1 twiceZero_run⟩

end CombinedEdgeProfile
end Cmbprof

namespace Cmbprof

theorem mapFind_mapErase {V : Type} (k : Nat) (m : List (Nat × V)) :
    mapFind k (mapErase k m) = none := by
  induction m with
  | nil => rfl
  | cons e rest ih =>
    obtain ⟨k1, v⟩ := e
    by_cases h : k1 = k
    · simpa [mapErase, List.filter_cons, h] using ih
    · have h' : (k1 != k) = true := by simpa using h
      simp only [mapErase, List.filter_cons, h', if_true, mapFind, h, if_false]
      exact ih

namespace FDOInliner

theorem ignore_unrecorded (S : Statics) (s : FDOInliner) (cs : CallSite) (zid : Nat)
    (h : mapFind cs.inst s._records = none) :
    ignore S s cs zid =
      some { s with
        _ignore := { addr := s.nextAddr
                     record := { CPCallRecord.new cs none S.defaultMval s.CurrID zid with
                                 ignored := true } } :: s._ignore
        _records := mapSet cs.inst s.nextAddr s._records
        CurrID := s.CurrID + 1
        nextAddr := s.nextAddr + 1 } := by
  simp [ignore, findCandidate, findIgnored, h]

/-- C20. When the selected record passes the value, size, never-inline and depth tests and
the host inline operation fails for its call site `cs`, the iteration ends with `continue`:
the budget and the inlined-call count are unchanged, the selected record has left
`_candidates`, a record for `cs` with `ignored = true` is at the front of `_ignore` and
`_records` maps `cs` to it; no record of `_candidates` is for `cs` when each call site had at
most one record there. -/
theorem failed_inlining_is_ignored (S : Statics) (FDIDepth : Nat) (host : Host) (r : Run)
    (node : ListNode) (iSize : Int) (attrs1 : FuncAttrMap)
    (hlast : r.inl._candidates.getLast? = some node)
    (hmval : node.record.mval > 0)
    (hsize : CPCallRecord.inlineSize S.weights r.inl._funcAttr node.record = some iSize)
    (hfit : iSize ≤ r.budget)
    (hnever : CPCallRecord.neverInline host.doesNotReturn r.inl._funcAttr node.record =
      some (false, attrs1))
    (hdepth : FDIDepth = 0 ∨ node.record.history.length < FDIDepth)
    (hfail : host.inlineFunction node.record.cs = false) :
    ∃ r', iteration S FDIDepth host r = some (r', false) ∧
      r'.budget = r.budget ∧ r'.inlineCount = r.inlineCount ∧
      r'.inlineFail = r.inlineFail + 1 ∧ r'.error = r.error ∧
      r'.inlineAttempts = r.inlineAttempts ++ [node.record.cs] ∧
      r'.inl._candidates = r.inl._candidates.dropLast ∧
      (∃ rec, r'.inl._ignore = { addr := r.inl.nextAddr, record := rec } :: r.inl._ignore ∧
        rec.cs = node.record.cs ∧ rec.ignored = true) ∧
      mapFind node.record.cs.inst r'.inl._records = some r.inl.nextAddr ∧
      ((r.inl._candidates.map (fun n => n.record.cs.inst)).Nodup →
        ∀ n ∈ r'.inl._candidates, n.record.cs.inst ≠ node.record.cs.inst) := by
  have hm : ¬ node.record.mval ≤ 0 := not_le.mpr hmval
  have hbig : ¬ iSize > r.budget := not_lt.mpr hfit
  have hdeep : ¬ (FDIDepth > 0 ∧ node.record.history.length ≥ FDIDepth) := by
    rintro ⟨h1, h2⟩
    rcases hdepth with h | h <;> omega
  have hget : r.inl._candidates[r.inl._candidates.length - 1]? = some node := by
    rw [← List.getLast?_eq_getElem?]; exact hlast
  have hrm : removeCandidate { r.inl with _funcAttr := attrs1 }
      (r.inl._candidates.length - 1) =
      (true, { forget { r.inl with _funcAttr := attrs1 } node.record.cs with
               _candidates := r.inl._candidates.dropLast }) := by
    simp only [removeCandidate, hget]
    rw [eraseIdx_last]
  have hrec : mapFind node.record.cs.inst
      ({ forget { r.inl with _funcAttr := attrs1 } node.record.cs with
         _candidates := r.inl._candidates.dropLast } : FDOInliner)._records = none := by
    simp only [forget]
    exact mapFind_mapErase _ _
  simp only [iteration, hlast, hm, if_false, hsize, hbig, hnever, hdeep, hfail, Bool.not_false,
    if_true, hrm]
  rw [ignore_unrecorded S _ _ _ hrec]
  simp only [Option.map_some']
  refine ⟨_, rfl, rfl, rfl, rfl, rfl, rfl, rfl, ⟨_, rfl, rfl, rfl⟩, ?_, ?_⟩
  · simp only [forget]
    rw [mapFind_mapSet]
    simp
  · intro hnd n hn
    simp only at hn
    have hsplit : r.inl._candidates = r.inl._candidates.dropLast ++ [node] :=
      (List.dropLast_append_getLast? node hlast).symm
    rw [hsplit, List.map_append, List.nodup_append] at hnd
    obtain ⟨_, _, hdis⟩ := hnd
    intro heq
    exact hdis (List.mem_map.mpr ⟨n, hn, rfl⟩) (by simp [heq])

end FDOInliner
end Cmbprof

namespace Cmbprof
namespace FDOInliner

/-- Witness for C20: one iteration on `chainInliner` with a host that refuses call site 11. -/
theorem failed_inlining_is_ignored_witness :
    ((startRun chainInliner 100).inl._candidates.getLast? = some chainLast ∧
      chainLast.record.mval > 0 ∧
      CPCallRecord.inlineSize CPCallRecord.exampleStatics.weights
        (startRun chainInliner 100).inl._funcAttr chainLast.record = some 3 ∧
      (3 : Int) ≤ (startRun chainInliner 100).budget ∧
      CPCallRecord.neverInline refusingHost.doesNotReturn
        (startRun chainInliner 100).inl._funcAttr chainLast.record =
          some (false, chainInliner._funcAttr) ∧
      refusingHost.inlineFunction chainLast.record.cs = false) ∧
    ∃ r', iteration CPCallRecord.exampleStatics 0 refusingHost (startRun chainInliner 100) =
        some (r', false) ∧
      r'.budget = (startRun chainInliner 100).budget ∧
      r'.inlineCount = (startRun chainInliner 100).inlineCount ∧
      r'.inlineFail = (startRun chainInliner 100).inlineFail + 1 ∧
      r'.error = (startRun chainInliner 100).error ∧
      r'.inlineAttempts = (startRun chainInliner 100).inlineAttempts ++ [chainLast.record.cs] ∧
      r'.inl._candidates = (startRun chainInliner 100).inl._candidates.dropLast ∧
      (∃ rec, r'.inl._ignore =
          { addr := (startRun chainInliner 100).inl.nextAddr, record := rec } ::
            (startRun chainInliner 100).inl._ignore ∧
        rec.cs = chainLast.record.cs ∧ rec.ignored = true) ∧
      mapFind chainLast.record.cs.inst r'.inl._records =
        some (startRun chainInliner 100).inl.nextAddr ∧
      (((startRun chainInliner 100).inl._candidates.map (fun n => n.record.cs.inst)).Nodup →
        ∀ n ∈ r'.inl._candidates, n.record.cs.inst ≠ chainLast.record.cs.inst) :=
  ⟨⟨by decide!, by decide!, by decide!, by decide, by decide!, rfl⟩,
   failed_inlining_is_ignored CPCallRecord.exampleStatics 0 refusingHost
     (startRun chainInliner 100) chainLast 3 chainInliner._funcAttr
     (by decide!) (by decide!) (by decide!) (by decide) (by decide!) (Or.inl rfl) rfl⟩

end FDOInliner
end Cmbprof

namespace Cmbprof

theorem edgeUpdate_map {B : Type} (proj : EdgeNode → B) (es : EdgeNodeMap) (i : EdgeIndex)
    (f : EdgeNode → EdgeNode) (h : ∀ e ∈ es, e.index = i → proj (f e) = proj e) :
    (edgeUpdate es i f).map proj = es.map proj := by
  unfold edgeUpdate
  rw [List.map_map]
  apply List.map_congr_left
  intro e he
  simp only [Function.comp]
  split
  · rename_i hi; exact h e he hi
  · rfl

namespace CFGEdgeDomTree

theorem shapeOnly_strip (e : EdgeNode) : shapeOnly (strip e) = shapeOnly e := rfl

theorem map_shapeOnly_of_strip (es es' : EdgeNodeMap) (h : es'.map strip = es.map strip) :
    es'.map shapeOnly = es.map shapeOnly := by
  have := congrArg (List.map shapeOnly) h
  simpa [List.map_map, Function.comp, shapeOnly_strip] using this

theorem NotRoot_transfer (es es' : EdgeNodeMap) (h : es'.map shapeOnly = es.map shapeOnly)
    (c : EdgeIndex) (hn : NotRoot es c) : NotRoot es' c := by
  intro e' he' hi
  have hm : shapeOnly e' ∈ es.map shapeOnly := by
    rw [← h]; exact List.mem_map_of_mem _ he'
  obtain ⟨e, he, heq⟩ := List.mem_map.mp hm
  have h1 : (shapeOnly e).index = (shapeOnly e').index := congrArg EdgeNode.index heq
  have h2 : (shapeOnly e).parents = (shapeOnly e').parents := congrArg EdgeNode.parents heq
  change e.index = e'.index at h1
  change e.parents = e'.parents at h2
  rw [← h2]
  exact hn e he (h1.trans hi)

theorem ChildrenHaveParents_transfer (es es' : EdgeNodeMap)
    (h : es'.map shapeOnly = es.map shapeOnly) (hc : ChildrenHaveParents es) :
    ChildrenHaveParents es' := by
  intro n' hn' c hcn
  have hm : shapeOnly n' ∈ es.map shapeOnly := by
    rw [← h]; exact List.mem_map_of_mem _ hn'
  obtain ⟨n, hn, heq⟩ := List.mem_map.mp hm
  have h2 : (shapeOnly n).children = (shapeOnly n').children :=
    congrArg EdgeNode.children heq
  change n.children = n'.children at h2
  exact NotRoot_transfer es es' h c (hc n hn c (h2 ▸ hcn))

theorem pushReady_mem (cs : IndexSet) :
    ∀ (w : Worklist) (x : EdgeIndex), x ∈ (w.pushReady cs)._worklist →
      x ∈ w._worklist ∨ x ∈ cs := by
  induction cs with
  | nil => intro w x h; exact Or.inl h
  | cons c rest ih =>
    intro w x h
    simp only [Worklist.pushReady, List.foldl_cons] at h
    have h' := ih _ x h
    rcases h' with h1 | h1
    · split at h1
      · simp only [List.mem_append, List.mem_singleton] at h1
        rcases h1 with h2 | h2
        · exact Or.inl h2
        · exact Or.inr (by simp [h2])
      · exact Or.inl h1
    · exact Or.inr (List.mem_cons_of_mem _ h1)

/-- The two assignments by which `computeEdgeDominance` records `d` as dominator of `c`. -/
theorem assign_map {B : Type} (proj : EdgeNode → B) (es : EdgeNodeMap) (c d : EdgeIndex)
    (h1 : ∀ e : EdgeNode, ∀ x, proj { e with domChildren := x } = proj e)
    (h2 : ∀ e ∈ es, e.index = c → proj { e with domIndex := some d } = proj e) :
    (edgeUpdate (edgeUpdate es c (fun e => { e with domIndex := some d })) d
      (fun e => { e with domChildren := IndexSet.insert c e.domChildren })).map proj =
      es.map proj := by
  rw [edgeUpdate_map proj _ d _ (fun e _ _ => h1 e _), edgeUpdate_map proj es c _ h2]

theorem dominanceStep_map {B : Type} (proj : EdgeNode → B) (s : State) (wl : Worklist)
    (c : EdgeIndex)
    (h1 : ∀ e : EdgeNode, ∀ x, proj { e with domChildren := x } = proj e)
    (h2 : ∀ es : EdgeNodeMap, es.map proj = s._edges.map proj →
      ∀ e ∈ es, e.index = c → ∀ d, proj { e with domIndex := some d } = proj e) :
    (dominanceStep s wl c).state._edges.map proj = s._edges.map proj := by
  have hA : ∀ (es : EdgeNodeMap) (d : EdgeIndex), es.map proj = s._edges.map proj →
      (edgeUpdate (edgeUpdate es c (fun e => { e with domIndex := some d })) d
        (fun e => { e with domChildren := IndexSet.insert c e.domChildren })).map proj =
        s._edges.map proj := by
    intro es d hes
    rw [assign_map proj _ _ _ h1 (fun e he hi => h2 es hes e he hi d)]
    exact hes
  unfold dominanceStep
  cases hfind : edgeFind s._edges c with
  | none => rfl
  | some currNode =>
    simp only
    rcases hnb : IndexSet.INTERSECT currNode.parents s._nonBackEdges [] with
      _ | ⟨d, _ | ⟨d2, tl⟩⟩
    · simp only
      split
      · rfl
      · exact hA _ _ rfl
      · rfl
    · simp only
      split
      · exact hA _ _ rfl
      · exact hA _ _ (hA _ _ rfl)
      · exact hA _ _ rfl
    · simp only
      split
      · rfl
      · exact hA _ _ rfl
      · rfl

end CFGEdgeDomTree
end Cmbprof

namespace Cmbprof
namespace CFGEdgeDomTree

theorem dominanceStep_worklist (s : State) (wl : Worklist) (c x : EdgeIndex)
    (h : x ∈ (dominanceStep s wl c).worklist._worklist) :
    x ∈ wl._worklist ∨ ∃ n, edgeFind s._edges c = some n ∧ x ∈ n.children := by
  have hP : ∀ (n : EdgeNode) (w : Worklist), (x ∈ w._worklist → x ∈ wl._worklist ∨ x ∈ n.children) →
      x ∈ (w.pushReady n.children)._worklist → x ∈ wl._worklist ∨ x ∈ n.children := by
    intro n w hw hx
    rcases pushReady_mem _ _ _ hx with h1 | h1
    · exact hw h1
    · exact Or.inr h1
  unfold dominanceStep at h
  cases hfind : edgeFind s._edges c with
  | none =>
    simp only [hfind] at h
    exact Or.inl h
  | some currNode =>
    simp only [hfind] at h
    have key : x ∈ wl._worklist ∨ x ∈ currNode.children := by
      rcases hnb : IndexSet.INTERSECT currNode.parents s._nonBackEdges [] with
        _ | ⟨d, _ | ⟨d2, tl⟩⟩
      · simp only [hnb] at h
        split at h
        · exact Or.inl h
        · exact hP currNode wl Or.inl h
        · exact Or.inl h
      · simp only [hnb] at h
        split at h
        · exact hP currNode wl Or.inl h
        · exact hP currNode _ (hP currNode wl Or.inl) h
        · exact hP currNode wl Or.inl h
      · simp only [hnb] at h
        split at h
        · exact Or.inl h
        · exact hP currNode wl Or.inl h
        · exact Or.inl h
    rcases key with k | k
    · exact Or.inl k
    · exact Or.inr ⟨currNode, rfl, k⟩

theorem dominanceLoop_shapeOnly :
    ∀ (fuel : Nat) (s : State) (wl : Worklist),
      (dominanceLoop fuel s wl)._edges.map shapeOnly = s._edges.map shapeOnly := by
  intro fuel
  induction fuel with
  | zero => intro s wl; rfl
  | succ fuel ih =>
    intro s wl
    unfold dominanceLoop
    cases hw : wl._worklist with
    | nil => rfl
    | cons c rest =>
      simp only
      have hstep := dominanceStep_map shapeOnly s { wl with _worklist := rest } c
        (fun _ _ => rfl) (fun _ _ _ _ _ _ => rfl)
      split
      · exact hstep
      · rw [ih]; exact hstep

theorem edgeFind_mem (es : EdgeNodeMap) (c : EdgeIndex) (n : EdgeNode)
    (h : edgeFind es c = some n) : n ∈ es :=
  List.mem_of_find?_eq_some h

theorem strip_assign (e : EdgeNode) (d : EdgeIndex) (h : e.parents ≠ []) :
    strip { e with domIndex := some d } = strip e := by
  simp [strip, h]

theorem dominanceLoop_strip :
    ∀ (fuel : Nat) (s : State) (wl : Worklist),
      ChildrenHaveParents s._edges → (∀ c ∈ wl._worklist, NotRoot s._edges c) →
      (dominanceLoop fuel s wl)._edges.map strip = s._edges.map strip := by
  intro fuel
  induction fuel with
  | zero => intro s wl _ _; rfl
  | succ fuel ih =>
    intro s wl hch hwl
    unfold dominanceLoop
    cases hw : wl._worklist with
    | nil => rfl
    | cons c rest =>
      simp only
      have hc : NotRoot s._edges c := hwl c (by simp [hw])
      have hstep := dominanceStep_map strip s { wl with _worklist := rest } c
        (fun _ _ => rfl)
        (fun es hes e he hi d =>
          strip_assign e d
            (NotRoot_transfer s._edges es (map_shapeOnly_of_strip _ _ hes) c hc e he hi))
      split
      · exact hstep
      · have hso := map_shapeOnly_of_strip _ _ hstep
        rw [ih _ _ (ChildrenHaveParents_transfer _ _ hso hch) ?_]
        · exact hstep
        · intro x hx
          apply NotRoot_transfer _ _ hso
          rcases dominanceStep_worklist s _ c x hx with h1 | ⟨n, hn, hxn⟩
          · exact hwl x (by rw [hw]; exact List.mem_cons_of_mem _ h1)
          · exact hch n (edgeFind_mem _ _ _ hn) x hxn

theorem ancestorLoop_edges :
    ∀ (fuel : Nat) (s : State) (wl : Worklist),
      (ancestorLoop fuel s wl)._edges = s._edges ∧ (ancestorLoop fuel s wl)._roots = s._roots := by
  intro fuel
  induction fuel with
  | zero => intro s wl; exact ⟨rfl, rfl⟩
  | succ fuel ih =>
    intro s wl
    unfold ancestorLoop
    cases hw : wl._worklist with
    | nil => exact ⟨rfl, rfl⟩
    | cons c rest =>
      simp only
      obtain ⟨h1, h2⟩ := ih (ancestorStep s { wl with _worklist := rest } c).1
        (ancestorStep s { wl with _worklist := rest } c).2
      rw [h1, h2]
      unfold ancestorStep
      split <;> exact ⟨rfl, rfl⟩

end CFGEdgeDomTree
end Cmbprof

namespace Cmbprof

namespace IndexSet

theorem mem_insert_iff (x y : Nat) : ∀ s : IndexSet, y ∈ IndexSet.insert x s ↔ y = x ∨ y ∈ s := by
  intro s
  induction s with
  | nil => simp [IndexSet.insert]
  | cons z zs ih =>
    simp only [IndexSet.insert]
    split
    · simp
    · split
      · rename_i h; subst h; simp
      · simp only [List.mem_cons, ih]
        constructor
        · rintro (h | h | h)
          · exact Or.inr (Or.inl h)
          · exact Or.inl h
          · exact Or.inr (Or.inr h)
        · rintro (h | h | h)
          · exact Or.inr (Or.inl h)
          · exact Or.inl h
          · exact Or.inr (Or.inr h)

theorem mem_insertAll_iff (xs : List Nat) :
    ∀ (s : IndexSet) (y : Nat), y ∈ insertAll xs s ↔ y ∈ xs ∨ y ∈ s := by
  induction xs with
  | nil => intro s y; simp [insertAll]
  | cons x rest ih =>
    intro s y
    have h := ih (IndexSet.insert x s) y
    simp only [insertAll, List.foldl_cons] at h ⊢
    rw [h, mem_insert_iff]
    simp only [List.mem_cons]
    constructor
    · rintro (h1 | h1 | h1)
      · exact Or.inl (Or.inr h1)
      · exact Or.inl (Or.inl h1)
      · exact Or.inr h1
    · rintro ((h1 | h1) | h1)
      · exact Or.inr (Or.inl h1)
      · exact Or.inl h1
      · exact Or.inr (Or.inr h1)

theorem insertAll_eq_nil_iff (xs : List Nat) : insertAll xs [] = [] ↔ xs = [] := by
  constructor
  · intro h
    cases xs with
    | nil => rfl
    | cons x rest =>
      have : x ∈ insertAll (x :: rest) [] := (mem_insertAll_iff _ _ _).mpr (Or.inl (by simp))
      rw [h] at this
      exact absurd this (by simp)
  · intro h; subst h; rfl

end IndexSet

namespace CFGEdgeDomTree

theorem mem_blockPairs (F : IRFunction) (b s : Nat) :
    (b, s) ∈ blockPairs F ↔ ∃ ss, F.blocks[b]? = some ss ∧ s ∈ ss := by
  simp only [blockPairs, List.mem_flatten, List.mem_map]
  constructor
  · rintro ⟨l, ⟨bs, hbs, hl⟩, hmem⟩
    subst hl
    simp only [List.mem_map, Prod.mk.injEq] at hmem
    obtain ⟨s', hs', hb, hs⟩ := hmem
    subst hs
    refine ⟨bs.2, ?_, hs'⟩
    rw [← hb]
    exact List.mem_enum_iff_getElem?.mp hbs
  · rintro ⟨ss, hss, hs⟩
    refine ⟨_, ⟨(b, ss), List.mk_mem_enum_iff_getElem?.mpr hss, rfl⟩, ?_⟩
    simp only [List.mem_map, Prod.mk.injEq, true_and, exists_eq_right]
    exact hs

theorem createEdges_eq (F : IRFunction) (first : EdgeIndex) :
    createEdges F first =
      { source := none, target := some 0, index := first, children := [], parents := [],
        domChildren := [], domIndex := some first } ::
      (blockPairs F).enum.map (fun ip =>
        { source := some ip.2.1, target := some ip.2.2, index := first + 1 + ip.1,
          children := [], parents := [], domChildren := [], domIndex := none }) := rfl

theorem createEdges_index (F : IRFunction) (first : EdgeIndex) :
    (createEdges F first).map (fun e => e.index) =
      List.range' first (1 + (blockPairs F).length) := by
  rw [createEdges_eq, List.map_cons, List.map_map, Nat.add_comm 1, List.range'_succ]
  congr 1
  rw [List.range'_eq_map_range]
  have h : ((fun e : EdgeNode => e.index) ∘ fun ip : Nat × Nat × Nat =>
      ({ source := some ip.2.1, target := some ip.2.2, index := first + 1 + ip.1,
         children := [], parents := [], domChildren := [], domIndex := none } : EdgeNode)) =
      (fun i => first + 1 + i) ∘ Prod.fst := rfl
  rw [h, ← List.map_map, List.enum_map_fst]

theorem createEdges_ends (F : IRFunction) (first : EdgeIndex) (hF : F.isDeclaration = false) :
    (createEdges F first).map (fun e => (e.source, e.target)) = specEdges F := by
  rw [createEdges_eq, List.map_cons, List.map_map]
  simp only [specEdges, hF, Bool.false_eq_true, if_false, blockPairs]
  congr 1
  have h : ((fun e : EdgeNode => (e.source, e.target)) ∘ fun ip : Nat × Nat × Nat =>
      ({ source := some ip.2.1, target := some ip.2.2, index := first + 1 + ip.1,
         children := [], parents := [], domChildren := [], domIndex := none } : EdgeNode)) =
      (fun p : Nat × Nat => ((some p.1 : BlockRef), (some p.2 : BlockRef))) ∘ Prod.snd := rfl
  rw [h, ← List.map_map, List.enum_map_snd, List.map_flatten, List.map_map]
  congr 1
  apply List.map_congr_left
  intro bs _
  simp [Function.comp]

theorem blockPairs_length (F : IRFunction) :
    (blockPairs F).length = (F.blocks.map List.length).sum := by
  simp only [blockPairs, List.length_flatten, List.map_map]
  congr 1
  have h : (List.length ∘ fun bs : Nat × List Nat => bs.2.map (fun s => (bs.1, s))) =
      List.length ∘ Prod.snd := by
    funext bs; simp
  rw [h, ← List.map_map, List.enum_map_snd]

theorem createEdges_length (F : IRFunction) (first : EdgeIndex) (hF : F.isDeclaration = false) :
    (createEdges F first).length = specEdgeCount F := by
  have h := congrArg List.length (createEdges_index F first)
  simp only [List.length_map, List.length_range'] at h
  rw [h, blockPairs_length]
  simp [specEdgeCount, hF]

theorem createEdges_mem (F : IRFunction) (first : EdgeIndex) (e : EdgeNode)
    (h : e ∈ createEdges F first) :
    e.children = [] ∧ e.parents = [] ∧
    ((e.source = none ∧ e.target = some 0 ∧ e.index = first ∧ e.domIndex = some first) ∨
     (∃ b s, (b, s) ∈ blockPairs F ∧ e.source = some b ∧ e.target = some s ∧
        first < e.index)) := by
  rw [createEdges_eq] at h
  simp only [List.mem_cons, List.mem_map] at h
  rcases h with h | ⟨ip, hip, h⟩
  · subst h
    exact ⟨rfl, rfl, Or.inl ⟨rfl, rfl, rfl, rfl⟩⟩
  · subst h
    refine ⟨rfl, rfl, Or.inr ⟨ip.2.1, ip.2.2, List.snd_mem_of_mem_enum hip, rfl, rfl, ?_⟩⟩
    exact Nat.lt_add_right ip.1 (Nat.lt_succ_self first)

theorem createEdges_inj (F : IRFunction) (first : EdgeIndex) (e1 e2 : EdgeNode)
    (h1 : e1 ∈ createEdges F first) (h2 : e2 ∈ createEdges F first)
    (h : e1.index = e2.index) : e1 = e2 := by
  have hnd : ((createEdges F first).map (fun e => e.index)).Nodup := by
    rw [createEdges_index]; exact List.nodup_range' _ _
  exact List.inj_on_of_nodup_map hnd h1 h2 h

end CFGEdgeDomTree
end Cmbprof

namespace Cmbprof
namespace CFGEdgeDomTree

theorem buildGraph_mem (es : EdgeNodeMap) (e' : EdgeNode) (h : e' ∈ buildGraph es) :
    ∃ e ∈ es, e'.index = e.index ∧ e'.source = e.source ∧ e'.target = e.target ∧
      e'.domIndex = e.domIndex ∧
      (∀ x, x ∈ e'.children ↔ (∃ c ∈ es, e.target = c.source ∧ c.index = x) ∨ x ∈ e.children) ∧
      (∀ x, x ∈ e'.parents ↔ (∃ p ∈ es, p.target = e.source ∧ p.index = x) ∨ x ∈ e.parents) := by
  simp only [buildGraph, List.mem_map] at h
  obtain ⟨e, he, heq⟩ := h
  subst heq
  refine ⟨e, he, rfl, rfl, rfl, rfl, fun x => ?_, fun x => ?_⟩
  · simp only [IndexSet.mem_insertAll_iff, List.mem_map, List.mem_filter, beq_iff_eq]
    constructor
    · rintro (⟨c, ⟨hc, ht⟩, hx⟩ | h)
      · exact Or.inl ⟨c, hc, ht, hx⟩
      · exact Or.inr h
    · rintro (⟨c, hc, ht, hx⟩ | h)
      · exact Or.inl ⟨c, ⟨hc, ht⟩, hx⟩
      · exact Or.inr h
  · simp only [IndexSet.mem_insertAll_iff, List.mem_map, List.mem_filter, beq_iff_eq]
    constructor
    · rintro (⟨c, ⟨hc, ht⟩, hx⟩ | h)
      · exact Or.inl ⟨c, hc, ht, hx⟩
      · exact Or.inr h
    · rintro (⟨c, hc, ht, hx⟩ | h)
      · exact Or.inl ⟨c, ⟨hc, ht⟩, hx⟩
      · exact Or.inr h

theorem buildGraph_shape (es : EdgeNodeMap) :
    (buildGraph es).map (fun e => (e.index, e.source, e.target, e.domIndex)) =
      es.map (fun e => (e.index, e.source, e.target, e.domIndex)) := by
  simp only [buildGraph, List.map_map]
  rfl

/-- In the graph that `buildGraph` makes of the edges of a function, an edge has no parent
exactly when no edge has its source block as target. -/
theorem buildGraph_parents (F : IRFunction) (first : EdgeIndex) (e' : EdgeNode)
    (h : e' ∈ buildGraph (createEdges F first)) :
    e'.parents = [] ↔ ∀ p ∈ createEdges F first, p.target ≠ e'.source := by
  obtain ⟨e, he, _, hs, _, _, _, hp⟩ := buildGraph_mem _ _ h
  have hpe : e.parents = [] := (createEdges_mem F first e he).2.1
  constructor
  · intro hnil p hp' ht
    have : p.index ∈ e'.parents := (hp p.index).mpr (Or.inl ⟨p, hp', hs ▸ ht, rfl⟩)
    rw [hnil] at this
    exact absurd this (by simp)
  · intro hall
    cases hpar : e'.parents with
    | nil => rfl
    | cons x rest =>
      have hx : x ∈ e'.parents := by rw [hpar]; simp
      rcases (hp x).mp hx with ⟨p, hp', ht, _⟩ | h2
      · exact absurd (hs ▸ ht) (hall p hp')
      · rw [hpe] at h2; exact absurd h2 (by simp)

theorem buildGraph_childrenHaveParents (F : IRFunction) (first : EdgeIndex) :
    ChildrenHaveParents (buildGraph (createEdges F first)) := by
  intro n' hn' c hc e' he' hi
  obtain ⟨n, hn, hni, _, hnt, _, hch, _⟩ := buildGraph_mem _ _ hn'
  obtain ⟨e, he, hei, hes, _, _, _, hpa⟩ := buildGraph_mem _ _ he'
  have hnc : n.children = [] := (createEdges_mem F first n hn).1
  rcases (hch c).mp hc with ⟨c0, hc0, ht, hx⟩ | h2
  · have hec : e = c0 := createEdges_inj F first e c0 he hc0 (by rw [← hei, hi, hx])
    subst hec
    have : n.index ∈ e'.parents := (hpa n.index).mpr (Or.inl ⟨n, hn, ht, rfl⟩)
    intro hnil
    rw [hnil] at this
    exact absurd this (by simp)
  · rw [hnc] at h2; exact absurd h2 (by simp)

theorem edgeUpdate_mem (es : EdgeNodeMap) (i : EdgeIndex) (f : EdgeNode → EdgeNode)
    (e' : EdgeNode) (h : e' ∈ edgeUpdate es i f) :
    ∃ e ∈ es, (e.index = i ∧ e' = f e) ∨ (e.index ≠ i ∧ e' = e) := by
  simp only [edgeUpdate, List.mem_map] at h
  obtain ⟨e, he, heq⟩ := h
  refine ⟨e, he, ?_⟩
  split at heq
  · rename_i hi; exact Or.inl ⟨hi, heq.symm⟩
  · rename_i hi; exact Or.inr ⟨hi, heq.symm⟩

/-- The loop of `computeEdgeDominance` over `_roots` that makes the roots self-dominating and
seeds the worklist. -/
theorem seedRoots_spec (es0 : EdgeNodeMap) (hch : ChildrenHaveParents es0) :
    ∀ (rs done : List EdgeIndex) (acc : EdgeNodeMap × Worklist),
      acc.1.map shapeOnly = es0.map shapeOnly →
      (∀ e ∈ acc.1, e.index ∈ done → e.domIndex = some e.index) →
      (∀ x ∈ acc.2._worklist, NotRoot es0 x) →
      ((rs.foldl (fun (acc : EdgeNodeMap × Worklist) entry =>
          (edgeUpdate acc.1 entry (fun e => { e with domIndex := some entry }),
           match edgeFind acc.1 entry with
           | some n => acc.2.pushReady n.children
           | none => acc.2)) acc).1.map shapeOnly = es0.map shapeOnly) ∧
      (∀ e ∈ (rs.foldl (fun (acc : EdgeNodeMap × Worklist) entry =>
          (edgeUpdate acc.1 entry (fun e => { e with domIndex := some entry }),
           match edgeFind acc.1 entry with
           | some n => acc.2.pushReady n.children
           | none => acc.2)) acc).1, e.index ∈ done ++ rs → e.domIndex = some e.index) ∧
      (∀ x ∈ (rs.foldl (fun (acc : EdgeNodeMap × Worklist) entry =>
          (edgeUpdate acc.1 entry (fun e => { e with domIndex := some entry }),
           match edgeFind acc.1 entry with
           | some n => acc.2.pushReady n.children
           | none => acc.2)) acc).2._worklist, NotRoot es0 x) := by
  intro rs
  induction rs with
  | nil =>
    intro done acc h1 h2 h3
    exact ⟨h1, fun e he hi => h2 e he (by simpa using hi), h3⟩
  | cons r rest ih =>
    intro done acc h1 h2 h3
    simp only [List.foldl_cons]
    have hsh : (edgeUpdate acc.1 r (fun e => { e with domIndex := some r })).map shapeOnly =
        es0.map shapeOnly :=
      (edgeUpdate_map shapeOnly acc.1 r (fun e => { e with domIndex := some r })
        (fun _ _ _ => rfl)).trans h1
    have hdom : ∀ e ∈ edgeUpdate acc.1 r (fun e => { e with domIndex := some r }),
        e.index ∈ done ++ [r] → e.domIndex = some e.index := by
      intro e' he' hi'
      obtain ⟨e, he, ⟨hi, heq⟩ | ⟨hi, heq⟩⟩ := edgeUpdate_mem _ _ _ _ he'
      · subst heq
        show some r = some e.index
        rw [hi]
      · subst heq
        simp only [List.mem_append, List.mem_singleton] at hi'
        rcases hi' with h | h
        · exact h2 _ he h
        · exact absurd h hi
    have hwl : ∀ x ∈ (match edgeFind acc.1 r with
        | some n => acc.2.pushReady n.children
        | none => acc.2)._worklist, NotRoot es0 x := by
      intro x hx
      split at hx
      · rename_i n hn
        rcases pushReady_mem _ _ _ hx with h | h
        · exact h3 x h
        · have hch1 : ChildrenHaveParents acc.1 := ChildrenHaveParents_transfer _ _ h1 hch
          exact NotRoot_transfer _ _ h1.symm x (hch1 n (edgeFind_mem _ _ _ hn) x h)
      · exact h3 x hx
    have := ih (done ++ [r])
      (edgeUpdate acc.1 r (fun e => { e with domIndex := some r }),
       match edgeFind acc.1 r with
       | some n => acc.2.pushReady n.children
       | none => acc.2) hsh hdom hwl
    simpa [List.append_assoc] using this

end CFGEdgeDomTree
end Cmbprof

namespace Cmbprof
namespace CFGEdgeDomTree

theorem mem_of_map_shapeOnly (es es' : EdgeNodeMap) (h : es'.map shapeOnly = es.map shapeOnly)
    (e' : EdgeNode) (he' : e' ∈ es') :
    ∃ e ∈ es, e.index = e'.index ∧ e.source = e'.source ∧ e.target = e'.target ∧
      e.parents = e'.parents ∧ e.children = e'.children := by
  have hm : shapeOnly e' ∈ es.map shapeOnly := by
    rw [← h]; exact List.mem_map_of_mem _ he'
  obtain ⟨e, he, heq⟩ := List.mem_map.mp hm
  have h1 : (shapeOnly e).index = (shapeOnly e').index := congrArg EdgeNode.index heq
  have h2 : (shapeOnly e).source = (shapeOnly e').source := congrArg EdgeNode.source heq
  have h3 : (shapeOnly e).target = (shapeOnly e').target := congrArg EdgeNode.target heq
  have h4 : (shapeOnly e).parents = (shapeOnly e').parents := congrArg EdgeNode.parents heq
  have h5 : (shapeOnly e).children = (shapeOnly e').children := congrArg EdgeNode.children heq
  exact ⟨e, he, h1, h2, h3, h4, h5⟩

theorem computeEdgeDominance_spec (s : State) (es0 : EdgeNodeMap)
    (hch : ChildrenHaveParents es0) (hes : s._edges = es0)
    (hroots : ∀ e ∈ es0, e.parents = [] → e.index ∈ s._roots) :
    (computeEdgeDominance s)._edges.map shapeOnly = es0.map shapeOnly ∧
    ∀ e ∈ (computeEdgeDominance s)._edges, e.parents = [] → e.domIndex = some e.index := by
  unfold computeEdgeDominance
  split
  · rename_i hempty
    have hnil : s._edges = [] := by simpa using hempty
    rw [hnil] at hes ⊢
    subst hes
    exact ⟨rfl, fun e he => absurd he (by simp)⟩
  · simp only
    obtain ⟨i1, i2, i3⟩ := seedRoots_spec es0 hch s._roots []
      (s._edges, Worklist.new s._edges s._nonBackEdges) (by rw [hes])
      (fun e _ hi => absurd hi (by simp)) (fun x hx => absurd hx (by simp [Worklist.new]))
    generalize (s._roots.foldl (fun (acc : EdgeNodeMap × Worklist) entry =>
          (edgeUpdate acc.1 entry (fun e => { e with domIndex := some entry }),
           match edgeFind acc.1 entry with
           | some n => acc.2.pushReady n.children
           | none => acc.2)) (s._edges, Worklist.new s._edges s._nonBackEdges)) = init
      at i1 i2 i3 ⊢
    have hloop := dominanceLoop_strip (s._edges.length + 1) { s with _edges := init.1 } init.2
      (ChildrenHaveParents_transfer _ _ i1 hch)
      (fun c hc => NotRoot_transfer _ _ i1 c (i3 c hc))
    refine ⟨(map_shapeOnly_of_strip _ _ hloop).trans i1, fun e' he' hp => ?_⟩
    have hm : strip e' ∈ init.1.map strip := by
      have := List.mem_map_of_mem strip he'
      rw [hloop] at this
      exact this
    obtain ⟨e, he, heq⟩ := List.mem_map.mp hm
    have h1 : (strip e).index = (strip e').index := congrArg EdgeNode.index heq
    have h4 : (strip e).parents = (strip e').parents := congrArg EdgeNode.parents heq
    have h6 : (strip e).domIndex = (strip e').domIndex := congrArg EdgeNode.domIndex heq
    change e.index = e'.index at h1
    change e.parents = e'.parents at h4
    have hpe : e.parents = [] := h4.trans hp
    simp only [strip, hpe, hp, if_true] at h6
    obtain ⟨e0, he0, k1, _, _, k4, _⟩ := mem_of_map_shapeOnly es0 init.1 i1 e he
    have hroot : e.index ∈ s._roots := k1 ▸ hroots e0 he0 (k4.trans hpe)
    rw [← h6, ← h1]
    exact i2 e he (by simpa using hroot)

theorem construct_spec (F : IRFunction) (first : EdgeIndex) (hF : F.isDeclaration = false) :
    (construct F first)._edges.map shapeOnly =
      (buildGraph (createEdges F first)).map shapeOnly ∧
    ∀ e ∈ (construct F first)._edges, e.parents = [] → e.domIndex = some e.index := by
  unfold construct
  simp only [hF, Bool.false_eq_true, if_false]
  apply computeEdgeDominance_spec _ _ (buildGraph_childrenHaveParents F first)
  · unfold computeAncestorSets
    rw [(ancestorLoop_edges _ _ _).1]
    rfl
  · intro e he hp
    unfold computeAncestorSets
    rw [(ancestorLoop_edges _ _ _).2]
    simp only [findAllNonBackEdges, findRoots]
    rw [IndexSet.mem_insertAll_iff]
    left
    exact List.mem_map.mpr ⟨e, List.mem_filter.mpr ⟨he, by simp [hp]⟩, rfl⟩

end CFGEdgeDomTree
end Cmbprof

namespace Cmbprof
namespace CFGEdgeDomTree

theorem construct_edges (F : IRFunction) (first : EdgeIndex) :
    (construct F first)._edges.map (fun e => e.index) = List.range' first (specEdgeCount F) ∧
    (construct F first)._edges.map (fun e => (e.source, e.target)) = specEdges F ∧
    (construct F first)._edges.length = specEdgeCount F := by
  cases hF : F.isDeclaration with
  | true => simp [construct, hF, specEdges, specEdgeCount]
  | false =>
    have hsh := (construct_spec F first hF).1
    have h1 : (construct F first)._edges.map (fun e => e.index) =
        (createEdges F first).map (fun e => e.index) := by
      have := congrArg (List.map (fun e : EdgeNode => e.index)) hsh
      simp only [List.map_map] at this
      rw [show ((fun e : EdgeNode => e.index) ∘ shapeOnly) = (fun e : EdgeNode => e.index)
        from rfl] at this
      rw [this]
      simp only [buildGraph, List.map_map]
      rfl
    have h2 : (construct F first)._edges.map (fun e => (e.source, e.target)) =
        (createEdges F first).map (fun e => (e.source, e.target)) := by
      have := congrArg (List.map (fun e : EdgeNode => (e.source, e.target))) hsh
      simp only [List.map_map] at this
      rw [show ((fun e : EdgeNode => (e.source, e.target)) ∘ shapeOnly) =
        (fun e : EdgeNode => (e.source, e.target)) from rfl] at this
      rw [this]
      simp only [buildGraph, List.map_map]
      rfl
    have h3 : (construct F first)._edges.length = specEdgeCount F := by
      have := congrArg List.length h1
      simp only [List.length_map] at this
      rw [this, createEdges_length F first hF]
    refine ⟨?_, ?_, h3⟩
    · rw [h1, createEdges_index, blockPairs_length]
      simp [specEdgeCount, hF]
    · rw [h2, createEdges_ends F first hF]

theorem module_fold (M : List IRFunction) :
    ∀ (n : Nat) (es : EdgeNodeMap), es.length = n →
      (M.foldl (fun (acc : EdgeIndex × EdgeNodeMap) F =>
        let localEdges := (construct F acc.1)._edges
        if localEdges.length > 0 then (acc.1 + localEdges.length, acc.2 ++ localEdges)
        else acc) (n, es)).2.map (fun e => e.index) =
        es.map (fun e => e.index) ++ List.range' n (M.map specEdgeCount).sum ∧
      (M.foldl (fun (acc : EdgeIndex × EdgeNodeMap) F =>
        let localEdges := (construct F acc.1)._edges
        if localEdges.length > 0 then (acc.1 + localEdges.length, acc.2 ++ localEdges)
        else acc) (n, es)).2.map (fun e => (e.source, e.target)) =
        es.map (fun e => (e.source, e.target)) ++ (M.map specEdges).flatten := by
  induction M with
  | nil => intro n es _; simp
  | cons F rest ih =>
    intro n es hlen
    obtain ⟨c1, c2, c3⟩ := construct_edges F n
    simp only [List.foldl_cons, List.map_cons, List.sum_cons, List.flatten_cons]
    by_cases hk : (construct F n)._edges.length > 0
    · simp only [hk, if_true]
      obtain ⟨i1, i2⟩ := ih (n + (construct F n)._edges.length) (es ++ (construct F n)._edges)
        (by simp [hlen])
      rw [i1, i2]
      simp only [List.map_append, List.append_assoc, c1, c2, c3]
      refine ⟨?_, trivial⟩
      congr 1
      rw [List.range'_append_1, Nat.add_comm]
    · simp only [hk, if_false]
      have hz : specEdgeCount F = 0 := by omega
      obtain ⟨i1, i2⟩ := ih n es hlen
      rw [i1, i2]
      have hnil : specEdges F = [] := by
        rw [← c2]
        have : (construct F n)._edges = [] := List.length_eq_zero.mp (by omega)
        rw [this]; rfl
      simp [hz, hnil]

theorem specEdges_length (F : IRFunction) : (specEdges F).length = specEdgeCount F := by
  obtain ⟨_, c2, c3⟩ := construct_edges F 0
  rw [← c2, List.length_map, c3]

theorem find_by_index (es : EdgeNodeMap) :
    ∀ s : Nat, es.map (fun e => e.index) = List.range' s es.length →
      ∀ i, i < es.length → edgeFind es (s + i) = es[i]? := by
  induction es with
  | nil => intro s _ i hi; simp at hi
  | cons e rest ih =>
    intro s h i hi
    simp only [List.map_cons, List.length_cons, List.range'_succ, List.cons.injEq] at h
    obtain ⟨he, hrest⟩ := h
    cases i with
    | zero => simp [edgeFind, List.find?, he]
    | succ k =>
      have e1 : s + (k + 1) = s + 1 + k := by omega
      rw [e1]
      have hne : (e.index == s + 1 + k) = false := by
        rw [he]; exact beq_false_of_ne (Nat.ne_of_lt (Nat.lt_add_right k (Nat.lt_succ_self s)))
      have := ih (s + 1) hrest k (by simpa using hi)
      simp only [edgeFind] at this
      simp only [edgeFind, List.find?, hne, List.getElem?_cons_succ]
      exact this

end CFGEdgeDomTree

namespace EdgeDominatorTree

/-- C15. The edges of the module-wide tree are keyed by the contiguous indices
`0 .. getEdgeCount()-1`, in this order, and looking up index `i` gives the `i`-th edge; the
(source, target) pairs of the edges are, function after function in module order, the
synthetic entry edge (source null, target the entry block) followed by one edge per
(block, successor) in block order, so a defined function contributes 1 plus the number of
successors of its blocks and a declaration contributes none. -/
theorem module_edges_contiguous (M : List IRFunction) :
    (construct M)._edges.map (fun e => e.index) = List.range (construct M).getEdgeCount ∧
    (∀ i, i < (construct M).getEdgeCount → edgeFind (construct M)._edges i = (construct M)._edges[i]?) ∧
    (construct M)._edges.map (fun e => (e.source, e.target)) =
      (M.map CFGEdgeDomTree.specEdges).flatten ∧
    (construct M).getEdgeCount = (M.map CFGEdgeDomTree.specEdgeCount).sum ∧
    (∀ F ∈ M, (CFGEdgeDomTree.specEdges F).length = CFGEdgeDomTree.specEdgeCount F) := by
  obtain ⟨h1, h2⟩ := CFGEdgeDomTree.module_fold M 0 [] rfl
  simp only [List.map_nil, List.nil_append] at h1 h2
  have hcount : (construct M).getEdgeCount = (M.map CFGEdgeDomTree.specEdgeCount).sum := by
    have := congrArg List.length h1
    simpa [getEdgeCount, construct] using this
  have hidx : (construct M)._edges.map (fun e => e.index) =
      List.range' 0 (construct M)._edges.length := by
    rw [show (construct M)._edges.length = (construct M).getEdgeCount from rfl, hcount]
    exact h1
  refine ⟨?_, ?_, h2, hcount, fun F _ => CFGEdgeDomTree.specEdges_length F⟩
  · rw [List.range_eq_range', hcount]
    exact h1
  · intro i hi
    have := CFGEdgeDomTree.find_by_index _ 0 hidx i hi
    simpa using this

end EdgeDominatorTree
end Cmbprof

namespace Cmbprof
namespace CFGEdgeDomTree

theorem createEdges_of_pair (F : IRFunction) (first : EdgeIndex) (a s : Nat)
    (h : (a, s) ∈ blockPairs F) :
    ∃ p ∈ createEdges F first, p.source = some a ∧ p.target = some s := by
  obtain ⟨i, hi⟩ := List.getElem?_of_mem h
  rw [createEdges_eq]
  refine ⟨_, List.mem_cons_of_mem _ (List.mem_map.mpr
    ⟨(i, (a, s)), List.mk_mem_enum_iff_getElem?.mpr hi, rfl⟩), rfl, rfl⟩

/-- What an edge of the finished tree of a defined function is: it has the ends of an edge
that the constructor created, and no parent exactly when no created edge targets its source
block. -/
theorem construct_mem (F : IRFunction) (first : EdgeIndex) (hF : F.isDeclaration = false)
    (e : EdgeNode) (he : e ∈ (construct F first)._edges) :
    (e.parents = [] ↔ ∀ p ∈ createEdges F first, p.target ≠ e.source) ∧
    ((e.source = none ∧ e.target = some 0 ∧ e.index = first) ∨
     (∃ b s, (b, s) ∈ blockPairs F ∧ e.source = some b ∧ e.target = some s ∧ first < e.index)) := by
  obtain ⟨e1, he1, k1, k2, k3, k4, _⟩ :=
    mem_of_map_shapeOnly _ _ (construct_spec F first hF).1 e he
  obtain ⟨e0, he0, j1, j2, j3, _, _, _⟩ := buildGraph_mem _ _ he1
  have hp := buildGraph_parents F first e1 he1
  rw [k4, k2] at hp
  refine ⟨hp, ?_⟩
  rcases (createEdges_mem F first e0 he0).2.2 with ⟨m1, m2, m3, _⟩ | ⟨b, s, hb, m1, m2, m3⟩
  · left
    exact ⟨by rw [← k2, j2, m1], by rw [← k3, j3, m2], by rw [← k1, j1, m3]⟩
  · right
    exact ⟨b, s, hb, by rw [← k2, j2, m1], by rw [← k3, j3, m2], by rw [← k1, j1]; exact m3⟩

theorem construct_head (F : IRFunction) (first : EdgeIndex) (hF : F.isDeclaration = false) :
    ∃ n rest, (construct F first)._edges = n :: rest ∧ n.index = first ∧ n.source = none ∧
      n.target = some 0 := by
  have hsh := (construct_spec F first hF).1
  cases hc : (construct F first)._edges with
  | nil =>
    rw [hc] at hsh
    simp [buildGraph, createEdges_eq] at hsh
  | cons n rest =>
    rw [hc] at hsh
    simp only [buildGraph, createEdges_eq, List.map_cons, List.cons.injEq] at hsh
    obtain ⟨h1, _⟩ := hsh
    have a1 := congrArg EdgeNode.index h1
    have a2 := congrArg EdgeNode.source h1
    have a3 := congrArg EdgeNode.target h1
    exact ⟨n, rest, rfl, a1, a2, a3⟩

/-- C12, as amended. In the tree of a defined function the synthetic entry edge heads the edge
map, has an empty parent set and is its own dominator; every edge with an empty parent set is
its own dominator; an edge that leaves block `b` has an empty parent set exactly when `b` is
not the entry block and is no block's successor. So the entry edge is the only edge with an
empty parent set when every block that has a successor is the entry block or some block's
successor. -/
theorem roots_of_function (F : IRFunction) (first : EdgeIndex) (hF : F.isDeclaration = false) :
    (∃ n, (construct F first)._edges.head? = some n ∧
      edgeFind (construct F first)._edges first = some n ∧ n.index = first ∧
      n.source = none ∧ n.target = some 0 ∧ n.parents = [] ∧ n.domIndex = some first) ∧
    (∀ e ∈ (construct F first)._edges, e.parents = [] → e.domIndex = some e.index) ∧
    (∀ e ∈ (construct F first)._edges, e.source = none → e.index = first) ∧
    (∀ e ∈ (construct F first)._edges, ∀ b, e.source = some b →
      (e.parents = [] ↔ (b ≠ 0 ∧ ∀ ss ∈ F.blocks, b ∉ ss))) ∧
    ((∀ b ss, F.blocks[b]? = some ss → ss ≠ [] → b = 0 ∨ ∃ ss' ∈ F.blocks, b ∈ ss') →
      ∀ e ∈ (construct F first)._edges, e.parents = [] → e.index = first) := by
  have hdom := (construct_spec F first hF).2
  have hsrc : ∀ e ∈ (construct F first)._edges, e.source = none → e.index = first := by
    intro e he hs
    rcases (construct_mem F first hF e he).2 with ⟨_, _, h⟩ | ⟨b, s, _, h, _, _⟩
    · exact h
    · rw [hs] at h; exact absurd h (by simp)
  have htarget : ∀ p ∈ createEdges F first, ∃ t, p.target = some t := by
    intro p hp
    rcases (createEdges_mem F first p hp).2.2 with ⟨_, h, _, _⟩ | ⟨_, s, _, _, h, _⟩
    · exact ⟨0, h⟩
    · exact ⟨s, h⟩
  have hpar : ∀ e ∈ (construct F first)._edges, ∀ b, e.source = some b →
      (e.parents = [] ↔ (b ≠ 0 ∧ ∀ ss ∈ F.blocks, b ∉ ss)) := by
    intro e he b hb
    rw [(construct_mem F first hF e he).1, hb]
    constructor
    · intro hall
      constructor
      · intro h0
        have hentry : ∃ p ∈ createEdges F first, p.target = some 0 := by
          rw [createEdges_eq]
          exact ⟨_, List.mem_cons_self _ _, rfl⟩
        obtain ⟨p, hp, hpt⟩ := hentry
        exact hall p hp (by rw [hpt, h0])
      · intro ss hss hbs
        obtain ⟨a, ha⟩ := List.getElem?_of_mem hss
        obtain ⟨p, hp, _, hpt⟩ := createEdges_of_pair F first a b
          ((mem_blockPairs F a b).mpr ⟨ss, ha, hbs⟩)
        exact hall p hp hpt
    · rintro ⟨hb0, hnone⟩ p hp hpt
      rcases (createEdges_mem F first p hp).2.2 with ⟨_, h, _, _⟩ | ⟨a, s, hpair, _, h, _⟩
      · rw [h] at hpt
        exact hb0 (Option.some.inj hpt).symm
      · rw [h] at hpt
        obtain ⟨ss, hss, hs⟩ := (mem_blockPairs F a s).mp hpair
        have : s = b := Option.some.inj hpt
        subst this
        exact hnone ss (List.getElem?_mem hss) hs
  refine ⟨?_, hdom, hsrc, hpar, ?_⟩
  · obtain ⟨n, rest, hc, h1, h2, h3⟩ := construct_head F first hF
    have hn : n ∈ (construct F first)._edges := by rw [hc]; exact List.mem_cons_self _ _
    have hp : n.parents = [] := by
      rw [(construct_mem F first hF n hn).1, h2]
      intro p hp hpt
      obtain ⟨t, ht⟩ := htarget p hp
      rw [ht] at hpt
      exact absurd hpt (by simp)
    refine ⟨n, by rw [hc]; rfl, ?_, h1, h2, h3, hp, ?_⟩
    · rw [hc]
      simp [edgeFind, List.find?, h1]
    · rw [hdom n hn hp, h1]
  · intro H e he hp
    rcases (construct_mem F first hF e he).2 with ⟨_, _, h⟩ | ⟨b, s, hpair, hs, _, _⟩
    · exact h
    · exfalso
      obtain ⟨hb0, hnone⟩ := (hpar e he b hs).mp hp
      obtain ⟨ss, hss, hmem⟩ := (mem_blockPairs F b s).mp hpair
      rcases H b ss hss (List.ne_nil_of_mem hmem) with h0 | ⟨ss', hss', hb⟩
      · exact hb0 h0
      · exact hnone ss' hss' hb

end CFGEdgeDomTree
end Cmbprof

namespace Cmbprof
namespace CFGEdgeDomTree

/-- Counterexample to C12 as stated: in `twoRoots` the edge 2 (block 1 to block 2) leaves a
block that no edge enters, so it has an empty parent set like the entry edge 0; `findRoots`
records both and prints its warning, and both are their own dominator. -/
theorem two_edges_without_parents :
    twoRoots.isDeclaration = false ∧
    (construct twoRoots 0)._edges.map (fun e => (e.index, e.source, e.target, e.parents)) =
      [(0, none, some 0, []), (1, some 0, some 2, [0]), (2, some 1, some 2, [])] ∧
    ((construct twoRoots 0)._edges.filter (fun e => e.parents.length == 0)).map
      (fun e => e.index) = [0, 2] ∧
    (construct twoRoots 0)._roots = [0, 2] ∧
    (construct twoRoots 0).diags = [Diag.multipleRoots] ∧
    (construct twoRoots 0)._edges.map (fun e => e.domIndex) = [some 0, some 0, some 2] := by
  decide

theorem diamond_blocks_entered :
    ∀ b ss, diamond.blocks[b]? = some ss → ss ≠ [] →
      b = 0 ∨ ∃ ss' ∈ diamond.blocks, b ∈ ss' := by
  intro b ss h hne
  have hb : b < 4 := by
    by_contra hcon
    have hnone : diamond.blocks[b]? = none :=
      List.getElem?_eq_none (by simp only [diamond, List.length_cons, List.length_nil]; omega)
    rw [hnone] at h
    exact absurd h (by simp)
  interval_cases b
  · exact Or.inl rfl
  · exact Or.inr ⟨[1, 2], by simp [diamond], by simp⟩
  · exact Or.inr ⟨[1, 2], by simp [diamond], by simp⟩
  · simp [diamond] at h
    exact absurd h hne

/-- Witness for C12: in the diamond every block with a successor is the entry block or a
successor, and the entry edge is the only edge without parents. -/
theorem roots_of_function_witness :
    diamond.isDeclaration = false ∧
    (∀ b ss, diamond.blocks[b]? = some ss → ss ≠ [] →
      b = 0 ∨ ∃ ss' ∈ diamond.blocks, b ∈ ss') ∧
    (∀ e ∈ (construct diamond 0)._edges, e.parents = [] → e.index = 0) ∧
    (∀ e ∈ (construct diamond 0)._edges, e.parents = [] → e.domIndex = some e.index) :=
  ⟨rfl, diamond_blocks_entered,
   (roots_of_function diamond 0 rfl).2.2.2.2 diamond_blocks_entered,
   (roots_of_function diamond 0 rfl).2.1⟩

end CFGEdgeDomTree
end Cmbprof

namespace Cmbprof
namespace EdgeDominatorTree

/-- Witness for C15: a module of the diamond, a declaration and `twoRoots`; the diamond
contributes the edges 0 to 4, the declaration none and `twoRoots` the edges 5 to 7. -/
theorem module_edges_contiguous_witness :
    (construct [CFGEdgeDomTree.diamond, ⟨true, []⟩, CFGEdgeDomTree.twoRoots]).getEdgeCount = 8 ∧
    (construct [CFGEdgeDomTree.diamond, ⟨true, []⟩, CFGEdgeDomTree.twoRoots])._edges.map
        (fun e => (e.index, e.source, e.target)) =
      [(0, none, some 0), (1, some 0, some 1), (2, some 0, some 2), (3, some 1, some 3),
       (4, some 2, some 3), (5, none, some 0), (6, some 0, some 2), (7, some 1, some 2)] ∧
    ((construct [CFGEdgeDomTree.diamond, ⟨true, []⟩, CFGEdgeDomTree.twoRoots])._edges.map
        (fun e => e.index) =
      List.range
        (construct [CFGEdgeDomTree.diamond, ⟨true, []⟩, CFGEdgeDomTree.twoRoots]).getEdgeCount ∧
    (∀ i, i < (construct
          [CFGEdgeDomTree.diamond, ⟨true, []⟩, CFGEdgeDomTree.twoRoots]).getEdgeCount →
      edgeFind (construct [CFGEdgeDomTree.diamond, ⟨true, []⟩, CFGEdgeDomTree.twoRoots])._edges i =
        (construct [CFGEdgeDomTree.diamond, ⟨true, []⟩, CFGEdgeDomTree.twoRoots])._edges[i]?) ∧
    (construct [CFGEdgeDomTree.diamond, ⟨true, []⟩, CFGEdgeDomTree.twoRoots])._edges.map
        (fun e => (e.source, e.target)) =
      ([CFGEdgeDomTree.diamond, ⟨true, []⟩, CFGEdgeDomTree.twoRoots].map
        CFGEdgeDomTree.specEdges).flatten ∧
    (construct [CFGEdgeDomTree.diamond, ⟨true, []⟩, CFGEdgeDomTree.twoRoots]).getEdgeCount =
      ([CFGEdgeDomTree.diamond, ⟨true, []⟩, CFGEdgeDomTree.twoRoots].map
        CFGEdgeDomTree.specEdgeCount).sum ∧
    (∀ F ∈ [CFGEdgeDomTree.diamond, ⟨true, []⟩, CFGEdgeDomTree.twoRoots],
      (CFGEdgeDomTree.specEdges F).length = CFGEdgeDomTree.specEdgeCount F)) :=
  ⟨by decide, by decide,
   module_edges_contiguous [CFGEdgeDomTree.diamond, ⟨true, []⟩, CFGEdgeDomTree.twoRoots]⟩

end EdgeDominatorTree
end Cmbprof

namespace Cmbprof

namespace CPCallRecord

/-- C28, the claim as stated fails: for a callee of 2147483648 instructions with a branch and a
record that subtracts nothing, `inlineSize` is -2147483648, negative although the subtracted
amount (0) does not exceed the size of the callee. -/
theorem inlineSize_negative_without_excess :
    inlineSize exampleWeights hugeCalleeAttrs exampleRecord = some (-2147483648)
    ∧ exampleRecord.cs.callee = some 1
    ∧ getFunctionAttr hugeCalleeAttrs 1
        = some { ZeroFunctionAttr with size := 2147483648, startSize := 2147483648, branches := 1 }
    ∧ exampleRecord.totalImpact.instrRemIfConst + exampleRecord.totalImpact.instrRemIfAlloca = 0 := by
  decide

/-- C28, amended: for a record with a known callee, `inlineSize` is
`callee.size - (instrRemIfConst + instrRemIfAlloca) - d`, with `d` the one-block discount when
the cached branch count of the callee is 0 and 0 otherwise, formed in 32-bit unsigned
arithmetic and read as a signed `int`; when the size and the subtracted amount are both below
2^31 this is the exact integer difference, negative exactly when the subtracted amount exceeds
the size. For an unknown callee it is 0, and `inlineCost` returns the same value. -/
theorem inlineSize_value (W : InlineWeights) (attrs : FuncAttrMap) (rec : CPCallRecord) :
    (rec.cs.callee = none → inlineSize W attrs rec = some 0 ∧ inlineCost W attrs rec = some 0)
    ∧ (∀ callee attr, rec.cs.callee = some callee → getFunctionAttr attrs callee = some attr →
        let d := if attr.branches = 0 then W.oneblock else 0
        let less := rec.totalImpact.instrRemIfConst + rec.totalImpact.instrRemIfAlloca + d
        inlineSize W attrs rec = some (toInt32 ((attr.size + (2 ^ 32 - less % 2 ^ 32)) % 2 ^ 32))
        ∧ inlineCost W attrs rec = (inlineSize W attrs rec).map (fun z => (z : ℚ))
        ∧ (attr.size < 2 ^ 31 → less < 2 ^ 31 →
            inlineSize W attrs rec = some ((attr.size : Int) - (less : Int))
            ∧ inlineCost W attrs rec = some (((attr.size : Int) - (less : Int) : Int) : ℚ)
            ∧ ((∃ z, inlineSize W attrs rec = some z ∧ z < 0) ↔ attr.size < less))) := by
  refine ⟨?_, ?_⟩
  · intro hc
    simp [inlineSize, inlineCost, hc]
  · intro callee attr hc ha
    have hsz : inlineSize W attrs rec = some (toInt32 ((attr.size
        + (2 ^ 32 - (rec.totalImpact.instrRemIfConst + rec.totalImpact.instrRemIfAlloca
            + (if attr.branches = 0 then W.oneblock else 0)) % 2 ^ 32)) % 2 ^ 32)) := by
      simp only [inlineSize, hc, ha]
      congr 1
      by_cases hb : attr.branches = 0
      · simp only [hb, if_true]
        unfold toInt32
        have e : (attr.size % 2 ^ 32 + 2 ^ 32
            - ((rec.totalImpact.instrRemIfConst + rec.totalImpact.instrRemIfAlloca) % 2 ^ 32
                + W.oneblock) % 2 ^ 32) % 2 ^ 32
            = ((attr.size + (2 ^ 32 - (rec.totalImpact.instrRemIfConst
                + rec.totalImpact.instrRemIfAlloca + W.oneblock) % 2 ^ 32)) % 2 ^ 32) % 2 ^ 32 := by
          omega
        rw [e]
      · simp only [hb, if_false]
        unfold toInt32
        have e : (attr.size % 2 ^ 32 + 2 ^ 32
            - (rec.totalImpact.instrRemIfConst + rec.totalImpact.instrRemIfAlloca) % 2 ^ 32) % 2 ^ 32
            = ((attr.size + (2 ^ 32 - (rec.totalImpact.instrRemIfConst
                + rec.totalImpact.instrRemIfAlloca + 0) % 2 ^ 32)) % 2 ^ 32) % 2 ^ 32 := by
          omega
        rw [e]
    intro d less
    have hval : ∀ (hs : attr.size < 2 ^ 31) (hl : less < 2 ^ 31),
        toInt32 ((attr.size + (2 ^ 32 - less % 2 ^ 32)) % 2 ^ 32)
          = (attr.size : Int) - (less : Int) := by
      intro hs hl
      unfold toInt32
      split <;> omega
    refine ⟨hsz, rfl, ?_⟩
    intro hs hl
    have hv := hval hs hl
    refine ⟨by rw [hsz]; exact congrArg some hv, ?_, ?_⟩
    · simp only [inlineCost, hsz, Option.map_some']
      exact congrArg some (congrArg (fun z : Int => (z : ℚ)) hv)
    · rw [hsz]
      constructor
      · rintro ⟨z, hz, hneg⟩
        have hz' : toInt32 ((attr.size + (2 ^ 32 - less % 2 ^ 32)) % 2 ^ 32) = z :=
          Option.some.inj hz
        have : (attr.size : Int) - (less : Int) < 0 := by rw [← hv, hz']; exact hneg
        omega
      · intro hlt
        refine ⟨_, rfl, ?_⟩
        have : toInt32 ((attr.size + (2 ^ 32 - less % 2 ^ 32)) % 2 ^ 32)
            = (attr.size : Int) - (less : Int) := hv
        rw [this]
        omega

/-- C28 witness: `exampleRecord` calls function 1, of size 8 and without branches, under
`exampleWeights`. -/
theorem inlineSize_value_witness :
    exampleRecord.cs.callee = some 1
    ∧ getFunctionAttr exampleAttrs 1 = some { ZeroFunctionAttr with size := 8, startSize := 8 }
    ∧ inlineSize exampleWeights exampleAttrs exampleRecord = some 7 := by
  have h := (inlineSize_value exampleWeights exampleAttrs exampleRecord).2 1
    { ZeroFunctionAttr with size := 8, startSize := 8 } (by decide) (by decide)
  refine ⟨by decide, by decide, ?_⟩
  have h3 := (h.2.2 (by decide) (by decide)).1
  rw [h3]
  decide

end CPCallRecord

end Cmbprof

namespace Cmbprof

namespace CPCallRecord

/-- C29, the code at the failing input and in general. `recalcFunctionAttr` copies the size
and the call counts of the freshly computed attributes into the cache but not `branches`: the
cached branch count of a defined function after the call is the one cached before (0 for a
function that had no entry). For `branchingBody`, which has one block with two successors, the
cached count is 0 after the call, and `inlineSize` subtracts the one-block discount for a
call of it (size 2, result 1). -/
theorem recalcFunctionAttr_keeps_branches :
    (∀ (attrs : FuncAttrMap) (f : FuncRef) (b : FuncBody),
      (mapFind f (recalcFunctionAttr attrs f (some b)).2).map (fun a => a.branches)
        = some ((mapFind f attrs).getD ZeroFunctionAttr).branches)
    ∧ (branchingBody.blocks.filter (fun BB => decide (BB.numSuccessors > 1))).length = 1
    ∧ (mapFind 1 (recalcFunctionAttr [] 1 (some branchingBody)).2).map (fun a => a.branches)
        = some 0
    ∧ (mapFind 1 (recalcFunctionAttr [] 1 (some branchingBody)).2).map (fun a => a.size)
        = some 2
    ∧ inlineSize exampleWeights (recalcFunctionAttr [] 1 (some branchingBody)).2 branchingCall
        = some 1 := by
  refine ⟨?_, by decide, by decide, by decide, by decide⟩
  intro attrs f b
  simp only [recalcFunctionAttr, mapFind_mapSet, if_true, Option.map_some']

end CPCallRecord

end Cmbprof

namespace Cmbprof

namespace CPCallRecord

/-- C26, the code in general and at the failing input. `meanMetric` returns
`mean * benefit * coverage` and `minMetric` returns `min * benefit * coverage`, but
`maxMetric` returns `max * benefit` without the coverage factor. For the histogram with
maximum 9/10 and coverage 5/8 and benefit 4 it returns 18/5, not 9/10 * 4 * 5/8 = 9/4. -/
theorem maxMetric_omits_coverage :
    (∀ (Q : HistQueries) (attrs : FuncAttrMap) (rec : CPCallRecord) (b : ℚ),
      meanMetric Q attrs rec b = Q.mean rec.cphist * b * Q.coverage rec.cphist
      ∧ minMetric Q attrs rec b = Q.min rec.cphist * b * Q.coverage rec.cphist
      ∧ maxMetric Q attrs rec b = Q.max rec.cphist * b)
    ∧ specQueries.max partlyCoveredRecord.cphist = 9 / 10
    ∧ specQueries.coverage partlyCoveredRecord.cphist = 5 / 8
    ∧ maxMetric specQueries [] partlyCoveredRecord 4 = 18 / 5
    ∧ maxMetric specQueries [] partlyCoveredRecord 4
        ≠ specQueries.max partlyCoveredRecord.cphist * 4
            * specQueries.coverage partlyCoveredRecord.cphist
    ∧ minMetric specQueries [] partlyCoveredRecord 4 = 1 / 4
    ∧ meanMetric specQueries [] partlyCoveredRecord 4 = 5 / 4 := by
  refine ⟨fun Q attrs rec b => ⟨rfl, rfl, rfl⟩, ?_, ?_, ?_, ?_, ?_, ?_⟩ <;> decide!

end CPCallRecord

end Cmbprof

namespace Cmbprof

namespace CPCallRecord

end CPCallRecord

end Cmbprof

namespace Cmbprof

namespace CPCallRecord

end CPCallRecord

end Cmbprof

namespace Cmbprof

namespace FDOInliner

/-- C25, the claim as stated fails: the option is an `unsigned` and the result an `int`, so
for the option value 2147483648 (greater than 1) `computeBudget` returns -2147483648 and for
4294967295 it returns -1, not the literal value of the option. -/
theorem computeBudget_wraps_large_option :
    computeBudget approxSqrt 2147483648 91778 = some (-2147483648)
    ∧ computeBudget approxSqrt 4294967295 91778 = some (-1) := by
  constructor <;> decide

/-- C25, as amended. For a library square root that is positive and monotone from 1 on and
separates 5000 from 425000, and every program size `0 < s < 2^31`: `computeBudget(s)` returns
the maximum `int` when the option is 0, the literal value of the option when it is greater
than 1 and below 2^31, and `floor(g*s)` when it is 1, where `g` is the clamp of the
specification; the piecewise code equals that clamp for every such `s`, and the automatic
budget lies between `floor(0.05*s)` and `floor(10*s)`. -/
theorem computeBudget_spec (sqrt : ℚ → ℚ)
    (hpos : ∀ x : ℚ, 1 ≤ x → 0 < sqrt x)
    (hmono : ∀ x y : ℚ, 1 ≤ x → x ≤ y → sqrt x ≤ sqrt y)
    (hlt : sqrt 5000 < sqrt 425000)
    (s : Int) (hs : 0 < s) (hs2 : s < 2 ^ 31) :
    computeBudget sqrt 0 s = some (2 ^ 31 - 1)
    ∧ (∀ b : Nat, 1 < b → b < 2 ^ 31 → computeBudget sqrt b s = some (b : Int))
    ∧ computeBudget sqrt 1 s = some ⌊autoGrowth sqrt s * (s : ℚ)⌋
    ∧ ⌊(5 / 100 : ℚ) * (s : ℚ)⌋ ≤ ⌊autoGrowth sqrt s * (s : ℚ)⌋
    ∧ ⌊autoGrowth sqrt s * (s : ℚ)⌋ ≤ ⌊(10 : ℚ) * (s : ℚ)⌋ := by
  have h5 : 0 < sqrt 5000 := hpos 5000 (by norm_num)
  have h4 : 0 < sqrt 425000 := hpos 425000 (by norm_num)
  have hac : 1 / sqrt 425000 < 1 / sqrt 5000 := one_div_lt_one_div_of_lt h5 hlt
  have hden : 0 < 1 / sqrt 5000 - 1 / sqrt 425000 := sub_pos.mpr hac
  have hscale : 0 < 10 / (1 / sqrt 5000 - 1 / sqrt 425000) := div_pos (by norm_num) hden
  have hsq : (0 : ℚ) < (s : ℚ) := by exact_mod_cast hs
  have hs1 : (1 : ℚ) ≤ (s : ℚ) := by exact_mod_cast hs
  have hsbound : (s : ℚ) < 2 ^ 31 := by exact_mod_cast hs2
  have hss : 0 < sqrt (s : ℚ) := hpos _ hs1
  -- the growth factor of the code is the clamp of the specification
  have hlo : (5 / 100 : ℚ) ≤ autoGrowth sqrt s := by
    unfold autoGrowth clamp
    exact le_max_left _ _
  have hhi : autoGrowth sqrt s ≤ 10 := by
    unfold autoGrowth clamp
    exact max_le (by norm_num) (min_le_right _ _)
  have hbig : (425000 : ℚ) ≤ (s : ℚ) → autoGrowth sqrt s = 5 / 100 := by
    intro hge
    have h1 : sqrt 425000 ≤ sqrt (s : ℚ) := hmono _ _ (by norm_num) hge
    have h2 : 1 / sqrt (s : ℚ) ≤ 1 / sqrt 425000 := one_div_le_one_div_of_le h4 h1
    have h3 : 10 / (1 / sqrt 5000 - 1 / sqrt 425000)
        * (1 / sqrt (s : ℚ) - 1 / sqrt 425000) ≤ 0 :=
      mul_nonpos_of_nonneg_of_nonpos (le_of_lt hscale) (sub_nonpos.mpr h2)
    unfold autoGrowth clamp
    apply max_eq_left
    exact le_trans (min_le_left _ _) (by linarith)
  have hsmall : (s : ℚ) ≤ 5000 → autoGrowth sqrt s = 10 := by
    intro hle
    have h1 : sqrt (s : ℚ) ≤ sqrt 5000 := hmono _ _ hs1 hle
    have h2 : 1 / sqrt 5000 ≤ 1 / sqrt (s : ℚ) := one_div_le_one_div_of_le hss h1
    have h3 : 10 / (1 / sqrt 5000 - 1 / sqrt 425000) * (1 / sqrt 5000 - 1 / sqrt 425000)
        = 10 := div_mul_cancel₀ 10 (ne_of_gt hden)
    have h4 : 10 ≤ 10 / (1 / sqrt 5000 - 1 / sqrt 425000)
        * (1 / sqrt (s : ℚ) - 1 / sqrt 425000) := by
      calc (10 : ℚ) = 10 / (1 / sqrt 5000 - 1 / sqrt 425000)
              * (1 / sqrt 5000 - 1 / sqrt 425000) := h3.symm
        _ ≤ _ := mul_le_mul_of_nonneg_left (by linarith) (le_of_lt hscale)
    unfold autoGrowth clamp
    rw [min_eq_right (by linarith)]
    exact max_eq_right (by norm_num)
  have hmid : ∀ x : ℚ,
      (if (if x < 5 / 100 then (5 / 100 : ℚ) else x) > 10 then (10 : ℚ)
        else (if x < 5 / 100 then (5 / 100 : ℚ) else x)) = clamp x (5 / 100) 10 := by
    intro x
    unfold clamp
    by_cases hx1 : x < 5 / 100
    · have : ¬ ((5 / 100 : ℚ) > 10) := by norm_num
      simp only [hx1, if_true, this, if_false]
      rw [min_eq_left (by linarith)]
      exact (max_eq_left (le_of_lt hx1)).symm
    · simp only [hx1, if_false]
      by_cases hx2 : x > 10
      · simp only [hx2, if_true]
        rw [min_eq_right (le_of_lt hx2)]
        exact (max_eq_right (by norm_num)).symm
      · simp only [hx2, if_false]
        rw [min_eq_left (not_lt.mp hx2)]
        exact (max_eq_right (not_lt.mp hx1)).symm
  have hcode : computeBudget sqrt 1 s
      = (if -2 ^ 31 ≤ ⌊autoGrowth sqrt s * (s : ℚ)⌋ ∧ ⌊autoGrowth sqrt s * (s : ℚ)⌋ < 2 ^ 31
          then some ⌊autoGrowth sqrt s * (s : ℚ)⌋ else none) := by
    unfold computeBudget
    simp only [one_ne_zero, if_false, if_true, ge_iff_le]
    by_cases hge : (425000 : ℚ) ≤ (s : ℚ)
    · have e1 : ¬ ((5 / 100 : ℚ) < 5 / 100) := lt_irrefl _
      have e2 : ¬ ((5 / 100 : ℚ) > 10) := by norm_num
      simp only [hge, if_true, e1, if_false, e2, hbig hge]
    · by_cases hle : (s : ℚ) ≤ 5000
      · have e1 : ¬ ((10 : ℚ) < 5 / 100) := by norm_num
        have e2 : ¬ ((10 : ℚ) > 10) := lt_irrefl _
        simp only [hge, if_false, hle, if_true, e1, e2, hsmall hle]
      · simp only [hge, if_false, hle, hmid]
        rfl
  have hfl0 : 0 ≤ ⌊autoGrowth sqrt s * (s : ℚ)⌋ :=
    Int.floor_nonneg.mpr (mul_nonneg (by linarith) (le_of_lt hsq))
  have hfl1 : ⌊autoGrowth sqrt s * (s : ℚ)⌋ < 2 ^ 31 := by
    rw [Int.floor_lt]
    push_cast
    by_cases hge : (425000 : ℚ) ≤ (s : ℚ)
    · rw [hbig hge]
      linarith
    · have : autoGrowth sqrt s * (s : ℚ) ≤ 10 * (s : ℚ) :=
        mul_le_mul_of_nonneg_right hhi (le_of_lt hsq)
      have hs3 : (s : ℚ) < 425000 := not_le.mp hge
      norm_num
      linarith
  refine ⟨?_, ?_, ?_, ?_, ?_⟩
  · simp [computeBudget]
  · intro b hb1 hb2
    have h0 : b ≠ 0 := by omega
    have h1 : b ≠ 1 := by omega
    simp only [computeBudget, h0, h1, if_false]
    congr 1
    unfold toInt32
    have : b % 2 ^ 32 = b := Nat.mod_eq_of_lt (by omega)
    rw [this, if_pos hb2]
  · rw [hcode, if_pos ⟨by linarith, hfl1⟩]
  · exact Int.floor_mono (mul_le_mul_of_nonneg_right hlo (le_of_lt hsq))
  · exact Int.floor_mono (mul_le_mul_of_nonneg_right hhi (le_of_lt hsq))

/-- The example square root is positive from 1 on. -/
theorem approxSqrt_pos (x : ℚ) (hx : 1 ≤ x) : 0 < approxSqrt x := by
  unfold approxSqrt
  apply div_pos _ (by norm_num)
  have h1 : (10 : ℤ) ^ 12 ≤ ⌊x * 10 ^ 12⌋ := by
    rw [Int.le_floor]
    push_cast
    nlinarith
  have h2 : 10 ^ 12 ≤ (⌊x * 10 ^ 12⌋).toNat := by
    have := Int.toNat_le_toNat h1
    simpa using this
  have h3 : 0 < Nat.sqrt (⌊x * 10 ^ 12⌋).toNat :=
    Nat.sqrt_pos.mpr (lt_of_lt_of_le (by norm_num) h2)
  exact_mod_cast h3

/-- The example square root is monotone. -/
theorem approxSqrt_mono (x y : ℚ) (hxy : x ≤ y) : approxSqrt x ≤ approxSqrt y := by
  unfold approxSqrt
  apply div_le_div_of_nonneg_right _ (by norm_num)
  have h1 : ⌊x * 10 ^ 12⌋ ≤ ⌊y * 10 ^ 12⌋ :=
    Int.floor_mono (mul_le_mul_of_nonneg_right hxy (by norm_num))
  have h2 : (⌊x * 10 ^ 12⌋).toNat ≤ (⌊y * 10 ^ 12⌋).toNat := Int.toNat_le_toNat h1
  exact_mod_cast Nat.sqrt_le_sqrt h2

/-- The example square root separates 5000 from 425000. -/
theorem approxSqrt_separates : approxSqrt 5000 < approxSqrt 425000 := by
  unfold approxSqrt
  apply div_lt_div_of_pos_right _ (by norm_num)
  have e1 : (⌊(5000 : ℚ) * 10 ^ 12⌋).toNat = 5000 * 10 ^ 12 := by
    have : ((5000 : ℚ) * 10 ^ 12) = ((5000 * 10 ^ 12 : ℤ) : ℚ) := by norm_num
    rw [this, Int.floor_intCast]
    rfl
  have e2 : (⌊(425000 : ℚ) * 10 ^ 12⌋).toNat = 425000 * 10 ^ 12 := by
    have : ((425000 : ℚ) * 10 ^ 12) = ((425000 * 10 ^ 12 : ℤ) : ℚ) := by norm_num
    rw [this, Int.floor_intCast]
    rfl
  rw [e1, e2]
  have h1 : Nat.sqrt (5000 * 10 ^ 12) < 10 ^ 8 := Nat.sqrt_lt'.mpr (by norm_num)
  have h2 : 10 ^ 8 ≤ Nat.sqrt (425000 * 10 ^ 12) := Nat.le_sqrt'.mpr (by norm_num)
  exact_mod_cast lt_of_lt_of_le h1 h2

/-- C25 witness: the example square root and the program size 91778. -/
theorem computeBudget_spec_witness :
    (0 : Int) < 91778 ∧ (91778 : Int) < 2 ^ 31
    ∧ computeBudget approxSqrt 0 91778 = some (2 ^ 31 - 1)
    ∧ computeBudget approxSqrt 300 91778 = some 300
    ∧ computeBudget approxSqrt 1 91778 = some ⌊autoGrowth approxSqrt 91778 * (91778 : ℚ)⌋
    ∧ ⌊(5 / 100 : ℚ) * (91778 : ℚ)⌋ ≤ ⌊autoGrowth approxSqrt 91778 * (91778 : ℚ)⌋
    ∧ ⌊autoGrowth approxSqrt 91778 * (91778 : ℚ)⌋ ≤ ⌊(10 : ℚ) * (91778 : ℚ)⌋ := by
  have h := computeBudget_spec approxSqrt approxSqrt_pos
    (fun x y _ hxy => approxSqrt_mono x y hxy) approxSqrt_separates 91778 (by norm_num)
    (by norm_num)
  refine ⟨by norm_num, by norm_num, h.1, ?_, ?_, ?_, ?_⟩
  · exact h.2.1 300 (by norm_num) (by norm_num)
  · exact_mod_cast h.2.2.1
  · exact_mod_cast h.2.2.2.1
  · exact_mod_cast h.2.2.2.2

end FDOInliner

end Cmbprof

namespace Cmbprof

namespace FDOInliner

/-- C23, the code in general and at the failing input. `removeDeadCallee(f)` leaves the
lists alone and returns 0 when `_callers[f]` is not empty or `f` is address-taken, but it has
no test for the program entry: after the only call of `main` (call site 11, in `f`) has been
inlined, `_callers[main]` is empty and the iteration's call `removeDeadCallee(main)` removes
the record of call site 10, which is in `main`, and counts one dead call. -/
theorem removeDeadCallee_removes_calls_of_main :
    (∀ (host : Host) (fuel : Nat) (s : FDOInliner) (f : FuncRef),
      ((mapFind f s._callers).getD [] ≠ []
        ∨ ((mapFind f s._funcAttr).getD ZeroFunctionAttr).addressTaken = true) →
      ∃ s1, removeDeadCallee host (fuel + 1) s f = some (0, s1)
        ∧ s1._candidates = s._candidates ∧ s1._ignore = s._ignore ∧ s1._records = s._records)
    ∧ entryHost.nameOf 0 = "main"
    ∧ (removeDeadCallee entryHost 100
        { entryInliner with _callers := [(0, []), (1, [10])]
                            _candidates := [{ addr := 0, record := mkRecord 10 0 1 1 false }]
                            _records := [(10, 0)] } 0).map
        (fun d => (d.1, d.2._candidates, d.2._ignore, d.2._records)) = some (1, [], [], [])
    ∧ (iteration CPCallRecord.exampleStatics 0 entryHost (startRun entryInliner 100)).map
        (fun p => (p.1.inlineAttempts.map (fun cs => cs.inst), p.1.inlineCount, p.1.deadCalls,
          p.2)) = some ([11], 1, 1, false)
    ∧ (iteration CPCallRecord.exampleStatics 0 entryHost (startRun entryInliner 100)).map
        (fun p => (p.1.inl._candidates, p.1.inl._ignore, p.1.inl._records))
        = some ([], [], []) := by
  refine ⟨?_, by decide, by decide!, by decide!, by decide!⟩
  intro host fuel s f h
  refine ⟨{ s with _callers := mapSet f ((mapFind f s._callers).getD []) s._callers
                   _funcAttr := mapSet f ((mapFind f s._funcAttr).getD ZeroFunctionAttr)
                     s._funcAttr }, ?_, rfl, rfl, rfl⟩
  have hd : (((mapFind f s._callers).getD []).length == 0
      && !((mapFind f s._funcAttr).getD ZeroFunctionAttr).addressTaken) = false := by
    rcases h with h | h
    · have : ((mapFind f s._callers).getD []).length ≠ 0 := by
        intro h0
        exact h (List.length_eq_zero.mp h0)
      simp [this]
    · simp [h]
  simp only [removeDeadCallee, hd, Bool.not_false, if_true]

end FDOInliner

end Cmbprof

namespace Cmbprof

namespace FDOInliner

/-- With anchored records the loop of `functionZID` has a result from every start. -/
theorem addRecordZID_fold_defined (s : FDOInliner) (ha : RecordsAnchored s)
    (insts : List InstInfo) (z0 : Nat) :
    ∃ z, insts.foldl (fun acc I => acc.bind (fun zID => addRecordZID s zID I)) (some z0)
      = some z := by
  induction insts generalizing z0 with
  | nil => exact ⟨z0, rfl⟩
  | cons I rest ih =>
    simp only [List.foldl_cons, Option.some_bind]
    have h1 : ∃ z1, addRecordZID s z0 I = some z1 := by
      unfold addRecordZID
      by_cases hc : isFDOInliningCandidate (some I) = true
      · simp only [hc, if_true]
        cases hf : mapFind I.cs.inst s._records with
        | none => exact ⟨z0, rfl⟩
        | some addr =>
          obtain ⟨rec, hrec⟩ := deref_defined s I.cs.inst addr ha hf
          simp only [hrec]
          exact ⟨_, rfl⟩
      · simp only [hc]
        exact ⟨z0, rfl⟩
    obtain ⟨z1, hz1⟩ := h1
    rw [hz1]
    exact ih z1

/-- With anchored records `functionZID` has a result. -/
theorem functionZID_defined (host : Host) (s : FDOInliner) (F : FuncRef)
    (ha : RecordsAnchored s) : ∃ z, functionZID host s F = some z :=
  addRecordZID_fold_defined s ha (host.instsOf F) 0

/-- What the loop body of `finalReport` does with one function when `functionZID` has a
result: the zID of a hashed function is folded in, every other function is passed over. -/
theorem reportFunction_eq (host : Host) (isDeclaration : FuncRef → Bool) (s : FDOInliner)
    (h0 : Nat) (F : FuncRef) (z : Nat) (hz : functionZID host s F = some z) :
    reportFunction host isDeclaration s h0 F
      = some (if isHashed host isDeclaration s F then Nat.xor h0 z else h0) := by
  unfold reportFunction
  by_cases hd : isDeclaration F = true
  · have hh : isHashed host isDeclaration s F = false := by simp [isHashed, hd]
    simp only [hd, if_true, hh, Bool.false_eq_true, if_false]
  · have hd' : isDeclaration F = false := by simpa using hd
    cases hattr : mapFind F s._funcAttr with
    | none =>
      have hh : isHashed host isDeclaration s F = false := by simp [isHashed, hattr]
      simp only [hd', Bool.false_eq_true, if_false, hh]
    | some attr =>
      simp only [hd', Bool.false_eq_true, if_false, hz]
      by_cases hdead : (((mapFind F s._callers).getD []).length == 0 && !attr.addressTaken
          && host.nameOf F != "main") = true
      · have hh : isHashed host isDeclaration s F = false := by
          simp only [Bool.and_eq_true, beq_iff_eq, Bool.not_eq_true', bne_iff_ne,
            List.length_eq_zero] at hdead
          obtain ⟨⟨h1, h2⟩, h3⟩ := hdead
          simp [isHashed, isLive, hattr, h1, h2, h3]
        simp only [hdead, if_true, hh, Bool.false_eq_true, if_false]
      · have hlive : isLive host s F = true := by
          simp only [isLive, hattr, Option.getD_some, Bool.or_eq_true, decide_eq_true_eq,
            beq_iff_eq]
          by_cases h1 : (mapFind F s._callers).getD [] = []
          · by_cases h2 : attr.addressTaken = true
            · exact Or.inl (Or.inr h2)
            · by_cases h3 : host.nameOf F = "main"
              · exact Or.inr h3
              · exfalso
                apply hdead
                simp [h1, h2, h3]
          · exact Or.inl (Or.inl h1)
        simp only [hdead, Bool.false_eq_true, if_false]
        by_cases hic : attr.inlineCount = 0
        · have hh : isHashed host isDeclaration s F = false := by
            simp [isHashed, hattr, hic]
          simp only [hic, if_true, hh, Bool.false_eq_true, if_false]
        · have hh : isHashed host isDeclaration s F = true := by
            simp [isHashed, hattr, hic, hlive, hd']
          simp only [hic, if_false, hh, if_true]

/-- The loop of `finalReport` from any start value of the hash. -/
theorem reportFunction_fold (host : Host) (isDeclaration : FuncRef → Bool) (s : FDOInliner)
    (ha : RecordsAnchored s) (M : List FuncRef) (h0 : Nat) :
    M.foldl (fun acc F => acc.bind (fun g => reportFunction host isDeclaration s g F)) (some h0)
      = some (((M.filter (isHashed host isDeclaration s)).map
          (fun F => (functionZID host s F).getD 0)).foldl Nat.xor h0) := by
  induction M generalizing h0 with
  | nil => rfl
  | cons F rest ih =>
    obtain ⟨z, hz⟩ := functionZID_defined host s F ha
    simp only [List.foldl_cons, Option.some_bind, reportFunction_eq host isDeclaration s h0 F z hz]
    rw [ih]
    by_cases hh : isHashed host isDeclaration s F = true
    · simp only [hh, if_true, List.filter_cons, List.map_cons, List.foldl_cons, hz,
        Option.getD_some]
    · simp only [hh, Bool.false_eq_true, if_false, List.filter_cons]

/-- C30, the claim as stated fails: in `hashInliner`, where nothing has been inlined, `main`
is live and its zID is 5, so that the XOR over the live defined functions is 5, but
`finalReport` prints the global hash 0. -/
theorem finalReport_skips_live_function :
    finalReport hashHost (fun _ => false) hashInliner [0, 1] = some 0
    ∧ functionZID hashHost hashInliner 0 = some 5
    ∧ isLive hashHost hashInliner 0 = true
    ∧ liveHash hashHost (fun _ => false) hashInliner [0, 1] = 5 := by
  refine ⟨?_, ?_, ?_, ?_⟩ <;> decide!

/-- C30, as amended. The global hash that `finalReport` prints is the XOR, over the defined
functions that have an attribute record, are live (a recorded caller, or address-taken, or
named `main`) and have had at least one call inlined into them (`inlineCount` not 0), of the
function's zID, the sum modulo 2^32 of the zIDs of the records of the candidate call sites it
contains. -/
theorem finalReport_hash (host : Host) (isDeclaration : FuncRef → Bool) (s : FDOInliner)
    (M : List FuncRef) (ha : RecordsAnchored s) :
    finalReport host isDeclaration s M
      = some (xorAll ((M.filter (isHashed host isDeclaration s)).map
          (fun F => (functionZID host s F).getD 0))) := by
  exact reportFunction_fold host isDeclaration s ha M 0

/-- C30 witness: in `hashInliner1` a call has been inlined into `main`, and the hash is the
zID of `main`, 5. -/
theorem finalReport_hash_witness :
    finalReport hashHost (fun _ => false) hashInliner1 [0, 1] = some 5 := by
  have ha : RecordsAnchored hashInliner1 := by
    intro k a h
    have hk : (k, a) ∈ hashInliner1._records := mapFind_mem k a _ h
    have : (k, a) = (10, 0) := by simpa [hashInliner1, hashInliner] using hk
    refine ⟨{ addr := 0, record := { mkRecord 10 0 1 1 false with zID := 5 } }, by decide, ?_⟩
    exact (congrArg Prod.snd this).symm
  rw [finalReport_hash hashHost (fun _ => false) hashInliner1 [0, 1] ha]
  decide!

end FDOInliner

end Cmbprof

namespace Cmbprof

namespace FDOInliner

/-- C21, the code at the failing input. On `chainInliner`, where `_callers` covers every
record, the loop selects call site 11 (`f` calls `g`); `removeCandidate` erases it from
`_callers[g]` before the attempt, the host refuses, and `ignore` stores a new ignored record
for it without putting it back. At the end of the iteration the record of call site 11, with
callee `g`, is in `_ignore` and `_callers[g]` is empty. -/
theorem refused_call_site_leaves_callers :
    callersCover chainInliner = true
    ∧ (iteration CPCallRecord.exampleStatics 0 refusingHost (startRun chainInliner 100)).map
        (fun p => (p.1.inlineAttempts.map (fun cs => (cs.inst, cs.callee)), p.1.inlineFail, p.2))
        = some ([(11, some 2)], 1, false)
    ∧ (iteration CPCallRecord.exampleStatics 0 refusingHost (startRun chainInliner 100)).map
        (fun p => (p.1.inl._ignore.map (fun n => (n.record.cs.inst, n.record.cs.callee)),
          p.1.inl._callers)) = some ([(11, some 2)], [(1, [10]), (2, []), (3, [12])])
    ∧ (iteration CPCallRecord.exampleStatics 0 refusingHost (startRun chainInliner 100)).map
        (fun p => callersCover p.1.inl) = some false := by
  refine ⟨by decide!, by decide!, by decide!, by decide!⟩

end FDOInliner

end Cmbprof

namespace Cmbprof

namespace FDOInliner

/-- The loop body when the selected record passes every test and the host inlines it: what
remains is the part after the inlining. -/
theorem iteration_accepted (S : Statics) (FDIDepth : Nat) (host : Host) (r : Run)
    (node : ListNode) (iSize : Int) (attrs1 : FuncAttrMap) (callee : FuncRef)
    (hl : r.inl._candidates.getLast? = some node) (hm : ¬ node.record.mval ≤ 0)
    (hsz : CPCallRecord.inlineSize S.weights r.inl._funcAttr node.record = some iSize)
    (hbig : ¬ iSize > r.budget)
    (hni : CPCallRecord.neverInline host.doesNotReturn r.inl._funcAttr node.record
      = some (false, attrs1))
    (hdeep : ¬ (FDIDepth > 0 ∧ node.record.history.length ≥ FDIDepth))
    (hf : host.inlineFunction node.record.cs = true)
    (hcal : node.record.cs.callee = some callee) :
    iteration S FDIDepth host r
      = afterInlining S host node.record node.record.cs.caller callee
          { r with endSkip := 0, didTry := true
                   inl := (removeCandidate { r.inl with _funcAttr := attrs1 }
                     (r.inl._candidates.length - 1)).2
                   inlineAttempts := r.inlineAttempts ++ [node.record.cs] } := by
  unfold iteration
  simp only [hl, hm, if_false, hsz, hbig, hni, hdeep, hf, Bool.not_true, Bool.false_eq_true,
    hcal]

/-- The part of the loop body after an inlining that reports no inlined call site. -/
theorem afterInlining_without_calls (S : Statics) (host : Host) (tmpRec : CPCallRecord)
    (caller callee : FuncRef) (r : Run) (h : host.inlinedCalls = [])
    (hfit : -2 ^ 31 ≤ r.budget - (CPCallRecord.recalcFunctionAttr
        (creditInlining r.inl._funcAttr caller callee) caller (host.bodyOf caller)).1 ∧
      r.budget - (CPCallRecord.recalcFunctionAttr
        (creditInlining r.inl._funcAttr caller callee) caller (host.bodyOf caller)).1 < 2 ^ 31) :
    afterInlining S host tmpRec caller callee r
      = finishIteration S host caller callee
          { r with
            inl := { r.inl with _funcAttr := (CPCallRecord.recalcFunctionAttr
              (creditInlining r.inl._funcAttr caller callee) caller (host.bodyOf caller)).2 }
            inlineCount := r.inlineCount + 1
            budget := r.budget - (CPCallRecord.recalcFunctionAttr
              (creditInlining r.inl._funcAttr caller callee) caller (host.bodyOf caller)).1 } := by
  unfold afterInlining
  simp only [h, processInlinedCalls, hfit, and_self, if_true]

/-- The end of the loop body has no result when the callee has no recorded caller left and
`removeDeadCallee` has none. -/
theorem finishIteration_undefined (S : Statics) (host : Host) (caller callee : FuncRef)
    (r2 : Run) (h0 : (mapFind callee r2.inl._callers).getD [] = [])
    (hd : removeDeadCallee host host.stackDepth
      { r2.inl with _callers := mapSet callee [] r2.inl._callers } callee = none) :
    finishIteration S host caller callee r2 = none := by
  unfold finishIteration
  simp only [h0, List.length_nil, beq_self_eq_true, if_true, hd, Option.map_none']

/-- One level of `removeDeadCallee` on a dead function whose scan finds one callee: without a
result for the callee there is none for the function. -/
theorem removeDeadCallee_dead_step (host : Host) (fuel : Nat) (s : FDOInliner)
    (func : FuncRef) (n : Nat) (c : FuncRef) (s2 : FDOInliner)
    (hdead : fdiDead s func = true)
    (hscan : removeCallsOf (host.instsOf func) (deadEntry s func) = some (n, [c], s2))
    (hrec : removeDeadCallee host fuel s2 c = none) :
    removeDeadCallee host (fuel + 1) s func = none := by
  unfold fdiDead at hdead
  unfold deadEntry at hscan
  simp only [removeDeadCallee, hdead, Bool.not_true, Bool.false_eq_true, if_false, hscan,
    List.foldl_cons, List.foldl_nil, hrec]

/-- In `cycleState2` neither `removeDeadCallee(f)` nor `removeDeadCallee(g)` has a result,
whatever the depth of recursion available: each scan removes nothing and recurses into the
other function. -/
theorem cycle_never_returns (depth : Nat) :
    ∀ fuel, removeDeadCallee (cycleHost depth) fuel cycleState2 1 = none
      ∧ removeDeadCallee (cycleHost depth) fuel cycleState2 2 = none := by
  have d1 : fdiDead cycleState2 1 = true := by decide!
  have d2 : fdiDead cycleState2 2 = true := by decide!
  have s1 : removeCallsOf [callInst 11 1 2] (deadEntry cycleState2 1)
      = some (0, [2], cycleState2) := by decide!
  have s2 : removeCallsOf [callInst 12 2 1] (deadEntry cycleState2 2)
      = some (0, [1], cycleState2) := by decide!
  intro fuel
  induction fuel with
  | zero => exact ⟨rfl, rfl⟩
  | succ k ih =>
    exact ⟨removeDeadCallee_dead_step (cycleHost depth) k cycleState2 1 0 2 cycleState2 d1 s1 ih.2,
      removeDeadCallee_dead_step (cycleHost depth) k cycleState2 2 0 1 cycleState2 d2 s2 ih.1⟩

/-- In `cycleState0` the call `removeDeadCallee(f)` has no result, whatever the depth of
recursion available. -/
theorem cycle_call_never_returns (depth fuel : Nat) :
    removeDeadCallee (cycleHost depth) fuel cycleState0 1 = none := by
  have d0 : fdiDead cycleState0 1 = true := by decide!
  have d1 : fdiDead cycleState1 2 = true := by decide!
  have s0 : removeCallsOf [callInst 11 1 2] (deadEntry cycleState0 1)
      = some (1, [2], cycleState1) := by decide!
  have s1 : removeCallsOf [callInst 12 2 1] (deadEntry cycleState1 2)
      = some (0, [1], cycleState2) := by decide!
  cases fuel with
  | zero => rfl
  | succ k =>
    refine removeDeadCallee_dead_step (cycleHost depth) k cycleState0 1 1 2 cycleState1 d0 s0 ?_
    cases k with
    | zero => rfl
    | succ j =>
      exact removeDeadCallee_dead_step (cycleHost depth) j cycleState1 2 0 1 cycleState2 d1 s1
        (cycle_never_returns depth j).1

end FDOInliner

end Cmbprof

namespace Cmbprof

namespace FDOInliner

/-- The second iteration of the loop on `cycleInliner` has no result, whatever the depth of
recursion available to `removeDeadCallee`. -/
theorem second_iteration_undefined (depth : Nat) :
    iteration CPCallRecord.exampleStatics 0 (cycleHost depth) cycleRun1 = none := by
  have hl : cycleRun1.inl._candidates.getLast?
      = some { addr := 1, record := mkRecord 10 0 1 2 false } := by decide!
  have hm : ¬ (mkRecord 10 0 1 2 false).mval ≤ 0 := by decide!
  have hsz : CPCallRecord.inlineSize CPCallRecord.exampleStatics.weights cycleRun1.inl._funcAttr
      (mkRecord 10 0 1 2 false) = some 2 := by decide!
  have hbig : ¬ (2 : Int) > cycleRun1.budget := by decide!
  have hni : CPCallRecord.neverInline (fun _ => false) cycleRun1.inl._funcAttr
      (mkRecord 10 0 1 2 false) = some (false, cycleRun1.inl._funcAttr) := by decide!
  have hdeep : ¬ (0 > 0 ∧ (mkRecord 10 0 1 2 false).history.length ≥ 0) :=
    fun h => absurd h.1 (lt_irrefl 0)
  have hf : (cycleHost depth).inlineFunction (mkRecord 10 0 1 2 false).cs = true :=
    (by decide : ((10 : Nat) != 12) = true)
  have hcal : (mkRecord 10 0 1 2 false).cs.callee = some 1 := rfl
  rw [iteration_accepted CPCallRecord.exampleStatics 0 (cycleHost depth) cycleRun1
    { addr := 1, record := mkRecord 10 0 1 2 false } 2 cycleRun1.inl._funcAttr 1
    hl hm hsz hbig hni hdeep hf hcal]
  rw [afterInlining_without_calls _ _ _ _ _ _ rfl (by
    have hb : (cycleHost depth).bodyOf = (cycleHost 0).bodyOf := rfl
    rw [hb]
    decide!)]
  have hlen : cycleRun1.inl._candidates.length - 1 = 1 := by decide!
  have hst : ({ ({ (removeCandidate cycleRun1.inl 1).2 with
        _funcAttr := (CPCallRecord.recalcFunctionAttr
          (creditInlining (removeCandidate cycleRun1.inl 1).2._funcAttr 0 1) 0
          (some (plainBody 6))).2 } : FDOInliner) with
      _callers := mapSet 1 [] (removeCandidate cycleRun1.inl 1).2._callers } : FDOInliner)
      = cycleState0 := by decide!
  have h0 : (mapFind 1 (removeCandidate cycleRun1.inl 1).2._callers).getD [] = [] := by decide!
  apply finishIteration_undefined
  · rw [hlen]
    exact h0
  · rw [hlen]
    have key := cycle_call_never_returns depth depth
    rw [← hst] at key
    exact key

end FDOInliner

end Cmbprof

namespace Cmbprof

namespace FDOInliner

/-- C24, the code at the failing inputs. On `cycleInliner` (`main` calls `f`, `f` and `g` call
each other) the first iteration has the host refuse call site 12 (`g` calls `f`), which stays
erased from `_callers[f]` and entered in `_removed`; the second inlines call site 10 into
`main`, after which `_callers[f]` is empty and `removeDeadCallee(f)` is called: it scans `f`,
recurses into `g`, whose scan cannot remove call site 12 and recurses into `f` again, without
end, so that neither the call nor the iteration has a result whatever the depth of recursion
available. On `leftoverInliner` the host refuses call site 11 (in `f`) and then inlines `f`
into `main`; `removeDeadCallee(f)` returns 0, `f` being dead, and the record of call site 11
is still in `_ignore`. -/
theorem removeDeadCallee_recursion_without_end :
    iteration CPCallRecord.exampleStatics 0 (cycleHost 0) (startRun cycleInliner 100)
      = some (cycleRun1, false)
    ∧ (cycleRun1.inlineFail, cycleRun1.inl._removed, cycleRun1.inl._callers)
      = (1, [12], [(1, [10]), (2, [11])])
    ∧ (∀ depth, iteration CPCallRecord.exampleStatics 0 (cycleHost depth) cycleRun1 = none)
    ∧ (∀ depth fuel, removeDeadCallee (cycleHost depth) fuel cycleState0 1 = none)
    ∧ (inliningLoop CPCallRecord.exampleStatics 0 [leftoverHost, leftoverHost]
        (startRun leftoverInliner 100)).map
        (fun r => (r.inlineFail, r.inlineCount, r.deadCalls)) = some (1, 1, 0)
    ∧ (inliningLoop CPCallRecord.exampleStatics 0 [leftoverHost, leftoverHost]
        (startRun leftoverInliner 100)).map
        (fun r => (fdiDead r.inl 1,
          r.inl._ignore.map (fun n => (n.record.cs.inst, n.record.cs.caller))))
        = some (true, [(14, 0), (11, 1)]) := by
  refine ⟨by decide!, by decide!, second_iteration_undefined, cycle_call_never_returns,
    by decide!, by decide!⟩

end FDOInliner

end Cmbprof

namespace Cmbprof

namespace FDOInliner

theorem mapFind_mapErase_other {V : Type} (k k' : Nat) (m : List (Nat × V)) :
    mapFind k (mapErase k' m) = if k = k' then none else mapFind k m := by
  induction m with
  | nil => simp [mapErase, mapFind]
  | cons hd tl ih =>
    obtain ⟨k1, v1⟩ := hd
    unfold mapErase at ih ⊢
    simp only [List.filter_cons]
    by_cases h1 : k1 = k'
    · subst h1
      simp only [bne_self_eq_false, Bool.false_eq_true, if_false, ih, mapFind]
      by_cases h2 : k = k1
      · simp [h2]
      · have : ¬ k1 = k := fun h => h2 h.symm
        simp [h2, this]
    · have hb : (k1 != k') = true := by simpa using h1
      simp only [hb, if_true, mapFind, ih]
      by_cases h2 : k1 = k
      · subst h2
        simp [h1]
      · simp [h2]

theorem perm_eraseIdx {A : Type} (l : List A) (i : Nat) (a : A) (h : l[i]? = some a) :
    l.Perm (a :: l.eraseIdx i) := by
  induction l generalizing i with
  | nil => simp at h
  | cons hd tl ih =>
    cases i with
    | zero =>
      simp only [List.getElem?_cons_zero, Option.some.injEq] at h
      subst h
      simp
    | succ j =>
      simp only [List.getElem?_cons_succ] at h
      simp only [List.eraseIdx_cons_succ]
      exact (List.Perm.cons hd (ih j h)).trans (List.Perm.swap a hd _)

theorem ExactOn_perm (N N' : List ListNode) (R : List (Nat × Nat)) (h : N.Perm N')
    (e : ExactOn N R) : ExactOn N' R := by
  obtain ⟨e1, e2, e3⟩ := e
  refine ⟨(h.map _).nodup_iff.mp e1, fun k a hk => ?_, fun n hn => e3 n (h.mem_iff.mpr hn)⟩
  obtain ⟨n, hn, hh⟩ := e2 k a hk
  exact ⟨n, h.mem_iff.mp hn, hh⟩

theorem ExactOn_records_congr (N : List ListNode) (R R' : List (Nat × Nat))
    (h : ∀ k, mapFind k R' = mapFind k R) (e : ExactOn N R) : ExactOn N R' := by
  obtain ⟨e1, e2, e3⟩ := e
  exact ⟨e1, fun k a hk => e2 k a (by rw [← h]; exact hk), fun n hn => by rw [h]; exact e3 n hn⟩

theorem ExactOn_cons (N : List ListNode) (R : List (Nat × Nat)) (m : ListNode)
    (e : ExactOn N R) (ha : ∀ n ∈ N, n.addr ≠ m.addr)
    (hk : mapFind m.record.cs.inst R = none) :
    ExactOn (m :: N) (mapSet m.record.cs.inst m.addr R) := by
  obtain ⟨e1, e2, e3⟩ := e
  refine ⟨?_, ?_, ?_⟩
  · simp only [List.map_cons, List.nodup_cons]
    refine ⟨?_, e1⟩
    intro hmem
    obtain ⟨n, hn, hna⟩ := List.mem_map.mp hmem
    exact ha n hn hna
  · intro k a hka
    rw [mapFind_mapSet] at hka
    by_cases hkk : k = m.record.cs.inst
    · simp only [hkk, if_true, Option.some.injEq] at hka
      exact ⟨m, List.mem_cons_self _ _, hka, hkk.symm⟩
    · simp only [hkk, if_false] at hka
      obtain ⟨n, hn, hh⟩ := e2 k a hka
      exact ⟨n, List.mem_cons_of_mem _ hn, hh⟩
  · intro n hn
    rw [mapFind_mapSet]
    rcases List.mem_cons.mp hn with rfl | hn
    · simp
    · have hne : n.record.cs.inst ≠ m.record.cs.inst := by
        intro heq
        have := e3 n hn
        rw [heq, hk] at this
        exact Option.noConfusion this
      simp only [hne, if_false]
      exact e3 n hn

theorem ExactOn_tail (N : List ListNode) (R : List (Nat × Nat)) (m : ListNode)
    (e : ExactOn (m :: N) R) : ExactOn N (mapErase m.record.cs.inst R) := by
  obtain ⟨e1, e2, e3⟩ := e
  simp only [List.map_cons, List.nodup_cons] at e1
  have hne : ∀ n ∈ N, n.record.cs.inst ≠ m.record.cs.inst := by
    intro n hn heq
    have h1 := e3 n (List.mem_cons_of_mem _ hn)
    have h2 := e3 m (List.mem_cons_self _ _)
    rw [heq, h2] at h1
    have : m.addr = n.addr := Option.some.inj h1
    exact e1.1 (List.mem_map.mpr ⟨n, hn, this.symm⟩)
  refine ⟨e1.2, ?_, ?_⟩
  · intro k a hka
    rw [mapFind_mapErase_other] at hka
    by_cases hkk : k = m.record.cs.inst
    · simp [hkk] at hka
    · simp only [hkk, if_false] at hka
      obtain ⟨n, hn, hh⟩ := e2 k a hka
      rcases List.mem_cons.mp hn with rfl | hn
      · exact absurd hh.2 (fun h => hkk h.symm)
      · exact ⟨n, hn, hh⟩
  · intro n hn
    rw [mapFind_mapErase_other]
    simp only [hne n hn, if_false]
    exact e3 n (List.mem_cons_of_mem _ hn)

theorem ExactOn_map (N : List ListNode) (R : List (Nat × Nat)) (f : ListNode → ListNode)
    (hf : ∀ n ∈ N, (f n).addr = n.addr ∧ (f n).record.cs.inst = n.record.cs.inst)
    (e : ExactOn N R) : ExactOn (N.map f) R := by
  obtain ⟨e1, e2, e3⟩ := e
  refine ⟨?_, ?_, ?_⟩
  · have : (N.map f).map (fun n => n.addr) = N.map (fun n => n.addr) := by
      rw [List.map_map]
      exact List.map_congr_left (fun n hn => (hf n hn).1)
    rw [this]
    exact e1
  · intro k a hka
    obtain ⟨n, hn, h1, h2⟩ := e2 k a hka
    exact ⟨f n, List.mem_map.mpr ⟨n, hn, rfl⟩, (hf n hn).1.trans h1, (hf n hn).2.trans h2⟩
  · intro n hn
    obtain ⟨n0, hn0, rfl⟩ := List.mem_map.mp hn
    rw [(hf n0 hn0).1, (hf n0 hn0).2]
    exact e3 n0 hn0

/-- In an exact state the node with a given address is unique. -/
theorem ExactOn_unique (N : List ListNode) (R : List (Nat × Nat)) (e : ExactOn N R)
    (n m : ListNode) (hn : n ∈ N) (hm : m ∈ N) (h : n.addr = m.addr) : n = m :=
  List.inj_on_of_nodup_map e.1 hn hm h

end FDOInliner

end Cmbprof

namespace Cmbprof

namespace FDOInliner

theorem mapFind_mapSet_same {V : Type} (k : Nat) (v : V) (m : List (Nat × V))
    (h : mapFind k m = some v) (k' : Nat) : mapFind k' (mapSet k v m) = mapFind k' m := by
  rw [mapFind_mapSet]
  by_cases hk : k' = k
  · simp only [hk, if_true]
    exact h.symm
  · simp only [hk, if_false]

theorem ExactOn_replace_head (N : List ListNode) (R : List (Nat × Nat)) (n n' : ListNode)
    (ha : n'.addr = n.addr) (hi : n'.record.cs.inst = n.record.cs.inst)
    (e : ExactOn (n :: N) R) : ExactOn (n' :: N) R := by
  obtain ⟨e1, e2, e3⟩ := e
  refine ⟨?_, ?_, ?_⟩
  · simp only [List.map_cons, ha]
    exact e1
  · intro k a hka
    obtain ⟨x, hx, h1, h2⟩ := e2 k a hka
    rcases List.mem_cons.mp hx with rfl | hx
    · exact ⟨n', List.mem_cons_self _ _, ha.trans h1, hi.trans h2⟩
    · exact ⟨x, List.mem_cons_of_mem _ hx, h1, h2⟩
  · intro x hx
    rcases List.mem_cons.mp hx with rfl | hx
    · rw [hi, ha]
      exact e3 n (List.mem_cons_self _ _)
    · exact e3 x (List.mem_cons_of_mem _ hx)

/-- A state with the same lists and map, and a next address that is not smaller, inherits the
invariant. -/
theorem ListsInv_congr (s s' : FDOInliner) (h1 : s'._candidates = s._candidates)
    (h2 : s'._ignore = s._ignore) (h3 : s'._records = s._records)
    (h4 : s.nextAddr ≤ s'.nextAddr) (h : ListsInv s) : ListsInv s' := by
  obtain ⟨e, hs, hb⟩ := h
  refine ⟨by rw [h1, h2, h3]; exact e, ?_, ?_⟩
  · unfold sanityCheckLists at hs ⊢
    rw [h1, h2]
    exact hs
  · intro n hn
    rw [h1, h2] at hn
    exact lt_of_lt_of_le (hb n hn) h4

theorem insert_inv (s : FDOInliner) (rec : CPCallRecord) (h : ListsInv s)
    (hk : mapFind rec.cs.inst s._records = none) : ListsInv (insert s rec) := by
  obtain ⟨e, hs, hb⟩ := h
  have hsane := insert_sane s rec hs
  have hperm : ((insert s rec)._candidates ++ (insert s rec)._ignore).Perm
      ({ addr := s.nextAddr, record := { rec with ignored := false } }
        :: (s._candidates ++ s._ignore)) := by
    simp only [insert, List.append_assoc, List.cons_append]
    refine List.perm_middle.trans (List.Perm.cons _ ?_)
    rw [← List.append_assoc, List.take_append_drop]
  have hcons := ExactOn_cons (s._candidates ++ s._ignore) s._records
    { addr := s.nextAddr, record := { rec with ignored := false } } e
    (fun n hn => Nat.ne_of_lt (hb n hn)) hk
  refine ⟨ExactOn_perm _ _ _ hperm.symm hcons, hsane, ?_⟩
  intro n hn
  rcases List.mem_cons.mp (hperm.mem_iff.mp hn) with rfl | hn
  · exact Nat.lt_succ_self _
  · exact Nat.lt_succ_of_lt (hb n hn)

theorem ignoreCandidate_inv (s s' : FDOInliner) (i : Nat) (h : ListsInv s)
    (hi : ignoreCandidate s i = some s') :
    ListsInv s' ∧ ∀ k, mapFind k s'._records = mapFind k s._records := by
  obtain ⟨e, hs, hb⟩ := h
  have hsane := ignoreCandidate_sane s s' i hs hi
  unfold ignoreCandidate at hi
  cases hn : s._candidates[i]? with
  | none => simp [hn] at hi
  | some n =>
    simp only [hn, Option.some.injEq] at hi
    subst hi
    have hp0 : (s._candidates ++ s._ignore).Perm (n :: (s._candidates.eraseIdx i ++ s._ignore)) :=
      (List.Perm.append_right _ (perm_eraseIdx _ i n hn)).trans (by simp)
    have e0 := ExactOn_perm _ _ _ hp0 e
    have hrec : mapFind n.record.cs.inst s._records = some n.addr :=
      e0.2.2 n (List.mem_cons_self _ _)
    have e1 := ExactOn_replace_head _ _ n
      { n with record := { n.record with ignored := true } } rfl rfl e0
    have hp1 : (s._candidates.eraseIdx i
        ++ { n with record := { n.record with ignored := true } } :: s._ignore).Perm
        ({ n with record := { n.record with ignored := true } }
          :: (s._candidates.eraseIdx i ++ s._ignore)) := List.perm_middle
    refine ⟨⟨?_, hsane, ?_⟩, fun k => mapFind_mapSet_same _ _ _ hrec k⟩
    · exact ExactOn_records_congr _ _ _ (fun k => mapFind_mapSet_same _ _ _ hrec k)
        (ExactOn_perm _ _ _ hp1.symm e1)
    · intro x hx
      rcases List.mem_cons.mp (hp1.mem_iff.mp hx) with rfl | hx
      · exact hb n (hp0.mem_iff.mpr (List.mem_cons_self _ _))
      · exact hb x (hp0.mem_iff.mpr (List.mem_cons_of_mem _ hx))

/-- In an exact state `deref` reads the record of the node with the address. -/
theorem deref_of_mem (s : FDOInliner) (e : ExactOn (s._candidates ++ s._ignore) s._records)
    (n : ListNode) (hn : n ∈ s._candidates ++ s._ignore) : deref s n.addr = some n.record := by
  unfold deref
  cases hf : (s._candidates ++ s._ignore).find? (fun x => x.addr == n.addr) with
  | none =>
    have := List.find?_eq_none.mp hf n hn
    simp at this
  | some x =>
    have hx1 : x ∈ s._candidates ++ s._ignore := List.mem_of_find?_eq_some hf
    have hx2 : x.addr = n.addr := by
      have := List.find?_some hf
      simpa using this
    rw [ExactOn_unique _ _ e x n hx1 hn hx2]
    rfl

/-- With the invariant, a call site that neither list search finds has no entry in
`_records`. -/
theorem unrecorded_of_not_found (s : FDOInliner) (cs : CallSite) (h : ListsInv s)
    (h1 : findCandidate s cs = some s._candidates.length)
    (h2 : findIgnored s cs = some s._ignore.length) :
    mapFind cs.inst s._records = none := by
  obtain ⟨e, hs, _⟩ := h
  obtain ⟨hc, hi⟩ := (sanityCheckLists_iff s).mp hs
  cases hf : mapFind cs.inst s._records with
  | none => rfl
  | some addr =>
    exfalso
    obtain ⟨n, hn, hna, _⟩ := e.2.1 _ _ hf
    have hd : deref s addr = some n.record := by
      rw [← hna]
      exact deref_of_mem s e n hn
    by_cases hig : n.record.ignored = true
    · have hnc : n ∉ s._candidates := by
        intro hmem
        have := hc n hmem
        rw [hig] at this
        exact Bool.noConfusion this
      have hni : n ∈ s._ignore := by
        rcases List.mem_append.mp hn with h | h
        · exact absurd h hnc
        · exact h
      simp only [findIgnored, hf, hd, hig, Bool.not_true, Bool.false_eq_true, if_false,
        Option.some.injEq] at h2
      have hlt : s._ignore.findIdx (fun x => x.addr == addr) < s._ignore.length :=
        List.findIdx_lt_length_of_exists ⟨n, hni, by simp [hna]⟩
      omega
    · have hig' : n.record.ignored = false := by simpa using hig
      have hni : n ∉ s._ignore := by
        intro hmem
        have := hi n hmem
        rw [hig'] at this
        exact Bool.noConfusion this
      have hnc : n ∈ s._candidates := by
        rcases List.mem_append.mp hn with h | h
        · exact h
        · exact absurd h hni
      simp only [findCandidate, hf, hd, hig', Bool.false_eq_true, if_false,
        Option.some.injEq] at h1
      have hlt : s._candidates.findIdx (fun x => x.addr == addr) < s._candidates.length :=
        List.findIdx_lt_length_of_exists ⟨n, hnc, by simp [hna]⟩
      omega

theorem ignore_inv (S : Statics) (s s' : FDOInliner) (cs : CallSite) (zid : Nat)
    (h : ListsInv s) (hi : ignore S s cs zid = some s') :
    ListsInv s' ∧ ∀ k, k ≠ cs.inst → mapFind k s'._records = mapFind k s._records := by
  have hsane := ignore_sane S s s' cs zid h.2.1 hi
  unfold ignore at hi
  cases hfc : findCandidate s cs with
  | none => simp [hfc] at hi
  | some cand =>
    simp only [hfc] at hi
    by_cases hc : cand = s._candidates.length
    · simp only [hc, if_true] at hi
      cases hfi : findIgnored s cs with
      | none => simp [hfi] at hi
      | some ig =>
        simp only [hfi] at hi
        by_cases hg : ig = s._ignore.length
        · simp only [hg, if_true, Option.some.injEq] at hi
          subst hi
          have hk := unrecorded_of_not_found s cs h (by rw [hfc, hc]) (by rw [hfi, hg])
          obtain ⟨e, hs, hb⟩ := h
          have hcons := ExactOn_cons (s._candidates ++ s._ignore) s._records
            { addr := s.nextAddr
              record := { CPCallRecord.new cs none S.defaultMval s.CurrID zid with
                          ignored := true } } e
            (fun n hn => Nat.ne_of_lt (hb n hn)) hk
          refine ⟨⟨ExactOn_perm _ _ _ List.perm_middle.symm hcons, hsane, ?_⟩, ?_⟩
          · intro n hn
            rcases List.mem_cons.mp (List.perm_middle.mem_iff.mp hn) with rfl | hn
            · exact Nat.lt_succ_self _
            · exact Nat.lt_succ_of_lt (hb n hn)
          · intro k hk2
            show mapFind k (mapSet cs.inst s.nextAddr s._records) = _
            rw [mapFind_mapSet]
            simp only [hk2, if_false]
        · simp only [hg, if_false, Option.some.injEq] at hi
          subst hi
          exact ⟨h, fun _ _ => rfl⟩
    · simp only [hc, if_false] at hi
      obtain ⟨h1, h2⟩ := ignoreCandidate_inv s s' cand h hi
      exact ⟨h1, fun k _ => h2 k⟩

theorem removeCandidate_inv (s : FDOInliner) (i : Nat) (h : ListsInv s) :
    ListsInv (removeCandidate s i).2
    ∧ ∀ k, mapFind k s._records = none → mapFind k (removeCandidate s i).2._records = none := by
  have hsane := removeCandidate_sane s i h.2.1
  obtain ⟨e, hs, hb⟩ := h
  unfold removeCandidate at hsane ⊢
  cases hn : s._candidates[i]? with
  | none => exact ⟨⟨e, hs, hb⟩, fun _ hk => hk⟩
  | some n =>
    simp only [hn] at hsane ⊢
    have hp0 : (s._candidates ++ s._ignore).Perm (n :: (s._candidates.eraseIdx i ++ s._ignore)) :=
      (List.Perm.append_right _ (perm_eraseIdx _ i n hn)).trans (by simp)
    have e1 := ExactOn_tail _ _ n (ExactOn_perm _ _ _ hp0 e)
    refine ⟨⟨e1, hsane, ?_⟩, ?_⟩
    · intro x hx
      exact hb x (hp0.mem_iff.mpr (List.mem_cons_of_mem _ hx))
    · intro k hk
      show mapFind k (mapErase n.record.cs.inst s._records) = none
      rw [mapFind_mapErase_other]
      split
      · rfl
      · exact hk

theorem removeIgnored_inv (s : FDOInliner) (i : Nat) (h : ListsInv s) :
    ListsInv (removeIgnored s i).2 := by
  have hsane := removeIgnored_sane s i h.2.1
  obtain ⟨e, hs, hb⟩ := h
  unfold removeIgnored at hsane ⊢
  cases hn : s._ignore[i]? with
  | none => exact ⟨e, hs, hb⟩
  | some n =>
    simp only [hn] at hsane ⊢
    have hp0 : (s._candidates ++ s._ignore).Perm (n :: (s._candidates ++ s._ignore.eraseIdx i)) :=
      (List.Perm.append_left _ (perm_eraseIdx _ i n hn)).trans List.perm_middle
    have e1 := ExactOn_tail _ _ n (ExactOn_perm _ _ _ hp0 e)
    refine ⟨e1, hsane, ?_⟩
    intro x hx
    exact hb x (hp0.mem_iff.mpr (List.mem_cons_of_mem _ hx))

theorem remove_inv (s s' : FDOInliner) (cs : CallSite) (b : Bool) (h : ListsInv s)
    (hr : remove s cs = some (b, s')) : ListsInv s' := by
  unfold remove at hr
  split at hr
  · simp only [Option.some.injEq, Prod.mk.injEq] at hr
    rw [← hr.2]
    exact h
  · split at hr
    · simp only [Option.some.injEq, Prod.mk.injEq] at hr
      rw [← hr.2]
      exact h
    · split at hr
      · simp at hr
      · split at hr
        · split at hr
          · simp at hr
          · split at hr
            · simp only [Option.some.injEq] at hr
              have hh := congrArg Prod.snd hr
              simp only at hh
              rw [← hh]
              exact removeIgnored_inv s _ h
            · simp only [Option.some.injEq, Prod.mk.injEq] at hr
              rw [← hr.2]
              exact h
        · split at hr
          · simp at hr
          · split at hr
            · simp only [Option.some.injEq] at hr
              have hh := congrArg Prod.snd hr
              simp only at hh
              rw [← hh]
              exact (removeCandidate_inv s _ h).1
            · simp only [Option.some.injEq, Prod.mk.injEq] at hr
              rw [← hr.2]
              exact h

end FDOInliner

end Cmbprof

namespace Cmbprof

namespace FDOInliner

theorem removeCallsOf_inv (insts : List InstInfo) :
    ∀ (s s' : FDOInliner) (n0 n : Nat) (c0 c : IndexSet), ListsInv s →
      insts.foldl (fun acc I =>
        match acc with
        | none => none
        | some (removedCalls, callees, st) =>
          if isFDOInliningCandidate (some I) then
            let callees1 := match I.cs.callee with
              | some callee => IndexSet.insert callee callees
              | none => callees
            match remove st I.cs with
            | none => none
            | some (true, st1) => some (removedCalls + 1, callees1, st1)
            | some (false, st1) => some (removedCalls, callees1, st1)
          else some (removedCalls, callees, st)) (some (n0, c0, s)) = some (n, c, s') →
      ListsInv s' := by
  induction insts with
  | nil =>
    intro s s' n0 n c0 c h hf
    simp only [List.foldl_nil, Option.some.injEq, Prod.mk.injEq] at hf
    rw [← hf.2.2]
    exact h
  | cons I rest ih =>
    intro s s' n0 n c0 c h hf
    simp only [List.foldl_cons] at hf
    by_cases hc : isFDOInliningCandidate (some I) = true
    · simp only [hc, if_true] at hf
      cases hr : remove s I.cs with
      | none =>
        simp only [hr] at hf
        have hnone : ∀ l : List InstInfo, l.foldl (fun acc I =>
            match acc with
            | none => none
            | some (removedCalls, callees, st) =>
              if isFDOInliningCandidate (some I) then
                let callees1 := match I.cs.callee with
                  | some callee => IndexSet.insert callee callees
                  | none => callees
                match remove st I.cs with
                | none => none
                | some (true, st1) => some (removedCalls + 1, callees1, st1)
                | some (false, st1) => some (removedCalls, callees1, st1)
              else some (removedCalls, callees, st)) (none : Option (Nat × IndexSet × FDOInliner))
            = none := by
          intro l
          induction l with
          | nil => rfl
          | cons _ _ ihl => simpa using ihl
        rw [hnone] at hf
        exact Option.noConfusion hf
      | some res =>
        obtain ⟨b, s1⟩ := res
        have h1 := remove_inv s s1 I.cs b h hr
        cases b with
        | true =>
          simp only [hr] at hf
          exact ih _ _ _ _ _ _ h1 hf
        | false =>
          simp only [hr] at hf
          exact ih _ _ _ _ _ _ h1 hf
    · simp only [hc, Bool.false_eq_true, if_false] at hf
      exact ih _ _ _ _ _ _ h hf

theorem removeCallsOf_keeps (insts : List InstInfo) (s s' : FDOInliner) (n : Nat)
    (c : IndexSet) (h : ListsInv s) (hr : removeCallsOf insts s = some (n, c, s')) :
    ListsInv s' :=
  removeCallsOf_inv insts s s' 0 n [] c h hr

theorem removeDeadCallee_inv (host : Host) :
    ∀ (fuel : Nat) (s s' : FDOInliner) (func : FuncRef) (n : Nat), ListsInv s →
      removeDeadCallee host fuel s func = some (n, s') → ListsInv s' := by
  intro fuel
  induction fuel with
  | zero =>
    intro s s' func n _ hr
    simp [removeDeadCallee] at hr
  | succ k ih =>
    intro s s' func n h hr
    have h1 : ListsInv
        { s with _callers := mapSet func ((mapFind func s._callers).getD []) s._callers
                 _funcAttr := mapSet func ((mapFind func s._funcAttr).getD ZeroFunctionAttr)
                   s._funcAttr } :=
      ListsInv_congr s _ rfl rfl rfl (Nat.le_refl _) h
    simp only [removeDeadCallee] at hr
    split at hr
    · simp only [Option.some.injEq, Prod.mk.injEq] at hr
      rw [← hr.2]
      exact h1
    · split at hr
      · simp at hr
      · rename_i removedCalls callees s2 hscan
        have h2 := removeCallsOf_keeps _ _ _ _ _ h1 hscan
        have hfold : ∀ (cs : List FuncRef) (n0 : Nat) (st : FDOInliner), ListsInv st →
            cs.foldl (fun acc callee =>
              match acc with
              | none => none
              | some (n, st) =>
                match removeDeadCallee host k st callee with
                | none => none
                | some (m, st1) => some (n + m, st1)) (some (n0, st)) = some (n, s') →
            ListsInv s' := by
          intro cs
          induction cs with
          | nil =>
            intro n0 st hst hf
            simp only [List.foldl_nil, Option.some.injEq, Prod.mk.injEq] at hf
            rw [← hf.2]
            exact hst
          | cons c rest ihc =>
            intro n0 st hst hf
            simp only [List.foldl_cons] at hf
            cases hd : removeDeadCallee host k st c with
            | none =>
              simp only [hd] at hf
              have hnone : ∀ l : List FuncRef, l.foldl (fun acc callee =>
                  match acc with
                  | none => none
                  | some (n, st) =>
                    match removeDeadCallee host k st callee with
                    | none => none
                    | some (m, st1) => some (n + m, st1))
                  (none : Option (Nat × FDOInliner)) = none := by
                intro l
                induction l with
                | nil => rfl
                | cons _ _ ihl => simpa using ihl
              rw [hnone] at hf
              exact Option.noConfusion hf
            | some res =>
              obtain ⟨m, st1⟩ := res
              simp only [hd] at hf
              exact ihc _ _ (ih st st1 c m hst hd) hf
        exact hfold callees removedCalls s2 h2 hr

theorem evalMetric_keeps (S : Statics) (calcImpact : FuncRef → Nat → ArgImpact)
    (attrs attrs1 : FuncAttrMap) (rec rec1 : CPCallRecord) (v : ℚ)
    (h : CPCallRecord.evalMetric S calcImpact attrs rec = some (v, rec1, attrs1)) :
    rec1.cs = rec.cs ∧ rec1.ignored = rec.ignored := by
  unfold CPCallRecord.evalMetric at h
  split at h
  · simp only [Option.some.injEq, Prod.mk.injEq] at h
    rw [← h.2.1]
    exact ⟨rfl, rfl⟩
  · split at h
    · simp at h
    · split at h
      · simp at h
      · dsimp only at h
        split at h
        · simp only [Option.some.injEq, Prod.mk.injEq] at h
          rw [← h.2.1]
          exact ⟨rfl, rfl⟩
        · simp at h

theorem storeAt_inv (s : FDOInliner) (addr : Nat) (rec1 old : CPCallRecord) (h : ListsInv s)
    (hd : deref s addr = some old) (hcs : rec1.cs = old.cs) (hig : rec1.ignored = old.ignored) :
    ListsInv (storeAt s addr rec1) := by
  obtain ⟨e, hs, hb⟩ := h
  have hold : ∀ n ∈ s._candidates ++ s._ignore, n.addr = addr → n.record = old := by
    intro n hn hna
    have := deref_of_mem s e n hn
    rw [hna, hd] at this
    exact (Option.some.inj this).symm
  have hmap : (storeAt s addr rec1)._candidates ++ (storeAt s addr rec1)._ignore
      = (s._candidates ++ s._ignore).map
          (fun n => if n.addr = addr then { n with record := rec1 } else n) := by
    simp only [storeAt, List.map_append]
  obtain ⟨hc, hi⟩ := (sanityCheckLists_iff s).mp hs
  refine ⟨?_, ?_, ?_⟩
  · rw [hmap]
    refine ExactOn_map _ _ _ ?_ e
    intro n hn
    by_cases hna : n.addr = addr
    · simp only [hna, if_true, true_and]
      rw [hcs, ← hold n hn hna]
    · simp only [hna, if_false, and_self]
  · rw [sanityCheckLists_iff]
    constructor
    · intro n hn
      simp only [storeAt, List.mem_map] at hn
      obtain ⟨n0, hn0, rfl⟩ := hn
      by_cases hna : n0.addr = addr
      · simp only [hna, if_true]
        rw [hig, ← hold n0 (List.mem_append_left _ hn0) hna]
        exact hc n0 hn0
      · simp only [hna, if_false]
        exact hc n0 hn0
    · intro n hn
      simp only [storeAt, List.mem_map] at hn
      obtain ⟨n0, hn0, rfl⟩ := hn
      by_cases hna : n0.addr = addr
      · simp only [hna, if_true]
        rw [hig, ← hold n0 (List.mem_append_right _ hn0) hna]
        exact hi n0 hn0
      · simp only [hna, if_false]
        exact hi n0 hn0
  · intro n hn
    rw [hmap] at hn
    obtain ⟨n0, hn0, rfl⟩ := List.mem_map.mp hn
    by_cases hna : n0.addr = addr
    · simp only [hna, if_true]
      rw [← hna]
      exact hb n0 hn0
    · simp only [hna, if_false]
      exact hb n0 hn0

theorem updateCallers_inv (S : Statics) (host : Host) (s s' : FDOInliner) (caller : FuncRef)
    (b : Bool) (h : ListsInv s) (hu : updateCallers S host s caller = some (b, s')) :
    ListsInv s' := by
  unfold updateCallers at hu
  have h1 : ListsInv
      { s with _callers := mapSet caller ((mapFind caller s._callers).getD []) s._callers } :=
    ListsInv_congr s _ rfl rfl rfl (Nat.le_refl _) h
  have hfold : ∀ (cs : List Nat) (b0 : Bool) (st : FDOInliner), ListsInv st →
      cs.foldl (fun acc c =>
        match acc with
        | none => none
        | some (false, st) => some (false, st)
        | some (true, st) =>
          match mapFind c st._records with
          | none => some (false, st)
          | some addr =>
            match deref st addr with
            | none => none
            | some callerRec =>
              if !callerRec.ignored then
                match CPCallRecord.evalMetric S host.calcImpact st._funcAttr callerRec with
                | none => none
                | some (_, rec1, attrs1) =>
                  some (true, { storeAt st addr rec1 with _funcAttr := attrs1 })
              else some (true, st)) (some (b0, st)) = some (b, s') → ListsInv s' := by
    intro cs
    induction cs with
    | nil =>
      intro b0 st hst hf
      simp only [List.foldl_nil, Option.some.injEq, Prod.mk.injEq] at hf
      rw [← hf.2]
      exact hst
    | cons c rest ihc =>
      intro b0 st hst hf
      simp only [List.foldl_cons] at hf
      cases b0 with
      | false => exact ihc _ _ hst hf
      | true =>
        simp only at hf
        cases hm : mapFind c st._records with
        | none =>
          simp only [hm] at hf
          exact ihc _ _ hst hf
        | some addr =>
          simp only [hm] at hf
          have hnone : ∀ l : List Nat, l.foldl (fun acc c =>
              match acc with
              | none => none
              | some (false, st) => some (false, st)
              | some (true, st) =>
                match mapFind c st._records with
                | none => some (false, st)
                | some addr =>
                  match deref st addr with
                  | none => none
                  | some callerRec =>
                    if !callerRec.ignored then
                      match CPCallRecord.evalMetric S host.calcImpact st._funcAttr callerRec with
                      | none => none
                      | some (_, rec1, attrs1) =>
                        some (true, { storeAt st addr rec1 with _funcAttr := attrs1 })
                    else some (true, st)) (none : Option (Bool × FDOInliner)) = none := by
            intro l
            induction l with
            | nil => rfl
            | cons _ _ ihl => simpa using ihl
          cases hd : deref st addr with
          | none =>
            simp only [hd] at hf
            rw [hnone] at hf
            exact Option.noConfusion hf
          | some callerRec =>
            simp only [hd] at hf
            by_cases hig : callerRec.ignored = true
            · simp only [hig, Bool.not_true, Bool.false_eq_true, if_false] at hf
              exact ihc _ _ hst hf
            · have hig' : callerRec.ignored = false := by simpa using hig
              simp only [hig', Bool.not_false, if_true] at hf
              cases he : CPCallRecord.evalMetric S host.calcImpact st._funcAttr callerRec with
              | none =>
                simp only [he] at hf
                rw [hnone] at hf
                exact Option.noConfusion hf
              | some res =>
                obtain ⟨v, rec1, attrs1⟩ := res
                simp only [he] at hf
                obtain ⟨k1, k2⟩ := evalMetric_keeps S _ _ _ _ _ _ he
                have h2 := storeAt_inv st addr rec1 callerRec hst hd k1 k2
                have h3 : ListsInv { storeAt st addr rec1 with _funcAttr := attrs1 } :=
                  ListsInv_congr _ _ rfl rfl rfl (Nat.le_refl _) h2
                exact ihc _ _ h3 hf
  exact hfold _ true _ h1 hu

end FDOInliner

end Cmbprof

namespace Cmbprof

namespace FDOInliner

theorem newInlined_cs (S : Statics) (calcImpact : FuncRef → Nat → ArgImpact)
    (attrs attrs1 : FuncAttrMap) (callRec oldRec rec : CPCallRecord) (inlinedFunc : FuncRef)
    (name : String) (newCall : CallSite) (currID : Nat)
    (h : CPCallRecord.newInlined S calcImpact attrs callRec oldRec inlinedFunc name newCall currID
      = some (rec, attrs1)) : rec.cs = newCall := by
  unfold CPCallRecord.newInlined at h
  simp only [Option.map_eq_some'] at h
  obtain ⟨e, he, heq⟩ := h
  obtain ⟨v, rec1, a1⟩ := e
  simp only [Prod.mk.injEq] at heq
  have := (evalMetric_keeps S _ _ _ _ _ _ he).1
  rw [← heq.1]
  exact this

theorem processInlinedCalls_inv (S : Statics) (host : Host) (tmpRec : CPCallRecord)
    (callee : FuncRef) :
    ∀ (calls : List (InstInfo × Option InstInfo)) (r r' : Run), ListsInv r.inl →
      (calls.map (fun p => p.1.cs.inst)).Nodup →
      (∀ p ∈ calls, mapFind p.1.cs.inst r.inl._records = none) →
      processInlinedCalls S host tmpRec callee calls r = some r' → ListsInv r'.inl := by
  intro calls
  induction calls with
  | nil =>
    intro r r' h _ _ hp
    simp only [processInlinedCalls, Option.some.injEq] at hp
    rw [← hp]
    exact h
  | cons hd tl ih =>
    obtain ⟨newI, origin⟩ := hd
    intro r r' h hnd hfresh hp
    simp only [List.map_cons, List.nodup_cons] at hnd
    have hfresh_hd : mapFind newI.cs.inst r.inl._records = none :=
      hfresh (newI, origin) (List.mem_cons_self _ _)
    have hfresh_tl : ∀ p ∈ tl, mapFind p.1.cs.inst r.inl._records = none :=
      fun p hp => hfresh p (List.mem_cons_of_mem _ hp)
    have hne_tl : ∀ p ∈ tl, p.1.cs.inst ≠ newI.cs.inst := by
      intro p hp heq
      exact hnd.1 (List.mem_map.mpr ⟨p, hp, heq⟩)
    unfold processInlinedCalls at hp
    cases origin with
    | none =>
      simp only [Option.some.injEq] at hp
      rw [← hp]
      exact h
    | some oldI =>
      dsimp only at hp
      by_cases hc : isFDOInliningCandidate (some newI) = true
      · simp only [hc, Bool.not_true, Bool.false_eq_true, if_false] at hp
        cases hcal : newI.cs.callee with
        | none => simp [hcal] at hp
        | some newCallee =>
          simp only [hcal] at hp
          obtain ⟨cl, hcl⟩ : ∃ cl, cl = mapSet newCallee
              (IndexSet.insert newI.cs.inst ((mapFind newCallee r.inl._callers).getD []))
              r.inl._callers := ⟨_, rfl⟩
          rw [← hcl] at hp
          have h1 : ListsInv { r.inl with _callers := cl } :=
            ListsInv_congr r.inl _ rfl rfl rfl (Nat.le_refl _) h
          have hstep : ∀ (inl2 : FDOInliner),
              ignore S { r.inl with _callers := cl } newI.cs (host.rand r.inl.CurrID)
                = some inl2 →
              ListsInv inl2 ∧ ∀ p ∈ tl, mapFind p.1.cs.inst inl2._records = none := by
            intro inl2 hig
            obtain ⟨k1, k2⟩ := ignore_inv S _ inl2 newI.cs _ h1 hig
            refine ⟨k1, fun p hp => ?_⟩
            rw [k2 _ (hne_tl p hp)]
            exact hfresh_tl p hp
          by_cases hon : oldI.cs.callee.isNone = true
          · simp only [hon, if_true] at hp
            split at hp
            · simp at hp
            · rename_i inl2 hig
              obtain ⟨k1, k2⟩ := hstep inl2 hig
              exact ih _ _ k1 hnd.2 k2 hp
          · simp only [hon, Bool.false_eq_true, if_false] at hp
            split at hp
            · simp only [Option.some.injEq] at hp
              rw [← hp]
              exact h1
            · split at hp
              · simp at hp
              · rename_i addr _ oldRec hderef
                split at hp
                · split at hp
                  · simp at hp
                  · rename_i inl2 hig
                    obtain ⟨k1, k2⟩ := hstep inl2 hig
                    exact ih _ _ k1 hnd.2 k2 hp
                · split at hp
                  · simp at hp
                  · rename_i rec attrs1 hnew
                    have hcs := newInlined_cs S _ _ _ _ _ _ _ _ _ _ hnew
                    have h2 : ListsInv
                        { ({ r.inl with _callers := cl } : FDOInliner) with
                          _funcAttr := attrs1, CurrID := r.inl.CurrID + 1 } :=
                      ListsInv_congr r.inl _ rfl rfl rfl (Nat.le_refl _) h
                    have h3 := insert_inv _ rec h2 (by rw [hcs]; exact hfresh_hd)
                    refine ih _ _ h3 hnd.2 ?_ hp
                    intro p hp2
                    show mapFind p.1.cs.inst (mapSet rec.cs.inst _ r.inl._records) = none
                    rw [mapFind_mapSet, hcs]
                    simp only [hne_tl p hp2, if_false]
                    exact hfresh_tl p hp2
      · simp only [hc, Bool.not_false, if_true] at hp
        refine ih _ _ ?_ hnd.2 ?_ hp
        · exact h
        · exact hfresh_tl

theorem finishIteration_inv (S : Statics) (host : Host) (caller callee : FuncRef)
    (r r' : Run) (b : Bool) (h : ListsInv r.inl)
    (hf : finishIteration S host caller callee r = some (r', b)) : ListsInv r'.inl := by
  unfold finishIteration at hf
  dsimp only at hf
  obtain ⟨cl, hcl⟩ : ∃ cl, cl = mapSet callee ((mapFind callee r.inl._callers).getD [])
      r.inl._callers := ⟨_, rfl⟩
  rw [← hcl] at hf
  have h1 : ListsInv { r.inl with _callers := cl } :=
    ListsInv_congr r.inl _ rfl rfl rfl (Nat.le_refl _) h
  split at hf
  · simp at hf
  · rename_i r4 hd
    have k4 : ListsInv r4.inl := by
      split at hd
      · simp only [Option.map_eq_some'] at hd
        obtain ⟨d, hd1, hd2⟩ := hd
        rw [← hd2]
        exact removeDeadCallee_inv host _ _ _ _ d.1 h1 hd1
      · simp only [Option.some.injEq] at hd
        rw [← hd]
        exact h1
    split at hf
    · simp at hf
    · rename_i inl5 hu
      simp only [Option.some.injEq, Prod.mk.injEq] at hf
      rw [← hf.1]
      exact updateCallers_inv S host _ _ _ _ k4 hu
    · rename_i inl5 hu
      have k5 := updateCallers_inv S host _ _ _ _ k4 hu
      split at hf <;>
        simp only [Option.some.injEq, Prod.mk.injEq] at hf <;>
        rw [← hf.1] <;>
        exact k5

theorem afterInlining_inv (S : Statics) (host : Host) (tmpRec : CPCallRecord)
    (caller callee : FuncRef) (r r' : Run) (b : Bool) (h : ListsInv r.inl)
    (hfresh : FreshCalls host r.inl)
    (ha : afterInlining S host tmpRec caller callee r = some (r', b)) : ListsInv r'.inl := by
  unfold afterInlining at ha
  dsimp only at ha
  split at ha
  · split at ha
    · simp at ha
    · rename_i r2 hp
      have h1 : ∀ fa : FuncAttrMap, ListsInv { r.inl with _funcAttr := fa } :=
        fun fa => ListsInv_congr r.inl _ rfl rfl rfl (Nat.le_refl _) h
      have h2 : ListsInv r2.inl := by
        refine processInlinedCalls_inv S host tmpRec callee _ _ _ ?_ hfresh.1 ?_ hp
        · exact h1 _
        · exact hfresh.2
      exact finishIteration_inv S host caller callee r2 r' b h2 ha
  · simp at ha

theorem iteration_inv (S : Statics) (FDIDepth : Nat) (host : Host) (r r' : Run) (broke : Bool)
    (h : ListsInv r.inl) (hfresh : FreshCalls host r.inl)
    (hi : iteration S FDIDepth host r = some (r', broke)) : ListsInv r'.inl := by
  unfold iteration at hi
  cases hl : r.inl._candidates.getLast? with
  | none => simp [hl] at hi
  | some node =>
    simp only [hl] at hi
    by_cases hm : node.record.mval ≤ 0
    · simp only [hm, if_true, Option.some.injEq, Prod.mk.injEq] at hi
      rw [← hi.1]
      exact h
    · simp only [hm, if_false] at hi
      cases hsz : CPCallRecord.inlineSize S.weights r.inl._funcAttr node.record with
      | none => simp [hsz] at hi
      | some iSize =>
        simp only [hsz] at hi
        by_cases hbig : iSize > r.budget
        · simp only [hbig, if_true, Option.map_eq_some'] at hi
          obtain ⟨inl1, hig, hr⟩ := hi
          simp only [Prod.mk.injEq] at hr
          rw [← hr.1]
          exact (ignoreCandidate_inv _ _ _ h hig).1
        · simp only [hbig, if_false] at hi
          cases hni : CPCallRecord.neverInline host.doesNotReturn r.inl._funcAttr node.record with
          | none => simp [hni] at hi
          | some res =>
            obtain ⟨flag, attrs1⟩ := res
            have h1 : ListsInv { r.inl with _funcAttr := attrs1 } :=
              ListsInv_congr r.inl _ rfl rfl rfl (Nat.le_refl _) h
            cases flag with
            | true =>
              simp only [hni, Option.map_eq_some'] at hi
              obtain ⟨inl1, hig, hr⟩ := hi
              simp only [Prod.mk.injEq] at hr
              rw [← hr.1]
              exact (ignoreCandidate_inv _ _ _ h1 hig).1
            | false =>
              simp only [hni] at hi
              by_cases hdeep : FDIDepth > 0 ∧ node.record.history.length ≥ FDIDepth
              · simp only [hdeep, and_self, if_true, Option.map_eq_some'] at hi
                obtain ⟨inl1, hig, hr⟩ := hi
                simp only [Prod.mk.injEq] at hr
                rw [← hr.1]
                exact (ignoreCandidate_inv _ _ _ h1 hig).1
              · simp only [hdeep, if_false] at hi
                obtain ⟨h3, h3f⟩ := removeCandidate_inv { r.inl with _funcAttr := attrs1 }
                  (r.inl._candidates.length - 1) h1
                by_cases hf : host.inlineFunction node.record.cs = true
                · simp only [hf, Bool.not_true, Bool.false_eq_true, if_false] at hi
                  cases hcal : node.record.cs.callee with
                  | none => simp [hcal] at hi
                  | some callee =>
                    simp only [hcal] at hi
                    refine afterInlining_inv S host _ _ _ _ r' broke h3 ⟨hfresh.1, ?_⟩ hi
                    intro p hp
                    exact h3f _ (hfresh.2 p hp)
                · simp only [hf, Bool.not_false, if_true, Option.map_eq_some'] at hi
                  obtain ⟨inl1, hig, hr⟩ := hi
                  simp only [Prod.mk.injEq] at hr
                  rw [← hr.1]
                  exact (ignore_inv S _ _ _ _ h3 hig).1

end FDOInliner

end Cmbprof

namespace Cmbprof

namespace FDOInliner

theorem scanInstruction_inv (S : Statics) (hist : InstInfo → CPHistogram) (rand : Nat → Nat)
    (s : FDOInliner) (I : InstInfo) (h : ListsInv s)
    (hk : mapFind I.cs.inst s._records = none) :
    ListsInv (scanInstruction S hist rand s I)
    ∧ (scanInstruction S hist rand s I)._ignore = s._ignore
    ∧ ∀ k, k ≠ I.cs.inst →
        mapFind k (scanInstruction S hist rand s I)._records = mapFind k s._records := by
  by_cases hc : isFDOInliningCandidate (some I) = true
  · cases hcal : I.cs.callee with
    | none =>
      have hval : scanInstruction S hist rand s I = s := by
        unfold scanInstruction
        simp only [hc, if_true, hcal]
      rw [hval]
      exact ⟨h, rfl, fun _ _ => rfl⟩
    | some callee =>
      obtain ⟨e, hs, hb⟩ := h
      obtain ⟨hsc, hsi⟩ := (sanityCheckLists_iff s).mp hs
      obtain ⟨node, hnode⟩ : ∃ node : ListNode, node = ListNode.mk s.nextAddr
          (CPCallRecord.new I.cs (some (hist I)) S.defaultMval s.CurrID (rand s.CurrID)) :=
        ⟨_, rfl⟩
      have hna : node.addr = s.nextAddr := by rw [hnode]
      have hni : node.record.cs.inst = I.cs.inst := by rw [hnode]; rfl
      have hng : node.record.ignored = false := by rw [hnode]; rfl
      have hval : scanInstruction S hist rand s I =
          { s with
            _callers := mapSet callee
              (IndexSet.insert I.cs.inst ((mapFind callee s._callers).getD [])) s._callers
            _candidates := s._candidates ++ [node]
            _records := mapSet I.cs.inst s.nextAddr s._records
            CurrID := s.CurrID + 1
            nextAddr := s.nextAddr + 1 } := by
        unfold scanInstruction
        simp only [hc, if_true, hcal, hnode]
      rw [hval]
      have hperm : ((s._candidates ++ [node]) ++ s._ignore).Perm
          (node :: (s._candidates ++ s._ignore)) := by
        rw [List.append_assoc]
        exact List.perm_middle
      have hcons := ExactOn_cons (s._candidates ++ s._ignore) s._records node e
        (fun n hn => by rw [hna]; exact Nat.ne_of_lt (hb n hn)) (by rw [hni]; exact hk)
      rw [hni, hna] at hcons
      refine ⟨⟨ExactOn_perm _ _ _ hperm.symm hcons, ?_, ?_⟩, rfl, ?_⟩
      · rw [sanityCheckLists_iff]
        refine ⟨?_, hsi⟩
        intro n hn
        rcases List.mem_append.mp hn with hn | hn
        · exact hsc n hn
        · simp only [List.mem_singleton] at hn
          rw [hn]
          exact hng
      · intro n hn
        rcases List.mem_cons.mp (hperm.mem_iff.mp hn) with rfl | hn
        · show n.addr < s.nextAddr + 1
          rw [hna]
          exact Nat.lt_succ_self _
        · exact Nat.lt_succ_of_lt (hb n hn)
      · intro k hkne
        show mapFind k (mapSet I.cs.inst s.nextAddr s._records) = _
        rw [mapFind_mapSet]
        simp only [hkne, if_false]
  · have hval : scanInstruction S hist rand s I = s := by
      unfold scanInstruction
      simp only [hc, Bool.false_eq_true, if_false]
    rw [hval]
    exact ⟨h, rfl, fun _ _ => rfl⟩

theorem scan_fold_inv (S : Statics) (hist : InstInfo → CPHistogram) (rand : Nat → Nat) :
    ∀ (insts : List InstInfo) (s : FDOInliner), ListsInv s →
      (insts.map (fun I => I.cs.inst)).Nodup →
      (∀ I ∈ insts, mapFind I.cs.inst s._records = none) →
      ListsInv (insts.foldl (scanInstruction S hist rand) s)
      ∧ (insts.foldl (scanInstruction S hist rand) s)._ignore = s._ignore := by
  intro insts
  induction insts with
  | nil => exact fun s h _ _ => ⟨h, rfl⟩
  | cons I rest ih =>
    intro s h hnd hfresh
    simp only [List.map_cons, List.nodup_cons] at hnd
    obtain ⟨k1, k2, k3⟩ := scanInstruction_inv S hist rand s I h
      (hfresh I (List.mem_cons_self _ _))
    simp only [List.foldl_cons]
    have := ih (scanInstruction S hist rand s I) k1 hnd.2 (by
      intro J hJ
      have hne : J.cs.inst ≠ I.cs.inst := by
        intro heq
        exact hnd.1 (List.mem_map.mpr ⟨J, hJ, heq⟩)
      rw [k3 _ hne]
      exact hfresh J (List.mem_cons_of_mem _ hJ))
    exact ⟨this.1, this.2.trans k2⟩

theorem scan_module_eq (host : Host) (f : FDOInliner → InstInfo → FDOInliner) :
    ∀ (M : List FuncRef) (s : FDOInliner),
      M.foldl (fun s F => (host.instsOf F).foldl f s) s = (moduleInsts host M).foldl f s := by
  intro M
  induction M with
  | nil => exact fun _ => rfl
  | cons F rest ih =>
    intro s
    simp only [List.foldl_cons, moduleInsts, List.foldl_append]
    exact ih _

theorem evalCandidates_spec (S : Statics) (calcImpact : FuncRef → Nat → ArgImpact) :
    ∀ (l l' : CallList) (attrs attrs' : FuncAttrMap),
      evalCandidates S calcImpact l attrs = some (l', attrs') →
      List.Forall₂ (fun n n' : ListNode => n'.addr = n.addr ∧ n'.record.cs = n.record.cs
        ∧ n'.record.ignored = n.record.ignored) l l' := by
  intro l
  induction l with
  | nil =>
    intro l' attrs attrs' h
    simp only [evalCandidates, Option.some.injEq, Prod.mk.injEq] at h
    rw [← h.1]
    exact List.Forall₂.nil
  | cons n rest ih =>
    intro l' attrs attrs' h
    unfold evalCandidates at h
    cases he : CPCallRecord.evalMetric S calcImpact attrs n.record with
    | none => simp [he] at h
    | some res =>
      obtain ⟨v, rec1, attrs1⟩ := res
      simp only [he, Option.map_eq_some'] at h
      obtain ⟨p, hp, heq⟩ := h
      obtain ⟨l1, a1⟩ := p
      simp only [Prod.mk.injEq] at heq
      obtain ⟨k1, k2⟩ := evalMetric_keeps S _ _ _ _ _ _ he
      rw [← heq.1]
      exact List.Forall₂.cons ⟨rfl, k1, k2⟩ (ih _ _ _ hp)

theorem nodes_forall2 (N N' : List ListNode)
    (h : List.Forall₂ (fun n n' : ListNode => n'.addr = n.addr ∧ n'.record.cs = n.record.cs
      ∧ n'.record.ignored = n.record.ignored) N N') :
    (N'.map (fun n => n.addr) = N.map (fun n => n.addr))
    ∧ (∀ n ∈ N, ∃ n' ∈ N', n'.addr = n.addr ∧ n'.record.cs = n.record.cs
        ∧ n'.record.ignored = n.record.ignored)
    ∧ (∀ n' ∈ N', ∃ n ∈ N, n'.addr = n.addr ∧ n'.record.cs = n.record.cs
        ∧ n'.record.ignored = n.record.ignored) := by
  induction h with
  | nil => exact ⟨rfl, fun _ h => absurd h (List.not_mem_nil _), fun _ h => absurd h (List.not_mem_nil _)⟩
  | @cons a b l1 l2 hr _ ih =>
    obtain ⟨i1, i2, i3⟩ := ih
    refine ⟨by simp only [List.map_cons, hr.1, i1], ?_, ?_⟩
    · intro n hn
      rcases List.mem_cons.mp hn with rfl | hn
      · exact ⟨b, List.mem_cons_self _ _, hr⟩
      · obtain ⟨n', hn', hh⟩ := i2 n hn
        exact ⟨n', List.mem_cons_of_mem _ hn', hh⟩
    · intro n' hn'
      rcases List.mem_cons.mp hn' with rfl | hn'
      · exact ⟨a, List.mem_cons_self _ _, hr⟩
      · obtain ⟨n, hn, hh⟩ := i3 n' hn'
        exact ⟨n, List.mem_cons_of_mem _ hn, hh⟩

/-- Evaluating the metrics in place and sorting `_candidates` keep the invariant, `_ignore`
being empty. -/
theorem sorted_eval_inv (S : Statics) (calcImpact : FuncRef → Nat → ArgImpact)
    (s1 : FDOInliner) (cands : CallList) (attrs : FuncAttrMap) (h1 : ListsInv s1)
    (h1i : s1._ignore = [])
    (he : evalCandidates S calcImpact s1._candidates s1._funcAttr = some (cands, attrs)) :
    ListsInv { s1 with _candidates := sortCandidates cands, _funcAttr := attrs } := by
  obtain ⟨e, hs, hb⟩ := h1
  rw [h1i, List.append_nil] at e hb
  obtain ⟨hsc, _⟩ := (sanityCheckLists_iff s1).mp hs
  obtain ⟨f1, f2, f3⟩ := nodes_forall2 _ _ (evalCandidates_spec S _ _ _ _ _ he)
  have hperm : (sortCandidates cands).Perm cands := List.perm_insertionSort _ _
  have e' : ExactOn cands s1._records := by
    obtain ⟨e1, e2, e3⟩ := e
    refine ⟨by rw [f1]; exact e1, ?_, ?_⟩
    · intro k a hk
      obtain ⟨n, hn, h1, h2⟩ := e2 k a hk
      obtain ⟨n', hn', g1, g2, _⟩ := f2 n hn
      exact ⟨n', hn', g1.trans h1, by rw [g2]; exact h2⟩
    · intro n' hn'
      obtain ⟨n, hn, g1, g2, _⟩ := f3 n' hn'
      rw [g1, g2]
      exact e3 n hn
  refine ⟨?_, ?_, ?_⟩
  · show ExactOn (sortCandidates cands ++ s1._ignore) s1._records
    rw [h1i, List.append_nil]
    exact ExactOn_perm _ _ _ hperm.symm e'
  · rw [sanityCheckLists_iff]
    refine ⟨?_, ?_⟩
    · intro n hn
      obtain ⟨n0, hn0, _, _, g3⟩ := f3 n (hperm.mem_iff.mp hn)
      rw [g3]
      exact hsc n0 hn0
    · intro n hn
      have : n ∈ s1._ignore := hn
      rw [h1i] at this
      exact absurd this (List.not_mem_nil _)
  · intro n hn
    have hn2 : n ∈ sortCandidates cands ++ s1._ignore := hn
    rw [h1i, List.append_nil] at hn2
    obtain ⟨n0, hn0, g1, _, _⟩ := f3 n (hperm.mem_iff.mp hn2)
    rw [g1]
    exact hb n0 hn0

/-- The state that `initialize` builds satisfies the invariant of the list operations. -/
theorem initialise_inv (S : Statics) (host : Host) (hist : InstInfo → CPHistogram)
    (M : List FuncRef) (currID totalSize : Nat) (inl : FDOInliner)
    (hd : ((moduleInsts host M).map (fun I => I.cs.inst)).Nodup)
    (hi : initialise S host hist M currID = some (totalSize, inl)) : ListsInv inl := by
  have h0 : ∀ fa : FuncAttrMap, ListsInv
      { _callers := [], _candidates := [], _records := [], _ignore := [], _removed := [],
        _funcAttr := fa, CurrID := currID, nextAddr := 0 } := by
    intro fa
    refine ⟨⟨List.nodup_nil, ?_, ?_⟩, rfl, ?_⟩
    · intro k a hk
      simp [mapFind] at hk
    · intro n hn
      simp at hn
    · intro n hn
      simp at hn
  unfold initialise at hi
  simp only [scan_module_eq] at hi
  split at hi
  · simp at hi
  · rename_i cands attrs heq
    simp only [Option.some.injEq, Prod.mk.injEq] at hi
    rw [← hi.2]
    obtain ⟨h1, h1i⟩ := scan_fold_inv S hist host.rand (moduleInsts host M) _ (h0 _) hd
      (fun _ _ => rfl)
    exact sorted_eval_inv S host.calcImpact _ cands attrs h1 h1i heq

/-- At every boundary of the inlining loop the invariant of the list operations holds. -/
theorem boundary_inv (S : Statics) (FDIDepth : Nat) (r : Run)
    (h : LoopBoundary S FDIDepth r) : ListsInv r.inl := by
  induction h with
  | start host hist M currID totalSize inl budget hd hi =>
    exact initialise_inv S host hist M currID totalSize inl hd hi
  | step host r r' broke _ hf hi ih =>
    exact iteration_inv S FDIDepth host r r' broke ih hf hi

end FDOInliner

end Cmbprof

namespace Cmbprof

namespace FDOInliner

/-- C22. At every boundary of the inlining loop (on entry after `initialize`, and after every
iteration in which the host reports new call sites) no two nodes of `_candidates` and
`_ignore` share an address, every entry `(cs, r)` of `_records` refers to a node of one of the
two lists whose record has the call site `cs`, and every node of the two lists is the value of
the `_records` entry for the call site of its record. -/
theorem records_exact_at_boundaries (S : Statics) (FDIDepth : Nat) (r : Run)
    (h : LoopBoundary S FDIDepth r) : RecordsExact r.inl :=
  (boundary_inv S FDIDepth r h).1

/-- C22 witness: the boundary after the first iteration on the module of `bootHost`, in which
`f` is inlined into `main`, the record of the new call site 12 is inserted and the records of
the dead `f` are removed. -/
theorem records_exact_at_boundaries_witness :
    LoopBoundary CPCallRecord.exampleStatics 0 bootRun1
    ∧ bootRun1.inl._records = [(12, 2)]
    ∧ RecordsExact bootRun1.inl := by
  have hstart : LoopBoundary CPCallRecord.exampleStatics 0 (startRun bootInliner 100) :=
    LoopBoundary.start bootHost (fun _ => CPHistogram.empty) [0, 1, 2] 0 9 bootInliner 100
      (by decide) (by decide!)
  have hfresh : FreshCalls bootHost1 (startRun bootInliner 100).inl := by
    refine ⟨by decide, ?_⟩
    intro p hp
    have hp2 : p = (callInst 12 0 2, some (callInst 11 1 2)) := by
      simpa [bootHost1] using hp
    rw [hp2]
    decide!
  have hstep : LoopBoundary CPCallRecord.exampleStatics 0 bootRun1 :=
    LoopBoundary.step bootHost1 (startRun bootInliner 100) bootRun1 false hstart hfresh
      (by decide!)
  exact ⟨hstep, by decide!, records_exact_at_boundaries CPCallRecord.exampleStatics 0 bootRun1 hstep⟩

end FDOInliner

end Cmbprof

namespace Cmbprof

namespace ArgumentInfo

/-- C35. For every argument length `L` (in particular every 32-bit one) the number of pad bytes the runtime writes equals
the number of bytes the readers skip, equals `(4 - L mod 4) mod 4`, and makes `L` plus the
padding a multiple of 4. -/
theorem padding_agrees (L : Nat) :
    padWritten L = padSkipped L
    ∧ padSkipped L = (4 - L % 4) % 4
    ∧ (L + padWritten L) % 4 = 0 := by
  have hand : L &&& 3 = L % 4 := Nat.and_pow_two_sub_one_eq_mod L 2
  unfold padWritten padSkipped
  rw [hand]
  have h4 : L % 4 < 4 := Nat.mod_lt _ (by norm_num)
  refine ⟨?_, ?_, ?_⟩
  · split <;> omega
  · omega
  · split <;> omega

end ArgumentInfo

end Cmbprof

namespace Cmbprof

namespace CombinedEdgeProfile

/-- A vector resized with `resizeVec` holds at every position either what it held before or
`NULL`. -/
theorem resizeVec_slot {A : Type} (v : List (Option A)) (n i : Nat) (a : A)
    (h : (resizeVec v n)[i]? = some (some a)) : v[i]? = some (some a) := by
  unfold resizeVec at h
  by_cases hi : i < (v.take n).length
  · rw [List.getElem?_append_left hi] at h
    rw [List.getElem?_take] at h
    split at h
    · exact h
    · exact Option.noConfusion h
  · rw [List.getElem?_append_right (Nat.le_of_not_lt hi)] at h
    rw [List.getElem?_replicate] at h
    split at h
    · simp at h
    · exact Option.noConfusion h

/-- C33. If the input ends before the edge count, or holds fewer than the `N` counters that
the edge count announces, `addProfile` returns false and leaves the total weight unchanged, and
every histogram of the profile afterwards is the unchanged histogram of the same position
before: no sample is appended. -/
theorem addProfile_truncated (_edt : Option EdgeDominatorTree) (p : CombinedEdgeProfile)
    (file : List Nat)
    (h : file = [] ∨ ∃ N data, file = N :: data ∧ data.length < N) :
    ∃ (p' : CombinedEdgeProfile) (rest : List Nat),
      addProfile _edt p file = some (false, p', rest)
      ∧ p'._weight = p._weight
      ∧ ∀ (i : Nat) (hist : CPHistogram), p'._histograms[i]? = some (some hist) → p._histograms[i]? = some (some hist) := by
  cases _edt with
  | none => exact ⟨p, file, rfl, rfl, fun _ _ h => h⟩
  | some edt =>
    rcases h with rfl | ⟨N, data, rfl, hlen⟩
    · exact ⟨p, [], rfl, rfl, fun _ _ h => h⟩
    · by_cases hsz : p._histograms.length ≠ N
      · refine ⟨{ p with _histograms := resizeVec p._histograms N }, [], ?_, rfl, ?_⟩
        · simp only [addProfile, hlen, if_true]
          rw [if_pos hsz]
        · intro i hist hi
          exact resizeVec_slot _ _ _ _ hi
      · refine ⟨p, [], ?_, rfl, fun _ _ h => h⟩
        simp only [addProfile, hlen, if_true]
        rw [if_neg hsz]

/-- C33 witness: an edge count of 3 followed by two counters only. -/
theorem addProfile_truncated_witness :
    (∃ N data, [3, 10, 7] = N :: data ∧ data.length < N) ∧
    ∃ (p' : CombinedEdgeProfile) (rest : List Nat),
      addProfile (some branchEdt) branchProfile0 [3, 10, 7] = some (false, p', rest)
      ∧ p'._weight = branchProfile0._weight
      ∧ ∀ (i : Nat) (hist : CPHistogram), p'._histograms[i]? = some (some hist) →
          branchProfile0._histograms[i]? = some (some hist) :=
  ⟨⟨3, [10, 7], rfl, by decide⟩,
   addProfile_truncated (some branchEdt) branchProfile0 [3, 10, 7]
     (Or.inr ⟨3, [10, 7], rfl, by decide⟩)⟩

end CombinedEdgeProfile

end Cmbprof

namespace Cmbprof

namespace FDOInliner

/-- The prefix of a list up to the length of its `takeWhile` is that `takeWhile`, and the rest
is the `dropWhile`. -/
theorem take_drop_takeWhile {A : Type} (p : A → Bool) (l : List A) :
    l.take (l.takeWhile p).length = l.takeWhile p
      ∧ l.drop (l.takeWhile p).length = l.dropWhile p := by
  induction l with
  | nil => exact ⟨rfl, rfl⟩
  | cons a t ih =>
    by_cases h : p a = true
    · simp only [List.takeWhile_cons, List.dropWhile_cons, h, if_true, List.length_cons,
        List.take_succ_cons, List.drop_succ_cons]
      exact ⟨congrArg _ ih.1, ih.2⟩
    · have h0 : p a = false := by simpa using h
      rw [List.takeWhile_cons, List.dropWhile_cons, h0]
      exact ⟨rfl, rfl⟩

/-- C39. If `_candidates` is sorted ascending by `mval`, then `insert(rec)` splits it into the
records before the insertion point, all less than `rec`, and the records from the insertion
point on, the first of which (if there is one) is not less than `rec`; the list afterwards is
the first part, the new node and the second part, so the pre-existing records keep their
order; the list is still sorted ascending by `mval`; the new node holds `rec` with
`ignored = false`; and `_records` maps the call site of `rec` to the new node. -/
theorem insert_sorted (s : FDOInliner) (rec : CPCallRecord)
    (hs : s._candidates.Pairwise (fun a b => a.record.mval ≤ b.record.mval)) :
    ∃ (pre post : CallList) (node : ListNode),
      s._candidates = pre ++ post
      ∧ (s.insert rec)._candidates = pre ++ node :: post
      ∧ (∀ n ∈ pre, n.record.mval < rec.mval)
      ∧ (∀ n, post.head? = some n → ¬ n.record.mval < rec.mval)
      ∧ node.record = { rec with ignored := false }
      ∧ node.record.ignored = false
      ∧ mapFind rec.cs.inst (s.insert rec)._records = some node.addr
      ∧ (s.insert rec)._candidates.Pairwise (fun a b => a.record.mval ≤ b.record.mval) := by
  obtain ⟨htake, hdrop⟩ := take_drop_takeWhile (fun n => CPCallRecord.lt n.record rec) s._candidates
  have hsplit : s._candidates
      = s._candidates.takeWhile (fun n => CPCallRecord.lt n.record rec)
        ++ s._candidates.dropWhile (fun n => CPCallRecord.lt n.record rec) :=
    (List.takeWhile_append_dropWhile _ _).symm
  have hpre : ∀ n ∈ s._candidates.takeWhile (fun n => CPCallRecord.lt n.record rec),
      n.record.mval < rec.mval := by
    intro n hn
    have := List.mem_takeWhile_imp hn
    simpa [CPCallRecord.lt] using this
  have hpost : ∀ n, (s._candidates.dropWhile (fun n => CPCallRecord.lt n.record rec)).head?
      = some n → ¬ n.record.mval < rec.mval := by
    intro n hn hlt
    have := List.head?_dropWhile_not (fun n => CPCallRecord.lt n.record rec) s._candidates
    rw [hn] at this
    simp [CPCallRecord.lt, hlt] at this
  have hcand : (s.insert rec)._candidates
      = s._candidates.takeWhile (fun n => CPCallRecord.lt n.record rec)
        ++ { addr := s.nextAddr, record := { rec with ignored := false } }
          :: s._candidates.dropWhile (fun n => CPCallRecord.lt n.record rec) := by
    show s._candidates.take _ ++ _ :: s._candidates.drop _ = _
    rw [htake, hdrop]
  refine ⟨_, _, ⟨s.nextAddr, { rec with ignored := false }⟩, hsplit, hcand, hpre, hpost, rfl, rfl,
    (by
      show mapFind rec.cs.inst (mapSet rec.cs.inst s.nextAddr s._records) = some s.nextAddr
      rw [mapFind_mapSet, if_pos rfl]), ?_⟩
  rw [hcand]
  rw [hsplit] at hs
  obtain ⟨h1, h2, h3⟩ := List.pairwise_append.1 hs
  refine List.pairwise_append.2 ⟨h1, List.pairwise_cons.2 ⟨?_, h2⟩, ?_⟩
  · intro b hb
    show rec.mval ≤ b.record.mval
    cases hd : s._candidates.dropWhile (fun n => CPCallRecord.lt n.record rec) with
    | nil => rw [hd] at hb; exact absurd hb (List.not_mem_nil _)
    | cons c t =>
      have hc : rec.mval ≤ c.record.mval := not_lt.1 (hpost c (by rw [hd]; rfl))
      rw [hd] at hb h2
      rcases List.mem_cons.1 hb with rfl | hbt
      · exact hc
      · exact le_trans hc (List.rel_of_pairwise_cons h2 hbt)
  · intro a ha b hb
    rcases List.mem_cons.1 hb with rfl | hbt
    · exact le_of_lt (hpre a ha)
    · exact h3 a ha b hbt

/-- C39 witness: a record with `mval` 1 and `ignored` set, inserted between the records with
`mval` 1/2 and 2. -/
theorem insert_sorted_witness :
    exampleInliner._candidates.Pairwise (fun a b => a.record.mval ≤ b.record.mval) ∧
    ∃ (pre post : CallList) (node : ListNode),
      exampleInliner._candidates = pre ++ post
      ∧ (exampleInliner.insert (mkRecord 13 0 1 1 true))._candidates = pre ++ node :: post
      ∧ (∀ n ∈ pre, n.record.mval < (mkRecord 13 0 1 1 true).mval)
      ∧ (∀ n, post.head? = some n → ¬ n.record.mval < (mkRecord 13 0 1 1 true).mval)
      ∧ node.record = { mkRecord 13 0 1 1 true with ignored := false }
      ∧ node.record.ignored = false
      ∧ mapFind (mkRecord 13 0 1 1 true).cs.inst
          (exampleInliner.insert (mkRecord 13 0 1 1 true))._records = some node.addr
      ∧ (exampleInliner.insert (mkRecord 13 0 1 1 true))._candidates.Pairwise
          (fun a b => a.record.mval ≤ b.record.mval) :=
  ⟨by decide!, insert_sorted exampleInliner (mkRecord 13 0 1 1 true) (by decide!)⟩

end FDOInliner

end Cmbprof

namespace Cmbprof

namespace CombinedProfile

/-- The index-set loop only adds indices: what is in the set stays in it. -/
theorem nonZeroIndices_keeps (Q : DriftQueries) (x : Nat) :
    ∀ (v : CPHistVec) (i : Nat) (I : IndexSet), x ∈ I → x ∈ nonZeroIndices Q i v I := by
  intro v
  induction v with
  | nil => intro i I h; exact h
  | cons s rest ih =>
    intro i I h
    cases s with
    | none => exact ih (i + 1) I h
    | some hist =>
      refine ih (i + 1) _ ?_
      split
      · exact (IndexSet.mem_insert_iff _ _ _).2 (Or.inr h)
      · exact h

/-- The index-set loop started at index `i` inserts the index of every slot that holds a
histogram answering `nonZero()`. -/
theorem nonZeroIndices_mem (Q : DriftQueries) :
    ∀ (v : CPHistVec) (i : Nat) (I : IndexSet) (j : Nat) (h : CPHistogram),
      v[j]? = some (some h) → Q.nonZero h = true → (i + j) ∈ nonZeroIndices Q i v I := by
  intro v
  induction v with
  | nil => intro i I j h hj; simp at hj
  | cons s rest ih =>
    intro i I j h hj hnz
    cases j with
    | zero =>
      simp only [List.getElem?_cons_zero, Option.some.injEq] at hj
      subst hj
      simp only [nonZeroIndices, hnz, if_true, Nat.add_zero]
      exact nonZeroIndices_keeps Q i rest (i + 1) _ ((IndexSet.mem_insert_iff _ _ _).2 (Or.inl rfl))
    | succ j =>
      simp only [List.getElem?_cons_succ] at hj
      have := ih (i + 1) (match s with
        | some h0 => if Q.nonZero h0 then IndexSet.insert i I else I
        | none => I) j h hj hnz
      have e : i + (j + 1) = i + 1 + j := by omega
      rw [e]
      cases s with
      | none => exact this
      | some h0 => exact this

/-- The printing loop has no defined result when the body has none at an index of the set. -/
theorem driftLines_none (Q : DriftQueries) (self other : CPHistVec) (x : Nat)
    (hx : driftLine Q self other x = none) :
    ∀ I : List Nat, x ∈ I → driftLines Q self other I = none := by
  intro I
  induction I with
  | nil => intro h; exact absurd h (List.not_mem_nil _)
  | cons i rest ih =>
    intro h
    rcases List.mem_cons.1 h with rfl | hr
    · simp only [driftLines, hx]
    · simp only [driftLines, ih hr]
      cases driftLine Q self other i <;> rfl

/-- C31. When `other` holds a nonzero histogram at the index equal to the size of `this`, the
run of `printDrift` reads `_histograms[size()]` of `this`, a position outside its vector: the
tests `*i > size()` and `*i > other.size()` are both false for that index. -/
theorem printDrift_reads_past_end (Q : DriftQueries) (self other : CPHistVec) (h : CPHistogram)
    (hb : other[self.length]? = some (some h)) (hnz : Q.nonZero h = true) :
    printDrift Q self other = none := by
  have hlen : self.length < other.length := by
    by_contra hc
    rw [List.getElem?_eq_none (Nat.le_of_not_lt hc)] at hb
    exact Option.noConfusion hb
  have hmem : self.length ∈ nonZeroIndices Q 0 other (nonZeroIndices Q 0 self []) := by
    have := nonZeroIndices_mem Q other 0 (nonZeroIndices Q 0 self []) self.length h hb hnz
    rwa [Nat.zero_add] at this
  have hline : driftLine Q self other self.length = none := by
    unfold driftLine
    rw [if_neg (by omega)]
    rw [List.getElem?_eq_none (Nat.le_refl _)]
  unfold printDrift
  simp only [driftLines_none Q self other _ hline _ hmem, Option.map_none']

/-- C31 witness: `this` has one slot, `other` has two and a nonzero histogram in the second. -/
theorem printDrift_reads_past_end_witness :
    exampleQueries.nonZero CombinedPathProfile.pointHistogram = true ∧
    printDrift exampleQueries [some CombinedPathProfile.pointHistogram]
      [none, some CombinedPathProfile.pointHistogram] = none :=
  ⟨by decide!, printDrift_reads_past_end exampleQueries [some CombinedPathProfile.pointHistogram]
    [none, some CombinedPathProfile.pointHistogram] CombinedPathProfile.pointHistogram rfl
    (by decide!)⟩

end CombinedProfile

end Cmbprof

namespace Cmbprof

namespace CombinedPathProfile

/-- Enlarging a vector with `NULL` slots changes no histogram. -/
theorem join_resizeVec (hs : CPHistVec) (n j : Nat) (hn : hs.length ≤ n) :
    ((resizeVec hs n)[j]?).join = (hs[j]?).join := by
  unfold resizeVec
  rw [List.take_of_length_le hn]
  by_cases hj : j < hs.length
  · rw [List.getElem?_append_left hj]
  · rw [List.getElem?_append_right (Nat.le_of_not_lt hj), List.getElem?_eq_none (Nat.le_of_not_lt hj),
      List.getElem?_replicate]
    split <;> rfl

/-- Appending an empty histogram changes no histogram value, a missing one counting as
empty. -/
theorem join_append_empty (hs : CPHistVec) (j : Nat) :
    (((hs ++ [some CPHistogram.empty])[j]?).join).getD CPHistogram.empty
      = ((hs[j]?).join).getD CPHistogram.empty := by
  by_cases hj : j < hs.length
  · rw [List.getElem?_append_left hj]
  · rw [List.getElem?_append_right (Nat.le_of_not_lt hj), List.getElem?_eq_none (Nat.le_of_not_lt hj)]
    cases h : j - hs.length with
    | zero => rfl
    | succ m => rfl

/-- The slot of a location after `getHistogram` on a location that the profile holds: the
location asked for is mapped to the returned slot, every other one as before. -/
theorem slotAt_getHistogram (p : CombinedPathProfile) (f k idx : Nat)
    (h : slotAt p._functions f k = some idx) (f' k' : Nat) :
    slotAt (getHistogram p f k).1._functions f' k'
      = if f' = f ∧ k' = k then some (getHistogram p f k).2 else slotAt p._functions f' k' := by
  unfold slotAt at h
  cases hf : mapFind f p._functions with
  | none => rw [hf] at h; exact Option.noConfusion h
  | some paths0 =>
    rw [hf, Option.some_bind] at h
    unfold getHistogram
    simp only [hf, h, Option.getD_some]
    split
    · simp only [slotAt, mapFind_mapSet]
      by_cases e1 : f' = f <;> by_cases e2 : k' = k <;> simp [e1, e2, hf, mapFind_mapSet]
    · simp only [slotAt, mapFind_mapSet]
      by_cases e1 : f' = f <;> by_cases e2 : k' = k <;> simp [e1, e2, hf, mapFind_mapSet]

/-- The histogram values after `getHistogram` on a location that the profile holds: the slot
returned holds the histogram of the location, and the vector holds at every position the value
it held before, a missing histogram counting as empty. -/
theorem hists_getHistogram (p : CombinedPathProfile) (f k idx : Nat)
    (h : slotAt p._functions f k = some idx) :
    ((getHistogram p f k).1._histograms[(getHistogram p f k).2]?).join
        = some (((p._histograms[idx]?).join).getD CPHistogram.empty)
      ∧ ∀ j : Nat, (((getHistogram p f k).1._histograms[j]?).join).getD CPHistogram.empty
          = ((p._histograms[j]?).join).getD CPHistogram.empty := by
  unfold slotAt at h
  cases hf : mapFind f p._functions with
  | none => rw [hf] at h; exact Option.noConfusion h
  | some paths0 =>
    rw [hf, Option.some_bind] at h
    obtain ⟨hists, hh⟩ : ∃ hists, hists = (if idx + 1 > p._histograms.length
        then resizeVec p._histograms (idx + 1) else p._histograms) := ⟨_, rfl⟩
    have hjoin : ∀ j : Nat, (hists[j]?).join = (p._histograms[j]?).join := by
      intro j
      rw [hh]
      split
      · exact join_resizeVec _ _ _ (by omega)
      · rfl
    unfold getHistogram
    simp only [hf, h, Option.getD_some]
    rw [← hh]
    cases hc : (hists[idx]?).join with
    | some h1 =>
      refine ⟨?_, ?_⟩
      · show (hists[idx]?).join = _
        rw [hc, ← hjoin idx, hc]; rfl
      · intro j
        show ((hists[j]?).join).getD CPHistogram.empty = _
        rw [hjoin j]
    | none =>
      refine ⟨?_, ?_⟩
      · show (((hists ++ [some CPHistogram.empty])[hists.length]?).join) = _
        rw [List.getElem?_append_right (Nat.le_refl _), Nat.sub_self, ← hjoin idx, hc]
        rfl
      · intro j
        show (((hists ++ [some CPHistogram.empty])[j]?).join).getD CPHistogram.empty = _
        rw [join_append_empty, hjoin j]

/-- The method `getHistogram` on a location that the profile holds returns the histogram of the
location and changes neither which locations the profile holds nor the histogram of any
location. -/
theorem getHistogram_valid (p : CombinedPathProfile) (loc : Nat × Nat) (h : valid p loc = true) :
    ((getHistogram p loc.1 loc.2).1._histograms[(getHistogram p loc.1 loc.2).2]?).join
        = some (histOf p loc)
      ∧ (∀ loc', valid (getHistogram p loc.1 loc.2).1 loc' = valid p loc')
      ∧ (∀ loc', histOf (getHistogram p loc.1 loc.2).1 loc' = histOf p loc') := by
  rw [valid_eq_slotAt] at h
  obtain ⟨idx, hidx⟩ := Option.isSome_iff_exists.1 h
  obtain ⟨h1, h3⟩ := hists_getHistogram p loc.1 loc.2 idx hidx
  have hs := slotAt_getHistogram p loc.1 loc.2 idx hidx
  refine ⟨?_, ?_, ?_⟩
  · rw [h1, histOf, histAt_eq_slotAt, hidx, Option.some_bind]
  · intro loc'
    rw [valid_eq_slotAt, valid_eq_slotAt, hs]
    split
    · rename_i e
      rw [e.1, e.2, hidx]; rfl
    · rfl
  · intro loc'
    rw [histOf, histOf, histAt_eq_slotAt, histAt_eq_slotAt, hs]
    split
    · rename_i e
      rw [e.1, e.2, hidx, Option.some_bind, Option.some_bind, h1]
      rfl
    · cases slotAt p._functions loc'.1 loc'.2 with
      | none => rfl
      | some j => rw [Option.some_bind, Option.some_bind, h3]

/-- The body of the loop writes the lines of `driftSpec` and changes neither which locations
the profiles hold nor the histogram of any location. -/
theorem driftStep_spec (Q : DriftQueries) (a b : CombinedPathProfile) (loc : Nat × Nat) :
    ∃ a' b', driftStep Q a b loc = some (driftSpec Q a b loc, a', b')
      ∧ (∀ loc', valid a' loc' = valid a loc') ∧ (∀ loc', histOf a' loc' = histOf a loc')
      ∧ (∀ loc', valid b' loc' = valid b loc') ∧ (∀ loc', histOf b' loc' = histOf b loc') := by
  unfold driftStep driftSpec
  by_cases ha : valid a loc = true
  · by_cases hb : valid b loc = true
    · obtain ⟨a1, a2, a3⟩ := getHistogram_valid a loc ha
      obtain ⟨b1, b2, b3⟩ := getHistogram_valid b loc hb
      simp only [ha, hb, Bool.not_true, Bool.or_self, Bool.false_eq_true, if_false, a1, b1,
        Bool.and_self, if_true]
      split
      · exact ⟨_, _, rfl, a2, a3, b2, b3⟩
      · exact ⟨_, _, rfl, a2, a3, b2, b3⟩
    · have hb' : valid b loc = false := by simpa using hb
      refine ⟨a, b, ?_, fun _ => rfl, fun _ => rfl, fun _ => rfl, fun _ => rfl⟩
      simp [ha, hb']
  · have ha' : valid a loc = false := by simpa using ha
    refine ⟨a, b, ?_, fun _ => rfl, fun _ => rfl, fun _ => rfl, fun _ => rfl⟩
    simp [ha']

/-- The lines of `driftSpec` depend only on which locations the profiles hold and on the
histograms of the locations. -/
theorem driftSpec_congr (Q : DriftQueries) (a b a' b' : CombinedPathProfile)
    (h1 : ∀ loc', valid a' loc' = valid a loc') (h2 : ∀ loc', histOf a' loc' = histOf a loc')
    (h3 : ∀ loc', valid b' loc' = valid b loc') (h4 : ∀ loc', histOf b' loc' = histOf b loc')
    (loc : Nat × Nat) : driftSpec Q a' b' loc = driftSpec Q a b loc := by
  unfold driftSpec
  rw [h1, h2, h3, h4]

/-- The loop writes the lines of `driftSpec` for the locations of the path set, in order. -/
theorem driftLoop_spec (Q : DriftQueries) :
    ∀ (ps : PathSet) (a b : CombinedPathProfile),
      ∃ a' b', driftLoop Q ps a b = some (ps.flatMap (driftSpec Q a b), a', b') := by
  intro ps
  induction ps with
  | nil => intro a b; exact ⟨a, b, rfl⟩
  | cons loc rest ih =>
    intro a b
    obtain ⟨a1, b1, hstep, h1, h2, h3, h4⟩ := driftStep_spec Q a b loc
    obtain ⟨a2, b2, hrest⟩ := ih a1 b1
    refine ⟨a2, b2, ?_⟩
    simp only [driftLoop, hstep, hrest, Option.map_some', List.flatMap_cons]
    have : List.flatMap rest (driftSpec Q a1 b1) = List.flatMap rest (driftSpec Q a b) := by
      congr 1
      funext l
      exact driftSpec_congr Q a b a1 b1 h1 h2 h3 h4 l
    rw [this]

/-- Insertion into a path set adds the pair and keeps what the set holds. -/
theorem mem_pathSetInsert (x y : Nat × Nat) :
    ∀ s : PathSet, y ∈ pathSetInsert x s ↔ y = x ∨ y ∈ s := by
  intro s
  induction s with
  | nil => simp [pathSetInsert]
  | cons z zs ih =>
    simp only [pathSetInsert]
    split
    · simp
    · split
      · rename_i h; subst h; simp
      · simp only [List.mem_cons, ih]
        constructor
        · rintro (h | h | h)
          · exact Or.inr (Or.inl h)
          · exact Or.inl h
          · exact Or.inr (Or.inr h)
        · rintro (h | h | h)
          · exact Or.inr (Or.inl h)
          · exact Or.inl h
          · exact Or.inr (Or.inr h)

/-- The inner loop of `getPathSet` keeps what the set holds and adds the pairs of the path
map. -/
theorem mem_paths_fold (f : Nat) (y : Nat × Nat) :
    ∀ (paths : CPPHistogramMap) (acc : PathSet),
      y ∈ paths.foldl (fun acc2 H => pathSetInsert (f, H.1) acc2) acc
        ↔ (∃ H ∈ paths, y = (f, H.1)) ∨ y ∈ acc := by
  intro paths
  induction paths with
  | nil => intro acc; simp
  | cons H rest ih =>
    intro acc
    rw [List.foldl_cons, ih, mem_pathSetInsert]
    simp only [List.mem_cons, exists_eq_or_imp]
    constructor
    · rintro (h | h | h)
      · exact Or.inl (Or.inr h)
      · exact Or.inl (Or.inl h)
      · exact Or.inr h
    · rintro ((h | h) | h)
      · exact Or.inr (Or.inl h)
      · exact Or.inl h
      · exact Or.inr (Or.inr h)

/-- A location is in the path set after `getPathSet` exactly when it was in it or `_functions`
lists it. -/
theorem mem_getPathSet (y : Nat × Nat) :
    ∀ (fs : CPPFunctionMap) (p : CombinedPathProfile) (acc : PathSet), p._functions = fs →
      (y ∈ getPathSet p acc ↔ (∃ F ∈ fs, ∃ H ∈ F.2, y = (F.1, H.1)) ∨ y ∈ acc) := by
  intro fs
  induction fs with
  | nil => intro p acc hp; simp [getPathSet, hp]
  | cons F rest ih =>
    intro p acc hp
    have := ih { p with _functions := rest }
      (F.2.foldl (fun acc2 H => pathSetInsert (F.1, H.1) acc2) acc) rfl
    simp only [getPathSet, hp, List.foldl_cons] at this ⊢
    rw [this, mem_paths_fold]
    simp only [List.mem_cons, exists_eq_or_imp]
    constructor
    · rintro (h | h | h)
      · exact Or.inl (Or.inr h)
      · exact Or.inl (Or.inl h)
      · exact Or.inr h
    · rintro ((h | h) | h)
      · exact Or.inr (Or.inl h)
      · exact Or.inl h
      · exact Or.inr (Or.inr h)

/-- A key that `mapFind` finds is listed with the value found. -/
theorem mem_of_mapFind {V : Type} (k : Nat) (v : V) :
    ∀ m : List (Nat × V), mapFind k m = some v → (k, v) ∈ m := by
  intro m
  induction m with
  | nil => intro h; exact Option.noConfusion h
  | cons e rest ih =>
    intro h
    obtain ⟨k1, v1⟩ := e
    simp only [mapFind] at h
    split at h
    · rename_i e1
      simp only [Option.some.injEq] at h
      subst e1; subst h
      exact List.mem_cons_self _ _
    · exact List.mem_cons_of_mem _ (ih h)

/-- A location that a profile holds is in every path set built from the profile. -/
theorem valid_mem_getPathSet (p : CombinedPathProfile) (loc : Nat × Nat) (acc : PathSet)
    (h : valid p loc = true) : loc ∈ getPathSet p acc := by
  rw [mem_getPathSet loc p._functions p acc rfl]
  left
  unfold valid at h
  cases hf : mapFind loc.1 p._functions with
  | none => rw [hf] at h; exact Bool.noConfusion h
  | some paths =>
    rw [hf] at h
    obtain ⟨idx, hidx⟩ := Option.isSome_iff_exists.1 h
    exact ⟨(loc.1, paths), mem_of_mapFind _ _ _ hf, (loc.2, idx), mem_of_mapFind _ _ _ hidx, rfl⟩

/-- C32. The profile `twoPathProfile` holds the paths 0 and 3 of function 1, `onePointProfile`
the path 0 only, all as point histograms: `printDrift` of the path profile writes the header
and no line, neither for the location (1, 3) that only one profile holds nor for the location
(1, 0) that both hold. The loop body of `printDrift` of the base class writes the line with
drift 1 and 1 for a histogram that only one profile holds. -/
theorem printDrift_skips_locations :
    valid twoPathProfile (1, 3) = true ∧ valid onePointProfile (1, 3) = false
      ∧ valid twoPathProfile (1, 0) = true ∧ valid onePointProfile (1, 0) = true
      ∧ printDrift CombinedProfile.exampleQueries twoPathProfile onePointProfile
          = some ([DriftLine.header], twoPathProfile, onePointProfile)
      ∧ CombinedProfile.driftLine CombinedProfile.exampleQueries
          [none, some pointHistogram, some pointHistogram] [none, some pointHistogram, none] 2
          = some (DriftLine.drift 2 1 1) := by
  decide!

/-- What `printDrift` of the path profile writes for every two profiles: after the header, a
line exactly for every location that both profiles hold and whose two histograms are not both
points, with 1 - overlap excluding zero mass and 1 - overlap including zero mass; the lines are
those of `driftSpec` for the locations of the two profiles in ascending order, and the run is
defined for every two profiles. No line is written for a location that only one profile
holds. -/
theorem printDrift_spec (Q : DriftQueries) (a b : CombinedPathProfile) :
    ∃ lines a' b', printDrift Q a b = some (DriftLine.header :: lines, a', b')
      ∧ lines = (getPathSet b (getPathSet a [])).flatMap (driftSpec Q a b)
      ∧ DriftLine.header ∉ lines
      ∧ ∀ loc x y, DriftLine.drift loc x y ∈ lines ↔
          (valid a loc = true ∧ valid b loc = true
            ∧ ¬ (Q.isPoint (histOf a loc) = true ∧ Q.isPoint (histOf b loc) = true)
            ∧ x = 1 - Q.overlap (histOf a loc) (histOf b loc) false
            ∧ y = 1 - Q.overlap (histOf a loc) (histOf b loc) true) := by
  obtain ⟨a', b', hloop⟩ := driftLoop_spec Q (getPathSet b (getPathSet a [])) a b
  refine ⟨_, a', b', ?_, rfl, ?_, ?_⟩
  · simp only [printDrift, hloop, Option.map_some']
  · intro hmem
    obtain ⟨loc, _, hl⟩ := List.mem_flatMap.1 hmem
    unfold driftSpec at hl
    split at hl
    · split at hl
      · exact absurd hl (List.not_mem_nil _)
      · simp at hl
    · exact absurd hl (List.not_mem_nil _)
  · intro loc x y
    constructor
    · intro hmem
      obtain ⟨loc', _, hl⟩ := List.mem_flatMap.1 hmem
      unfold driftSpec at hl
      split at hl
      · rename_i hv
        split at hl
        · exact absurd hl (List.not_mem_nil _)
        · rename_i hp
          simp only [List.mem_singleton, DriftLine.drift.injEq] at hl
          obtain ⟨rfl, rfl, rfl⟩ := hl
          simp only [Bool.and_eq_true] at hv hp
          exact ⟨hv.1, hv.2, hp, rfl, rfl⟩
      · exact absurd hl (List.not_mem_nil _)
    · rintro ⟨hva, hvb, hp, rfl, rfl⟩
      refine List.mem_flatMap.2 ⟨loc, ?_, ?_⟩
      · exact (mem_getPathSet loc b._functions b _ rfl).2 (Or.inr (valid_mem_getPathSet a loc [] hva))
      · unfold driftSpec
        simp only [hva, hvb, Bool.and_self, if_true]
        rw [if_neg (by simpa using hp)]
        exact List.mem_singleton.2 rfl

end CombinedPathProfile

end Cmbprof

namespace Cmbprof

namespace CombinedPathProfile

/-- A key that `mapFind` does not find in the map of the function, or whose function has no
map, reads as slot 0 in `getHistogram`. -/
theorem slot_default_of_not_valid (p : CombinedPathProfile) (f k : Nat)
    (hnew : valid p (f, k) = false) :
    mapFind k ((mapFind f p._functions).getD []) = none := by
  unfold valid at hnew
  cases hf : mapFind f p._functions with
  | none => rfl
  | some paths =>
    simp only [hf] at hnew
    simpa using hnew

/-- C34. In a profile whose slot 0 holds a histogram, `getHistogram` for a key that is not in
the index allocates nothing: it returns slot 0, leaves the vector of histograms as it is and
records slot 0 for the new key, so that the new key shares the histogram of whichever key
already has slot 0. -/
theorem getHistogram_new_key_returns_slot_zero (p : CombinedPathProfile) (f k : Nat)
    (h0 : CPHistogram) (hs : p._histograms[0]? = some (some h0))
    (hnew : valid p (f, k) = false) :
    (getHistogram p f k).2 = 0
      ∧ (getHistogram p f k).1._histograms = p._histograms
      ∧ ((getHistogram p f k).1._histograms[(getHistogram p f k).2]?).join = some h0
      ∧ slotAt (getHistogram p f k).1._functions f k = some 0 := by
  have hk := slot_default_of_not_valid p f k hnew
  have hlen : ¬ (0 + 1 > p._histograms.length) := by
    intro hc
    rw [List.getElem?_eq_none (by omega)] at hs
    exact Option.noConfusion hs
  have hval : getHistogram p f k
      = ({ p with _functions := mapSet f (mapSet k 0 ((mapFind f p._functions).getD []))
                    p._functions }, 0) := by
    unfold getHistogram
    simp only [hk, Option.getD_none, if_neg hlen, hs, Option.join]
    rfl
  rw [hval]
  refine ⟨rfl, rfl, ?_, ?_⟩
  · show (p._histograms[0]?).join = some h0
    rw [hs]; rfl
  · show slotAt (mapSet f (mapSet k 0 ((mapFind f p._functions).getD [])) p._functions) f k
      = some 0
    unfold slotAt
    rw [mapFind_mapSet, if_pos rfl, Option.some_bind, mapFind_mapSet, if_pos rfl]

/-- C34 witness: a fresh instance that has read `storedPathFile` with `deserialize` holds the
histogram of the path (1, 0) in slot 0, and `getHistogram(1, 3)` then returns that histogram
and maps the path (1, 3) to slot 0 as well. -/
theorem getHistogram_new_key_returns_slot_zero_witness :
    deserialize exampleCodec (construct [] 0) storedPathFile = (true, loadedProfile, [])
      ∧ slotAt loadedProfile._functions 1 0 = some 0
      ∧ loadedProfile._histograms[0]? = some (some pointHistogram)
      ∧ valid loadedProfile (1, 3) = false
      ∧ ((getHistogram loadedProfile 1 3).2 = 0
          ∧ (getHistogram loadedProfile 1 3).1._histograms = loadedProfile._histograms
          ∧ ((getHistogram loadedProfile 1 3).1._histograms[(getHistogram loadedProfile 1 3).2]?).join
              = some pointHistogram
          ∧ slotAt (getHistogram loadedProfile 1 3).1._functions 1 3 = some 0) :=
  ⟨by decide!, by decide, by decide!, by decide,
   getHistogram_new_key_returns_slot_zero loadedProfile 1 3 pointHistogram (by decide!)
     (by decide)⟩

end CombinedPathProfile

end Cmbprof

namespace Cmbprof

namespace CFGEdgeDomTree

/-- C36, evaluated on `threeEntryLoop`: edge 6 (3→2) is a non-back edge whose non-back parents
are the edges 3 (1→3) and 7 (4→3), with a pending count of 2. The worklist gives out the edges
in the order 1, 2, 3, 4, 5, 6, 7: edge 6 is taken before its non-back parent 7, and the back
edge 5 (2→3) before its non-back parent 6. The edges 2 and 3 have a single non-back parent
each, and each lowers the pending count of its children twice. -/
theorem edge_taken_before_nonback_parent :
    construct threeEntryLoop 0 = computeEdgeDominance (beforeDominance threeEntryLoop 0) ∧
    (beforeDominance threeEntryLoop 0)._nonBackEdges = [0, 1, 2, 3, 4, 6, 7] ∧
    (edgeFind (beforeDominance threeEntryLoop 0)._edges 6).map
      (fun n => IndexSet.INTERSECT n.parents (beforeDominance threeEntryLoop 0)._nonBackEdges [])
        = some [3, 7] ∧
    (edgeFind (beforeDominance threeEntryLoop 0)._edges 5).map
      (fun n => IndexSet.INTERSECT n.parents (beforeDominance threeEntryLoop 0)._nonBackEdges [])
        = some [2, 6] ∧
    mapFind 6 (Worklist.new (beforeDominance threeEntryLoop 0)._edges
      (beforeDominance threeEntryLoop 0)._nonBackEdges)._pending = some 2 ∧
    computeEdgeDominanceOrder (beforeDominance threeEntryLoop 0) = [1, 2, 3, 4, 5, 6, 7] := by
  decide

end CFGEdgeDomTree

end Cmbprof

namespace Cmbprof

namespace IndexSet

theorem mem_eq_true_iff (x : Nat) (s : IndexSet) : IndexSet.mem x s = true ↔ x ∈ s := by
  simp [IndexSet.mem, List.any_eq_true]

theorem mem_eq_false_iff (x : Nat) (s : IndexSet) : IndexSet.mem x s = false ↔ x ∉ s := by
  rw [← mem_eq_true_iff]
  cases IndexSet.mem x s <;> simp

theorem mem_erase_iff (x y : Nat) (s : IndexSet) : y ∈ IndexSet.erase x s ↔ y ∈ s ∧ y ≠ x := by
  simp [IndexSet.erase, List.mem_filter]

theorem erase_of_not_mem (x : Nat) : ∀ s : IndexSet, x ∉ s → IndexSet.erase x s = s := by
  intro s h
  unfold IndexSet.erase
  rw [List.filter_eq_self]
  intro a ha
  have : a ≠ x := fun e => h (e ▸ ha)
  simpa using this

theorem erase_insert (x : Nat) : ∀ s : IndexSet, x ∉ s → IndexSet.erase x (IndexSet.insert x s) = s := by
  intro s
  induction s with
  | nil => intro _; simp [IndexSet.insert, IndexSet.erase]
  | cons y ys ih =>
    intro h
    have hxy : x ≠ y := fun e => h (e ▸ List.mem_cons_self _ _)
    have hys : x ∉ ys := fun e => h (List.mem_cons_of_mem _ e)
    have hyx : y ≠ x := fun e => hxy e.symm
    by_cases hlt : x < y
    · have e1 : IndexSet.insert x (y :: ys) = x :: y :: ys := by
        simp only [IndexSet.insert, if_pos hlt]
      have := erase_of_not_mem x (y :: ys) h
      rw [e1]
      simp only [IndexSet.erase, List.filter_cons] at this ⊢
      simpa using this
    · have e1 : IndexSet.insert x (y :: ys) = y :: IndexSet.insert x ys := by
        simp only [IndexSet.insert, if_neg hlt, if_neg hxy]
      have := ih hys
      rw [e1]
      simp only [IndexSet.erase, List.filter_cons] at this ⊢
      simp [hyx, this]

end IndexSet

namespace CFGEdgeDomTree

theorem edgeFind_index (edges : EdgeNodeMap) (x : EdgeIndex) (n : EdgeNode)
    (h : edgeFind edges x = some n) : n.index = x := by
  have := List.find?_some h
  simpa using this

theorem childrenOf_eq (edges : EdgeNodeMap) (x : EdgeIndex) (n : EdgeNode)
    (h : edgeFind edges x = some n) : childrenOf edges x = n.children := by
  simp [childrenOf, h]

theorem NbLink_mono (edges : EdgeNodeMap) (nb nb' : IndexSet) (h : ∀ x ∈ nb, x ∈ nb')
    (a b : EdgeIndex) (hl : Relation.TransGen (NbLink edges nb) a b) :
    Relation.TransGen (NbLink edges nb') a b :=
  Relation.TransGen.mono (fun _ _ hab => ⟨h _ hab.1, hab.2⟩) hl

theorem MarkedReach_mono (edges : EdgeNodeMap) (roots nb nb' : IndexSet)
    (h : ∀ x ∈ nb, x ∈ nb') (x : EdgeIndex) (hr : MarkedReach edges roots nb x) :
    MarkedReach edges roots nb' x := by
  induction hr with
  | root x h1 h2 => exact MarkedReach.root x h1 (h _ h2)
  | step p x _ h2 h3 ih => exact MarkedReach.step p x ih h2 (h _ h3)

theorem Topo_insert (edges : EdgeNodeMap) (nb : IndexSet) (r : EdgeIndex) :
    ∀ fin : List EdgeIndex, Topo edges nb fin → (∀ e ∈ fin, r ∉ childrenOf edges e) →
      Topo edges (IndexSet.insert r nb) fin := by
  intro fin
  induction fin with
  | nil => intro _ _; trivial
  | cons e older ih =>
    intro ht hr
    refine ⟨?_, ih ht.2 (fun e' he' => hr e' (List.mem_cons_of_mem _ he'))⟩
    intro c hc hcn
    rcases (IndexSet.mem_insert_iff _ _ _).1 hcn with rfl | hcn'
    · exact absurd hc (hr e (List.mem_cons_self _ _))
    · exact ht.1 c hc hcn'

/-- In a list that satisfies `Topo`, a child in `nb` of a listed edge is listed too, behind
it. -/
theorem Topo_index (edges : EdgeNodeMap) (nb : IndexSet) :
    ∀ fin : List EdgeIndex, Topo edges nb fin → fin.Nodup → ∀ a b, a ∈ fin →
      b ∈ childrenOf edges a → b ∈ nb → b ∈ fin ∧ fin.indexOf a < fin.indexOf b := by
  intro fin
  induction fin with
  | nil => intro _ _ a b ha; exact absurd ha (List.not_mem_nil _)
  | cons e older ih =>
    intro ht hnd a b ha hb hbn
    have hnd' := List.nodup_cons.1 hnd
    rcases List.mem_cons.1 ha with rfl | hao
    · have hbo := ht.1 b hb hbn
      have hne : b ≠ a := fun h => hnd'.1 (h ▸ hbo)
      refine ⟨List.mem_cons_of_mem _ hbo, ?_⟩
      rw [List.indexOf_cons_self, List.indexOf_cons_ne _ (fun h => hne h.symm)]
      exact Nat.succ_pos _
    · obtain ⟨hbo, hlt⟩ := ih ht.2 hnd'.2 a b hao hb hbn
      have hae : a ≠ e := fun h => hnd'.1 (h ▸ hao)
      have hbe : b ≠ e := fun h => hnd'.1 (h ▸ hbo)
      refine ⟨List.mem_cons_of_mem _ hbo, ?_⟩
      rw [List.indexOf_cons_ne _ (fun h => hae h.symm), List.indexOf_cons_ne _ (fun h => hbe h.symm)]
      exact Nat.succ_lt_succ hlt

theorem unvisited_mono (edges : EdgeNodeMap) (w w' : Walk)
    (h : ∀ x ∈ w.visited, x ∈ w'.visited) : unvisited edges w' ≤ unvisited edges w := by
  unfold unvisited
  apply Finset.card_le_card
  intro x hx
  simp only [Finset.mem_sdiff, List.mem_toFinset] at hx ⊢
  exact ⟨hx.1, fun hv => hx.2 (h x hv)⟩

theorem unvisited_insert (edges : EdgeNodeMap) (w w' : Walk) (r : EdgeIndex) (n : EdgeNode)
    (hn : edgeFind edges r = some n) (hr : r ∉ w.visited)
    (h : ∀ x, x ∈ w'.visited ↔ x = r ∨ x ∈ w.visited) :
    unvisited edges w' < unvisited edges w := by
  unfold unvisited
  apply Finset.card_lt_card
  rw [Finset.ssubset_iff_of_subset]
  · refine ⟨r, ?_, ?_⟩
    · simp only [Finset.mem_sdiff, List.mem_toFinset, List.mem_map]
      exact ⟨⟨n, edgeFind_mem _ _ _ hn, edgeFind_index _ _ _ hn⟩, hr⟩
    · simp only [Finset.mem_sdiff, List.mem_toFinset, not_and, not_not]
      intro _
      exact (h r).2 (Or.inl rfl)
  · intro x hx
    simp only [Finset.mem_sdiff, List.mem_toFinset] at hx ⊢
    exact ⟨hx.1, fun hv => hx.2 ((h x).2 (Or.inr hv))⟩

theorem unvisited_le_length (edges : EdgeNodeMap) (w : Walk) :
    unvisited edges w ≤ edges.length := by
  unfold unvisited
  calc ((edges.map (fun e => e.index)).toFinset \ w.visited.toFinset).card
      ≤ ((edges.map (fun e => e.index)).toFinset).card := Finset.card_le_card Finset.sdiff_subset
    _ ≤ (edges.map (fun e => e.index)).length := List.toFinset_card_le _
    _ = edges.length := List.length_map _ _

end CFGEdgeDomTree

end Cmbprof

namespace Cmbprof

namespace CFGEdgeDomTree

/-- The invariant of the walk holds of the empty sets with which the constructor starts. -/
theorem WalkInv_empty (edges : EdgeNodeMap) (roots : IndexSet) :
    WalkInv edges roots { visited := [], currPath := [], nonBackEdges := [] } [] where
  path_marked := fun _ h => absurd h (List.not_mem_nil _)
  marked_visited := fun _ h => absurd h (List.not_mem_nil _)
  marked_cases := fun _ h => absurd h (List.not_mem_nil _)
  fin_marked := fun _ h => absurd h (List.not_mem_nil _)
  fin_not_path := fun _ h => absurd h (List.not_mem_nil _)
  fin_nodup := List.nodup_nil
  fin_children := fun _ h => absurd h (List.not_mem_nil _)
  topo := trivial
  reach := fun _ h => absurd h (List.not_mem_nil _)
  back := fun _ h => absurd h (List.not_mem_nil _)
  visited_real := fun _ h => absurd h (List.not_mem_nil _)

/-- The invariant after the visit of an edge that has a child on the current path: the edge is
visited and not marked. -/
theorem WalkInv_back_edge (edges : EdgeNodeMap) (roots : IndexSet) (hself : SelfChild edges)
    (w : Walk) (fin : List EdgeIndex) (root : EdgeIndex) (node : EdgeNode)
    (hinv : WalkInv edges roots w fin) (hfind : edgeFind edges root = some node)
    (hns : (node.source == node.target) = false) (hnv : root ∉ w.visited)
    (hpath : ∀ a ∈ w.currPath, Relation.TransGen (NbLink edges w.nonBackEdges) a root)
    (hany : ∃ c ∈ node.children, c ∈ IndexSet.insert root w.currPath) :
    WalkInv edges roots
      { visited := IndexSet.insert root w.visited, currPath := w.currPath,
        nonBackEdges := w.nonBackEdges } fin where
  path_marked := hinv.path_marked
  marked_visited := fun x hx => (IndexSet.mem_insert_iff _ _ _).2 (Or.inr (hinv.marked_visited x hx))
  marked_cases := hinv.marked_cases
  fin_marked := hinv.fin_marked
  fin_not_path := hinv.fin_not_path
  fin_nodup := hinv.fin_nodup
  fin_children := fun e he c hc =>
    (hinv.fin_children e he c hc).imp (fun h => (IndexSet.mem_insert_iff _ _ _).2 (Or.inr h)) id
  topo := hinv.topo
  reach := hinv.reach
  back := by
    intro p hp hpn
    rcases (IndexSet.mem_insert_iff _ _ _).1 hp with rfl | hp'
    · obtain ⟨c, hc, hcp⟩ := hany
      rcases (IndexSet.mem_insert_iff _ _ _).1 hcp with rfl | hcp'
      · have := hself c node hfind hc
        rw [hns] at this
        exact Bool.noConfusion this
      · exact ⟨c, by rw [childrenOf_eq _ _ _ hfind]; exact hc, hinv.path_marked c hcp',
          hpath c hcp'⟩
    · exact hinv.back p hp' hpn
  visited_real := by
    intro x hx
    rcases (IndexSet.mem_insert_iff _ _ _).1 hx with rfl | hx'
    · exact ⟨node, hfind, hns⟩
    · exact hinv.visited_real x hx'

/-- The invariant after an edge has been put on the current path and marked. -/
theorem WalkInv_mark (edges : EdgeNodeMap) (roots : IndexSet)
    (w : Walk) (fin : List EdgeIndex) (root : EdgeIndex) (node : EdgeNode)
    (hinv : WalkInv edges roots w fin) (hfind : edgeFind edges root = some node)
    (hns : (node.source == node.target) = false) (hnv : root ∉ w.visited)
    (hpre : root ∈ roots ∨ ∃ p ∈ w.nonBackEdges, root ∈ childrenOf edges p) :
    WalkInv edges roots
      { visited := IndexSet.insert root w.visited, currPath := IndexSet.insert root w.currPath,
        nonBackEdges := IndexSet.insert root w.nonBackEdges } fin where
  path_marked := by
    intro x hx
    rcases (IndexSet.mem_insert_iff _ _ _).1 hx with rfl | hx'
    · exact (IndexSet.mem_insert_iff _ _ _).2 (Or.inl rfl)
    · exact (IndexSet.mem_insert_iff _ _ _).2 (Or.inr (hinv.path_marked x hx'))
  marked_visited := by
    intro x hx
    rcases (IndexSet.mem_insert_iff _ _ _).1 hx with rfl | hx'
    · exact (IndexSet.mem_insert_iff _ _ _).2 (Or.inl rfl)
    · exact (IndexSet.mem_insert_iff _ _ _).2 (Or.inr (hinv.marked_visited x hx'))
  marked_cases := by
    intro x hx
    rcases (IndexSet.mem_insert_iff _ _ _).1 hx with rfl | hx'
    · exact Or.inl ((IndexSet.mem_insert_iff _ _ _).2 (Or.inl rfl))
    · exact (hinv.marked_cases x hx').imp (fun h => (IndexSet.mem_insert_iff _ _ _).2 (Or.inr h)) id
  fin_marked := fun x hx => (IndexSet.mem_insert_iff _ _ _).2 (Or.inr (hinv.fin_marked x hx))
  fin_not_path := by
    intro x hx hxp
    rcases (IndexSet.mem_insert_iff _ _ _).1 hxp with rfl | hxp'
    · exact hnv (hinv.marked_visited x (hinv.fin_marked x hx))
    · exact hinv.fin_not_path x hx hxp'
  fin_nodup := hinv.fin_nodup
  fin_children := fun e he c hc =>
    (hinv.fin_children e he c hc).imp (fun h => (IndexSet.mem_insert_iff _ _ _).2 (Or.inr h)) id
  topo := by
    apply Topo_insert _ _ _ _ hinv.topo
    intro e he hc
    rcases hinv.fin_children e he root hc with h | h
    · exact hnv h
    · have := h node hfind
      rw [hns] at this
      exact Bool.noConfusion this
  reach := by
    have hmono : ∀ x ∈ w.nonBackEdges, x ∈ IndexSet.insert root w.nonBackEdges :=
      fun x hx => (IndexSet.mem_insert_iff _ _ _).2 (Or.inr hx)
    intro x hx
    rcases (IndexSet.mem_insert_iff _ _ _).1 hx with rfl | hx'
    · rcases hpre with hr | ⟨p, hp, hc⟩
      · exact MarkedReach.root x hr hx
      · exact MarkedReach.step p x (MarkedReach_mono _ _ _ _ hmono p (hinv.reach p hp)) hc hx
    · exact MarkedReach_mono _ _ _ _ hmono x (hinv.reach x hx')
  back := by
    intro p hp hpn
    have hpr : p ≠ root := fun e => hpn ((IndexSet.mem_insert_iff _ _ _).2 (Or.inl e))
    rcases (IndexSet.mem_insert_iff _ _ _).1 hp with e | hp'
    · exact absurd e hpr
    · have hpn' : p ∉ w.nonBackEdges :=
        fun h => hpn ((IndexSet.mem_insert_iff _ _ _).2 (Or.inr h))
      obtain ⟨c, hc, hcn, hl⟩ := hinv.back p hp' hpn'
      exact ⟨c, hc, (IndexSet.mem_insert_iff _ _ _).2 (Or.inr hcn),
        NbLink_mono _ _ _ (fun x hx => (IndexSet.mem_insert_iff _ _ _).2 (Or.inr hx)) _ _ hl⟩
  visited_real := by
    intro x hx
    rcases (IndexSet.mem_insert_iff _ _ _).1 hx with rfl | hx'
    · exact ⟨node, hfind, hns⟩
    · exact hinv.visited_real x hx'

/-- The invariant when the call for a marked edge returns: the edge leaves the current path
and heads the list of the finished edges. -/
theorem WalkInv_finish (edges : EdgeNodeMap) (roots : IndexSet)
    (w3 : Walk) (fin3 : List EdgeIndex) (root : EdgeIndex) (node : EdgeNode) (P : IndexSet)
    (hinv : WalkInv edges roots w3 fin3) (hfind : edgeFind edges root = some node)
    (hcp : ∀ x, x ∈ w3.currPath ↔ x = root ∨ x ∈ P) (hrP : root ∉ P)
    (hrm : root ∈ w3.nonBackEdges)
    (hch : ∀ c ∈ node.children, c ∈ w3.visited ∨ Skipped edges c)
    (hno : ∀ c ∈ node.children, ¬ (c = root ∨ c ∈ P)) :
    WalkInv edges roots
      { visited := w3.visited, currPath := P, nonBackEdges := w3.nonBackEdges }
      (root :: fin3) where
  path_marked := fun x hx => hinv.path_marked x ((hcp x).2 (Or.inr hx))
  marked_visited := hinv.marked_visited
  marked_cases := by
    intro x hx
    rcases hinv.marked_cases x hx with h | h
    · rcases (hcp x).1 h with rfl | h'
      · exact Or.inr (List.mem_cons_self _ _)
      · exact Or.inl h'
    · exact Or.inr (List.mem_cons_of_mem _ h)
  fin_marked := by
    intro x hx
    rcases List.mem_cons.1 hx with rfl | h
    · exact hrm
    · exact hinv.fin_marked x h
  fin_not_path := by
    intro x hx hxp
    rcases List.mem_cons.1 hx with rfl | h
    · exact hrP hxp
    · exact hinv.fin_not_path x h ((hcp x).2 (Or.inr hxp))
  fin_nodup :=
    List.nodup_cons.2 ⟨fun h => hinv.fin_not_path root h ((hcp root).2 (Or.inl rfl)),
      hinv.fin_nodup⟩
  fin_children := by
    intro e he c hc
    rcases List.mem_cons.1 he with rfl | h
    · rw [childrenOf_eq _ _ _ hfind] at hc
      exact hch c hc
    · exact hinv.fin_children e h c hc
  topo := by
    refine ⟨?_, hinv.topo⟩
    intro c hc hcn
    rw [childrenOf_eq _ _ _ hfind] at hc
    rcases hinv.marked_cases c hcn with h | h
    · exact absurd ((hcp c).1 h) (hno c hc)
    · exact h
  reach := hinv.reach
  back := hinv.back
  visited_real := hinv.visited_real

/-- The loop over the children of a marked edge, given what a single call does. -/
theorem walk_children (edges : EdgeNodeMap) (roots : IndexSet) (fuel : Nat)
    (hcall : CallSpec edges roots fuel) (root : EdgeIndex) :
    ∀ (cs : List EdgeIndex) (v : Walk) (finv : List EdgeIndex),
      WalkInv edges roots v finv → unvisited edges v < fuel → root ∈ v.nonBackEdges →
      (∀ c ∈ cs, c ∈ childrenOf edges root) →
      (∀ a ∈ v.currPath, a = root ∨ Relation.TransGen (NbLink edges v.nonBackEdges) a root) →
      ∃ fin', WalkInv edges roots (cs.foldl (fun acc c => findNonBackEdges edges fuel c acc) v) fin' ∧
        (cs.foldl (fun acc c => findNonBackEdges edges fuel c acc) v).currPath = v.currPath ∧
        (∀ x ∈ v.visited, x ∈ (cs.foldl (fun acc c => findNonBackEdges edges fuel c acc) v).visited) ∧
        (∀ x ∈ v.nonBackEdges,
          x ∈ (cs.foldl (fun acc c => findNonBackEdges edges fuel c acc) v).nonBackEdges) ∧
        (∀ c ∈ cs, c ∈ (cs.foldl (fun acc c => findNonBackEdges edges fuel c acc) v).visited ∨
          Skipped edges c) := by
  intro cs
  induction cs with
  | nil =>
    intro v finv hinv _ _ _ _
    exact ⟨finv, hinv, rfl, fun _ h => h, fun _ h => h, fun _ h => absurd h (List.not_mem_nil _)⟩
  | cons c rest ih =>
    intro v finv hinv hfuel hrm hcs hpath
    have hc : c ∈ childrenOf edges root := hcs c (List.mem_cons_self _ _)
    have hpc : ∀ a ∈ v.currPath, Relation.TransGen (NbLink edges v.nonBackEdges) a c := by
      intro a ha
      rcases hpath a ha with rfl | h
      · exact Relation.TransGen.single ⟨hrm, hc⟩
      · exact Relation.TransGen.tail h ⟨hrm, hc⟩
    obtain ⟨fin1, hinv1, hcp1, hv1, hn1, hdone1⟩ :=
      hcall c v finv hinv hfuel (Or.inr ⟨root, hrm, hc⟩) hpc
    have hfuel1 : unvisited edges (findNonBackEdges edges fuel c v) < fuel :=
      Nat.lt_of_le_of_lt (unvisited_mono _ _ _ hv1) hfuel
    have hpath1 : ∀ a ∈ (findNonBackEdges edges fuel c v).currPath, a = root ∨
        Relation.TransGen (NbLink edges (findNonBackEdges edges fuel c v).nonBackEdges) a root := by
      intro a ha
      rw [hcp1] at ha
      exact (hpath a ha).imp id (NbLink_mono _ _ _ hn1 _ _)
    obtain ⟨fin2, hinv2, hcp2, hv2, hn2, hdone2⟩ :=
      ih (findNonBackEdges edges fuel c v) fin1 hinv1 hfuel1 (hn1 _ hrm)
        (fun c' hc' => hcs c' (List.mem_cons_of_mem _ hc')) hpath1
    refine ⟨fin2, hinv2, hcp2.trans hcp1, fun x hx => hv2 x (hv1 x hx),
      fun x hx => hn2 x (hn1 x hx), ?_⟩
    intro c' hc'
    rcases List.mem_cons.1 hc' with rfl | h
    · exact hdone1.imp (hv2 _) id
    · exact hdone2 c' h

/-- The loop of the constructor over the roots, given what a single call does. -/
theorem walk_roots (edges : EdgeNodeMap) (roots : IndexSet) (fuel : Nat)
    (hcall : CallSpec edges roots fuel) :
    ∀ (rs : List EdgeIndex) (v : Walk) (finv : List EdgeIndex),
      WalkInv edges roots v finv → unvisited edges v < fuel → v.currPath = [] →
      (∀ r ∈ rs, r ∈ roots) →
      ∃ fin', WalkInv edges roots (rs.foldl (fun acc r => findNonBackEdges edges fuel r acc) v) fin' ∧
        (rs.foldl (fun acc r => findNonBackEdges edges fuel r acc) v).currPath = [] ∧
        (∀ x ∈ v.visited, x ∈ (rs.foldl (fun acc r => findNonBackEdges edges fuel r acc) v).visited) ∧
        (∀ r ∈ rs, r ∈ (rs.foldl (fun acc r => findNonBackEdges edges fuel r acc) v).visited ∨
          Skipped edges r) := by
  intro rs
  induction rs with
  | nil =>
    intro v finv hinv _ hcp _
    exact ⟨finv, hinv, hcp, fun _ h => h, fun _ h => absurd h (List.not_mem_nil _)⟩
  | cons r rest ih =>
    intro v finv hinv hfuel hcp hrs
    obtain ⟨fin1, hinv1, hcp1, hv1, _, hdone1⟩ :=
      hcall r v finv hinv hfuel (Or.inl (hrs r (List.mem_cons_self _ _)))
        (fun a ha => by rw [hcp] at ha; exact absurd ha (List.not_mem_nil _))
    have hfuel1 : unvisited edges (findNonBackEdges edges fuel r v) < fuel :=
      Nat.lt_of_le_of_lt (unvisited_mono _ _ _ hv1) hfuel
    obtain ⟨fin2, hinv2, hcp2, hv2, hdone2⟩ :=
      ih (findNonBackEdges edges fuel r v) fin1 hinv1 hfuel1 (hcp1.trans hcp)
        (fun r' hr' => hrs r' (List.mem_cons_of_mem _ hr'))
    refine ⟨fin2, hinv2, hcp2, fun x hx => hv2 x (hv1 x hx), ?_⟩
    intro r' hr'
    rcases List.mem_cons.1 hr' with rfl | h
    · exact hdone1.imp (hv2 _) id
    · exact hdone2 r' h

/-- What a call of `findNonBackEdges` does, for every fuel above the number of edges not yet
visited. -/
theorem walk_call (edges : EdgeNodeMap) (roots : IndexSet) (hself : SelfChild edges) :
    ∀ fuel : Nat, CallSpec edges roots fuel := by
  intro fuel
  induction fuel with
  | zero => intro root w fin _ hfuel; exact absurd hfuel (Nat.not_lt_zero _)
  | succ fuel ih =>
    intro root w fin hinv hfuel hpre hpath
    cases hfind : edgeFind edges root with
    | none =>
      have hval : findNonBackEdges edges (fuel + 1) root w = w := by
        simp only [findNonBackEdges, hfind]
      rw [hval]
      exact ⟨fin, hinv, rfl, fun _ h => h, fun _ h => h,
        Or.inr (fun n hn => by rw [hfind] at hn; exact Option.noConfusion hn)⟩
    | some node =>
      have hidx : node.index = root := edgeFind_index _ _ _ hfind
      by_cases hns : (node.source == node.target) = true
      · have hval : findNonBackEdges edges (fuel + 1) root w = w := by
          simp only [findNonBackEdges, hfind, hns, if_true]
        rw [hval]
        refine ⟨fin, hinv, rfl, fun _ h => h, fun _ h => h, Or.inr (fun n hn => ?_)⟩
        rw [hfind] at hn
        simp only [Option.some.injEq] at hn
        rw [← hn]; exact hns
      · have hns' : (node.source == node.target) = false := by simpa using hns
        by_cases hvis : IndexSet.mem root w.visited = true
        · have hval : findNonBackEdges edges (fuel + 1) root w = w := by
            simp only [findNonBackEdges, hfind, hns', hidx, hvis, if_true, Bool.false_eq_true,
              if_false]
          rw [hval]
          exact ⟨fin, hinv, rfl, fun _ h => h, fun _ h => h,
            Or.inl ((IndexSet.mem_eq_true_iff _ _).1 hvis)⟩
        · have hvis' : IndexSet.mem root w.visited = false := by simpa using hvis
          have hnv : root ∉ w.visited := (IndexSet.mem_eq_false_iff _ _).1 hvis'
          have hnp : root ∉ w.currPath :=
            fun h => hnv (hinv.marked_visited _ (hinv.path_marked _ h))
          by_cases hany : node.children.any
              (fun c => IndexSet.mem c (IndexSet.insert root w.currPath)) = true
          · have hval : findNonBackEdges edges (fuel + 1) root w
                = { visited := IndexSet.insert root w.visited, currPath := w.currPath,
                    nonBackEdges := w.nonBackEdges } := by
              simp only [findNonBackEdges, hfind, hns', hidx, hvis', hany, if_true,
                Bool.false_eq_true, if_false, IndexSet.erase_insert root w.currPath hnp]
            rw [hval]
            have hany' : ∃ c ∈ node.children, c ∈ IndexSet.insert root w.currPath := by
              obtain ⟨c, hc, hcm⟩ := List.any_eq_true.1 hany
              exact ⟨c, hc, (IndexSet.mem_eq_true_iff _ _).1 hcm⟩
            exact ⟨fin, WalkInv_back_edge edges roots hself w fin root node hinv hfind hns' hnv
                hpath hany',
              rfl, fun x h => (IndexSet.mem_insert_iff _ _ _).2 (Or.inr h), fun _ h => h,
              Or.inl ((IndexSet.mem_insert_iff _ _ _).2 (Or.inl rfl))⟩
          · have hany' : node.children.any
                (fun c => IndexSet.mem c (IndexSet.insert root w.currPath)) = false := by
              simpa using hany
            obtain ⟨w2, hw2⟩ : ∃ w2 : Walk, w2 =
                { visited := IndexSet.insert root w.visited,
                  currPath := IndexSet.insert root w.currPath,
                  nonBackEdges := IndexSet.insert root w.nonBackEdges } := ⟨_, rfl⟩
            have hval : findNonBackEdges edges (fuel + 1) root w
                = { visited :=
                      (node.children.foldl (fun acc c => findNonBackEdges edges fuel c acc) w2).visited,
                    currPath := IndexSet.erase root
                      (node.children.foldl (fun acc c => findNonBackEdges edges fuel c acc) w2).currPath,
                    nonBackEdges :=
                      (node.children.foldl
                        (fun acc c => findNonBackEdges edges fuel c acc) w2).nonBackEdges } := by
              rw [hw2]
              simp only [findNonBackEdges, hfind, hns', hidx, hvis', hany', if_true,
                Bool.false_eq_true, if_false]
            have hinv2 : WalkInv edges roots w2 fin := by
              rw [hw2]
              exact WalkInv_mark edges roots w fin root node hinv hfind hns' hnv hpre
            have hfuel2 : unvisited edges w2 < fuel := by
              have := unvisited_insert edges w w2 root node hfind hnv
                (fun x => by rw [hw2]; exact IndexSet.mem_insert_iff _ _ _)
              omega
            have hrm2 : root ∈ w2.nonBackEdges := by
              rw [hw2]; exact (IndexSet.mem_insert_iff _ _ _).2 (Or.inl rfl)
            have hpath2 : ∀ a ∈ w2.currPath, a = root ∨
                Relation.TransGen (NbLink edges w2.nonBackEdges) a root := by
              intro a ha
              rw [hw2] at ha ⊢
              rcases (IndexSet.mem_insert_iff _ _ _).1 ha with h | h
              · exact Or.inl h
              · exact Or.inr (NbLink_mono _ _ _
                  (fun x hx => (IndexSet.mem_insert_iff _ _ _).2 (Or.inr hx)) _ _ (hpath a h))
            obtain ⟨fin3, hinv3, hcp3, hv3, hn3, hdone3⟩ :=
              walk_children edges roots fuel ih root node.children w2 fin hinv2 hfuel2 hrm2
                (fun c hc => by rw [childrenOf_eq _ _ _ hfind]; exact hc) hpath2
            have hcp3' : ∀ x,
                x ∈ (node.children.foldl (fun acc c => findNonBackEdges edges fuel c acc) w2).currPath
                  ↔ x = root ∨ x ∈ w.currPath := by
              intro x
              rw [hcp3, hw2]
              exact IndexSet.mem_insert_iff _ _ _
            have herase : IndexSet.erase root
                (node.children.foldl (fun acc c => findNonBackEdges edges fuel c acc) w2).currPath
                  = w.currPath := by
              rw [hcp3, hw2]
              exact IndexSet.erase_insert root w.currPath hnp
            rw [hval, herase]
            have hno : ∀ c ∈ node.children, ¬ (c = root ∨ c ∈ w.currPath) := by
              intro c hc hcp
              have h1 := List.any_eq_false.1 hany' c hc
              have h2 : IndexSet.mem c (IndexSet.insert root w.currPath) = true :=
                (IndexSet.mem_eq_true_iff _ _).2 ((IndexSet.mem_insert_iff _ _ _).2 hcp)
              exact h1 h2
            refine ⟨root :: fin3,
              WalkInv_finish edges roots _ fin3 root node w.currPath hinv3 hfind hcp3' hnp
                (hn3 _ hrm2) hdone3 hno, rfl, ?_, ?_, ?_⟩
            · intro x hx
              exact hv3 x (by rw [hw2]; exact (IndexSet.mem_insert_iff _ _ _).2 (Or.inr hx))
            · intro x hx
              exact hn3 x (by rw [hw2]; exact (IndexSet.mem_insert_iff _ _ _).2 (Or.inr hx))
            · exact Or.inl (hv3 root
                (by rw [hw2]; exact (IndexSet.mem_insert_iff _ _ _).2 (Or.inl rfl)))

end CFGEdgeDomTree

end Cmbprof

namespace Cmbprof

namespace CFGEdgeDomTree

/-- A call of `findNonBackEdges` on a walk whose current path lies within the visited set
returns with the current path as it was, and forgets no visited edge. -/
theorem currPath_restored (edges : EdgeNodeMap) :
    ∀ (fuel : Nat) (root : EdgeIndex) (w : Walk), (∀ x ∈ w.currPath, x ∈ w.visited) →
      (findNonBackEdges edges fuel root w).currPath = w.currPath ∧
      (∀ x ∈ w.visited, x ∈ (findNonBackEdges edges fuel root w).visited) := by
  intro fuel
  induction fuel with
  | zero => intro root w _; exact ⟨rfl, fun _ h => h⟩
  | succ fuel ih =>
    have hfold : ∀ (cs : List EdgeIndex) (v : Walk), (∀ x ∈ v.currPath, x ∈ v.visited) →
        (cs.foldl (fun acc c => findNonBackEdges edges fuel c acc) v).currPath = v.currPath ∧
        (∀ x ∈ v.visited,
          x ∈ (cs.foldl (fun acc c => findNonBackEdges edges fuel c acc) v).visited) := by
      intro cs
      induction cs with
      | nil => intro v _; exact ⟨rfl, fun _ h => h⟩
      | cons c rest ihc =>
        intro v hv
        obtain ⟨h1, h2⟩ := ih c v hv
        obtain ⟨h3, h4⟩ := ihc (findNonBackEdges edges fuel c v)
          (fun x hx => h2 x (hv x (h1 ▸ hx)))
        exact ⟨h3.trans h1, fun x hx => h4 x (h2 x hx)⟩
    intro root w hw
    cases hfind : edgeFind edges root with
    | none =>
      have hval : findNonBackEdges edges (fuel + 1) root w = w := by
        simp only [findNonBackEdges, hfind]
      rw [hval]; exact ⟨rfl, fun _ h => h⟩
    | some node =>
      have hidx : node.index = root := edgeFind_index _ _ _ hfind
      by_cases hns : (node.source == node.target) = true
      · have hval : findNonBackEdges edges (fuel + 1) root w = w := by
          simp only [findNonBackEdges, hfind, hns, if_true]
        rw [hval]; exact ⟨rfl, fun _ h => h⟩
      · have hns' : (node.source == node.target) = false := by simpa using hns
        by_cases hvis : IndexSet.mem root w.visited = true
        · have hval : findNonBackEdges edges (fuel + 1) root w = w := by
            simp only [findNonBackEdges, hfind, hns', hidx, hvis, if_true, Bool.false_eq_true,
              if_false]
          rw [hval]; exact ⟨rfl, fun _ h => h⟩
        · have hvis' : IndexSet.mem root w.visited = false := by simpa using hvis
          have hnv : root ∉ w.visited := (IndexSet.mem_eq_false_iff _ _).1 hvis'
          have hnp : root ∉ w.currPath := fun h => hnv (hw _ h)
          by_cases hany : node.children.any
              (fun c => IndexSet.mem c (IndexSet.insert root w.currPath)) = true
          · have hval : findNonBackEdges edges (fuel + 1) root w
                = { visited := IndexSet.insert root w.visited, currPath := w.currPath,
                    nonBackEdges := w.nonBackEdges } := by
              simp only [findNonBackEdges, hfind, hns', hidx, hvis', hany, if_true,
                Bool.false_eq_true, if_false, IndexSet.erase_insert root w.currPath hnp]
            rw [hval]
            exact ⟨rfl, fun x h => (IndexSet.mem_insert_iff _ _ _).2 (Or.inr h)⟩
          · have hany' : node.children.any
                (fun c => IndexSet.mem c (IndexSet.insert root w.currPath)) = false := by
              simpa using hany
            obtain ⟨w2, hw2⟩ : ∃ w2 : Walk, w2 =
                { visited := IndexSet.insert root w.visited,
                  currPath := IndexSet.insert root w.currPath,
                  nonBackEdges := IndexSet.insert root w.nonBackEdges } := ⟨_, rfl⟩
            have hval : findNonBackEdges edges (fuel + 1) root w
                = { visited :=
                      (node.children.foldl (fun acc c => findNonBackEdges edges fuel c acc) w2).visited,
                    currPath := IndexSet.erase root
                      (node.children.foldl (fun acc c => findNonBackEdges edges fuel c acc) w2).currPath,
                    nonBackEdges :=
                      (node.children.foldl
                        (fun acc c => findNonBackEdges edges fuel c acc) w2).nonBackEdges } := by
              rw [hw2]
              simp only [findNonBackEdges, hfind, hns', hidx, hvis', hany', if_true,
                Bool.false_eq_true, if_false]
            have hw2p : ∀ x ∈ w2.currPath, x ∈ w2.visited := by
              intro x hx
              rw [hw2] at hx ⊢
              rcases (IndexSet.mem_insert_iff _ _ _).1 hx with h | h
              · exact (IndexSet.mem_insert_iff _ _ _).2 (Or.inl h)
              · exact (IndexSet.mem_insert_iff _ _ _).2 (Or.inr (hw x h))
            obtain ⟨h1, h2⟩ := hfold node.children w2 hw2p
            rw [hval, h1]
            refine ⟨?_, fun x hx => h2 x ?_⟩
            · rw [hw2]; exact IndexSet.erase_insert root w.currPath hnp
            · rw [hw2]; exact (IndexSet.mem_insert_iff _ _ _).2 (Or.inr hx)

/-- A loop of calls of `findNonBackEdges` keeps the current path within the visited set. -/
theorem currPath_fold (edges : EdgeNodeMap) (fuel : Nat) :
    ∀ (cs : List EdgeIndex) (v : Walk), (∀ x ∈ v.currPath, x ∈ v.visited) →
      ∀ x ∈ (cs.foldl (fun acc c => findNonBackEdges edges fuel c acc) v).currPath,
        x ∈ (cs.foldl (fun acc c => findNonBackEdges edges fuel c acc) v).visited := by
  intro cs
  induction cs with
  | nil => intro v hv; exact hv
  | cons c rest ih =>
    intro v hv
    obtain ⟨h1, h2⟩ := currPath_restored edges fuel c v hv
    exact ih (findNonBackEdges edges fuel c v) (fun x hx => h2 x (hv x (h1 ▸ hx)))

/-- On entry to every call of the run, the current path lies within the visited set. -/
theorem InRun_path (edges : EdgeNodeMap) (roots : IndexSet) (fuel : Nat) (root : EdgeIndex)
    (w : Walk) (h : InRun edges roots fuel root w) : ∀ x ∈ w.currPath, x ∈ w.visited := by
  induction h with
  | top pre post r _ =>
    exact currPath_fold edges _ pre _ (fun _ h => absurd h (List.not_mem_nil _))
  | sub fuel root w node pre post c _ _ _ _ _ _ ih =>
    apply currPath_fold edges _ pre
    intro x hx
    rcases (IndexSet.mem_insert_iff _ _ _).1 hx with h | h
    · exact (IndexSet.mem_insert_iff _ _ _).2 (Or.inl h)
    · exact (IndexSet.mem_insert_iff _ _ _).2 (Or.inr (ih x h))

theorem MarkedReach_mem (edges : EdgeNodeMap) (roots nb : IndexSet) (x : EdgeIndex)
    (h : MarkedReach edges roots nb x) : x ∈ nb := by
  cases h with
  | root _ _ h2 => exact h2
  | step _ _ _ _ h3 => exact h3

/-- A list that satisfies `Topo` and holds every edge of `nb` once orders the edges of `nb`:
no chain of parent-to-child links between edges of `nb` comes back to where it starts. -/
theorem acyclic_of_Topo (edges : EdgeNodeMap) (nb : IndexSet) (fin : List EdgeIndex)
    (ht : Topo edges nb fin) (hnd : fin.Nodup) (hall : ∀ x ∈ nb, x ∈ fin) :
    ∀ e, ¬ Relation.TransGen (MarkedLink edges nb) e e := by
  have hrank : ∀ a b, Relation.TransGen (MarkedLink edges nb) a b →
      fin.indexOf a < fin.indexOf b := by
    intro a b h
    induction h with
    | single h1 => exact (Topo_index edges nb fin ht hnd _ _ (hall _ h1.1) h1.2.2 h1.2.1).2
    | tail _ h2 ih =>
      exact Nat.lt_trans ih (Topo_index edges nb fin ht hnd _ _ (hall _ h2.1) h2.2.2 h2.2.1).2
  intro e h
  exact Nat.lt_irrefl _ (hrank e e h)

end CFGEdgeDomTree

end Cmbprof

namespace Cmbprof

namespace CFGEdgeDomTree

/-- Every edge that the constructor creates has a target block. -/
theorem createEdges_target (F : IRFunction) (first : EdgeIndex) (p : EdgeNode)
    (hp : p ∈ createEdges F first) : ∃ t, p.target = some t := by
  rcases (createEdges_mem F first p hp).2.2 with ⟨_, h, _, _⟩ | ⟨_, s, _, _, h, _⟩
  · exact ⟨0, h⟩
  · exact ⟨s, h⟩

/-- The node that the graph of a function stores under an index: it comes from the created
edge with that index, and its children and parents are the edges that leave its target block
and that enter its source block. -/
theorem edgeFind_buildGraph (F : IRFunction) (first : EdgeIndex) (x : EdgeIndex) (n : EdgeNode)
    (h : edgeFind (buildGraph (createEdges F first)) x = some n) :
    ∃ e ∈ createEdges F first, e.index = x ∧ n.source = e.source ∧ n.target = e.target ∧
      (∀ y, y ∈ n.children ↔ ∃ c ∈ createEdges F first, e.target = c.source ∧ c.index = y) ∧
      (∀ y, y ∈ n.parents ↔ ∃ p ∈ createEdges F first, p.target = e.source ∧ p.index = y) := by
  obtain ⟨e, he, hi, hs, ht, _, hc, hp⟩ := buildGraph_mem _ _ (edgeFind_mem _ _ _ h)
  have hce := createEdges_mem F first e he
  refine ⟨e, he, hi ▸ edgeFind_index _ _ _ h, hs, ht, fun y => ?_, fun y => ?_⟩
  · rw [hc y, hce.1]
    simp
  · rw [hp y, hce.2.1]
    simp

/-- The graph of a function stores a node under the index of every created edge. -/
theorem edgeFind_buildGraph_some (F : IRFunction) (first : EdgeIndex) (e : EdgeNode)
    (he : e ∈ createEdges F first) :
    ∃ n, edgeFind (buildGraph (createEdges F first)) e.index = some n := by
  apply Option.isSome_iff_exists.1
  unfold edgeFind
  rw [List.find?_isSome]
  refine ⟨_, List.mem_map_of_mem _ he, ?_⟩
  simp

theorem buildGraph_selfChild (F : IRFunction) (first : EdgeIndex) :
    SelfChild (buildGraph (createEdges F first)) := by
  intro x n hn hx
  obtain ⟨e, he, hi, hs, ht, hc, _⟩ := edgeFind_buildGraph F first x n hn
  obtain ⟨c, hc', hts, hci⟩ := (hc x).1 hx
  have : c = e := createEdges_inj F first c e hc' he (hci.trans hi.symm)
  subst this
  rw [hs, ht, hts]
  simp

/-- In the graph of a function, an edge among the children of another has that other edge among
its parents. -/
theorem buildGraph_child_parent (F : IRFunction) (first : EdgeIndex) (p x : EdgeIndex)
    (h : x ∈ childrenOf (buildGraph (createEdges F first)) p) :
    p ∈ parentsOf (buildGraph (createEdges F first)) x := by
  unfold childrenOf at h
  cases hp : edgeFind (buildGraph (createEdges F first)) p with
  | none => rw [hp] at h; exact absurd h (List.not_mem_nil _)
  | some np =>
    rw [hp] at h
    obtain ⟨ep, hep, hpi, _, _, hpc, _⟩ := edgeFind_buildGraph F first p np hp
    obtain ⟨c, hc, hts, hci⟩ := (hpc x).1 h
    obtain ⟨nx, hnx⟩ := edgeFind_buildGraph_some F first c hc
    rw [hci] at hnx
    obtain ⟨ex, hex, hxi, _, _, _, hxp⟩ := edgeFind_buildGraph F first x nx hnx
    have : ex = c := createEdges_inj F first ex c hex hc (hxi.trans hci.symm)
    subst this
    unfold parentsOf
    rw [hnx]
    exact (hxp p).2 ⟨ep, hep, hts, hpi⟩

/-- The synthetic entry edge in the graph of a function: a node without parents that is no
edge's child. -/
theorem buildGraph_entry (F : IRFunction) (first : EdgeIndex) :
    (∃ n, edgeFind (buildGraph (createEdges F first)) first = some n ∧
      (n.source == n.target) = false ∧ n.parents = []) ∧
    ∀ p, first ∉ childrenOf (buildGraph (createEdges F first)) p := by
  have he0 : ∃ e0 ∈ createEdges F first, e0.index = first ∧ e0.source = none := by
    rw [createEdges_eq]
    exact ⟨_, List.mem_cons_self _ _, rfl, rfl⟩
  obtain ⟨e0, he0, hi0, hs0⟩ := he0
  constructor
  · obtain ⟨n, hn⟩ := edgeFind_buildGraph_some F first e0 he0
    rw [hi0] at hn
    obtain ⟨e, he, hi, hs, ht, _, hp⟩ := edgeFind_buildGraph F first first n hn
    have : e = e0 := createEdges_inj F first e e0 he he0 (hi.trans hi0.symm)
    subst this
    obtain ⟨t, htt⟩ := createEdges_target F first e he
    refine ⟨n, hn, ?_, ?_⟩
    · rw [hs, ht, hs0, htt]; rfl
    · apply List.eq_nil_iff_forall_not_mem.2
      intro y hy
      obtain ⟨p, hp', hpt, _⟩ := (hp y).1 hy
      obtain ⟨t', ht'⟩ := createEdges_target F first p hp'
      rw [ht', hs0] at hpt
      exact Option.noConfusion hpt
  · intro p hc
    unfold childrenOf at hc
    cases hp : edgeFind (buildGraph (createEdges F first)) p with
    | none => rw [hp] at hc; exact absurd hc (List.not_mem_nil _)
    | some np =>
      rw [hp] at hc
      obtain ⟨ep, hep, _, _, _, hpc, _⟩ := edgeFind_buildGraph F first p np hp
      obtain ⟨c, hc', hts, hci⟩ := (hpc first).1 hc
      have : c = e0 := createEdges_inj F first c e0 hc' he0 (hci.trans hi0.symm)
      subst this
      obtain ⟨t, htt⟩ := createEdges_target F first ep hep
      rw [htt, hs0] at hts
      exact Option.noConfusion hts

/-- C40. For a function with a body, in the state of the constructor after its loop of
`findNonBackEdges` calls: no chain of parent-to-child links between marked edges comes back to
where it starts; every marked edge is a root or has a marked parent, and is reachable from a
root through marked edges; the synthetic entry edge is marked; and every call of
`findNonBackEdges` in the run, the recursive ones included, returns with the current-path set
it was entered with. The constructor goes on from this state with `computeAncestorSets` and
`computeEdgeDominance`. -/
theorem findNonBackEdges_marks (F : IRFunction) (first : EdgeIndex)
    (hF : F.isDeclaration = false) :
    (∀ e, ¬ Relation.TransGen
      (MarkedLink (afterNonBackEdges F first)._edges (afterNonBackEdges F first)._nonBackEdges)
      e e) ∧
    (∀ e ∈ (afterNonBackEdges F first)._nonBackEdges,
      e ∈ (afterNonBackEdges F first)._roots ∨
      ∃ p ∈ (afterNonBackEdges F first)._nonBackEdges,
        p ∈ parentsOf (afterNonBackEdges F first)._edges e ∧
        e ∈ childrenOf (afterNonBackEdges F first)._edges p) ∧
    (∀ e ∈ (afterNonBackEdges F first)._nonBackEdges,
      MarkedReach (afterNonBackEdges F first)._edges (afterNonBackEdges F first)._roots
        (afterNonBackEdges F first)._nonBackEdges e) ∧
    first ∈ (afterNonBackEdges F first)._nonBackEdges ∧
    (∀ fuel root w,
      InRun (afterNonBackEdges F first)._edges (afterNonBackEdges F first)._roots fuel root w →
      (findNonBackEdges (afterNonBackEdges F first)._edges fuel root w).currPath = w.currPath) ∧
    construct F first
      = computeEdgeDominance (computeAncestorSets (afterNonBackEdges F first)) := by
  obtain ⟨edges, hedges⟩ : ∃ edges, edges = buildGraph (createEdges F first) := ⟨_, rfl⟩
  obtain ⟨roots, hroots⟩ : ∃ roots, roots = (afterNonBackEdges F first)._roots := ⟨_, rfl⟩
  have hE : (afterNonBackEdges F first)._edges = edges := by rw [hedges]; rfl
  have hN : (afterNonBackEdges F first)._nonBackEdges
      = (roots.foldl (fun acc r => findNonBackEdges edges (edges.length + 1) r acc)
          { visited := [], currPath := [], nonBackEdges := [] }).nonBackEdges := by
    rw [hedges, hroots]; rfl
  have hself : SelfChild edges := by rw [hedges]; exact buildGraph_selfChild F first
  obtain ⟨⟨n0, hn0, hns0, hpar0⟩, hnochild⟩ := buildGraph_entry F first
  rw [← hedges] at hn0 hnochild
  have hfirst : first ∈ roots := by
    rw [hroots]
    show first ∈ IndexSet.insertAll _ []
    rw [IndexSet.mem_insertAll_iff]
    left
    refine List.mem_map.2 ⟨n0, List.mem_filter.2 ⟨?_, ?_⟩, edgeFind_index _ _ _ hn0⟩
    · rw [← hedges]; exact edgeFind_mem _ _ _ hn0
    · simp [hpar0]
  obtain ⟨fin, hinv, hcp, _, hdone⟩ :=
    walk_roots edges roots (edges.length + 1) (walk_call edges roots hself _) roots
      { visited := [], currPath := [], nonBackEdges := [] } [] (WalkInv_empty edges roots)
      (Nat.lt_succ_of_le (unvisited_le_length _ _)) rfl (fun _ h => h)
  rw [← hroots, hE, hN]
  generalize (roots.foldl (fun acc r => findNonBackEdges edges (edges.length + 1) r acc)
    { visited := [], currPath := [], nonBackEdges := [] }) = wf at hinv hcp hdone
  have hall : ∀ x ∈ wf.nonBackEdges, x ∈ fin := by
    intro x hx
    rcases hinv.marked_cases x hx with h | h
    · rw [hcp] at h; exact absurd h (List.not_mem_nil _)
    · exact h
  refine ⟨acyclic_of_Topo edges _ fin hinv.topo hinv.fin_nodup hall, ?_, hinv.reach, ?_, ?_, ?_⟩
  · intro e he
    cases hinv.reach e he with
    | root _ h1 _ => exact Or.inl h1
    | step p _ h1 h2 _ =>
      refine Or.inr ⟨p, MarkedReach_mem _ _ _ _ h1, ?_, h2⟩
      rw [hedges] at h2 ⊢
      exact buildGraph_child_parent F first p e h2
  · have hv : first ∈ wf.visited := by
      rcases hdone first hfirst with h | h
      · exact h
      · have := h n0 hn0
        rw [hns0] at this
        exact Bool.noConfusion this
    by_contra hn
    obtain ⟨c, _, _, hl⟩ := hinv.back first hv hn
    cases hl with
    | single h => exact hnochild _ h.2
    | tail _ h => exact hnochild _ h.2
  · intro fuel root w hrun
    exact (currPath_restored edges fuel root w (InRun_path edges roots fuel root w hrun)).1
  · simp only [construct, hF, Bool.false_eq_true, if_false]
    rfl

/-- C40 witness: the function `twoEntryLoop`, whose loop between the blocks 2 and 3 is entered
from two sides. -/
theorem findNonBackEdges_marks_witness :
    twoEntryLoop.isDeclaration = false ∧
    (afterNonBackEdges twoEntryLoop 0)._nonBackEdges = [0, 1, 2, 3, 5] ∧
    (∀ e, ¬ Relation.TransGen
      (MarkedLink (afterNonBackEdges twoEntryLoop 0)._edges
        (afterNonBackEdges twoEntryLoop 0)._nonBackEdges) e e) ∧
    (∀ e ∈ (afterNonBackEdges twoEntryLoop 0)._nonBackEdges,
      e ∈ (afterNonBackEdges twoEntryLoop 0)._roots ∨
      ∃ p ∈ (afterNonBackEdges twoEntryLoop 0)._nonBackEdges,
        p ∈ parentsOf (afterNonBackEdges twoEntryLoop 0)._edges e ∧
        e ∈ childrenOf (afterNonBackEdges twoEntryLoop 0)._edges p) ∧
    (∀ e ∈ (afterNonBackEdges twoEntryLoop 0)._nonBackEdges,
      MarkedReach (afterNonBackEdges twoEntryLoop 0)._edges (afterNonBackEdges twoEntryLoop 0)._roots
        (afterNonBackEdges twoEntryLoop 0)._nonBackEdges e) ∧
    0 ∈ (afterNonBackEdges twoEntryLoop 0)._nonBackEdges ∧
    (∀ fuel root w,
      InRun (afterNonBackEdges twoEntryLoop 0)._edges (afterNonBackEdges twoEntryLoop 0)._roots
        fuel root w →
      (findNonBackEdges (afterNonBackEdges twoEntryLoop 0)._edges fuel root w).currPath
        = w.currPath) ∧
    construct twoEntryLoop 0
      = computeEdgeDominance (computeAncestorSets (afterNonBackEdges twoEntryLoop 0)) :=
  ⟨rfl, by decide, findNonBackEdges_marks twoEntryLoop 0 rfl⟩

end CFGEdgeDomTree

end Cmbprof

namespace Cmbprof

namespace IndexSet

theorem sorted_insert (x : Nat) :
    ∀ s : IndexSet, s.Pairwise (· < ·) → (IndexSet.insert x s).Pairwise (· < ·) := by
  intro s
  induction s with
  | nil => intro _; simp [IndexSet.insert]
  | cons y ys ih =>
    intro h
    obtain ⟨h1, h2⟩ := List.pairwise_cons.1 h
    by_cases hlt : x < y
    · have e1 : IndexSet.insert x (y :: ys) = x :: y :: ys := by
        simp only [IndexSet.insert, if_pos hlt]
      rw [e1]
      refine List.pairwise_cons.2 ⟨?_, h⟩
      intro z hz
      rcases List.mem_cons.1 hz with rfl | hz'
      · exact hlt
      · exact Nat.lt_trans hlt (h1 z hz')
    · by_cases heq : x = y
      · have e1 : IndexSet.insert x (y :: ys) = y :: ys := by
          simp only [IndexSet.insert, if_neg hlt, if_pos heq]
        rw [e1]; exact h
      · have e1 : IndexSet.insert x (y :: ys) = y :: IndexSet.insert x ys := by
          simp only [IndexSet.insert, if_neg hlt, if_neg heq]
        rw [e1]
        refine List.pairwise_cons.2 ⟨?_, ih h2⟩
        intro z hz
        rcases (mem_insert_iff _ _ _).1 hz with rfl | hz'
        · omega
        · exact h1 z hz'

theorem sorted_insertAll (xs : List Nat) :
    ∀ s : IndexSet, s.Pairwise (· < ·) → (insertAll xs s).Pairwise (· < ·) := by
  induction xs with
  | nil => intro s h; exact h
  | cons x rest ih =>
    intro s h
    simp only [insertAll, List.foldl_cons]
    exact ih _ (sorted_insert x s h)

theorem nodup_of_sorted (s : IndexSet) (h : s.Pairwise (· < ·)) : s.Nodup :=
  List.Pairwise.imp (fun hab => Nat.ne_of_lt hab) h

theorem nodup_insertAll (xs : List Nat) : (insertAll xs []).Nodup :=
  nodup_of_sorted _ (sorted_insertAll xs [] List.Pairwise.nil)

theorem mem_INTERSECT_iff (s1 s2 out : IndexSet) (y : Nat) :
    y ∈ INTERSECT s1 s2 out ↔ (y ∈ s1 ∧ y ∈ s2) ∨ y ∈ out := by
  unfold INTERSECT
  rw [mem_insertAll_iff, List.mem_filter, mem_eq_true_iff]

theorem INTERSECT_length (s1 s2 : IndexSet) :
    (INTERSECT s1 s2 []).length = (s1.toFinset.filter (fun p => p ∈ s2)).card := by
  have hnd : (INTERSECT s1 s2 []).Nodup := nodup_insertAll _
  rw [← List.toFinset_card_of_nodup hnd]
  congr 1
  ext y
  simp only [List.mem_toFinset, Finset.mem_filter]
  rw [mem_INTERSECT_iff]
  simp

end IndexSet

namespace CFGEdgeDomTree

/-- The effect of `pushReady` on a set of children without duplicates: the count of every
child drops by one, and the children whose count drops to zero are appended in order. -/
theorem pushReady_spec :
    ∀ (cs : List EdgeIndex) (w : Worklist), cs.Nodup →
      (∀ x, (mapFind x (w.pushReady cs)._pending).getD 0
          = (mapFind x w._pending).getD 0 - (if x ∈ cs then 1 else 0)) ∧
      (w.pushReady cs)._worklist = w._worklist ++
        cs.filter (fun c => decide ((mapFind c w._pending).getD 0 - 1 = 0)) := by
  intro cs
  induction cs with
  | nil =>
    intro w _
    exact ⟨fun x => by simp [Worklist.pushReady], by simp [Worklist.pushReady]⟩
  | cons c rest ih =>
    intro w hnd
    obtain ⟨hc, hrest⟩ := List.nodup_cons.1 hnd
    obtain ⟨w1, hw1⟩ : ∃ w1 : Worklist, w1 =
        (if (mapFind c w._pending).getD 0 - 1 = 0 then
          { _worklist := w._worklist ++ [c],
            _pending := mapSet c ((mapFind c w._pending).getD 0 - 1) w._pending }
        else
          { _worklist := w._worklist,
            _pending := mapSet c ((mapFind c w._pending).getD 0 - 1) w._pending }) := ⟨_, rfl⟩
    have hstep : w.pushReady (c :: rest) = w1.pushReady rest := by
      rw [hw1]
      simp only [Worklist.pushReady, List.foldl_cons]
    have hp1 : ∀ x, (mapFind x w1._pending).getD 0
        = if x = c then (mapFind c w._pending).getD 0 - 1 else (mapFind x w._pending).getD 0 := by
      intro x
      have : w1._pending = mapSet c ((mapFind c w._pending).getD 0 - 1) w._pending := by
        rw [hw1]; split <;> rfl
      rw [this, mapFind_mapSet]
      split
      · rfl
      · rfl
    have hwl1 : w1._worklist = w._worklist ++
        (if (mapFind c w._pending).getD 0 - 1 = 0 then [c] else []) := by
      rw [hw1]; split <;> simp
    obtain ⟨i1, i2⟩ := ih w1 hrest
    rw [hstep]
    refine ⟨fun x => ?_, ?_⟩
    · rw [i1 x, hp1 x]
      by_cases hxc : x = c
      · subst hxc
        simp [hc]
      · simp [hxc]
    · rw [i2, hwl1, List.append_assoc]
      congr 1
      rw [List.filter_cons]
      have hf : rest.filter (fun c' => decide ((mapFind c' w1._pending).getD 0 - 1 = 0))
          = rest.filter (fun c' => decide ((mapFind c' w._pending).getD 0 - 1 = 0)) := by
        apply List.filter_congr
        intro c' hc'
        have : c' ≠ c := fun e => hc (e ▸ hc')
        rw [hp1 c', if_neg this]
      rw [hf]
      by_cases h0 : (mapFind c w._pending).getD 0 - 1 = 0
      · simp [h0]
      · simp [h0]

/-- The counts that the `Worklist` constructor stores: for the node of every index, the number
of its non-back parents. -/
theorem new_pending (nb : IndexSet) :
    ∀ (es : EdgeNodeMap) (m : List (Nat × Int)) (x : EdgeIndex),
      (es.map (fun e => e.index)).Nodup →
      mapFind x (es.foldl (fun m e =>
        mapSet e.index (Int.ofNat (IndexSet.INTERSECT e.parents nb []).length) m) m)
      = match edgeFind es x with
        | some n => some (Int.ofNat (IndexSet.INTERSECT n.parents nb []).length)
        | none => mapFind x m := by
  intro es
  induction es with
  | nil => intro m x _; rfl
  | cons e rest ih =>
    intro m x hnd
    simp only [List.map_cons, List.nodup_cons] at hnd
    rw [List.foldl_cons, ih _ x hnd.2]
    by_cases hx : e.index = x
    · have hnone : edgeFind rest x = none := by
        unfold edgeFind
        rw [List.find?_eq_none]
        intro e' he' hi
        apply hnd.1
        have : e'.index = x := by simpa using hi
        rw [hx, ← this]
        exact List.mem_map_of_mem _ he'
      have hsome : edgeFind (e :: rest) x = some e := by
        unfold edgeFind
        exact List.find?_cons_of_pos _ (by simpa using hx)
      rw [hnone, hsome]
      simp only
      rw [mapFind_mapSet, if_pos hx.symm]
    · have hsame : edgeFind (e :: rest) x = edgeFind rest x := by
        unfold edgeFind
        exact List.find?_cons_of_neg _ (by simpa using hx)
      rw [hsame]
      cases edgeFind rest x with
      | some n => rfl
      | none =>
        simp only
        rw [mapFind_mapSet, if_neg (fun h => hx h.symm)]

/-- The union that `computeAncestorSets` forms over the parents: the edge itself and whatever
the ancestor sets of the parents hold. -/
theorem mem_ancestors_fold (anc : IndexSetMap) (y : EdgeIndex) :
    ∀ (ps : List EdgeIndex) (acc : IndexSet),
      y ∈ ps.foldl (fun acc parent => IndexSet.insertAll (setMapGet anc parent) acc) acc
        ↔ y ∈ acc ∨ ∃ p ∈ ps, y ∈ setMapGet anc p := by
  intro ps
  induction ps with
  | nil => intro acc; simp
  | cons p rest ih =>
    intro acc
    rw [List.foldl_cons, ih, IndexSet.mem_insertAll_iff]
    simp only [List.mem_cons, exists_eq_or_imp]
    constructor
    · rintro ((h | h) | h)
      · exact Or.inr (Or.inl h)
      · exact Or.inl h
      · exact Or.inr (Or.inr h)
    · rintro (h | h | h)
      · exact Or.inl (Or.inr h)
      · exact Or.inl (Or.inl h)
      · exact Or.inr h

theorem setMapGet_mapSet (m : IndexSetMap) (k k' : Nat) (v : IndexSet) :
    setMapGet (mapSet k v m) k' = if k' = k then v else setMapGet m k' := by
  unfold setMapGet
  rw [mapFind_mapSet]
  split <;> rfl

end CFGEdgeDomTree

end Cmbprof

namespace Cmbprof

namespace CFGEdgeDomTree

theorem parentsOf_eq (edges : EdgeNodeMap) (x : EdgeIndex) (n : EdgeNode)
    (h : edgeFind edges x = some n) : parentsOf edges x = n.parents := by
  simp [parentsOf, h]

theorem mem_nbParents (edges : EdgeNodeMap) (nb : IndexSet) (x p : EdgeIndex) :
    p ∈ nbParents edges nb x ↔ p ∈ parentsOf edges x ∧ p ∈ nb := by
  simp [nbParents]

theorem mem_doneParents (edges : EdgeNodeMap) (D : List EdgeIndex) (x p : EdgeIndex) :
    p ∈ doneParents edges D x ↔ p ∈ parentsOf edges x ∧ p ∈ D := by
  simp [doneParents]

/-- A root has no parents. -/
theorem GraphOk.root_parents {edges : EdgeNodeMap} {roots : IndexSet} (hG : GraphOk edges roots)
    (x : EdgeIndex) (hx : x ∈ roots) : parentsOf edges x = [] := by
  obtain ⟨n, hn, hp⟩ := (hG.roots_iff x).1 hx
  rw [parentsOf_eq _ _ _ hn, hp]

/-- An edge with a parent is stored in the graph. -/
theorem real_of_parent (edges : EdgeNodeMap) (x p : EdgeIndex) (h : p ∈ parentsOf edges x) :
    ∃ n, edgeFind edges x = some n := by
  unfold parentsOf at h
  cases hx : edgeFind edges x with
  | none => rw [hx] at h; exact absurd h (List.not_mem_nil _)
  | some n => exact ⟨n, rfl⟩

/-- Two children of one edge have the same parents. -/
theorem GraphOk.sibling_parents {edges : EdgeNodeMap} {roots : IndexSet}
    (hG : GraphOk edges roots) (p x y : EdgeIndex) (hx : x ∈ childrenOf edges p)
    (hy : y ∈ childrenOf edges p) (q : EdgeIndex) :
    q ∈ parentsOf edges x ↔ q ∈ parentsOf edges y := by
  rw [← hG.child_parent, ← hG.child_parent]
  constructor
  · intro h; exact hG.siblings p q x hx h y hy
  · intro h; exact hG.siblings p q y hy h x hx

theorem GraphOk.sibling_nbParents {edges : EdgeNodeMap} {roots : IndexSet}
    (hG : GraphOk edges roots) (nb : IndexSet) (p x y : EdgeIndex)
    (hx : x ∈ childrenOf edges p) (hy : y ∈ childrenOf edges p) :
    nbParents edges nb x = nbParents edges nb y := by
  ext q
  rw [mem_nbParents, mem_nbParents, hG.sibling_parents p x y hx hy q]

theorem GraphOk.sibling_doneParents {edges : EdgeNodeMap} {roots : IndexSet}
    (hG : GraphOk edges roots) (D : List EdgeIndex) (p x y : EdgeIndex)
    (hx : x ∈ childrenOf edges p) (hy : y ∈ childrenOf edges p) :
    doneParents edges D x = doneParents edges D y := by
  ext q
  rw [mem_doneParents, mem_doneParents, hG.sibling_parents p x y hx hy q]

/-- A child is no root. -/
theorem GraphOk.child_not_root {edges : EdgeNodeMap} {roots : IndexSet}
    (hG : GraphOk edges roots) (p x : EdgeIndex) (hx : x ∈ childrenOf edges p) : x ∉ roots := by
  intro hr
  have := (hG.child_parent p x).1 hx
  rw [hG.root_parents x hr] at this
  exact absurd this (List.not_mem_nil _)

/-- Two children of one edge are on the worklist or taken from it together. -/
theorem AncInv.sibling_pushed {edges : EdgeNodeMap} {roots nb : IndexSet} {anc : IndexSetMap}
    {wl : Worklist} {D : List EdgeIndex} (hI : AncInv edges roots nb anc wl D)
    (hG : GraphOk edges roots) (p x y : EdgeIndex) (hx : x ∈ childrenOf edges p)
    (hy : y ∈ childrenOf edges p) (h : x ∈ D ∨ x ∈ wl._worklist) :
    y ∈ D ∨ y ∈ wl._worklist := by
  rw [hI.pushed_iff] at h ⊢
  rcases h with h | h
  · exact absurd h (hG.child_not_root p x hx)
  · right
    rw [hG.sibling_nbParents nb p y x hy hx, hG.sibling_doneParents D p y x hy hx]
    exact h

/-- A visited edge is not its own child. -/
theorem WalkDone.not_self {edges : EdgeNodeMap} {roots nb visited : IndexSet}
    {fin : List EdgeIndex} (hW : WalkDone edges roots nb visited fin) (hG : GraphOk edges roots)
    (x : EdgeIndex) (hx : x ∈ visited) : x ∉ childrenOf edges x := by
  obtain ⟨n, hn, hns⟩ := hW.visited_real x hx
  rw [childrenOf_eq _ _ _ hn]
  intro h
  have := (hG.self_child x n hn).1 h
  rw [hns] at this
  exact Bool.noConfusion this

/-- An edge that is not marked and has a non-back parent is its own child, or it has been
visited and is not its own child. -/
theorem WalkDone.unmarked_cases {edges : EdgeNodeMap} {roots nb visited : IndexSet}
    {fin : List EdgeIndex} (hW : WalkDone edges roots nb visited fin) (hG : GraphOk edges roots)
    (x : EdgeIndex) (hc : 1 ≤ (nbParents edges nb x).card) :
    x ∈ childrenOf edges x ∨ (x ∈ visited ∧ x ∉ childrenOf edges x) := by
  obtain ⟨q, hq⟩ := Finset.card_pos.1 hc
  obtain ⟨hqp, hqn⟩ := (mem_nbParents _ _ _ _).1 hq
  have hxq : x ∈ childrenOf edges q := (hG.child_parent q x).2 hqp
  rcases hW.marked_children q hqn x hxq with h | h
  · exact Or.inr ⟨h, hW.not_self hG x h⟩
  · obtain ⟨n, hn⟩ := hG.child_real q x hxq
    left
    rw [childrenOf_eq _ _ _ hn]
    exact (hG.self_child x n hn).2 (h n hn)

/-- When the non-back parents of every edge that was put on the worklist have been taken from
it, so has every non-back edge that leads to such an edge through non-back edges. -/
theorem closure_done (edges : EdgeNodeMap) (nb : IndexSet) (hG : ∃ roots, GraphOk edges roots)
    (D W : List EdgeIndex)
    (hpd : ∀ x, (x ∈ D ∨ x ∈ W) → ∀ p ∈ nbParents edges nb x, p ∈ D) (c : EdgeIndex) :
    ∀ y, Relation.TransGen (NbLink edges nb) c y → (y ∈ D ∨ y ∈ W) → c ∈ D := by
  obtain ⟨roots, hG⟩ := hG
  intro y h
  induction h with
  | single h1 =>
    intro hy
    exact hpd _ hy c ((mem_nbParents _ _ _ _).2 ⟨(hG.child_parent _ _).1 h1.2, h1.1⟩)
  | tail _ h2 ih =>
    intro hy
    exact ih (Or.inl (hpd _ hy _ ((mem_nbParents _ _ _ _).2 ⟨(hG.child_parent _ _).1 h2.2, h2.1⟩)))

/-- The parents taken from the worklist, after one more edge `h` has been taken. -/
theorem doneParents_cons (edges : EdgeNodeMap) (D : List EdgeIndex) (h x : EdgeIndex)
    (hh : h ∉ D) :
    (doneParents edges (h :: D) x).card
      = (doneParents edges D x).card + (if h ∈ parentsOf edges x then 1 else 0) := by
  by_cases hp : h ∈ parentsOf edges x
  · have : doneParents edges (h :: D) x = insert h (doneParents edges D x) := by
      ext q
      rw [Finset.mem_insert, mem_doneParents, mem_doneParents, List.mem_cons]
      constructor
      · rintro ⟨h1, h2 | h2⟩
        · exact Or.inl h2
        · exact Or.inr ⟨h1, h2⟩
      · rintro (h1 | ⟨h1, h2⟩)
        · exact ⟨h1 ▸ hp, Or.inl h1⟩
        · exact ⟨h1, Or.inr h2⟩
    rw [this, Finset.card_insert_of_not_mem, if_pos hp]
    intro hm
    exact hh ((mem_doneParents _ _ _ _).1 hm).2
  · have : doneParents edges (h :: D) x = doneParents edges D x := by
      ext q
      rw [mem_doneParents, mem_doneParents, List.mem_cons]
      constructor
      · rintro ⟨h1, h2 | h2⟩
        · exact absurd (h2 ▸ h1) hp
        · exact ⟨h1, h2⟩
      · rintro ⟨h1, h2⟩
        exact ⟨h1, Or.inr h2⟩
    rw [this, if_neg hp, Nat.add_zero]

end CFGEdgeDomTree

end Cmbprof

namespace Cmbprof

namespace CFGEdgeDomTree

/-- The last link of a chain of links. -/
theorem last_link (edges : EdgeNodeMap) (nb : IndexSet) (y e : EdgeIndex)
    (h : Relation.TransGen (NbLink edges nb) y e) :
    ∃ q, (y = q ∨ Relation.TransGen (NbLink edges nb) y q) ∧ NbLink edges nb q e := by
  cases h with
  | single h1 => exact ⟨y, Or.inl rfl, h1⟩
  | tail h1 h2 => exact ⟨_, Or.inr h1, h2⟩

/-- The edges that an iteration of the loop of `computeAncestorSets` puts on the worklist are
children of the edge taken whose non-back parents number one more than their parents taken
before; none of them has been on the worklist before. -/
theorem new_on_worklist (edges : EdgeNodeMap) (roots nb : IndexSet) (hG : GraphOk edges roots)
    (anc : IndexSetMap) (wl : Worklist) (D : List EdgeIndex)
    (hI : AncInv edges roots nb anc wl D) (h : EdgeIndex) (n : EdgeNode)
    (hn : edgeFind edges h = some n) (x : EdgeIndex) :
    (x ∈ n.children.filter (fun c => decide ((mapFind c wl._pending).getD 0 - 1 = 0)) ↔
      x ∈ n.children ∧ (nbParents edges nb x).card = (doneParents edges D x).card + 1) ∧
    (x ∈ n.children.filter (fun c => decide ((mapFind c wl._pending).getD 0 - 1 = 0)) →
      ¬ (x ∈ D ∨ x ∈ wl._worklist)) := by
  have hch : childrenOf edges h = n.children := childrenOf_eq _ _ _ hn
  have h1 : x ∈ n.children.filter (fun c => decide ((mapFind c wl._pending).getD 0 - 1 = 0)) ↔
      x ∈ n.children ∧ (nbParents edges nb x).card = (doneParents edges D x).card + 1 := by
    rw [List.mem_filter, decide_eq_true_eq]
    constructor
    · rintro ⟨hx, hp⟩
      obtain ⟨nx, hnx⟩ := hG.child_real h x (hch ▸ hx)
      have := hI.pend x nx hnx
      exact ⟨hx, by omega⟩
    · rintro ⟨hx, hp⟩
      obtain ⟨nx, hnx⟩ := hG.child_real h x (hch ▸ hx)
      have := hI.pend x nx hnx
      exact ⟨hx, by omega⟩
  refine ⟨h1, fun hx hp => ?_⟩
  obtain ⟨hxc, hxn⟩ := h1.1 hx
  rcases (hI.pushed_iff x).1 hp with hr | ⟨_, h3⟩
  · exact hG.child_not_root h x (hch ▸ hxc) hr
  · omega

/-- One iteration of the loop of `computeAncestorSets` keeps the invariant. -/
theorem ancestorStep_inv (edges : EdgeNodeMap) (roots nb visited : IndexSet)
    (fin : List EdgeIndex) (hG : GraphOk edges roots) (hW : WalkDone edges roots nb visited fin)
    (s : State) (hse : s._edges = edges) (hsn : s._nonBackEdges = nb)
    (wl : Worklist) (D : List EdgeIndex) (h : EdgeIndex) (rest : List EdgeIndex)
    (hwl : wl._worklist = h :: rest) (hI : AncInv edges roots nb s._ancestorSets wl D) :
    AncInv edges roots nb (ancestorStep s { wl with _worklist := rest } h).1._ancestorSets
      (ancestorStep s { wl with _worklist := rest } h).2 (h :: D) ∧
    (ancestorStep s { wl with _worklist := rest } h).1._edges = edges ∧
    (ancestorStep s { wl with _worklist := rest } h).1._nonBackEdges = nb := by
  have hhW : h ∈ wl._worklist := by rw [hwl]; exact List.mem_cons_self _ _
  have hhD : h ∉ D := hI.disjoint h hhW
  have hnd := hI.wl_nodup
  rw [hwl] at hnd
  obtain ⟨hhr, hrnd⟩ := List.nodup_cons.1 hnd
  have hreal : ∃ n, edgeFind edges h = some n := by
    rcases (hI.pushed_iff h).1 (Or.inr hhW) with hr | ⟨h1, _⟩
    · obtain ⟨n, hn, _⟩ := (hG.roots_iff h).1 hr
      exact ⟨n, hn⟩
    · obtain ⟨q, hq⟩ := Finset.card_pos.1 h1
      exact real_of_parent edges h q ((mem_nbParents _ _ _ _).1 hq).1
  obtain ⟨n, hn⟩ := hreal
  have hch : childrenOf edges h = n.children := childrenOf_eq _ _ _ hn
  have hpa : parentsOf edges h = n.parents := parentsOf_eq _ _ _ hn
  have hchnd : n.children.Nodup := hch ▸ hG.children_nodup h
  obtain ⟨stored, hstored⟩ : ∃ stored, stored = IndexSet.INTERSECT
      (n.parents.foldl
        (fun acc parent => IndexSet.insertAll (setMapGet s._ancestorSets parent) acc)
        (IndexSet.insert h [])) nb (setMapGet s._ancestorSets h) := ⟨_, rfl⟩
  obtain ⟨new, hnewdef⟩ : ∃ new, new =
      n.children.filter (fun c => decide ((mapFind c wl._pending).getD 0 - 1 = 0)) := ⟨_, rfl⟩
  obtain ⟨wl', hwl'⟩ : ∃ wl', wl' = ({ wl with _worklist := rest } : Worklist).pushReady n.children :=
    ⟨_, rfl⟩
  have hval : ancestorStep s { wl with _worklist := rest } h
      = ({ s with _ancestorSets := mapSet h stored s._ancestorSets }, wl') := by
    unfold ancestorStep
    rw [hse, hn, hstored, hwl', hsn]
  obtain ⟨hP1, hP2⟩ := pushReady_spec n.children { wl with _worklist := rest } hchnd
  rw [← hwl'] at hP1 hP2
  have hP2' : wl'._worklist = rest ++ new := by rw [hP2, hnewdef]
  have hP1' : ∀ x, (mapFind x wl'._pending).getD 0
      = (mapFind x wl._pending).getD 0 - (if x ∈ n.children then 1 else 0) := hP1
  have hcp : ∀ x, x ∈ n.children ↔ h ∈ parentsOf edges x := by
    intro x; rw [← hch]; exact hG.child_parent h x
  have hcard : ∀ x, (doneParents edges (h :: D) x).card
      = (doneParents edges D x).card + (if x ∈ n.children then 1 else 0) := by
    intro x
    rw [doneParents_cons _ _ _ _ hhD]
    by_cases hx : x ∈ n.children
    · rw [if_pos hx, if_pos ((hcp x).1 hx)]
    · rw [if_neg hx, if_neg (fun hp => hx ((hcp x).2 hp))]
  have hnew : ∀ x, x ∈ new ↔
      x ∈ n.children ∧ (nbParents edges nb x).card = (doneParents edges D x).card + 1 := by
    intro x; rw [hnewdef]
    exact (new_on_worklist edges roots nb hG _ wl D hI h n hn x).1
  have hfresh : ∀ x, x ∈ new → ¬ (x ∈ D ∨ x ∈ wl._worklist) := by
    intro x; rw [hnewdef]
    exact (new_on_worklist edges roots nb hG _ wl D hI h n hn x).2
  have hold : ∀ x, (x ∈ D ∨ x ∈ wl._worklist) → (x ∈ h :: D ∨ x ∈ rest) := by
    intro x hx
    rcases hx with hx | hx
    · exact Or.inl (List.mem_cons_of_mem _ hx)
    · rw [hwl] at hx
      rcases List.mem_cons.1 hx with rfl | hx'
      · exact Or.inl (List.mem_cons_self _ _)
      · exact Or.inr hx'
  have hold' : ∀ x, (x ∈ h :: D ∨ x ∈ rest) → (x ∈ D ∨ x ∈ wl._worklist) := by
    intro x hx
    rcases hx with hx | hx
    · rcases List.mem_cons.1 hx with rfl | hx'
      · exact Or.inr hhW
      · exact Or.inl hx'
    · exact Or.inr (by rw [hwl]; exact List.mem_cons_of_mem _ hx)
  -- the non-back parents of a new edge have all been taken
  have hnewpar : ∀ x, x ∈ new → ∀ q ∈ doneParents edges (h :: D) x, q ∈ nb := by
    intro x hx q hq
    obtain ⟨hqp, hqd⟩ := (mem_doneParents _ _ _ _).1 hq
    by_contra hqn
    have hxq : x ∈ childrenOf edges q := (hG.child_parent q x).2 hqp
    have hqpush : q ∈ D ∨ q ∈ wl._worklist := hold' q (Or.inl hqd)
    rcases (hI.pushed_iff q).1 hqpush with hr | ⟨hc, _⟩
    · exact hqn (hW.roots_marked q hr)
    · rcases hW.unmarked_cases hG q hc with hs | ⟨_, hs⟩
      · exact hfresh x hx (hI.sibling_pushed hG q q x hs hxq hqpush)
      · rcases hqpush with hqD | hqW
        · exact hfresh x hx (Or.inl (hI.back_done q hqD hqn hs x hxq))
        · rcases hI.back_wait q hqW hqn hs x hxq with h1 | ⟨h1, _⟩
          · exact hfresh x hx (Or.inl h1)
          · exact hfresh x hx (Or.inr h1)
  have hpd' : ∀ x, (x ∈ h :: D ∨ x ∈ rest ++ new) → ∀ p ∈ nbParents edges nb x, p ∈ h :: D := by
    intro x hx p hp
    have hcases : (x ∈ D ∨ x ∈ wl._worklist) ∨ x ∈ new := by
      rcases hx with hx | hx
      · exact Or.inl (hold' x (Or.inl hx))
      · rcases List.mem_append.1 hx with hx' | hx'
        · exact Or.inl (hold' x (Or.inr hx'))
        · exact Or.inr hx'
    rcases hcases with hx | hx
    · exact List.mem_cons_of_mem _ (hI.parents_done x hx p hp)
    · have hsub : doneParents edges (h :: D) x ⊆ nbParents edges nb x := by
        intro q hq
        exact (mem_nbParents _ _ _ _).2 ⟨((mem_doneParents _ _ _ _).1 hq).1, hnewpar x hx q hq⟩
      have hle : (nbParents edges nb x).card ≤ (doneParents edges (h :: D) x).card := by
        rw [hcard x, if_pos ((hnew x).1 hx).1]
        exact Nat.le_of_eq ((hnew x).1 hx).2
      have heq := Finset.eq_of_subset_of_card_le hsub hle
      rw [← heq] at hp
      exact ((mem_doneParents _ _ _ _).1 hp).2
  rw [hval]
  refine ⟨?_, hse, hsn⟩
  show AncInv edges roots nb (mapSet h stored s._ancestorSets) wl' (h :: D)
  refine
    { pend := ?_, wl_nodup := ?_, done_nodup := List.nodup_cons.2 ⟨hhD, hI.done_nodup⟩,
      disjoint := ?_, pushed_iff := ?_, stored_done := ?_, stored_rest := ?_,
      parents_done := ?_, back_done := ?_, back_wait := ?_ }
  · -- pend
    intro x nx hnx
    rw [hP1' x, hI.pend x nx hnx, hcard x]
    split <;> push_cast <;> omega
  · -- wl_nodup
    rw [hP2']
    refine List.nodup_append.2 ⟨hrnd, ?_, ?_⟩
    · rw [hnewdef]; exact hchnd.filter _
    · intro x hx1 hx2
      exact hfresh x hx2 (Or.inr (by rw [hwl]; exact List.mem_cons_of_mem _ hx1))
  · -- disjoint
    intro x hx hxd
    rw [hP2'] at hx
    rcases List.mem_append.1 hx with hx' | hx'
    · rcases List.mem_cons.1 hxd with rfl | hxd'
      · exact hhr hx'
      · exact hI.disjoint x (by rw [hwl]; exact List.mem_cons_of_mem _ hx') hxd'
    · exact hfresh x hx' (hold' x (Or.inl hxd))
  · -- pushed_iff
    intro x
    rw [hP2', hcard x]
    constructor
    · intro hx
      have hcases : (x ∈ D ∨ x ∈ wl._worklist) ∨ x ∈ new := by
        rcases hx with hx | hx
        · exact Or.inl (hold' x (Or.inl hx))
        · rcases List.mem_append.1 hx with hx' | hx'
          · exact Or.inl (hold' x (Or.inr hx'))
          · exact Or.inr hx'
      rcases hcases with hx | hx
      · rcases (hI.pushed_iff x).1 hx with hr | ⟨h1, h2⟩
        · exact Or.inl hr
        · exact Or.inr ⟨h1, Nat.le_trans h2 (Nat.le_add_right _ _)⟩
      · obtain ⟨hxc, hxn⟩ := (hnew x).1 hx
        right
        rw [if_pos hxc]
        omega
    · rintro (hr | ⟨h1, h2⟩)
      · rcases hold x ((hI.pushed_iff x).2 (Or.inl hr)) with h3 | h3
        · exact Or.inl h3
        · exact Or.inr (List.mem_append_left _ h3)
      · by_cases hle : (nbParents edges nb x).card ≤ (doneParents edges D x).card
        · rcases hold x ((hI.pushed_iff x).2 (Or.inr ⟨h1, hle⟩)) with h3 | h3
          · exact Or.inl h3
          · exact Or.inr (List.mem_append_left _ h3)
        · have hxc : x ∈ n.children := by
            by_contra hxc
            rw [if_neg hxc] at h2
            omega
          rw [if_pos hxc] at h2
          exact Or.inr (List.mem_append_right _ ((hnew x).2 ⟨hxc, by omega⟩))
  · -- stored_done
    intro x hx y
    rw [setMapGet_mapSet]
    by_cases hxh : x = h
    · subst hxh
      rw [if_pos rfl, hstored, IndexSet.mem_INTERSECT_iff, mem_ancestors_fold,
        hI.stored_rest x hhD, IndexSet.mem_insert_iff, ← hpa]
      constructor
      · rintro (⟨hy, hyn⟩ | hy)
        · refine ⟨hyn, ?_⟩
          rcases hy with (hy | hy) | ⟨p, hp, hyp⟩
          · exact Or.inl hy
          · exact absurd hy (List.not_mem_nil _)
          · right
            have hpD : p ∈ D := by
              by_contra hpD
              rw [hI.stored_rest p hpD] at hyp
              exact absurd hyp (List.not_mem_nil _)
            have hxp : x ∈ childrenOf edges p := (hG.child_parent p x).2 hp
            obtain ⟨_, hyp'⟩ := (hI.stored_done p hpD y).1 hyp
            by_cases hpn : p ∈ nb
            · rcases hyp' with rfl | hyp'
              · exact Relation.TransGen.single ⟨hpn, hxp⟩
              · exact Relation.TransGen.tail hyp' ⟨hpn, hxp⟩
            · rcases (hI.pushed_iff p).1 (Or.inl hpD) with hr | ⟨hc, _⟩
              · exact absurd (hW.roots_marked p hr) hpn
              · rcases hW.unmarked_cases hG p hc with hs | ⟨_, hs⟩
                · have hne : y ≠ p := fun e => hpn (e ▸ hyn)
                  rcases hyp' with e | hyp'
                  · exact absurd e hne
                  · obtain ⟨q, hq1, hq2⟩ := last_link edges nb y p hyp'
                    have hxq : x ∈ childrenOf edges q := hG.siblings p q p hs hq2.2 x hxp
                    rcases hq1 with rfl | hq1
                    · exact Relation.TransGen.single ⟨hq2.1, hxq⟩
                    · exact Relation.TransGen.tail hq1 ⟨hq2.1, hxq⟩
                · exact absurd (hI.back_done p hpD hpn hs x hxp) hhD
        · exact absurd hy (List.not_mem_nil _)
      · rintro ⟨hyn, hy⟩
        left
        refine ⟨?_, hyn⟩
        rcases hy with hy | hy
        · exact Or.inl (Or.inl hy)
        · obtain ⟨q, hq1, hq2⟩ := last_link edges nb y x hy
          have hqp : q ∈ parentsOf edges x := (hG.child_parent q x).1 hq2.2
          have hqD : q ∈ D :=
            hI.parents_done x (Or.inr hhW) q ((mem_nbParents _ _ _ _).2 ⟨hqp, hq2.1⟩)
          exact Or.inr ⟨q, hqp, (hI.stored_done q hqD y).2 ⟨hyn, hq1⟩⟩
    · rw [if_neg hxh]
      rcases List.mem_cons.1 hx with e | hx'
      · exact absurd e hxh
      · exact hI.stored_done x hx' y
  · -- stored_rest
    intro x hx
    have hxh : x ≠ h := fun e => hx (e ▸ List.mem_cons_self _ _)
    rw [setMapGet_mapSet, if_neg hxh]
    exact hI.stored_rest x (fun hd => hx (List.mem_cons_of_mem _ hd))
  · -- parents_done
    intro x hx
    rw [hP2'] at hx
    exact hpd' x hx
  · -- back_done
    intro p hp hpn hps x hxp
    rcases List.mem_cons.1 hp with rfl | hp'
    · rcases hI.back_wait p hhW hpn hps x hxp with h1 | ⟨_, h1⟩
      · exact List.mem_cons_of_mem _ h1
      · rw [hwl, List.indexOf_cons_self] at h1
        exact absurd h1 (Nat.not_lt_zero _)
    · exact List.mem_cons_of_mem _ (hI.back_done p hp' hpn hps x hxp)
  · -- back_wait
    intro p hp hpn hps x hxp
    rw [hP2'] at hp ⊢
    rcases List.mem_append.1 hp with hp' | hp'
    · have hpW : p ∈ wl._worklist := by rw [hwl]; exact List.mem_cons_of_mem _ hp'
      have hph : p ≠ h := fun e => hhr (e ▸ hp')
      rcases hI.back_wait p hpW hpn hps x hxp with h1 | ⟨h1, h2⟩
      · exact Or.inl (List.mem_cons_of_mem _ h1)
      · rw [hwl] at h1 h2
        rcases List.mem_cons.1 h1 with rfl | h1'
        · exact Or.inl (List.mem_cons_self _ _)
        · have hxh : x ≠ h := fun e => hhr (e ▸ h1')
          rw [List.indexOf_cons_ne _ (fun e => hxh e.symm),
            List.indexOf_cons_ne _ (fun e => hph e.symm)] at h2
          refine Or.inr ⟨List.mem_append_left _ h1', ?_⟩
          rw [List.indexOf_append_of_mem h1', List.indexOf_append_of_mem hp']
          omega
    · have hpc : 1 ≤ (nbParents edges nb p).card := by
        have := ((hnew p).1 hp').2
        omega
      rcases hW.unmarked_cases hG p hpc with hs | ⟨hv, _⟩
      · exact absurd hs hps
      · obtain ⟨c, hcp', _, hl⟩ := hW.back p hv hpn
        have hcD : c ∈ h :: D :=
          closure_done edges nb ⟨roots, hG⟩ (h :: D) (rest ++ new) hpd' c p hl
            (Or.inr (List.mem_append_right _ hp'))
        have hxold : x ∈ D ∨ x ∈ wl._worklist :=
          hI.sibling_pushed hG p c x hcp' hxp (hold' c (Or.inl hcD))
        rcases hold x hxold with h1 | h1
        · exact Or.inl h1
        · refine Or.inr ⟨List.mem_append_left _ h1, ?_⟩
          have hpr : p ∉ rest := fun hpr =>
            hfresh p hp' (Or.inr (by rw [hwl]; exact List.mem_cons_of_mem _ hpr))
          rw [List.indexOf_append_of_mem h1, List.indexOf_append_of_not_mem hpr]
          have := List.indexOf_lt_length.2 h1
          omega

end CFGEdgeDomTree

end Cmbprof

namespace Cmbprof

namespace CFGEdgeDomTree

/-- A list of stored edge indices without duplicates is no longer than the edge map. -/
theorem nodup_length_le (edges : EdgeNodeMap) (L : List EdgeIndex) (hnd : L.Nodup)
    (hreal : ∀ x ∈ L, ∃ n, edgeFind edges x = some n) : L.length ≤ edges.length := by
  have hsub : L ⊆ edges.map (fun e => e.index) := by
    intro x hx
    obtain ⟨n, hn⟩ := hreal x hx
    exact List.mem_map.2 ⟨n, edgeFind_mem _ _ _ hn, edgeFind_index _ _ _ hn⟩
  have := (hnd.subperm hsub).length_le
  rwa [List.length_map] at this

/-- Every edge that is or was on the worklist is stored in the graph. -/
theorem AncInv.real {edges : EdgeNodeMap} {roots nb : IndexSet} {anc : IndexSetMap}
    {wl : Worklist} {D : List EdgeIndex} (hI : AncInv edges roots nb anc wl D)
    (hG : GraphOk edges roots) (x : EdgeIndex) (hx : x ∈ D ∨ x ∈ wl._worklist) :
    ∃ n, edgeFind edges x = some n := by
  rcases (hI.pushed_iff x).1 hx with hr | ⟨h1, _⟩
  · obtain ⟨n, hn, _⟩ := (hG.roots_iff x).1 hr
    exact ⟨n, hn⟩
  · obtain ⟨q, hq⟩ := Finset.card_pos.1 h1
    exact real_of_parent edges x q ((mem_nbParents _ _ _ _).1 hq).1

/-- The loop of `computeAncestorSets` keeps the invariant and, with fuel for every edge not yet
taken, runs until the worklist is empty. -/
theorem ancestorLoop_inv (edges : EdgeNodeMap) (roots nb visited : IndexSet)
    (fin : List EdgeIndex) (hG : GraphOk edges roots) (hW : WalkDone edges roots nb visited fin) :
    ∀ (fuel : Nat) (s : State) (wl : Worklist) (D : List EdgeIndex),
      s._edges = edges → s._nonBackEdges = nb → AncInv edges roots nb s._ancestorSets wl D →
      edges.length + 1 ≤ fuel + D.length →
      ∃ wl' D', wl'._worklist = [] ∧
        AncInv edges roots nb (ancestorLoop fuel s wl)._ancestorSets wl' D' := by
  intro fuel
  induction fuel with
  | zero =>
    intro s wl D _ _ hI hfuel
    cases hwl : wl._worklist with
    | nil => exact ⟨wl, D, hwl, hI⟩
    | cons h rest =>
      have hhW : h ∈ wl._worklist := by rw [hwl]; exact List.mem_cons_self _ _
      have hlen : (h :: D).length ≤ edges.length := by
        apply nodup_length_le edges _ (List.nodup_cons.2 ⟨hI.disjoint h hhW, hI.done_nodup⟩)
        intro x hx
        rcases List.mem_cons.1 hx with rfl | hx'
        · exact hI.real hG x (Or.inr hhW)
        · exact hI.real hG x (Or.inl hx')
      simp only [List.length_cons] at hlen
      omega
  | succ fuel ih =>
    intro s wl D hse hsn hI hfuel
    cases hwl : wl._worklist with
    | nil =>
      have hval : ancestorLoop (fuel + 1) s wl = s := by
        simp only [ancestorLoop, hwl]
      rw [hval]
      exact ⟨wl, D, hwl, hI⟩
    | cons h rest =>
      have hval : ancestorLoop (fuel + 1) s wl
          = ancestorLoop fuel (ancestorStep s { wl with _worklist := rest } h).1
              (ancestorStep s { wl with _worklist := rest } h).2 := by
        simp only [ancestorLoop, hwl]
      rw [hval]
      obtain ⟨hI', hse', hsn'⟩ :=
        ancestorStep_inv edges roots nb visited fin hG hW s hse hsn wl D h rest hwl hI
      exact ih _ _ (h :: D) hse' hsn' hI' (by simp only [List.length_cons]; omega)

/-- The worklist after the roots have been pushed. -/
theorem push_fold :
    ∀ (rs : List EdgeIndex) (w : Worklist),
      (rs.foldl (fun w r => w.push r) w)._worklist = w._worklist ++ rs ∧
      (rs.foldl (fun w r => w.push r) w)._pending = w._pending := by
  intro rs
  induction rs with
  | nil => intro w; simp
  | cons r rest ih =>
    intro w
    obtain ⟨h1, h2⟩ := ih (w.push r)
    rw [List.foldl_cons, h1, h2]
    simp [Worklist.push]

/-- The invariant holds when the loop of `computeAncestorSets` starts: the roots are on the
worklist, no ancestor set is stored and no edge has been taken. -/
theorem AncInv_init (edges : EdgeNodeMap) (roots nb visited : IndexSet) (fin : List EdgeIndex)
    (hG : GraphOk edges roots) (hW : WalkDone edges roots nb visited fin) (hrn : roots.Nodup) :
    AncInv edges roots nb [] (roots.foldl (fun w r => w.push r) (Worklist.new edges nb)) [] := by
  obtain ⟨h1, h2⟩ := push_fold roots (Worklist.new edges nb)
  have hwl : (roots.foldl (fun w r => w.push r) (Worklist.new edges nb))._worklist = roots := by
    rw [h1]; simp [Worklist.new]
  have hd0 : ∀ x, doneParents edges [] x = ∅ := by
    intro x
    ext q
    simp [mem_doneParents]
  refine
    { pend := ?_, wl_nodup := by rw [hwl]; exact hrn, done_nodup := List.nodup_nil,
      disjoint := fun _ _ h => absurd h (List.not_mem_nil _), pushed_iff := ?_,
      stored_done := fun _ h => absurd h (List.not_mem_nil _), stored_rest := fun _ _ => rfl,
      parents_done := ?_, back_done := fun _ h => absurd h (List.not_mem_nil _),
      back_wait := ?_ }
  · intro x n hn
    rw [h2, hd0 x]
    have := new_pending nb edges [] x hG.index_nodup
    rw [hn] at this
    simp only [Worklist.new]
    rw [this, Option.getD_some, IndexSet.INTERSECT_length]
    simp only [nbParents, parentsOf_eq _ _ _ hn, Finset.card_empty, Int.ofNat_eq_coe]
    omega
  · intro x
    rw [hwl, hd0 x, Finset.card_empty]
    constructor
    · rintro (h | h)
      · exact absurd h (List.not_mem_nil _)
      · exact Or.inl h
    · rintro (h | ⟨h3, h4⟩)
      · exact Or.inr h
      · omega
  · intro x hx p hp
    rw [hwl] at hx
    rcases hx with hx | hx
    · exact absurd hx (List.not_mem_nil _)
    · have := (mem_nbParents _ _ _ _).1 hp
      rw [hG.root_parents x hx] at this
      exact absurd this.1 (List.not_mem_nil _)
  · intro p hp hpn _ _ _
    rw [hwl] at hp
    exact absurd (hW.roots_marked p hp) hpn

/-- When the worklist is empty, every non-back edge has been taken from it. -/
theorem marked_done (edges : EdgeNodeMap) (roots nb visited : IndexSet) (fin : List EdgeIndex)
    (hG : GraphOk edges roots) (hW : WalkDone edges roots nb visited fin)
    (anc : IndexSetMap) (wl : Worklist) (D : List EdgeIndex)
    (hI : AncInv edges roots nb anc wl D) (hwl : wl._worklist = []) :
    ∀ x ∈ nb, x ∈ D := by
  have key : ∀ k x, x ∈ nb → fin.indexOf x = k → x ∈ D := by
    intro k
    induction k using Nat.strong_induction_on with
    | _ k ih =>
      intro x hx hk
      have hpush : x ∈ D ∨ x ∈ wl._worklist := by
        rw [hI.pushed_iff]
        rcases hW.marked_parent x hx with hr | ⟨p, hp, hxp⟩
        · exact Or.inl hr
        · right
          have hsub : nbParents edges nb x ⊆ doneParents edges D x := by
            intro q hq
            obtain ⟨hq1, hq2⟩ := (mem_nbParents _ _ _ _).1 hq
            have hxq : x ∈ childrenOf edges q := (hG.child_parent q x).2 hq1
            have hlt := (Topo_index edges nb fin hW.topo hW.fin_nodup q x (hW.marked_fin q hq2)
              hxq hx).2
            exact (mem_doneParents _ _ _ _).2 ⟨hq1, ih _ (hk ▸ hlt) q hq2 rfl⟩
          refine ⟨Finset.card_pos.2 ⟨p, (mem_nbParents _ _ _ _).2 ⟨(hG.child_parent p x).1 hxp, hp⟩⟩,
            Finset.card_le_card hsub⟩
      rw [hwl] at hpush
      rcases hpush with h | h
      · exact h
      · exact absurd h (List.not_mem_nil _)
  intro x hx
  exact key _ x hx rfl

/-- An edge that is reachable from a root is a root or the child of a non-back edge. -/
theorem reach_parent (edges : EdgeNodeMap) (roots nb visited : IndexSet) (fin : List EdgeIndex)
    (hG : GraphOk edges roots) (hW : WalkDone edges roots nb visited fin) (x : EdgeIndex)
    (hx : Reach edges roots x) : x ∈ roots ∨ ∃ p ∈ nb, x ∈ childrenOf edges p := by
  induction hx with
  | root x hr => exact Or.inl hr
  | step q x _ hxq ih =>
    right
    by_cases hqn : q ∈ nb
    · exact ⟨q, hqn, hxq⟩
    · rcases ih with hr | ⟨p, hp, hqp⟩
      · exact absurd (hW.roots_marked q hr) hqn
      · rcases hW.marked_children p hp q hqp with hv | hs
        · obtain ⟨c, hcq, hcn, _⟩ := hW.back q hv hqn
          rcases hW.marked_parent c hcn with hr | ⟨p', hp', hcp'⟩
          · exact absurd hr (hG.child_not_root q c hcq)
          · exact ⟨p', hp', hG.siblings q p' c hcq hcp' x hxq⟩
        · obtain ⟨n, hn⟩ := hG.child_real p q hqp
          have hqq : q ∈ childrenOf edges q := by
            rw [childrenOf_eq _ _ _ hn]
            exact (hG.self_child q n hn).2 (hs n hn)
          exact ⟨p, hp, hG.siblings q p q hqq hqp x hxq⟩

/-- When the worklist is empty, every edge that is reachable from a root has been taken from
it. -/
theorem reach_done (edges : EdgeNodeMap) (roots nb visited : IndexSet) (fin : List EdgeIndex)
    (hG : GraphOk edges roots) (hW : WalkDone edges roots nb visited fin)
    (anc : IndexSetMap) (wl : Worklist) (D : List EdgeIndex)
    (hI : AncInv edges roots nb anc wl D) (hwl : wl._worklist = []) (x : EdgeIndex)
    (hx : Reach edges roots x) : x ∈ D := by
  have hpush : x ∈ D ∨ x ∈ wl._worklist := by
    rw [hI.pushed_iff]
    rcases reach_parent edges roots nb visited fin hG hW x hx with hr | ⟨p, hp, hxp⟩
    · exact Or.inl hr
    · right
      have hsub : nbParents edges nb x ⊆ doneParents edges D x := by
        intro q hq
        obtain ⟨hq1, hq2⟩ := (mem_nbParents _ _ _ _).1 hq
        exact (mem_doneParents _ _ _ _).2
          ⟨hq1, marked_done edges roots nb visited fin hG hW anc wl D hI hwl q hq2⟩
      exact ⟨Finset.card_pos.2 ⟨p, (mem_nbParents _ _ _ _).2 ⟨(hG.child_parent p x).1 hxp, hp⟩⟩,
        Finset.card_le_card hsub⟩
  rw [hwl] at hpush
  rcases hpush with h | h
  · exact h
  · exact absurd h (List.not_mem_nil _)

/-- The ancestor set of the claim satisfies the equation by which the claim defines it. -/
theorem Anc_equation (edges : EdgeNodeMap) (roots nb : IndexSet) (hG : GraphOk edges roots)
    (e y : EdgeIndex) :
    Anc edges nb e y ↔
      y ∈ nb ∧ (y = e ∨ ∃ p ∈ nb, p ∈ parentsOf edges e ∧ Anc edges nb p y) := by
  constructor
  · rintro ⟨hy, h⟩
    refine ⟨hy, ?_⟩
    rcases h with h | h
    · exact Or.inl h
    · obtain ⟨q, hq1, hq2⟩ := last_link edges nb y e h
      exact Or.inr ⟨q, hq2.1, (hG.child_parent q e).1 hq2.2, hy, hq1⟩
  · rintro ⟨hy, h⟩
    refine ⟨hy, ?_⟩
    rcases h with h | ⟨p, hp, hpe, _, hyp⟩
    · exact Or.inl h
    · right
      have hl : NbLink edges nb p e := ⟨hp, (hG.child_parent p e).2 hpe⟩
      rcases hyp with rfl | hyp
      · exact Relation.TransGen.single hl
      · exact Relation.TransGen.tail hyp hl

end CFGEdgeDomTree

end Cmbprof

namespace Cmbprof

namespace CFGEdgeDomTree

/-- Looking up the index of a stored node gives the node, when no two nodes share an index. -/
theorem edgeFind_of_mem :
    ∀ (es : EdgeNodeMap), (es.map (fun e => e.index)).Nodup → ∀ n ∈ es,
      edgeFind es n.index = some n := by
  intro es
  induction es with
  | nil => intro _ n hn; exact absurd hn (List.not_mem_nil _)
  | cons e rest ih =>
    intro hnd n hn
    simp only [List.map_cons, List.nodup_cons] at hnd
    rcases List.mem_cons.1 hn with rfl | hn'
    · unfold edgeFind
      exact List.find?_cons_of_pos _ (by simp)
    · have hne : e.index ≠ n.index := fun h => hnd.1 (h ▸ List.mem_map_of_mem _ hn')
      have := ih hnd.2 n hn'
      unfold edgeFind at this ⊢
      rw [List.find?_cons_of_neg _ (by simpa using hne)]
      exact this

theorem childrenOf_none (edges : EdgeNodeMap) (x : EdgeIndex)
    (h : edgeFind edges x = none) : childrenOf edges x = [] := by
  simp [childrenOf, h]

theorem buildGraph_index (es : EdgeNodeMap) :
    (buildGraph es).map (fun e => e.index) = es.map (fun e => e.index) := by
  have := congrArg (List.map (fun t : EdgeIndex × BlockRef × BlockRef × Option EdgeIndex => t.1))
    (buildGraph_shape es)
  simpa [List.map_map, Function.comp] using this

/-- In the graph of a function, an edge among the parents of another has that other edge among
its children. -/
theorem buildGraph_parent_child (F : IRFunction) (first : EdgeIndex) (p x : EdgeIndex)
    (h : p ∈ parentsOf (buildGraph (createEdges F first)) x) :
    x ∈ childrenOf (buildGraph (createEdges F first)) p := by
  unfold parentsOf at h
  cases hx : edgeFind (buildGraph (createEdges F first)) x with
  | none => rw [hx] at h; exact absurd h (List.not_mem_nil _)
  | some nx =>
    rw [hx] at h
    obtain ⟨ex, hex, hxi, _, _, _, hxp⟩ := edgeFind_buildGraph F first x nx hx
    obtain ⟨c, hc, hts, hci⟩ := (hxp p).1 h
    obtain ⟨np, hnp⟩ := edgeFind_buildGraph_some F first c hc
    rw [hci] at hnp
    obtain ⟨ep, hep, hpi, _, _, hpc, _⟩ := edgeFind_buildGraph F first p np hnp
    have : ep = c := createEdges_inj F first ep c hep hc (hpi.trans hci.symm)
    subst this
    unfold childrenOf
    rw [hnp]
    exact (hpc x).2 ⟨ex, hex, hts, hxi⟩

/-- The graph of a function and its roots have the structure that the ancestor sets rely on. -/
theorem buildGraph_ok (F : IRFunction) (first : EdgeIndex) :
    GraphOk (buildGraph (createEdges F first)) (afterNonBackEdges F first)._roots where
  index_nodup := by
    rw [buildGraph_index, createEdges_index]
    exact List.nodup_range' _ _
  child_parent := fun p x =>
    ⟨buildGraph_child_parent F first p x, buildGraph_parent_child F first p x⟩
  siblings := by
    intro p q c hcp hcq x hxp
    cases hp : edgeFind (buildGraph (createEdges F first)) p with
    | none =>
      rw [childrenOf_none _ _ hp] at hcp
      exact absurd hcp (List.not_mem_nil _)
    | some np =>
      cases hq : edgeFind (buildGraph (createEdges F first)) q with
      | none =>
        rw [childrenOf_none _ _ hq] at hcq
        exact absurd hcq (List.not_mem_nil _)
      | some nq =>
        rw [childrenOf_eq _ _ _ hp] at hcp hxp
        rw [childrenOf_eq _ _ _ hq] at hcq ⊢
        obtain ⟨ep, hep, _, _, _, hpc, _⟩ := edgeFind_buildGraph F first p np hp
        obtain ⟨eq, heq, _, _, _, hqc, _⟩ := edgeFind_buildGraph F first q nq hq
        obtain ⟨c1, hc1, ht1, hi1⟩ := (hpc c).1 hcp
        obtain ⟨c2, hc2, ht2, hi2⟩ := (hqc c).1 hcq
        have : c1 = c2 := createEdges_inj F first c1 c2 hc1 hc2 (hi1.trans hi2.symm)
        subst this
        obtain ⟨cx, hcx, htx, hix⟩ := (hpc x).1 hxp
        exact (hqc x).2 ⟨cx, hcx, by rw [ht2, ← ht1, htx], hix⟩
  children_nodup := by
    intro x
    cases hx : edgeFind (buildGraph (createEdges F first)) x with
    | none =>
      rw [childrenOf_none _ _ hx]
      exact List.nodup_nil
    | some n =>
      rw [childrenOf_eq _ _ _ hx]
      have hm := edgeFind_mem _ _ _ hx
      simp only [buildGraph, List.mem_map] at hm
      obtain ⟨e, he, heq⟩ := hm
      subst heq
      simp only
      rw [(createEdges_mem F first e he).1]
      exact IndexSet.nodup_insertAll _
  child_real := by
    intro p x hxp
    cases hp : edgeFind (buildGraph (createEdges F first)) p with
    | none =>
      rw [childrenOf_none _ _ hp] at hxp
      exact absurd hxp (List.not_mem_nil _)
    | some np =>
      rw [childrenOf_eq _ _ _ hp] at hxp
      obtain ⟨ep, _, _, _, _, hpc, _⟩ := edgeFind_buildGraph F first p np hp
      obtain ⟨c, hc, _, hci⟩ := (hpc x).1 hxp
      rw [← hci]
      exact edgeFind_buildGraph_some F first c hc
  self_child := by
    intro x n hn
    refine ⟨buildGraph_selfChild F first x n hn, fun hs => ?_⟩
    obtain ⟨e, he, hi, hsrc, htgt, hc, _⟩ := edgeFind_buildGraph F first x n hn
    refine (hc x).2 ⟨e, he, ?_, hi⟩
    rw [hsrc, htgt] at hs
    have : e.source = e.target := by simpa using hs
    exact this.symm
  roots_iff := by
    intro x
    show x ∈ IndexSet.insertAll _ [] ↔ _
    rw [IndexSet.mem_insertAll_iff]
    have hnd : ((buildGraph (createEdges F first)).map (fun e => e.index)).Nodup := by
      rw [buildGraph_index, createEdges_index]
      exact List.nodup_range' _ _
    constructor
    · rintro (h | h)
      · obtain ⟨n, hn, hi⟩ := List.mem_map.1 h
        obtain ⟨hn1, hn2⟩ := List.mem_filter.1 hn
        refine ⟨n, ?_, ?_⟩
        · rw [← hi]; exact edgeFind_of_mem _ hnd n hn1
        · have : n.parents.length = 0 := by simpa using hn2
          exact List.length_eq_zero.1 this
      · exact absurd h (List.not_mem_nil _)
    · rintro ⟨n, hn, hp⟩
      left
      exact List.mem_map.2 ⟨n, List.mem_filter.2 ⟨edgeFind_mem _ _ _ hn, by simp [hp]⟩,
        edgeFind_index _ _ _ hn⟩

/-- The walk of the constructor over the graph of a function ends in a state that satisfies
the invariant of the walk, with an empty current path and every root visited or passed
over. -/
theorem walk_final (F : IRFunction) (first : EdgeIndex) :
    ∃ (wf : Walk) (fin : List EdgeIndex),
      (afterNonBackEdges F first)._nonBackEdges = wf.nonBackEdges ∧
      WalkInv (buildGraph (createEdges F first)) (afterNonBackEdges F first)._roots wf fin ∧
      wf.currPath = [] ∧
      ∀ r ∈ (afterNonBackEdges F first)._roots,
        r ∈ wf.visited ∨ Skipped (buildGraph (createEdges F first)) r := by
  obtain ⟨fin, hinv, hcp, _, hdone⟩ :=
    walk_roots (buildGraph (createEdges F first)) (afterNonBackEdges F first)._roots
      ((buildGraph (createEdges F first)).length + 1)
      (walk_call _ _ (buildGraph_selfChild F first) _) (afterNonBackEdges F first)._roots
      { visited := [], currPath := [], nonBackEdges := [] } [] (WalkInv_empty _ _)
      (Nat.lt_succ_of_le (unvisited_le_length _ _)) rfl (fun _ h => h)
  exact ⟨_, fin, rfl, hinv, hcp, hdone⟩

/-- What the walk of the constructor has established of the graph of a function when it
ends. -/
theorem walk_done (F : IRFunction) (first : EdgeIndex) :
    ∃ (visited : IndexSet) (fin : List EdgeIndex),
      WalkDone (buildGraph (createEdges F first)) (afterNonBackEdges F first)._roots
        (afterNonBackEdges F first)._nonBackEdges visited fin := by
  obtain ⟨wf, fin, hnb, hinv, hcp, hdone⟩ := walk_final F first
  have hG := buildGraph_ok F first
  rw [hnb]
  have hfin : ∀ x ∈ wf.nonBackEdges, x ∈ fin := by
    intro x hx
    rcases hinv.marked_cases x hx with h | h
    · rw [hcp] at h; exact absurd h (List.not_mem_nil _)
    · exact h
  refine ⟨wf.visited, fin,
    { marked_visited := hinv.marked_visited, visited_real := hinv.visited_real,
      back := hinv.back,
      marked_children := fun e he c hc => hinv.fin_children e (hfin e he) c hc,
      topo := hinv.topo, fin_nodup := hinv.fin_nodup, marked_fin := hfin,
      marked_parent := ?_, roots_marked := ?_ }⟩
  · intro x hx
    cases hinv.reach x hx with
    | root _ h1 _ => exact Or.inl h1
    | step p _ h1 h2 _ => exact Or.inr ⟨p, MarkedReach_mem _ _ _ _ h1, h2⟩
  · intro r hr
    have hv : r ∈ wf.visited := by
      rcases hdone r hr with h | h
      · exact h
      · obtain ⟨n, hn, hp⟩ := (hG.roots_iff r).1 hr
        have hrr : r ∈ childrenOf (buildGraph (createEdges F first)) r := by
          rw [childrenOf_eq _ _ _ hn]
          exact (hG.self_child r n hn).2 (h n hn)
        exact absurd hr (hG.child_not_root r r hrr)
    by_contra hn
    obtain ⟨c, _, _, hl⟩ := hinv.back r hv hn
    obtain ⟨q, _, hq⟩ := last_link _ _ c r hl
    exact hG.child_not_root q r hq.2 hr

/-- C37. For a function with a body, after `computeAncestorSets` the ancestor set stored for
every edge `e` that is reachable from a root holds exactly the non-back edges that are `e`
itself or from which `e` is reached by parent-to-child links that all start at non-back edges;
this set satisfies the equation of the claim, anc(e) = ({e} united with the sets anc(p) of the
non-back parents p of e) intersected with the non-back edges. The constructor goes on from this
state with `computeEdgeDominance`. -/
theorem computeAncestorSets_spec (F : IRFunction) (first : EdgeIndex)
    (hF : F.isDeclaration = false) :
    (∀ e, Reach (afterNonBackEdges F first)._edges (afterNonBackEdges F first)._roots e →
      ∀ y, y ∈ setMapGet (computeAncestorSets (afterNonBackEdges F first))._ancestorSets e ↔
        Anc (afterNonBackEdges F first)._edges (afterNonBackEdges F first)._nonBackEdges e y) ∧
    (∀ e y, Anc (afterNonBackEdges F first)._edges (afterNonBackEdges F first)._nonBackEdges e y ↔
      y ∈ (afterNonBackEdges F first)._nonBackEdges ∧
      (y = e ∨ ∃ p ∈ (afterNonBackEdges F first)._nonBackEdges,
        p ∈ parentsOf (afterNonBackEdges F first)._edges e ∧
        Anc (afterNonBackEdges F first)._edges (afterNonBackEdges F first)._nonBackEdges p y)) ∧
    construct F first
      = computeEdgeDominance (computeAncestorSets (afterNonBackEdges F first)) := by
  have hG := buildGraph_ok F first
  obtain ⟨visited, fin, hW⟩ := walk_done F first
  have hE : (afterNonBackEdges F first)._edges = buildGraph (createEdges F first) := rfl
  have hA : (afterNonBackEdges F first)._ancestorSets = [] := rfl
  have hrn : (afterNonBackEdges F first)._roots.Nodup := IndexSet.nodup_insertAll _
  have hinit := AncInv_init _ _ _ visited fin hG hW hrn
  obtain ⟨wl', D', hwl', hI⟩ :=
    ancestorLoop_inv _ _ _ visited fin hG hW ((buildGraph (createEdges F first)).length + 1)
      (afterNonBackEdges F first)
      ((afterNonBackEdges F first)._roots.foldl (fun w r => w.push r)
        (Worklist.new (buildGraph (createEdges F first)) (afterNonBackEdges F first)._nonBackEdges))
      [] hE rfl (by rw [hA]; exact hinit) (by simp)
  rw [hE]
  refine ⟨?_, fun e y => Anc_equation _ _ _ hG e y, ?_⟩
  · intro e he y
    have hD := reach_done _ _ _ visited fin hG hW _ wl' D' hI hwl' e he
    exact hI.stored_done e hD y
  · simp only [construct, hF, Bool.false_eq_true, if_false]
    rfl

/-- C37 witness: the function `twoEntryLoop`; the ancestor set stored for edge 5 (3→2) is
`[0, 1, 3, 5]` and the one stored for the back edge 4 (2→3) is `[0, 1, 2, 3, 5]`. -/
theorem computeAncestorSets_spec_witness :
    twoEntryLoop.isDeclaration = false ∧
    setMapGet (computeAncestorSets (afterNonBackEdges twoEntryLoop 0))._ancestorSets 5
      = [0, 1, 3, 5] ∧
    setMapGet (computeAncestorSets (afterNonBackEdges twoEntryLoop 0))._ancestorSets 4
      = [0, 1, 2, 3, 5] ∧
    (∀ e, Reach (afterNonBackEdges twoEntryLoop 0)._edges (afterNonBackEdges twoEntryLoop 0)._roots e →
      ∀ y, y ∈ setMapGet (computeAncestorSets (afterNonBackEdges twoEntryLoop 0))._ancestorSets e ↔
        Anc (afterNonBackEdges twoEntryLoop 0)._edges
          (afterNonBackEdges twoEntryLoop 0)._nonBackEdges e y) ∧
    (∀ e y, Anc (afterNonBackEdges twoEntryLoop 0)._edges
        (afterNonBackEdges twoEntryLoop 0)._nonBackEdges e y ↔
      y ∈ (afterNonBackEdges twoEntryLoop 0)._nonBackEdges ∧
      (y = e ∨ ∃ p ∈ (afterNonBackEdges twoEntryLoop 0)._nonBackEdges,
        p ∈ parentsOf (afterNonBackEdges twoEntryLoop 0)._edges e ∧
        Anc (afterNonBackEdges twoEntryLoop 0)._edges
          (afterNonBackEdges twoEntryLoop 0)._nonBackEdges p y)) ∧
    construct twoEntryLoop 0
      = computeEdgeDominance (computeAncestorSets (afterNonBackEdges twoEntryLoop 0)) :=
  ⟨rfl, by decide, by decide, computeAncestorSets_spec twoEntryLoop 0 rfl⟩

end CFGEdgeDomTree

end Cmbprof

namespace Cmbprof

namespace CFGEdgeDomTree

theorem mem_inter_fold (anc : IndexSetMap) (y : EdgeIndex) :
    ∀ (ps : List EdgeIndex) (init : IndexSet),
      y ∈ ps.foldl (fun acc parent => IndexSet.INTERSECT acc (setMapGet anc parent) []) init
        ↔ y ∈ init ∧ ∀ p ∈ ps, y ∈ setMapGet anc p := by
  intro ps
  induction ps with
  | nil => intro init; simp
  | cons p rest ih =>
    intro init
    rw [List.foldl_cons, ih, IndexSet.mem_INTERSECT_iff]
    simp only [List.mem_cons, forall_eq_or_imp, List.not_mem_nil, or_false]
    constructor
    · rintro ⟨⟨h1, h2⟩, h3⟩; exact ⟨h1, h2, h3⟩
    · rintro ⟨h1, h2, h3⟩; exact ⟨⟨h1, h2⟩, h3⟩

theorem inter_fold_nodup (anc : IndexSetMap) :
    ∀ (ps : List EdgeIndex) (init : IndexSet), ps ≠ [] ∨ init.Nodup →
      (ps.foldl (fun acc parent => IndexSet.INTERSECT acc (setMapGet anc parent) []) init).Nodup := by
  intro ps
  induction ps with
  | nil =>
    intro init h
    rcases h with h | h
    · exact absurd rfl h
    · exact h
  | cons p rest ih =>
    intro init _
    rw [List.foldl_cons]
    exact ih _ (Or.inr (IndexSet.nodup_insertAll _))

/-- The pruning loop never grows the set, and an element that was due for a test and has
another remaining element above it does not remain. -/
theorem prune_fold (anc : IndexSetMap) :
    ∀ (todo : List EdgeIndex) (cur : IndexSet),
      (∀ x ∈ todo.foldl (fun cur a1 =>
          if cur.any (fun a2 => a2 != a1 && IndexSet.mem a1 (setMapGet anc a2)) then
            IndexSet.erase a1 cur
          else cur) cur, x ∈ cur) ∧
      (cur ≠ [] → todo.foldl (fun cur a1 =>
          if cur.any (fun a2 => a2 != a1 && IndexSet.mem a1 (setMapGet anc a2)) then
            IndexSet.erase a1 cur
          else cur) cur ≠ []) ∧
      (cur.Nodup → (todo.foldl (fun cur a1 =>
          if cur.any (fun a2 => a2 != a1 && IndexSet.mem a1 (setMapGet anc a2)) then
            IndexSet.erase a1 cur
          else cur) cur).Nodup) ∧
      (∀ a ∈ todo, ∀ b ∈ todo.foldl (fun cur a1 =>
          if cur.any (fun a2 => a2 != a1 && IndexSet.mem a1 (setMapGet anc a2)) then
            IndexSet.erase a1 cur
          else cur) cur, b ≠ a → a ∈ setMapGet anc b →
        a ∉ todo.foldl (fun cur a1 =>
          if cur.any (fun a2 => a2 != a1 && IndexSet.mem a1 (setMapGet anc a2)) then
            IndexSet.erase a1 cur
          else cur) cur) := by
  intro todo
  induction todo with
  | nil =>
    intro cur
    exact ⟨fun _ h => h, fun h => h, fun h => h, fun _ h => absurd h (List.not_mem_nil _)⟩
  | cons a1 rest ih =>
    intro cur
    obtain ⟨cur1, hcur1⟩ : ∃ cur1, cur1 =
        (if cur.any (fun a2 => a2 != a1 && IndexSet.mem a1 (setMapGet anc a2)) then
          IndexSet.erase a1 cur
        else cur) := ⟨_, rfl⟩
    obtain ⟨i1, i2, i3, i4⟩ := ih cur1
    have hsub : ∀ x ∈ cur1, x ∈ cur := by
      intro x hx
      rw [hcur1] at hx
      split at hx
      · exact ((IndexSet.mem_erase_iff _ _ _).1 hx).1
      · exact hx
    rw [List.foldl_cons, ← hcur1]
    refine ⟨fun x hx => hsub x (i1 x hx), fun hne => i2 ?_, fun hnd => i3 ?_, ?_⟩
    · rw [hcur1]
      split
      · rename_i hany
        obtain ⟨a2, ha2, hc⟩ := List.any_eq_true.1 hany
        have hne2 : a2 ≠ a1 := by
          have hc' := hc
          simp only [Bool.and_eq_true, bne_iff_ne, ne_eq] at hc'
          exact hc'.1
        intro hnil
        have : a2 ∈ IndexSet.erase a1 cur := (IndexSet.mem_erase_iff _ _ _).2 ⟨ha2, hne2⟩
        rw [hnil] at this
        exact absurd this (List.not_mem_nil _)
      · exact hne
    · rw [hcur1]
      split
      · exact hnd.filter _
      · exact hnd
    · intro a ha b hb hba hab
      rcases List.mem_cons.1 ha with rfl | ha'
      · intro hmem
        have hbc : b ∈ cur := hsub b (i1 b hb)
        have hany : cur.any (fun a2 => a2 != a && IndexSet.mem a (setMapGet anc a2)) = true := by
          apply List.any_eq_true.2
          refine ⟨b, hbc, ?_⟩
          rw [Bool.and_eq_true]
          exact ⟨by simpa using hba, (IndexSet.mem_eq_true_iff _ _).2 hab⟩
        have ha1 : a ∈ cur1 := i1 a hmem
        rw [hcur1, if_pos hany] at ha1
        exact ((IndexSet.mem_erase_iff _ _ _).1 ha1).2 rfl
      · exact i4 a ha' b hb hba hab

/-- When the common ancestors are not empty, hold no element twice and any two of them are
related by the ancestor sets one way or the other, the pruning loop leaves exactly one. -/
theorem prune_single (anc : IndexSetMap) (ancestors : IndexSet) (hne : ancestors ≠ [])
    (hnd : ancestors.Nodup)
    (hcmp : ∀ a ∈ ancestors, ∀ b ∈ ancestors, a ≠ b →
      a ∈ setMapGet anc b ∨ b ∈ setMapGet anc a) :
    ∃ d, prune anc ancestors = [d] ∧ d ∈ ancestors := by
  obtain ⟨i1, i2, i3, i4⟩ := prune_fold anc ancestors ancestors
  have hp : prune anc ancestors = ancestors.foldl (fun cur a1 =>
      if cur.any (fun a2 => a2 != a1 && IndexSet.mem a1 (setMapGet anc a2)) then
        IndexSet.erase a1 cur
      else cur) ancestors := rfl
  rw [← hp] at i1 i2 i3 i4
  cases hres : prune anc ancestors with
  | nil => exact absurd hres (i2 hne)
  | cons d tl =>
    have hd : d ∈ prune anc ancestors := by rw [hres]; exact List.mem_cons_self _ _
    cases tl with
    | nil => exact ⟨d, rfl, i1 d hd⟩
    | cons d2 tl2 =>
      exfalso
      have hd2 : d2 ∈ prune anc ancestors := by
        rw [hres]; exact List.mem_cons_of_mem _ (List.mem_cons_self _ _)
      have hnd' := i3 hnd
      rw [hres] at hnd'
      have hne2 : d ≠ d2 := by
        intro e
        have := (List.nodup_cons.1 hnd').1
        exact this (e ▸ List.mem_cons_self _ _)
      rcases hcmp d (i1 d hd) d2 (i1 d2 hd2) hne2 with h | h
      · exact i4 d (i1 d hd) d2 hd2 (fun e => hne2 e.symm) h hd
      · exact i4 d2 (i1 d2 hd2) d hd hne2 h hd2

/-- Looking up an index after an in-place update that keeps the indices. -/
theorem edgeFind_edgeUpdate (i : EdgeIndex) (f : EdgeNode → EdgeNode)
    (hf : ∀ e, (f e).index = e.index) (x : EdgeIndex) :
    ∀ es : EdgeNodeMap, edgeFind (edgeUpdate es i f) x
      = (edgeFind es x).map (fun e => if e.index = i then f e else e) := by
  intro es
  induction es with
  | nil => rfl
  | cons e rest ih =>
    unfold edgeFind edgeUpdate at ih ⊢
    rw [List.map_cons]
    have hidx : (if e.index = i then f e else e).index = e.index := by
      split
      · exact hf e
      · rfl
    by_cases hx : e.index = x
    · rw [List.find?_cons_of_pos _ (by simpa using (hidx.trans hx)),
        List.find?_cons_of_pos _ (by simpa using hx)]
      rfl
    · rw [List.find?_cons_of_neg _ (by rw [hidx]; simpa using hx),
        List.find?_cons_of_neg _ (by simpa using hx)]
      exact ih

/-- Looking up an index after the dominator `d` of `c` has been recorded: the node of `c`
has `domIndex = d`, every other node keeps its `domIndex`. -/
theorem edgeFind_assignDom (es : EdgeNodeMap) (c d x : EdgeIndex) (n : EdgeNode)
    (h : edgeFind es x = some n) :
    ∃ n', edgeFind (assignDom es c d) x = some n' ∧
      n'.domIndex = (if x = c then some d else n.domIndex) := by
  have hx : n.index = x := edgeFind_index _ _ _ h
  unfold assignDom
  rw [edgeFind_edgeUpdate d (fun e : EdgeNode =>
      { e with domChildren := IndexSet.insert c e.domChildren }) (fun _ => rfl),
    edgeFind_edgeUpdate c (fun e : EdgeNode => { e with domIndex := some d }) (fun _ => rfl), h]
  simp only [Option.map_some']
  refine ⟨_, rfl, ?_⟩
  by_cases hc : x = c
  · rw [if_pos hc, if_pos (hx.trans hc)]
    split <;> rfl
  · rw [if_neg hc, if_neg (fun e => hc (hx.symm.trans e))]
    split <;> rfl

theorem assignDom_shape (es : EdgeNodeMap) (c d : EdgeIndex) :
    (assignDom es c d).map shapeOnly = es.map shapeOnly := by
  unfold assignDom
  exact assign_map shapeOnly es c d (fun _ _ => rfl) (fun _ _ _ => rfl)

/-- Two edge maps with the same shape store, under every index, nodes of the same shape. -/
theorem edgeFind_shape :
    ∀ (es es' : EdgeNodeMap), es'.map shapeOnly = es.map shapeOnly → ∀ x,
      (edgeFind es' x).map shapeOnly = (edgeFind es x).map shapeOnly := by
  intro es
  induction es with
  | nil =>
    intro es' h x
    have : es' = [] := by simpa using h
    rw [this]
  | cons e rest ih =>
    intro es' h x
    cases es' with
    | nil => simp at h
    | cons e' rest' =>
      simp only [List.map_cons, List.cons.injEq] at h
      have hi : (shapeOnly e').index = (shapeOnly e).index := congrArg EdgeNode.index h.1
      change e'.index = e.index at hi
      unfold edgeFind at ih ⊢
      by_cases hx : e.index = x
      · rw [List.find?_cons_of_pos _ (by simpa using (hi.trans hx)),
          List.find?_cons_of_pos _ (by simpa using hx)]
        simp only [Option.map_some', h.1]
      · rw [List.find?_cons_of_neg _ (by rw [hi]; simpa using hx),
          List.find?_cons_of_neg _ (by simpa using hx)]
        exact ih rest' h.2 x

/-- Two edge maps with the same shape: a node stored in one has a counterpart in the other
with the same children and parents. -/
theorem edgeFind_shape_some (es es' : EdgeNodeMap) (h : es'.map shapeOnly = es.map shapeOnly)
    (x : EdgeIndex) (n : EdgeNode) (hn : edgeFind es x = some n) :
    ∃ n', edgeFind es' x = some n' ∧ n'.children = n.children ∧ n'.parents = n.parents := by
  have := edgeFind_shape es es' h x
  rw [hn] at this
  cases hn' : edgeFind es' x with
  | none => rw [hn'] at this; simp at this
  | some n' =>
    rw [hn'] at this
    simp only [Option.map_some', Option.some.injEq] at this
    have hc : (shapeOnly n').children = (shapeOnly n).children :=
      congrArg EdgeNode.children this
    have hp : (shapeOnly n').parents = (shapeOnly n).parents := congrArg EdgeNode.parents this
    exact ⟨n', rfl, hc, hp⟩

/-- The effect of one or of two calls of `pushReady` on a set of children without duplicates,
`k` being the number of calls: the count of every child drops by `k`, and the children whose
count was between 1 and `k` are appended, each once. -/
theorem pushReady_times (cs : List EdgeIndex) (hnd : cs.Nodup) (w : Worklist) :
    (∃ new, (w.pushReady cs)._worklist = w._worklist ++ new ∧ new.Nodup ∧
      (∀ x, x ∈ new ↔ x ∈ cs ∧ 1 ≤ (mapFind x w._pending).getD 0 ∧
        (mapFind x w._pending).getD 0 ≤ 1) ∧
      ∀ x, (mapFind x (w.pushReady cs)._pending).getD 0
        = (mapFind x w._pending).getD 0 - (if x ∈ cs then 1 else 0)) ∧
    (∃ new, ((w.pushReady cs).pushReady cs)._worklist = w._worklist ++ new ∧ new.Nodup ∧
      (∀ x, x ∈ new ↔ x ∈ cs ∧ 1 ≤ (mapFind x w._pending).getD 0 ∧
        (mapFind x w._pending).getD 0 ≤ 2) ∧
      ∀ x, (mapFind x ((w.pushReady cs).pushReady cs)._pending).getD 0
        = (mapFind x w._pending).getD 0 - (if x ∈ cs then 2 else 0)) := by
  obtain ⟨a1, a2⟩ := pushReady_spec cs w hnd
  obtain ⟨b1, b2⟩ := pushReady_spec cs (w.pushReady cs) hnd
  constructor
  · refine ⟨_, a2, hnd.filter _, fun x => ?_, a1⟩
    rw [List.mem_filter, decide_eq_true_eq]
    constructor
    · rintro ⟨h1, h2⟩; exact ⟨h1, by omega, by omega⟩
    · rintro ⟨h1, h2, h3⟩; exact ⟨h1, by omega⟩
  · refine ⟨cs.filter (fun c => decide ((mapFind c w._pending).getD 0 - 1 = 0)) ++
        cs.filter (fun c => decide ((mapFind c (w.pushReady cs)._pending).getD 0 - 1 = 0)),
      ?_, ?_, fun x => ?_, fun x => ?_⟩
    · rw [b2, a2, List.append_assoc]
    · refine List.nodup_append.2 ⟨hnd.filter _, hnd.filter _, ?_⟩
      intro x hx1 hx2
      rw [List.mem_filter, decide_eq_true_eq] at hx1 hx2
      have := a1 x
      rw [if_pos hx1.1] at this
      omega
    · rw [List.mem_append, List.mem_filter, List.mem_filter, decide_eq_true_eq,
        decide_eq_true_eq]
      have := a1 x
      constructor
      · rintro (⟨h1, h2⟩ | ⟨h1, h2⟩)
        · exact ⟨h1, by omega, by omega⟩
        · rw [if_pos h1] at this
          exact ⟨h1, by omega, by omega⟩
      · rintro ⟨h1, h2, h3⟩
        rw [if_pos h1] at this
        by_cases h4 : (mapFind x w._pending).getD 0 = 1
        · exact Or.inl ⟨h1, by omega⟩
        · exact Or.inr ⟨h1, by omega⟩
    · rw [b1 x, a1 x]
      split <;> omega

/-- An iteration of the loop of `computeEdgeDominance` takes neither error branch exactly when
the pruning has left one candidate. -/
theorem dominanceStep_aborted (s : State) (wl : Worklist) (c : EdgeIndex) (node : EdgeNode)
    (hfind : edgeFind s._edges c = some node) :
    (dominanceStep s wl c).aborted = false ↔ ∃ d, candidatesLeft s c = [d] := by
  unfold dominanceStep candidatesLeft
  rw [hfind]
  simp only
  rcases hnb : IndexSet.INTERSECT node.parents s._nonBackEdges [] with
    _ | ⟨d1, _ | ⟨d2, tl⟩⟩ <;>
  · rcases hp : prune
        (mapSet c (IndexSet.insert c (node.parents.foldl
          (fun acc parent => IndexSet.INTERSECT acc (setMapGet s._ancestorSets parent) [])
          (setMapGet s._ancestorSets c))) s._ancestorSets)
        (node.parents.foldl
          (fun acc parent => IndexSet.INTERSECT acc (setMapGet s._ancestorSets parent) [])
          (setMapGet s._ancestorSets c)) with _ | ⟨a, _ | ⟨b, tl2⟩⟩
    · simp
    · simp
    · simp

/-- The edges of the trace of the loop of `computeEdgeDominance` are the edges that the loop
takes from its worklist. -/
theorem dominanceTrace_order :
    ∀ (fuel : Nat) (s : State) (wl : Worklist),
      (dominanceTrace fuel s wl).map Prod.fst = dominanceOrder fuel s wl := by
  intro fuel
  induction fuel with
  | zero => intro s wl; rfl
  | succ fuel ih =>
    intro s wl
    unfold dominanceTrace dominanceOrder
    cases hw : wl._worklist with
    | nil => rfl
    | cons c rest =>
      simp only [List.map_cons]
      by_cases hab : (dominanceStep s { wl with _worklist := rest } c).aborted = true
      · rw [if_pos hab, if_pos hab]; rfl
      · rw [if_neg hab, if_neg hab, ih]

end CFGEdgeDomTree

end Cmbprof

namespace Cmbprof

namespace CFGEdgeDomTree

/-- An edge with a child is stored in the graph. -/
theorem real_of_child (edges : EdgeNodeMap) (p x : EdgeIndex) (h : x ∈ childrenOf edges p) :
    ∃ n, edgeFind edges p = some n := by
  unfold childrenOf at h
  cases hp : edgeFind edges p with
  | none => rw [hp] at h; exact absurd h (List.not_mem_nil _)
  | some n => exact ⟨n, rfl⟩

/-- The result of an iteration of the loop of `computeEdgeDominance` in which the pruning
leaves the single candidate `d`: the dominator is recorded, the ancestor set of the edge is cut
down, and `pushReady` is called on the children once or, after the shortcut for a single
non-back parent, twice. -/
theorem dominanceStep_single (s : State) (wl : Worklist) (c : EdgeIndex) (node : EdgeNode)
    (d : EdgeIndex) (hfind : edgeFind s._edges c = some node)
    (hprune : prune
      (mapSet c (IndexSet.insert c (commonAncestors s._ancestorSets node.parents c))
        s._ancestorSets)
      (commonAncestors s._ancestorSets node.parents c) = [d]) :
    ∃ edges1 wl1,
      dominanceStep s wl c =
        { state := { s with
            _edges := assignDom edges1 c d
            _ancestorSets :=
              mapSet c (IndexSet.insert c (commonAncestors s._ancestorSets node.parents c))
                s._ancestorSets }
          worklist := Worklist.pushReady wl1 node.children
          aborted := false } ∧
      ((edges1 = s._edges ∧ wl1 = wl) ∨
        (∃ d1, edges1 = assignDom s._edges c d1 ∧ wl1 = wl.pushReady node.children)) := by
  unfold commonAncestors at hprune
  unfold dominanceStep
  rw [hfind]
  simp only
  rcases hnb : IndexSet.INTERSECT node.parents s._nonBackEdges [] with
    _ | ⟨d1, _ | ⟨d2, tl⟩⟩
  · simp only [hprune]
    exact ⟨s._edges, wl, rfl, Or.inl ⟨rfl, rfl⟩⟩
  · simp only [hprune]
    exact ⟨assignDom s._edges c d1, wl.pushReady node.children, rfl, Or.inr ⟨d1, rfl, rfl⟩⟩
  · simp only [hprune]
    exact ⟨s._edges, wl, rfl, Or.inl ⟨rfl, rfl⟩⟩

/-- One iteration of the loop of `computeEdgeDominance` keeps the invariant and does not take
an error branch. -/
theorem dominanceStep_inv (edges : EdgeNodeMap) (roots nb : IndexSet) (r0 : EdgeIndex)
    (hG : GraphOk edges roots) (s : State) (wl : Worklist) (P : List EdgeIndex)
    (cur : EdgeIndex) (rest : List EdgeIndex) (hwl : wl._worklist = cur :: rest)
    (hI : DomInv edges roots nb r0 s wl P) :
    (dominanceStep s { wl with _worklist := rest } cur).aborted = false ∧
    (∃ d, candidatesLeft s cur = [d]) ∧
    DomInv edges roots nb r0 (dominanceStep s { wl with _worklist := rest } cur).state
      (dominanceStep s { wl with _worklist := rest } cur).worklist (cur :: P) := by
  have hcW : cur ∈ wl._worklist := by rw [hwl]; exact List.mem_cons_self _ _
  have hcP : cur ∉ P := hI.disjoint cur hcW
  have hnd := hI.wl_nodup
  rw [hwl] at hnd
  obtain ⟨hcr, hrnd⟩ := List.nodup_cons.1 hnd
  obtain ⟨q, hqP, hcq⟩ := hI.has_parent cur hcW
  obtain ⟨n, hn⟩ := hG.child_real q cur hcq
  obtain ⟨n', hn', hch', hpa'⟩ := edgeFind_shape_some edges s._edges hI.shape cur n hn
  have hch : childrenOf edges cur = n'.children := by rw [childrenOf_eq _ _ _ hn, hch']
  have hpa : parentsOf edges cur = n'.parents := by rw [parentsOf_eq _ _ _ hn, hpa']
  have hqpar : q ∈ n'.parents := by rw [← hpa]; exact (hG.child_parent q cur).1 hcq
  have hchnd : n'.children.Nodup := hch ▸ hG.children_nodup cur
  obtain ⟨A, hA⟩ : ∃ A, A = commonAncestors s._ancestorSets n'.parents cur := ⟨_, rfl⟩
  have hAmem : ∀ y, y ∈ A ↔ y ∈ setMapGet s._ancestorSets cur ∧
      ∀ p ∈ n'.parents, y ∈ setMapGet s._ancestorSets p := by
    intro y; rw [hA]; exact mem_inter_fold _ y _ _
  have hAq : ∀ y ∈ A, y ∈ setMapGet s._ancestorSets q := fun y hy => ((hAmem y).1 hy).2 q hqpar
  have hAP : ∀ y ∈ A, y ∈ P := fun y hy => hI.closed q hqP y (hAq y hy)
  have hAcur : ∀ y ∈ A, y ≠ cur := fun y hy e => hcP (e ▸ hAP y hy)
  have hr0 : r0 ∈ A := by
    rw [hAmem]
    refine ⟨hI.root_in cur n hn, fun p hp => ?_⟩
    have hcp : cur ∈ childrenOf edges p := (hG.child_parent p cur).2 (hpa ▸ hp)
    obtain ⟨np, hnp⟩ := real_of_child edges p cur hcp
    exact hI.root_in p np hnp
  have hAnd : A.Nodup := by
    rw [hA]
    exact inter_fold_nodup _ _ _ (Or.inl (List.ne_nil_of_mem hqpar))
  obtain ⟨S', hS'⟩ : ∃ S', S' = mapSet cur (IndexSet.insert cur A) s._ancestorSets := ⟨_, rfl⟩
  have hS'get : ∀ x, setMapGet S' x
      = if x = cur then IndexSet.insert cur A else setMapGet s._ancestorSets x := by
    intro x; rw [hS']; exact setMapGet_mapSet _ _ _ _
  have hS'P : ∀ x ∈ P, setMapGet S' x = setMapGet s._ancestorSets x := by
    intro x hx
    have hxc : x ≠ cur := fun e => hcP (e ▸ hx)
    rw [hS'get, if_neg hxc]
  have hcmp : ∀ a ∈ A, ∀ b ∈ A, a ≠ b → a ∈ setMapGet S' b ∨ b ∈ setMapGet S' a := by
    intro a ha b hb hab
    rw [hS'P a (hAP a ha), hS'P b (hAP b hb)]
    exact hI.chain q hqP a (hAq a ha) b (hAq b hb) hab
  obtain ⟨d, hprune, _⟩ := prune_single S' A (List.ne_nil_of_mem hr0) hAnd hcmp
  rw [hS', hA] at hprune
  have hcand : candidatesLeft s cur = [d] := by
    unfold candidatesLeft
    rw [hn']
    exact hprune
  obtain ⟨edges1, wl1, hval, hcase⟩ :=
    dominanceStep_single s { wl with _worklist := rest } cur n' d hn' hprune
  rw [← hA, ← hS'] at hval
  rw [hval]
  -- the worklist and the pending counts afterwards
  have hk : ∃ (k : Int) (new : List EdgeIndex), (k = 1 ∨ k = 2) ∧
      (Worklist.pushReady wl1 n'.children)._worklist = rest ++ new ∧ new.Nodup ∧
      (∀ x, x ∈ new ↔ x ∈ n'.children ∧ 1 ≤ (mapFind x wl._pending).getD 0 ∧
        (mapFind x wl._pending).getD 0 ≤ k) ∧
      ∀ x, (mapFind x (Worklist.pushReady wl1 n'.children)._pending).getD 0
        = (mapFind x wl._pending).getD 0 - (if x ∈ n'.children then k else 0) := by
    obtain ⟨⟨new1, a1, a2, a3, a4⟩, ⟨new2, b1, b2, b3, b4⟩⟩ :=
      pushReady_times n'.children hchnd { wl with _worklist := rest }
    rcases hcase with ⟨_, hw⟩ | ⟨_, _, hw⟩
    · rw [hw]
      refine ⟨1, new1, Or.inl rfl, a1, a2, a3, fun x => ?_⟩
      rw [a4 x]
    · rw [hw]
      refine ⟨2, new2, Or.inr rfl, b1, b2, b3, fun x => ?_⟩
      rw [b4 x]
  obtain ⟨k, new, hk12, hW2, hnewnd, hnew, hpend2⟩ := hk
  have hk1 : 1 ≤ k := by rcases hk12 with h | h <;> omega
  have hold' : ∀ x, (x ∈ cur :: P ∨ x ∈ rest) → (x ∈ P ∨ x ∈ wl._worklist) := by
    intro x hx
    rcases hx with hx | hx
    · rcases List.mem_cons.1 hx with rfl | hx'
      · exact Or.inr hcW
      · exact Or.inl hx'
    · exact Or.inr (by rw [hwl]; exact List.mem_cons_of_mem _ hx)
  have hold : ∀ x, (x ∈ P ∨ x ∈ wl._worklist) → (x ∈ cur :: P ∨ x ∈ rest) := by
    intro x hx
    rcases hx with hx | hx
    · exact Or.inl (List.mem_cons_of_mem _ hx)
    · rw [hwl] at hx
      rcases List.mem_cons.1 hx with rfl | hx'
      · exact Or.inl (List.mem_cons_self _ _)
      · exact Or.inr hx'
  have hfresh : ∀ x ∈ new, ¬ (x ∈ P ∨ x ∈ wl._worklist) := by
    intro x hx hp
    obtain ⟨hxc, hx1, _⟩ := (hnew x).1 hx
    rcases (hI.pushed_iff x).1 hp with hr | ⟨_, h2⟩
    · exact hG.child_not_root cur x (hch ▸ hxc) hr
    · omega
  -- the edge map afterwards
  have hshape1 : edges1.map shapeOnly = s._edges.map shapeOnly := by
    rcases hcase with ⟨he, _⟩ | ⟨d1, he, _⟩
    · rw [he]
    · rw [he]; exact assignDom_shape _ _ _
  have hdom1 : ∀ x nx, edgeFind s._edges x = some nx → ∃ n1, edgeFind edges1 x = some n1 ∧
      (x ≠ cur → n1.domIndex = nx.domIndex) := by
    intro x nx hx
    rcases hcase with ⟨he, _⟩ | ⟨d1, he, _⟩
    · rw [he]; exact ⟨nx, hx, fun _ => rfl⟩
    · rw [he]
      obtain ⟨n1, h1, h2⟩ := edgeFind_assignDom s._edges cur d1 x nx hx
      exact ⟨n1, h1, fun hne => by rw [h2, if_neg hne]⟩
  refine ⟨rfl, ⟨d, hcand⟩, ?_⟩
  refine
    { shape := ?_, nonback := hI.nonback, quiet := hI.quiet, root_in := ?_, chain := ?_,
      closed := ?_, has_parent := ?_, wl_nodup := ?_,
      done_nodup := List.nodup_cons.2 ⟨hcP, hI.done_nodup⟩, disjoint := ?_, pushed_iff := ?_,
      pend_le := ?_, dom_set := ?_ }
  · -- shape
    show (assignDom edges1 cur d).map shapeOnly = edges.map shapeOnly
    rw [assignDom_shape, hshape1]
    exact hI.shape
  · -- root_in
    intro x nx hx
    show r0 ∈ setMapGet S' x
    rw [hS'get]
    split
    · exact (IndexSet.mem_insert_iff _ _ _).2 (Or.inr hr0)
    · exact hI.root_in x nx hx
  · -- chain
    intro p hp a ha b hb hab
    change a ∈ setMapGet S' p at ha
    change b ∈ setMapGet S' p at hb
    show a ∈ setMapGet S' b ∨ b ∈ setMapGet S' a
    rcases List.mem_cons.1 hp with rfl | hp'
    · rw [hS'get, if_pos rfl] at ha hb
      rcases (IndexSet.mem_insert_iff _ _ _).1 ha with rfl | ha'
      · rcases (IndexSet.mem_insert_iff _ _ _).1 hb with rfl | hb'
        · exact absurd rfl hab
        · right
          rw [hS'get, if_pos rfl]
          exact (IndexSet.mem_insert_iff _ _ _).2 (Or.inr hb')
      · rcases (IndexSet.mem_insert_iff _ _ _).1 hb with rfl | hb'
        · left
          rw [hS'get, if_pos rfl]
          exact (IndexSet.mem_insert_iff _ _ _).2 (Or.inr ha')
        · exact hcmp a ha' b hb' hab
    · rw [hS'P p hp'] at ha hb
      have haP := hI.closed p hp' a ha
      have hbP := hI.closed p hp' b hb
      rw [hS'P a haP, hS'P b hbP]
      exact hI.chain p hp' a ha b hb hab
  · -- closed
    intro p hp a ha
    change a ∈ setMapGet S' p at ha
    rcases List.mem_cons.1 hp with rfl | hp'
    · rw [hS'get, if_pos rfl] at ha
      rcases (IndexSet.mem_insert_iff _ _ _).1 ha with rfl | ha'
      · exact List.mem_cons_self _ _
      · exact List.mem_cons_of_mem _ (hAP a ha')
    · rw [hS'P p hp'] at ha
      exact List.mem_cons_of_mem _ (hI.closed p hp' a ha)
  · -- has_parent
    intro x hx
    change x ∈ (Worklist.pushReady wl1 n'.children)._worklist at hx
    rw [hW2] at hx
    rcases List.mem_append.1 hx with hx' | hx'
    · obtain ⟨q', hq', hxq'⟩ := hI.has_parent x (by rw [hwl]; exact List.mem_cons_of_mem _ hx')
      exact ⟨q', List.mem_cons_of_mem _ hq', hxq'⟩
    · exact ⟨cur, List.mem_cons_self _ _, hch ▸ ((hnew x).1 hx').1⟩
  · -- wl_nodup
    show (Worklist.pushReady wl1 n'.children)._worklist.Nodup
    rw [hW2]
    refine List.nodup_append.2 ⟨hrnd, hnewnd, ?_⟩
    intro x hx1 hx2
    exact hfresh x hx2 (hold' x (Or.inr hx1))
  · -- disjoint
    intro x hx hxp
    change x ∈ (Worklist.pushReady wl1 n'.children)._worklist at hx
    rw [hW2] at hx
    rcases List.mem_append.1 hx with hx' | hx'
    · rcases List.mem_cons.1 hxp with rfl | hxp'
      · exact hcr hx'
      · exact hI.disjoint x (by rw [hwl]; exact List.mem_cons_of_mem _ hx') hxp'
    · exact hfresh x hx' (hold' x (Or.inl hxp))
  · -- pushed_iff
    intro x
    show (x ∈ cur :: P ∨ x ∈ (Worklist.pushReady wl1 n'.children)._worklist) ↔
      (x ∈ roots ∨ (1 ≤ (nbParents edges nb x).card ∧
        (mapFind x (Worklist.pushReady wl1 n'.children)._pending).getD 0 ≤ 0))
    rw [hW2, hpend2 x]
    constructor
    · intro hx
      have hcases : (x ∈ P ∨ x ∈ wl._worklist) ∨ x ∈ new := by
        rcases hx with hx | hx
        · exact Or.inl (hold' x (Or.inl hx))
        · rcases List.mem_append.1 hx with hx' | hx'
          · exact Or.inl (hold' x (Or.inr hx'))
          · exact Or.inr hx'
      rcases hcases with hx | hx
      · rcases (hI.pushed_iff x).1 hx with hr | ⟨h1, h2⟩
        · exact Or.inl hr
        · refine Or.inr ⟨h1, ?_⟩
          split <;> omega
      · obtain ⟨hxc, hx1, hx2⟩ := (hnew x).1 hx
        obtain ⟨nx, hnx⟩ := hG.child_real cur x (hch ▸ hxc)
        have hle := hI.pend_le x nx hnx
        refine Or.inr ⟨by omega, ?_⟩
        rw [if_pos hxc]
        omega
    · rintro (hr | ⟨h1, h2⟩)
      · rcases hold x ((hI.pushed_iff x).2 (Or.inl hr)) with h3 | h3
        · exact Or.inl h3
        · exact Or.inr (List.mem_append_left _ h3)
      · by_cases hle : (mapFind x wl._pending).getD 0 ≤ 0
        · rcases hold x ((hI.pushed_iff x).2 (Or.inr ⟨h1, hle⟩)) with h3 | h3
          · exact Or.inl h3
          · exact Or.inr (List.mem_append_left _ h3)
        · have hxc : x ∈ n'.children := by
            by_contra hxc
            rw [if_neg hxc] at h2
            omega
          rw [if_pos hxc] at h2
          exact Or.inr (List.mem_append_right _ ((hnew x).2 ⟨hxc, by omega, by omega⟩))
  · -- pend_le
    intro x nx hx
    show (mapFind x (Worklist.pushReady wl1 n'.children)._pending).getD 0 ≤ _
    rw [hpend2 x, doneParents_cons _ _ _ _ hcP]
    have hle := hI.pend_le x nx hx
    by_cases hxc : x ∈ n'.children
    · have hcp : cur ∈ parentsOf edges x := (hG.child_parent cur x).1 (hch ▸ hxc)
      rw [if_pos hxc, if_pos hcp]
      push_cast
      omega
    · have hcp : cur ∉ parentsOf edges x :=
        fun h => hxc (hch ▸ (hG.child_parent cur x).2 h)
      rw [if_neg hxc, if_neg hcp]
      push_cast
      omega
  · -- dom_set
    intro x hx
    show ∃ n2 d2, edgeFind (assignDom edges1 cur d) x = some n2 ∧ n2.domIndex = some d2
    rcases List.mem_cons.1 hx with rfl | hx'
    · obtain ⟨n1, h1, _⟩ := hdom1 x n' hn'
      obtain ⟨n2, h2, h3⟩ := edgeFind_assignDom edges1 x d x n1 h1
      exact ⟨n2, d, h2, by rw [h3, if_pos rfl]⟩
    · obtain ⟨nx, dx, hnx, hdx⟩ := hI.dom_set x hx'
      have hxc : x ≠ cur := fun e => hcP (e ▸ hx')
      obtain ⟨n1, h1, h1d⟩ := hdom1 x nx hnx
      obtain ⟨n2, h2, h3⟩ := edgeFind_assignDom edges1 cur d x n1 h1
      exact ⟨n2, dx, h2, by rw [h3, if_neg hxc, h1d hxc, hdx]⟩

end CFGEdgeDomTree

end Cmbprof

namespace Cmbprof

namespace CFGEdgeDomTree

/-- Every edge that has been taken from the worklist of `computeEdgeDominance` or waits on it
is stored in the graph. -/
theorem DomInv_real {edges : EdgeNodeMap} {roots nb : IndexSet} {r0 : EdgeIndex} {s : State}
    {wl : Worklist} {P : List EdgeIndex} (hI : DomInv edges roots nb r0 s wl P)
    (hG : GraphOk edges roots) (x : EdgeIndex) (hx : x ∈ P ∨ x ∈ wl._worklist) :
    ∃ n, edgeFind edges x = some n := by
  rcases hx with hx | hx
  · obtain ⟨n, _, hn, _⟩ := hI.dom_set x hx
    obtain ⟨e, he, _⟩ := edgeFind_shape_some s._edges edges hI.shape.symm x n hn
    exact ⟨e, he⟩
  · obtain ⟨q, _, hq⟩ := hI.has_parent x hx
    exact hG.child_real q x hq

/-- The loop of `computeEdgeDominance` keeps the invariant, takes no error branch and ends
with an empty worklist; `P'` lists the edges taken, the last one first. -/
theorem dominanceLoop_inv (edges : EdgeNodeMap) (roots nb : IndexSet) (r0 : EdgeIndex)
    (hG : GraphOk edges roots) :
    ∀ (fuel : Nat) (s : State) (wl : Worklist) (P : List EdgeIndex),
      DomInv edges roots nb r0 s wl P → edges.length + 1 ≤ fuel + P.length →
      ∃ wl' P', wl'._worklist = [] ∧
        DomInv edges roots nb r0 (dominanceLoop fuel s wl) wl' P' ∧
        P' = ((dominanceTrace fuel s wl).map Prod.fst).reverse ++ P ∧
        ∀ cl ∈ dominanceTrace fuel s wl, ∃ d, cl.2 = [d] := by
  intro fuel
  induction fuel with
  | zero =>
    intro s wl P hI hfuel
    cases hwl : wl._worklist with
    | nil =>
      refine ⟨wl, P, hwl, hI, ?_, ?_⟩
      · simp [dominanceTrace]
      · intro cl hcl
        simp [dominanceTrace] at hcl
    | cons h rest =>
      have hhW : h ∈ wl._worklist := by rw [hwl]; exact List.mem_cons_self _ _
      have hlen : (h :: P).length ≤ edges.length := by
        apply nodup_length_le edges _ (List.nodup_cons.2 ⟨hI.disjoint h hhW, hI.done_nodup⟩)
        intro x hx
        rcases List.mem_cons.1 hx with rfl | hx'
        · exact DomInv_real hI hG x (Or.inr hhW)
        · exact DomInv_real hI hG x (Or.inl hx')
      simp only [List.length_cons] at hlen
      omega
  | succ fuel ih =>
    intro s wl P hI hfuel
    cases hwl : wl._worklist with
    | nil =>
      have hval : dominanceLoop (fuel + 1) s wl = s := by
        simp only [dominanceLoop, hwl]
      have htr : dominanceTrace (fuel + 1) s wl = [] := by
        simp only [dominanceTrace, hwl]
      rw [hval, htr]
      refine ⟨wl, P, hwl, hI, by simp, ?_⟩
      intro cl hcl
      exact absurd hcl (List.not_mem_nil _)
    | cons h rest =>
      obtain ⟨hab, hcand, hI'⟩ := dominanceStep_inv edges roots nb r0 hG s wl P h rest hwl hI
      have hval : dominanceLoop (fuel + 1) s wl
          = dominanceLoop fuel (dominanceStep s { wl with _worklist := rest } h).state
              (dominanceStep s { wl with _worklist := rest } h).worklist := by
        simp only [dominanceLoop, hwl, hab, Bool.false_eq_true, if_false]
      have htr : dominanceTrace (fuel + 1) s wl
          = (h, candidatesLeft s h) ::
              dominanceTrace fuel (dominanceStep s { wl with _worklist := rest } h).state
                (dominanceStep s { wl with _worklist := rest } h).worklist := by
        simp only [dominanceTrace, hwl, hab, Bool.false_eq_true, if_false]
      rw [hval, htr]
      obtain ⟨wl', P', h1, h2, h3, h4⟩ :=
        ih _ _ (h :: P) hI' (by simp only [List.length_cons]; omega)
      refine ⟨wl', P', h1, h2, ?_, ?_⟩
      · rw [h3]
        simp
      · intro cl hcl
        rcases List.mem_cons.1 hcl with rfl | hcl'
        · exact hcand
        · exact h4 cl hcl'

/-- When the worklist of `computeEdgeDominance` is empty, every edge that is reachable from a
root has been taken from it. -/
theorem DomInv_all_done {edges : EdgeNodeMap} {roots nb : IndexSet} {r0 : EdgeIndex}
    {s : State} {wl : Worklist} {P : List EdgeIndex} (hI : DomInv edges roots nb r0 s wl P)
    (visited : IndexSet) (fin : List EdgeIndex) (hG : GraphOk edges roots)
    (hW : WalkDone edges roots nb visited fin) (hwl : wl._worklist = []) (x : EdgeIndex)
    (hx : Reach edges roots x) : x ∈ P := by
  have hpush : ∀ x, (∃ n, edgeFind edges x = some n) →
      (x ∈ roots ∨ (1 ≤ (nbParents edges nb x).card ∧
        nbParents edges nb x ⊆ doneParents edges P x)) → x ∈ P := by
    intro x hreal h
    have hp : x ∈ P ∨ x ∈ wl._worklist := by
      rw [hI.pushed_iff]
      rcases h with hr | ⟨h1, hsub⟩
      · exact Or.inl hr
      · obtain ⟨n, hn⟩ := hreal
        have hle := hI.pend_le x n hn
        have hc := Finset.card_le_card hsub
        refine Or.inr ⟨h1, ?_⟩
        omega
    rw [hwl] at hp
    rcases hp with h | h
    · exact h
    · exact absurd h (List.not_mem_nil _)
  have key : ∀ k x, x ∈ nb → fin.indexOf x = k → x ∈ P := by
    intro k
    induction k using Nat.strong_induction_on with
    | _ k ih =>
      intro x hx hk
      obtain ⟨n, hn, _⟩ := hW.visited_real x (hW.marked_visited x hx)
      apply hpush x ⟨n, hn⟩
      rcases hW.marked_parent x hx with hr | ⟨p, hp, hxp⟩
      · exact Or.inl hr
      · right
        have hsub : nbParents edges nb x ⊆ doneParents edges P x := by
          intro q hq
          obtain ⟨hq1, hq2⟩ := (mem_nbParents _ _ _ _).1 hq
          have hxq : x ∈ childrenOf edges q := (hG.child_parent q x).2 hq1
          have hlt := (Topo_index edges nb fin hW.topo hW.fin_nodup q x (hW.marked_fin q hq2)
            hxq hx).2
          exact (mem_doneParents _ _ _ _).2 ⟨hq1, ih _ (hk ▸ hlt) q hq2 rfl⟩
        exact ⟨Finset.card_pos.2 ⟨p, (mem_nbParents _ _ _ _).2 ⟨(hG.child_parent p x).1 hxp, hp⟩⟩,
          hsub⟩
  have hreal : ∃ n, edgeFind edges x = some n := by
    cases hx with
    | root _ hr =>
      obtain ⟨n, hn, _⟩ := (hG.roots_iff x).1 hr
      exact ⟨n, hn⟩
    | step p _ _ hxp => exact hG.child_real p x hxp
  apply hpush x hreal
  rcases reach_parent edges roots nb visited fin hG hW x hx with hr | ⟨p, hp, hxp⟩
  · exact Or.inl hr
  · right
    have hsub : nbParents edges nb x ⊆ doneParents edges P x := by
      intro q hq
      obtain ⟨hq1, hq2⟩ := (mem_nbParents _ _ _ _).1 hq
      exact (mem_doneParents _ _ _ _).2 ⟨hq1, key _ q hq2 rfl⟩
    exact ⟨Finset.card_pos.2 ⟨p, (mem_nbParents _ _ _ _).2 ⟨(hG.child_parent p x).1 hxp, hp⟩⟩,
      hsub⟩

/-- The count of pending parents that the constructor of the worklist stores for an edge. -/
theorem Worklist.new_count (edges : EdgeNodeMap) (nb : IndexSet)
    (hnd : (edges.map (fun e => e.index)).Nodup) (x : EdgeIndex) :
    (mapFind x (Worklist.new edges nb)._pending).getD 0
      = match edgeFind edges x with
        | some _ => ((nbParents edges nb x).card : Int)
        | none => 0 := by
  have h := new_pending nb edges [] x hnd
  simp only [Worklist.new]
  rw [h]
  cases hn : edgeFind edges x with
  | none => rfl
  | some n =>
    simp only [Option.getD_some]
    rw [IndexSet.INTERSECT_length]
    simp only [nbParents, parentsOf_eq _ _ _ hn, Int.ofNat_eq_coe]

/-- The invariant holds when the loop of `computeEdgeDominance` starts in a graph with the
single root `r0`: the root is its own dominator and its children with no other non-back parent
are on the worklist. -/
theorem DomInv_init (edges : EdgeNodeMap) (roots nb : IndexSet) (r0 : EdgeIndex)
    (hG : GraphOk edges roots) (hroots : roots = [r0]) (s : State)
    (hsn : s._nonBackEdges = nb) (hq : s.diags = [])
    (hroot_in : ∀ x n, edgeFind edges x = some n → r0 ∈ setMapGet s._ancestorSets x)
    (hself : ∀ y ∈ setMapGet s._ancestorSets r0, y = r0) (n0 : EdgeNode)
    (hn0 : edgeFind edges r0 = some n0) :
    DomInv edges roots nb r0
      { s with _edges := edgeUpdate edges r0 (fun e => { e with domIndex := some r0 }) }
      (Worklist.pushReady (Worklist.new edges nb) n0.children) [r0] := by
  have hch : childrenOf edges r0 = n0.children := childrenOf_eq _ _ _ hn0
  have hchnd : n0.children.Nodup := hch ▸ hG.children_nodup r0
  obtain ⟨⟨new, a1, a2, a3, a4⟩, _⟩ := pushReady_times n0.children hchnd (Worklist.new edges nb)
  have hw0 : (Worklist.new edges nb)._worklist = [] := rfl
  rw [hw0, List.nil_append] at a1
  have hr0 : r0 ∈ roots := by rw [hroots]; exact List.mem_singleton_self _
  have hcnt := Worklist.new_count edges nb hG.index_nodup
  have hd1 : ∀ x, ((doneParents edges [r0] x).card : Int)
      = if x ∈ n0.children then 1 else 0 := by
    intro x
    have h0 : doneParents edges [] x = ∅ := by
      ext q
      simp [mem_doneParents]
    rw [doneParents_cons _ _ _ _ (List.not_mem_nil r0), h0, Finset.card_empty]
    by_cases hxc : x ∈ n0.children
    · rw [if_pos hxc, if_pos ((hG.child_parent r0 x).1 (hch ▸ hxc))]
      rfl
    · have hnp : r0 ∉ parentsOf edges x := fun h => hxc (hch ▸ (hG.child_parent r0 x).2 h)
      rw [if_neg hxc, if_neg hnp]
      rfl
  have hnotroot : ∀ x ∈ n0.children, x ≠ r0 := by
    intro x hx e
    exact hG.child_not_root r0 x (hch ▸ hx) (e ▸ hr0)
  refine
    { shape := ?_, nonback := hsn, quiet := hq, root_in := hroot_in, chain := ?_, closed := ?_,
      has_parent := ?_, wl_nodup := by rw [a1]; exact a2,
      done_nodup := List.nodup_singleton _, disjoint := ?_, pushed_iff := ?_, pend_le := ?_,
      dom_set := ?_ }
  · show (edgeUpdate edges r0 (fun e => { e with domIndex := some r0 })).map shapeOnly
      = edges.map shapeOnly
    exact edgeUpdate_map shapeOnly edges r0 _ (fun _ _ _ => rfl)
  · intro p hp a ha b hb hab
    rw [List.mem_singleton.1 hp] at ha hb
    exact absurd ((hself a ha).trans (hself b hb).symm) hab
  · intro p hp a ha
    rw [List.mem_singleton.1 hp] at ha
    rw [hself a ha]
    exact List.mem_singleton_self _
  · intro x hx
    rw [a1] at hx
    exact ⟨r0, List.mem_singleton_self _, hch ▸ ((a3 x).1 hx).1⟩
  · intro x hx hxp
    rw [a1] at hx
    exact hnotroot x ((a3 x).1 hx).1 (List.mem_singleton.1 hxp)
  · intro x
    rw [a1, a4 x]
    have hc := hcnt x
    constructor
    · rintro (hx | hx)
      · left
        rw [List.mem_singleton.1 hx]
        exact hr0
      · obtain ⟨hxc, hx1, hx2⟩ := (a3 x).1 hx
        right
        rw [if_pos hxc]
        cases hn : edgeFind edges x with
        | none =>
          rw [hn] at hc
          simp only at hc
          omega
        | some n =>
          rw [hn] at hc
          simp only at hc
          constructor
          · omega
          · omega
    · rintro (hr | ⟨h1, h2⟩)
      · left
        rw [hroots] at hr
        exact hr
      · right
        cases hn : edgeFind edges x with
        | none =>
          exfalso
          obtain ⟨q, hq⟩ := Finset.card_pos.1 h1
          have hqp := ((mem_nbParents _ _ _ _).1 hq).1
          obtain ⟨n, hn'⟩ := real_of_parent edges x q hqp
          rw [hn] at hn'
          exact Option.noConfusion hn'
        | some n =>
          rw [hn] at hc
          simp only at hc
          have hxc : x ∈ n0.children := by
            by_contra hxc
            rw [if_neg hxc] at h2
            omega
          rw [if_pos hxc] at h2
          exact (a3 x).2 ⟨hxc, by omega, by omega⟩
  · intro x n hn
    have hc := hcnt x
    rw [hn] at hc
    simp only at hc
    rw [a4 x, hd1 x, hc]
  · intro x hx
    rw [List.mem_singleton.1 hx]
    show ∃ n d, edgeFind (edgeUpdate edges r0 (fun e => { e with domIndex := some r0 })) r0
      = some n ∧ n.domIndex = some d
    rw [edgeFind_edgeUpdate r0 (fun e => { e with domIndex := some r0 }) (fun _ => rfl) r0 edges,
      hn0]
    refine ⟨_, r0, rfl, ?_⟩
    show (if n0.index = r0 then ({ n0 with domIndex := some r0 } : EdgeNode) else n0).domIndex
      = some r0
    rw [if_pos (edgeFind_index _ _ _ hn0)]

end CFGEdgeDomTree

end Cmbprof

namespace Cmbprof

namespace CFGEdgeDomTree

/-- The loop of `computeAncestorSets` changes neither the set of non-back edges nor the
diagnostics. -/
theorem ancestorLoop_frame :
    ∀ (fuel : Nat) (s : State) (wl : Worklist),
      (ancestorLoop fuel s wl)._nonBackEdges = s._nonBackEdges ∧
      (ancestorLoop fuel s wl).diags = s.diags := by
  intro fuel
  induction fuel with
  | zero => intro s wl; exact ⟨rfl, rfl⟩
  | succ fuel ih =>
    intro s wl
    unfold ancestorLoop
    cases hw : wl._worklist with
    | nil => exact ⟨rfl, rfl⟩
    | cons c rest =>
      simp only
      obtain ⟨h1, h2⟩ := ih (ancestorStep s { wl with _worklist := rest } c).1
        (ancestorStep s { wl with _worklist := rest } c).2
      rw [h1, h2]
      unfold ancestorStep
      split <;> exact ⟨rfl, rfl⟩

/-- The loop of `computeAncestorSets` over the graph of a function ends with an empty worklist
in a state that satisfies its invariant. -/
theorem ancestors_final (F : IRFunction) (first : EdgeIndex) :
    ∃ (visited : IndexSet) (fin : List EdgeIndex) (wl : Worklist) (D : List EdgeIndex),
      WalkDone (buildGraph (createEdges F first)) (afterNonBackEdges F first)._roots
        (afterNonBackEdges F first)._nonBackEdges visited fin ∧
      wl._worklist = [] ∧
      AncInv (buildGraph (createEdges F first)) (afterNonBackEdges F first)._roots
        (afterNonBackEdges F first)._nonBackEdges
        (computeAncestorSets (afterNonBackEdges F first))._ancestorSets wl D := by
  have hG := buildGraph_ok F first
  obtain ⟨visited, fin, hW⟩ := walk_done F first
  have hE : (afterNonBackEdges F first)._edges = buildGraph (createEdges F first) := rfl
  have hA : (afterNonBackEdges F first)._ancestorSets = [] := rfl
  have hrn : (afterNonBackEdges F first)._roots.Nodup := IndexSet.nodup_insertAll _
  have hinit := AncInv_init _ _ _ visited fin hG hW hrn
  obtain ⟨wl', D', hwl', hI⟩ :=
    ancestorLoop_inv _ _ _ visited fin hG hW ((buildGraph (createEdges F first)).length + 1)
      (afterNonBackEdges F first)
      ((afterNonBackEdges F first)._roots.foldl (fun w r => w.push r)
        (Worklist.new (buildGraph (createEdges F first)) (afterNonBackEdges F first)._nonBackEdges))
      [] hE rfl (by rw [hA]; exact hinit) (by simp)
  exact ⟨visited, fin, wl', D', hW, hwl', hI⟩

/-- An edge that the constructor created and whose source is the target of another created
edge is a child of that edge in the graph. -/
theorem child_of_created (F : IRFunction) (first : EdgeIndex) (p c : EdgeNode)
    (hp : p ∈ createEdges F first) (hc : c ∈ createEdges F first) (h : p.target = c.source) :
    c.index ∈ childrenOf (buildGraph (createEdges F first)) p.index := by
  obtain ⟨n, hn⟩ := edgeFind_buildGraph_some F first p hp
  obtain ⟨e, he, hei, _, _, hch, _⟩ := edgeFind_buildGraph F first p.index n hn
  have hep : e = p := createEdges_inj F first e p he hp hei
  rw [childrenOf_eq _ _ _ hn, hch]
  exact ⟨c, hc, by rw [hep]; exact h, rfl⟩

/-- The synthetic entry edge is among the edges that the constructor creates. -/
theorem entry_created (F : IRFunction) (first : EdgeIndex) :
    ∃ e ∈ createEdges F first, e.target = some 0 ∧ e.index = first := by
  rw [createEdges_eq]
  exact ⟨_, List.mem_cons_self _ _, rfl, rfl⟩

/-- The synthetic entry edge is a root. -/
theorem entry_root (F : IRFunction) (first : EdgeIndex) :
    first ∈ (afterNonBackEdges F first)._roots := by
  obtain ⟨⟨n, hn, _, hp⟩, _⟩ := buildGraph_entry F first
  exact ((buildGraph_ok F first).roots_iff first).2 ⟨n, hn, hp⟩

/-- A block that is reachable from the entry block is the target of a created edge. -/
theorem blockReach_target (F : IRFunction) (first : EdgeIndex) (b : Nat)
    (hb : BlockReach F b) : ∃ p ∈ createEdges F first, p.target = some b := by
  cases hb with
  | entry =>
    obtain ⟨e, he, ht, _⟩ := entry_created F first
    exact ⟨e, he, ht⟩
  | step a _ ss _ hss hmem =>
    obtain ⟨p, hp, _, ht⟩ :=
      createEdges_of_pair F first a b ((mem_blockPairs F a b).2 ⟨ss, hss, hmem⟩)
    exact ⟨p, hp, ht⟩

/-- Every edge that leaves a block reachable from the entry block is reachable from the entry
edge by parent-to-child links. -/
theorem blockReach_edges (F : IRFunction) (first : EdgeIndex) (b : Nat)
    (hb : BlockReach F b) :
    ∀ e ∈ createEdges F first, e.source = some b →
      Reach (buildGraph (createEdges F first)) (afterNonBackEdges F first)._roots e.index := by
  induction hb with
  | entry =>
    intro e he hs
    obtain ⟨e0, he0, ht0, hi0⟩ := entry_created F first
    have hc := child_of_created F first e0 e he0 he (by rw [ht0, hs])
    rw [hi0] at hc
    exact Reach.step first e.index (Reach.root first (entry_root F first)) hc
  | step a t ss _ hss hmem ih =>
    intro e he hs
    obtain ⟨p, hp, hps, hpt⟩ :=
      createEdges_of_pair F first a t ((mem_blockPairs F a t).2 ⟨ss, hss, hmem⟩)
    have hc := child_of_created F first p e hp he (by rw [hpt, hs])
    exact Reach.step p.index e.index (ih p hp hps) hc

/-- The block that a created edge leaves is a block of the function. -/
theorem source_lt (F : IRFunction) (b s : Nat) (h : (b, s) ∈ blockPairs F) :
    b < F.blocks.length := by
  obtain ⟨ss, hss, _⟩ := (mem_blockPairs F b s).1 h
  exact (List.getElem?_eq_some_iff.1 hss).1

/-- In a function in which every block is reachable from the entry block, every edge of the
graph is reachable from the entry edge. -/
theorem all_reach (F : IRFunction) (first : EdgeIndex)
    (hreach : ∀ b, b < F.blocks.length → BlockReach F b) (x : EdgeIndex) (n : EdgeNode)
    (hn : edgeFind (buildGraph (createEdges F first)) x = some n) :
    Reach (buildGraph (createEdges F first)) (afterNonBackEdges F first)._roots x := by
  obtain ⟨e, he, hei, _⟩ := edgeFind_buildGraph F first x n hn
  rcases (createEdges_mem F first e he).2.2 with ⟨_, _, hi, _⟩ | ⟨b, s, hb, hs, _, _⟩
  · rw [← hei, hi]
    exact Reach.root first (entry_root F first)
  · rw [← hei]
    exact blockReach_edges F first b (hreach b (source_lt F b s hb)) e he hs

/-- In a function in which every block is reachable from the entry block, the entry edge is
the only root. -/
theorem single_root (F : IRFunction) (first : EdgeIndex)
    (hreach : ∀ b, b < F.blocks.length → BlockReach F b) :
    (afterNonBackEdges F first)._roots = [first] := by
  have hG := buildGraph_ok F first
  have hrn : (afterNonBackEdges F first)._roots.Nodup := IndexSet.nodup_insertAll _
  have hall : ∀ x ∈ (afterNonBackEdges F first)._roots, x = first := by
    intro x hx
    obtain ⟨n, hn, hp⟩ := (hG.roots_iff x).1 hx
    obtain ⟨e, he, hei, _, _, _, hpar⟩ := edgeFind_buildGraph F first x n hn
    rcases (createEdges_mem F first e he).2.2 with ⟨_, _, hi, _⟩ | ⟨b, s, hb, hs, _, _⟩
    · rw [← hei, hi]
    · exfalso
      obtain ⟨p, hp1, hp2⟩ := blockReach_target F first b (hreach b (source_lt F b s hb))
      have hmem : p.index ∈ n.parents := (hpar p.index).2 ⟨p, hp1, by rw [hp2, hs], rfl⟩
      rw [hp] at hmem
      exact List.not_mem_nil _ hmem
  have hin := entry_root F first
  cases hr : (afterNonBackEdges F first)._roots with
  | nil => rw [hr] at hin; exact absurd hin (List.not_mem_nil _)
  | cons a rest =>
    rw [hr] at hall hrn
    have ha : a = first := hall a (List.mem_cons_self _ _)
    cases rest with
    | nil => rw [ha]
    | cons b tl =>
      exfalso
      have hb : b = first := hall b (List.mem_cons_of_mem _ (List.mem_cons_self _ _))
      have hne := (List.nodup_cons.1 hrn).1
      exact hne (by rw [ha, hb]; exact List.mem_cons_self _ _)

/-- In a graph with the single root `r0`, the root is an ancestor of every edge that is
reachable from it. -/
theorem Anc_root (edges : EdgeNodeMap) (roots nb visited : IndexSet) (fin : List EdgeIndex)
    (hG : GraphOk edges roots) (hW : WalkDone edges roots nb visited fin) (r0 : EdgeIndex)
    (hroots : roots = [r0]) (x : EdgeIndex) (hx : Reach edges roots x) : Anc edges nb x r0 := by
  have hr0 : r0 ∈ nb := hW.roots_marked r0 (by rw [hroots]; exact List.mem_singleton_self _)
  have hstep : ∀ p x, p ∈ nb → x ∈ childrenOf edges p → Anc edges nb p r0 →
      Anc edges nb x r0 := by
    intro p x hp hxp hanc
    refine ⟨hr0, Or.inr ?_⟩
    have hl : NbLink edges nb p x := ⟨hp, hxp⟩
    rcases hanc.2 with h | h
    · rw [h]; exact Relation.TransGen.single hl
    · exact Relation.TransGen.tail h hl
  have key : ∀ k x, x ∈ nb → fin.indexOf x = k → Anc edges nb x r0 := by
    intro k
    induction k using Nat.strong_induction_on with
    | _ k ih =>
      intro x hx hk
      rcases hW.marked_parent x hx with hr | ⟨p, hp, hxp⟩
      · rw [hroots] at hr
        exact ⟨hr0, Or.inl (List.mem_singleton.1 hr).symm⟩
      · have hlt := (Topo_index edges nb fin hW.topo hW.fin_nodup p x (hW.marked_fin p hp)
          hxp hx).2
        exact hstep p x hp hxp (ih _ (hk ▸ hlt) p hp rfl)
  rcases reach_parent edges roots nb visited fin hG hW x hx with hr | ⟨p, hp, hxp⟩
  · rw [hroots] at hr
    exact ⟨hr0, Or.inl (List.mem_singleton.1 hr).symm⟩
  · exact hstep p x hp hxp (key _ p hp rfl)

/-- A root has no ancestor but itself. -/
theorem Anc_of_root (edges : EdgeNodeMap) (roots nb : IndexSet) (hG : GraphOk edges roots)
    (r y : EdgeIndex) (hr : r ∈ roots) (h : Anc edges nb r y) : y = r := by
  rcases h.2 with h1 | h1
  · exact h1
  · obtain ⟨q, _, hq⟩ := last_link edges nb y r h1
    exact absurd hr (hG.child_not_root q r hq.2)

/-- With a single root, `computeEdgeDominance` enters its loop with the root as its own
dominator and with the worklist that one call of `pushReady` on the children of the root has
filled. -/
theorem computeEdgeDominance_single_root (s : State) (r0 : EdgeIndex) (n0 : EdgeNode)
    (hr : s._roots = [r0]) (hn0 : edgeFind s._edges r0 = some n0) :
    computeEdgeDominance s
      = dominanceLoop (s._edges.length + 1)
          { s with _edges := edgeUpdate s._edges r0 (fun e => { e with domIndex := some r0 }) }
          (Worklist.pushReady (Worklist.new s._edges s._nonBackEdges) n0.children) ∧
    computeEdgeDominanceTrace s
      = dominanceTrace (s._edges.length + 1)
          { s with _edges := edgeUpdate s._edges r0 (fun e => { e with domIndex := some r0 }) }
          (Worklist.pushReady (Worklist.new s._edges s._nonBackEdges) n0.children) := by
  have hne : s._edges.isEmpty = false := by
    cases h : s._edges with
    | nil => rw [h] at hn0; exact Option.noConfusion hn0
    | cons _ _ => rfl
  unfold computeEdgeDominance computeEdgeDominanceTrace
  rw [hne]
  simp only [Bool.false_eq_true, if_false, hr, List.foldl_cons, List.foldl_nil, hn0]
  exact ⟨trivial, trivial⟩

/-- An index is stored in the graph exactly when it is the index of one of its nodes. -/
theorem edgeFind_some_iff (es : EdgeNodeMap) (hnd : (es.map (fun e => e.index)).Nodup)
    (x : EdgeIndex) : (∃ n, edgeFind es x = some n) ↔ x ∈ es.map (fun e => e.index) := by
  constructor
  · rintro ⟨n, hn⟩
    exact List.mem_map.2 ⟨n, edgeFind_mem _ _ _ hn, edgeFind_index _ _ _ hn⟩
  · intro hx
    obtain ⟨e, he, hei⟩ := List.mem_map.1 hx
    exact ⟨e, hei ▸ edgeFind_of_mem es hnd e he⟩

/-- Two edge maps that agree on everything but the dominance fields have the same indices. -/
theorem index_of_shape (es es' : EdgeNodeMap) (h : es'.map shapeOnly = es.map shapeOnly) :
    es'.map (fun e => e.index) = es.map (fun e => e.index) := by
  have := congrArg (List.map (fun e : EdgeNode => e.index)) h
  simp only [List.map_map] at this
  exact this

end CFGEdgeDomTree

end Cmbprof

namespace Cmbprof

namespace CFGEdgeDomTree

/-- The loop of `computeEdgeDominance` with the pruning loops as `prune` embeds them, that is,
with the traversal continued in key order after an erase. For a function with a body in which
every block is reachable from the entry block no diagnostic is printed, so neither the "no
potential dominators" nor the "many potential dominators" branch is taken: in every iteration
exactly one candidate is left after the pruning, the loop takes every edge but the entry edge
from the worklist exactly once, and every edge of the finished tree has a dominator index. -/
theorem computeEdgeDominance_total (F : IRFunction) (first : EdgeIndex)
    (hF : F.isDeclaration = false)
    (hreach : ∀ b, b < F.blocks.length → BlockReach F b) :
    (construct F first).diags = [] ∧
    (∀ cl ∈ computeEdgeDominanceTrace (beforeDominance F first), ∃ d, cl.2 = [d]) ∧
    ((computeEdgeDominanceTrace (beforeDominance F first)).map Prod.fst).Nodup ∧
    (∀ x, x ∈ (computeEdgeDominanceTrace (beforeDominance F first)).map Prod.fst ↔
      first < x ∧ x < first + specEdgeCount F) ∧
    (∀ e ∈ (construct F first)._edges, ∃ d, e.domIndex = some d) ∧
    construct F first = computeEdgeDominance (beforeDominance F first) := by
  have hcon : construct F first = computeEdgeDominance (beforeDominance F first) := by
    simp only [construct, hF, Bool.false_eq_true, if_false]
    rfl
  obtain ⟨B, hB⟩ : ∃ B, B = beforeDominance F first := ⟨_, rfl⟩
  rw [hcon, ← hB]
  have hBc : B = computeAncestorSets (afterNonBackEdges F first) := hB
  have hBe : B._edges = buildGraph (createEdges F first) := by
    rw [hBc]
    unfold computeAncestorSets
    rw [(ancestorLoop_edges _ _ _).1]
    rfl
  have hBr0 : B._roots = (afterNonBackEdges F first)._roots := by
    rw [hBc]
    unfold computeAncestorSets
    rw [(ancestorLoop_edges _ _ _).2]
  have hBn : B._nonBackEdges = (afterNonBackEdges F first)._nonBackEdges := by
    rw [hBc]
    unfold computeAncestorSets
    rw [(ancestorLoop_frame _ _ _).1]
  have hAr := single_root F first hreach
  have hBr : B._roots = [first] := hBr0.trans hAr
  have hAd : (afterNonBackEdges F first).diags = [] := by
    have h : (afterNonBackEdges F first).diags
        = [] ++ (if (afterNonBackEdges F first)._roots.length == 0 then [Diag.noRoots] else [])
          ++ (if (afterNonBackEdges F first)._roots.length > 1 then [Diag.multipleRoots]
              else []) := rfl
    rw [h, hAr]
    rfl
  have hBd : B.diags = [] := by
    rw [hBc]
    unfold computeAncestorSets
    rw [(ancestorLoop_frame _ _ _).2]
    exact hAd
  obtain ⟨visited, fin, wlA, D, hW0, hwlA, hAnc0⟩ := ancestors_final F first
  have hG : GraphOk B._edges B._roots := by
    rw [hBe, hBr0]
    exact buildGraph_ok F first
  have hW : WalkDone B._edges B._roots B._nonBackEdges visited fin := by
    rw [hBe, hBr0, hBn]
    exact hW0
  have hAnc : AncInv B._edges B._roots B._nonBackEdges B._ancestorSets wlA D := by
    rw [hBe, hBr0, hBn, hBc]
    exact hAnc0
  have hrch : ∀ x n, edgeFind B._edges x = some n → Reach B._edges B._roots x := by
    intro x n hn
    rw [hBe] at hn
    rw [hBe, hBr0]
    exact all_reach F first hreach x n hn
  have hfr : first ∈ B._roots := by rw [hBr]; exact List.mem_singleton_self _
  have hroot_in : ∀ x n, edgeFind B._edges x = some n →
      first ∈ setMapGet B._ancestorSets x := by
    intro x n hn
    have hx := hrch x n hn
    have hD := reach_done _ _ _ visited fin hG hW _ wlA D hAnc hwlA x hx
    exact (hAnc.stored_done x hD first).2
      (Anc_root _ _ _ visited fin hG hW first hBr x hx)
  have hself : ∀ y ∈ setMapGet B._ancestorSets first, y = first := by
    intro y hy
    have hD := reach_done _ _ _ visited fin hG hW _ wlA D hAnc hwlA first
      (Reach.root first hfr)
    exact Anc_of_root _ _ _ hG first y hfr ((hAnc.stored_done first hD y).1 hy)
  obtain ⟨n0, hn0⟩ : ∃ n0, edgeFind B._edges first = some n0 := by
    obtain ⟨⟨n, hn, _⟩, _⟩ := buildGraph_entry F first
    exact ⟨n, by rw [hBe]; exact hn⟩
  have hinit := DomInv_init B._edges B._roots B._nonBackEdges first hG hBr B rfl hBd
    hroot_in hself n0 hn0
  obtain ⟨hv1, hv2⟩ := computeEdgeDominance_single_root B first n0 hBr hn0
  obtain ⟨wl', P', hwl', hI', hP', hc⟩ :=
    dominanceLoop_inv B._edges B._roots B._nonBackEdges first hG (B._edges.length + 1) _ _
      [first] hinit (by simp)
  rw [← hv1] at hI'
  rw [← hv2] at hP' hc
  have hPnd := hI'.done_nodup
  rw [hP'] at hPnd
  obtain ⟨hnd1, _, hdisj⟩ := List.nodup_append.1 hPnd
  have hidx : (computeEdgeDominance B)._edges.map (fun e => e.index)
      = B._edges.map (fun e => e.index) := index_of_shape _ _ hI'.shape
  have hrange : B._edges.map (fun e => e.index) = List.range' first (specEdgeCount F) := by
    rw [hBe, buildGraph_index, createEdges_index]
    simp only [specEdgeCount, hF, Bool.false_eq_true, if_false, blockPairs_length]
  have hreal : ∀ x, (∃ n, edgeFind B._edges x = some n) ↔
      first ≤ x ∧ x < first + specEdgeCount F := by
    intro x
    rw [edgeFind_some_iff _ hG.index_nodup, hrange, List.mem_range'_1]
  have hall : ∀ x, (∃ n, edgeFind B._edges x = some n) → x ∈ P' := by
    rintro x ⟨n, hn⟩
    exact DomInv_all_done hI' visited fin hG hW hwl' x (hrch x n hn)
  refine ⟨hI'.quiet, hc, List.nodup_reverse.1 hnd1, ?_, ?_, rfl⟩
  · intro x
    constructor
    · intro hx
      have hxr : x ∈ ((computeEdgeDominanceTrace B).map Prod.fst).reverse :=
        List.mem_reverse.2 hx
      have hxP : x ∈ P' := by rw [hP']; exact List.mem_append_left _ hxr
      obtain ⟨h1, h2⟩ := (hreal x).1 (DomInv_real hI' hG x (Or.inl hxP))
      have hne : x ≠ first := fun e => hdisj hxr (List.mem_singleton.2 e)
      exact ⟨Nat.lt_of_le_of_ne h1 (Ne.symm hne), h2⟩
    · rintro ⟨h1, h2⟩
      have hxP := hall x ((hreal x).2 ⟨Nat.le_of_lt h1, h2⟩)
      rw [hP'] at hxP
      rcases List.mem_append.1 hxP with h | h
      · exact List.mem_reverse.1 h
      · exact absurd (List.mem_singleton.1 h) (Nat.ne_of_gt h1)
  · intro e he
    have hnd : ((computeEdgeDominance B)._edges.map (fun e => e.index)).Nodup := by
      rw [hidx]; exact hG.index_nodup
    have hfe := edgeFind_of_mem _ hnd e he
    have hin : e.index ∈ B._edges.map (fun e => e.index) := by
      rw [← hidx]; exact List.mem_map.2 ⟨e, he, rfl⟩
    have hxP := hall e.index ((edgeFind_some_iff _ hG.index_nodup _).2 hin)
    obtain ⟨n, d, hn, hd⟩ := hI'.dom_set e.index hxP
    rw [hfe] at hn
    exact ⟨d, by rw [Option.some.inj hn]; exact hd⟩

/-- An instance of `computeEdgeDominance_total`: the function `twoEntryLoop`, whose four blocks
are all reachable from the entry block; with the traversal of the pruning loops continued in
key order, the loop of `computeEdgeDominance` takes the edges 1, 2, 3, 4 and 5 and is left with
one candidate each time. -/
theorem computeEdgeDominance_total_witness :
    twoEntryLoop.isDeclaration = false ∧
    (∀ b, b < twoEntryLoop.blocks.length → BlockReach twoEntryLoop b) ∧
    (computeEdgeDominanceTrace (beforeDominance twoEntryLoop 0)).map Prod.fst
      = [1, 2, 3, 4, 5] ∧
    (construct twoEntryLoop 0).diags = [] ∧
    (∀ cl ∈ computeEdgeDominanceTrace (beforeDominance twoEntryLoop 0), ∃ d, cl.2 = [d]) ∧
    ((computeEdgeDominanceTrace (beforeDominance twoEntryLoop 0)).map Prod.fst).Nodup ∧
    (∀ x, x ∈ (computeEdgeDominanceTrace (beforeDominance twoEntryLoop 0)).map Prod.fst ↔
      0 < x ∧ x < 0 + specEdgeCount twoEntryLoop) ∧
    (∀ e ∈ (construct twoEntryLoop 0)._edges, ∃ d, e.domIndex = some d) ∧
    construct twoEntryLoop 0 = computeEdgeDominance (beforeDominance twoEntryLoop 0) :=
  have hreach : ∀ b, b < twoEntryLoop.blocks.length → BlockReach twoEntryLoop b := by
    intro b hb
    have h0 : BlockReach twoEntryLoop 0 := BlockReach.entry
    have h1 : BlockReach twoEntryLoop 1 := BlockReach.step 0 1 [1, 2] h0 rfl (by decide)
    have h2 : BlockReach twoEntryLoop 2 := BlockReach.step 0 2 [1, 2] h0 rfl (by decide)
    have h3 : BlockReach twoEntryLoop 3 := BlockReach.step 1 3 [3] h1 rfl (by decide)
    have hb4 : b < 4 := hb
    have hcases : b = 0 ∨ b = 1 ∨ b = 2 ∨ b = 3 := by omega
    rcases hcases with rfl | rfl | rfl | rfl
    · exact h0
    · exact h1
    · exact h2
    · exact h3
  ⟨rfl, hreach, by decide, computeEdgeDominance_total twoEntryLoop 0 rfl hreach⟩

end CFGEdgeDomTree

end Cmbprof

namespace Cmbprof

namespace CFGEdgeDomTree

/-- Pruning loops that never reach the erase leave the set as it was. -/
theorem prune_of_no_erase (anc : IndexSetMap) (ancestors : IndexSet)
    (h : ancestors.any (fun a1 =>
      ancestors.any (fun a2 => a2 != a1 && IndexSet.mem a1 (setMapGet anc a2))) = false) :
    prune anc ancestors = ancestors := by
  have key : ∀ L : List Nat, (∀ a ∈ L, a ∈ ancestors) →
      L.foldl (fun cur a1 =>
        if cur.any (fun a2 => a2 != a1 && IndexSet.mem a1 (setMapGet anc a2)) then
          IndexSet.erase a1 cur
        else cur) ancestors = ancestors := by
    intro L
    induction L with
    | nil => intro _; rfl
    | cons a rest ih =>
      intro hL
      have ha : ancestors.any (fun a2 => a2 != a && IndexSet.mem a (setMapGet anc a2))
          = false :=
        Bool.eq_false_iff.2 ((List.any_eq_false.1 h) a (hL a (List.mem_cons_self _ _)))
      simp only [List.foldl_cons, ha, Bool.false_eq_true, if_false]
      exact ih (fun x hx => hL x (List.mem_cons_of_mem _ hx))
  exact key ancestors (fun _ h => h)

/-- In an iteration whose pruning loops do not reach the erase, the candidates left at the
sanity checks are the set on entry to the pruning loops, so `dominanceStep` is the iteration
of the source without any use of an iterator to an erased element. -/
theorem candidatesLeft_of_no_erase (s : State) (c : EdgeIndex)
    (h : erasesUnderIterator s c = false) : candidatesLeft s c = candidatesBefore s c := by
  unfold candidatesLeft candidatesBefore
  unfold erasesUnderIterator at h
  cases hf : edgeFind s._edges c with
  | none => rfl
  | some node =>
    rw [hf] at h
    exact prune_of_no_erase _ _ h

/-- C38. In the function `straightLine` every block is reachable from the entry block. With
the use of an iterator to an erased element taken as undefined, the loop of
`computeEdgeDominance` has no defined result: in the iteration of edge 2 the pruning loops,
entered with the set {0, 1}, erase the element that the iterator `a1` points to and go on with
`a1`. With the traversal continued in key order, the loop takes the edges 1, 2 and 3 and
enters the pruning loops with the sets {0}, {0, 1} and {0, 1, 2}; the iterations of edge 2 and
of edge 3 erase under the iterator, the latter from a set of three elements. -/
theorem pruning_erases_under_iterator :
    straightLine.isDeclaration = false ∧
    (∀ b, b < straightLine.blocks.length → BlockReach straightLine b) ∧
    computeEdgeDominanceChecked (beforeDominance straightLine 0)
      = LoopOutcome.undefined 2 [0, 1] ∧
    computeEdgeDominanceSets (beforeDominance straightLine 0)
      = [(1, [0], false), (2, [0, 1], true), (3, [0, 1, 2], true)] := by
  refine ⟨rfl, ?_, by decide, by decide⟩
  intro b hb
  have h0 : BlockReach straightLine 0 := BlockReach.entry
  have h1 : BlockReach straightLine 1 := BlockReach.step 0 1 [1] h0 rfl (by decide)
  have h2 : BlockReach straightLine 2 := BlockReach.step 1 2 [2] h1 rfl (by decide)
  have h3 : BlockReach straightLine 3 := BlockReach.step 2 3 [3] h2 rfl (by decide)
  have hb4 : b < 4 := hb
  have hcases : b = 0 ∨ b = 1 ∨ b = 2 ∨ b = 3 := by omega
  rcases hcases with rfl | rfl | rfl | rfl
  · exact h0
  · exact h1
  · exact h2
  · exact h3

end CFGEdgeDomTree

end Cmbprof
